import Mathlib

/-!
# PTOT (PNG to TIFF converter): a shallow embedding and its verified properties

The definitions below transcribe the C sources `crc32.c`, `ptot.c`, `zchunks.c` and
`tiff.c`.  Conventions of the embedding:

* a byte is a `Nat` below 256, a `U32` is a `Nat` below `2^32`; where the C arithmetic can
  wrap, the reduction `% 2^32` is written out;
* a C buffer is a `List Nat`; a file open for reading is the list of its unread bytes, a
  file open for writing is the list of the bytes written so far;
* the global structures `ps` and `ts` are passed explicitly; each function returns the
  updated structure;
* `print_warning` appends to a trace of warnings carried in the state;
* `ASSERT` is a macro of the header `ptot.h`, which is not among the sources.  It is not
  executed by the embedding; the places where an assertion guards an undefined value
  return `none` instead.
-/

namespace Ptot

/-! ## Constants of the missing headers -/

/-- Modelled from the spec: the warning codes of `errors.h` (absent from the sources) that
the transcribed functions pass to `print_warning`; only their names are used. -/
inductive Warning where
  | WARN_BAD_CRC
  | WARN_BAD_PNG
  | WARN_BAD_SUM
  | WARN_EXTRA_BYTES
  | WARN_FILTER
  | WARN_NO_PLTE
  | WARN_PLTE_GRAY
  | WARN_MULTI_PLTE
  | WARN_MULTI_TRNS
  | WARN_LATE_TRNS
  | WARN_BAD_VAL
  deriving DecidableEq, Repr

/-- Modelled from the spec: the error codes of `errors.h` (absent from the sources) that
the transcribed functions return; only their names are used. -/
inductive Err where
  | ERR_READ
  | ERR_WRITE
  | ERR_MEMORY
  | ERR_BAD_PNG
  | ERR_COMP_HDR
  | ERR_EARLY_EOI
  deriving DecidableEq, Repr

/-- Modelled from the spec: `BE_GET32` of `ptot.h` (absent from the sources), the 32-bit
big-endian value of the four bytes at the start of `p`. -/
def BE_GET32 (p : List Nat) : Nat :=
  ((p.getD 0 0 * 256 + p.getD 1 0) * 256 + p.getD 2 0) * 256 + p.getD 3 0

/-- The C library function `isalpha` in the "C" locale, on a byte. -/
def isalpha (c : Nat) : Bool :=
  (65 ≤ c && c ≤ 90) || (97 ≤ c && c ≤ 122)

/-! ## crc32.c -/

/-- Inner loop of `build_crc_table` (crc32.c:56-59): `bit` more shift/xor steps on `accum`. -/
def crc_table_bits : Nat → Nat → Nat
  | 0, accum => accum
  | bit + 1, accum =>
    crc_table_bits bit (if accum &&& 1 ≠ 0 then (accum >>> 1) ^^^ 0xEDB88320 else accum >>> 1)

/-- build_crc_table (crc32.c:44-63): entry `byte` of the table is `byte` after eight
shift/xor steps. -/
def build_crc_table : List Nat :=
  (List.range 256).map (fun byte => crc_table_bits 8 byte)

/-- The static `crc_table` (crc32.c:19) after `update_crc` has had it built on first use. -/
def crc_table : List Nat := build_crc_table

/-- Body of the loop of `update_crc` (crc32.c:38-39) for one data byte. -/
def crc_step (crc byte : Nat) : Nat :=
  ((crc >>> 8) &&& 0xFFFFFF) ^^^ crc_table.getD ((crc ^^^ byte) &&& 0xFF) 0

/-- update_crc (crc32.c:22-42).  The arguments `data` and `count` of the C function are
the list `data` of the `count` bytes to process. -/
def update_crc (input_crc : Nat) (data : List Nat) : Nat :=
  data.foldl crc_step input_crc

/-! ## ptot.c: the chunk reader -/

/-- The fields of the global `ps` used by the chunk reader. -/
structure ChunkState where
  /-- The unread bytes of the input file `ps.inf`. -/
  inf : List Nat
  /-- The I/O buffer `ps.buf`. -/
  buf : List Nat
  bytes_in_buf : Nat
  bytes_remaining : Nat
  current_chunk_name : Nat
  crc : Nat
  /-- Trace of the calls of `print_warning`. -/
  warnings : List Warning
  /-- The read position `ps.bufp`, as an index into `ps.buf`. -/
  bufp : Nat := 0
  deriving DecidableEq, Repr

/-- The library call `fread(ps.buf, 1, n, ps.inf)`: up to `n` bytes move from the file to
the start of the buffer; the first component is the number of bytes read. -/
def fread_buf (n : Nat) (s : ChunkState) : Nat × ChunkState :=
  let rd := s.inf.take n
  (rd.length, { s with inf := s.inf.drop n, buf := rd ++ s.buf.drop rd.length })

/-- get_chunk_header (ptot.c:307-330).  `PNG_MaxChunkLength` is a constant of the missing
`ptot.h` and is taken as a parameter. -/
def get_chunk_header (PNG_MaxChunkLength : Nat) (s : ChunkState) : Except Err ChunkState :=
  let r := fread_buf 8 s
  if r.1 ≠ 8 then .error .ERR_READ
  else
    let s1 := { r.2 with
      bytes_remaining := BE_GET32 r.2.buf
      current_chunk_name := BE_GET32 (r.2.buf.drop 4)
      bytes_in_buf := 0 }
    let s2 := if s1.bytes_remaining > PNG_MaxChunkLength
      then { s1 with warnings := s1.warnings ++ [Warning.WARN_BAD_PNG] } else s1
    if ((s2.buf.drop 4).take 4).all isalpha then
      .ok { s2 with crc := update_crc 0xFFFFFFFF ((s2.buf.drop 4).take 4) }
    else .error .ERR_BAD_PNG

/-- get_chunk_data (ptot.c:339-354): read `min(IOBUF_SIZE, bytes_requested)` bytes, count
them off `bytes_remaining` (a `U32`) and fold them into the running CRC.  The number of
bytes read, which the C function returns, is the field `bytes_in_buf` of the result. -/
def get_chunk_data (IOBUF_SIZE bytes_requested : Nat) (s : ChunkState) : ChunkState :=
  let r := fread_buf (min IOBUF_SIZE bytes_requested) s
  { r.2 with
    bytes_in_buf := r.1
    bytes_remaining := (r.2.bytes_remaining + 2 ^ 32 - r.1 % 2 ^ 32) % 2 ^ 32
    crc := update_crc r.2.crc (r.2.buf.take r.1) }

/-- The loop of `skip_chunk_data` (ptot.c:641-643), with a bound on its iterations. -/
def skip_chunk_data_loop (IOBUF_SIZE : Nat) : Nat → ChunkState → Option ChunkState
  | 0, _ => none
  | fuel + 1, s =>
    let s1 := get_chunk_data IOBUF_SIZE s.bytes_remaining s
    if s1.bytes_in_buf ≠ 0 then skip_chunk_data_loop IOBUF_SIZE fuel s1 else some s1

/-- skip_chunk_data (ptot.c:635-646).  Every iteration but the last reads at least one of
the `bytes_remaining` bytes, so `bytes_remaining + 1` iterations are enough. -/
def skip_chunk_data (IOBUF_SIZE : Nat) (s : ChunkState) : Option ChunkState :=
  skip_chunk_data_loop IOBUF_SIZE (s.bytes_remaining + 1) s

/-- The statements of `read_PNG` between the handler of a chunk and the check of its CRC
(ptot.c:210-213): bytes of the chunk that the handler left unread are reported and
skipped. -/
def skip_unread_bytes (IOBUF_SIZE : Nat) (s : ChunkState) : Option ChunkState :=
  if 0 ≠ s.bytes_remaining then
    skip_chunk_data IOBUF_SIZE { s with warnings := s.warnings ++ [Warning.WARN_EXTRA_BYTES] }
  else some s

/-- verify_chunk_crc (ptot.c:362-375). -/
def verify_chunk_crc (s : ChunkState) : Except Err ChunkState :=
  let r := fread_buf 4 s
  if r.1 ≠ 4 then .error .ERR_READ
  else if (r.2.crc ^^^ 0xFFFFFFFF) ≠ BE_GET32 r.2.buf then
    .ok { r.2 with warnings := r.2.warnings ++ [Warning.WARN_BAD_CRC] }
  else .ok r.2

/-- A chunk handler as far as the CRC is concerned: the successive calls
`get_chunk_data(n)` it makes, for the requests `n` of the list. -/
def handler_reads (IOBUF_SIZE : Nat) : List Nat → ChunkState → ChunkState
  | [], s => s
  | n :: ns, s => handler_reads IOBUF_SIZE ns (get_chunk_data IOBUF_SIZE n s)

/-- The condition `ASSERT((S32)(ps.bytes_remaining) >= ps.bytes_in_buf)` of
`get_chunk_data` (ptot.c:349) at every call of a handler, for a chunk of which
`remaining` bytes are left in a file that holds the whole chunk: no call asks for more
than what is left of the chunk. -/
def requests_within_chunk (IOBUF_SIZE : Nat) : List Nat → Nat → Bool
  | [], _ => true
  | n :: ns, remaining =>
    decide (min IOBUF_SIZE n ≤ remaining) &&
      requests_within_chunk IOBUF_SIZE ns (remaining - min IOBUF_SIZE n)

/-- A reader positioned at the start of a chunk of length 3 and type "tEXt" with body
1, 2, 3, followed by four trailer bytes. -/
def sample_chunk_state : ChunkState :=
  { inf := [0, 0, 0, 3] ++ [116, 69, 88, 116] ++ [1, 2, 3] ++ [9, 9, 9, 9]
    buf := List.replicate 16 0
    bytes_in_buf := 0
    bytes_remaining := 0
    current_chunk_name := 0
    crc := 0
    warnings := [] }

/-! ## zchunks.c: decompression adapter and scanline reconstruction -/

/-- Modelled from the spec: the image descriptor `IMG_INFO` of `ptot.h` (absent from the
sources), with the members that the transcribed functions use.  `pixel_data_file` and
`png_data_file` hold the contents of the files of those names, `none` standing for the
`NULL` name; `palette_trans_bytes` has one byte for each of the 256 possible palette
entries and `trans_values` one 16-bit value per colour channel.  `keywords` holds, for
each of the five keywords, the bytes of the text without its terminating zero, `none`
standing for `NULL`.  `source_gamma` is kept as the integer of the gAMA chunk that
`decode_gAMA` divides by 100000.0; only whether it is zero is used. -/
structure IMG_INFO where
  width : Nat := 0
  height : Nat := 0
  bits_per_sample : Nat := 0
  samples_per_pixel : Nat := 0
  is_color : Bool := false
  is_palette : Bool := false
  has_alpha : Bool := false
  is_interlaced : Bool := false
  palette_size : Nat := 0
  palette : List Nat := []
  pixel_data_file : Option (List Nat) := none
  has_trns : Bool := false
  palette_trans_bytes : List Nat := List.replicate 256 0
  trans_values : List Nat := [0, 0, 0]
  png_data_file : Option (List Nat) := none
  png_data_size : Nat := 0
  xres : Nat := 0
  yres : Nat := 0
  resolution_unit : Nat := 0
  xoffset : Nat := 0
  yoffset : Nat := 0
  offset_unit : Nat := 0
  chromaticities : List Nat := List.replicate 8 0
  keywords : List (Option (List Nat)) := List.replicate 5 none
  source_gamma : Nat := 0
  deriving DecidableEq, Repr

/-- Modelled from the spec: the row filter codes `PNG_PF_*` of `ptot.h` (absent from the
sources), numbered as in the PNG format: None, Sub, Up, Average, Paeth. -/
def PNG_PF_None : Nat := 0

/-- Modelled from the spec: filter code Sub of `ptot.h`. -/
def PNG_PF_Sub : Nat := 1

/-- Modelled from the spec: filter code Up of `ptot.h`. -/
def PNG_PF_Up : Nat := 2

/-- Modelled from the spec: filter code Average of `ptot.h`. -/
def PNG_PF_Average : Nat := 3

/-- Modelled from the spec: filter code Paeth of `ptot.h`. -/
def PNG_PF_Paeth : Nat := 4

/-- The interlacing table `interlace_pattern` (zchunks.c:31-39). -/
def interlace_pattern : List (List Nat) :=
  [[0, 5, 3, 5, 1, 5, 3, 5],
   [6, 6, 6, 6, 6, 6, 6, 6],
   [4, 5, 4, 5, 4, 5, 4, 5],
   [6, 6, 6, 6, 6, 6, 6, 6],
   [2, 5, 3, 5, 2, 5, 3, 5],
   [6, 6, 6, 6, 6, 6, 6, 6],
   [4, 5, 4, 5, 4, 5, 4, 5],
   [6, 6, 6, 6, 6, 6, 6, 6]]

/-- The table `starting_row` (zchunks.c:40). -/
def starting_row : List Nat := [0, 0, 4, 0, 2, 0, 1]

/-- The table `starting_col` (zchunks.c:41). -/
def starting_col : List Nat := [0, 4, 0, 2, 0, 1, 0]

/-- The table `row_increment` (zchunks.c:42). -/
def row_increment : List Nat := [8, 8, 8, 4, 4, 2, 2]

/-- The table `col_increment` (zchunks.c:43). -/
def col_increment : List Nat := [8, 8, 4, 4, 2, 2, 1]

/-- The fields of the global `ps` used by zchunks.c.  `is_ztxt` is the macro `IS_ZTXT`
(the current chunk is zTXt; otherwise it is IDAT); `tf` holds the contents of the seven
temporary files; `window_allocated` tells whether `inflate_window` is not `NULL`. -/
structure PngState where
  image : IMG_INFO := {}
  is_ztxt : Bool := false
  got_first_idat : Bool := false
  sum1 : Nat := 0
  sum2 : Nat := 0
  inflate_flags : Nat := 0
  inflate_window_size : Nat := 0
  window_allocated : Bool := false
  inflated_chunk_size : Nat := 0
  this_line : List Nat := []
  last_line : List Nat := []
  line_x : Nat := 0
  line_size : Nat := 0
  byte_offset : Nat := 0
  cur_filter : Nat := 0
  current_row : Nat := 0
  current_col : Nat := 0
  interlace_pass : Nat := 0
  tf : List (List Nat) := List.replicate 7 []
  warnings : List Warning := []
  deriving DecidableEq, Repr

/-- zlib_start (zchunks.c:129-156).  `b0` and `b1` are the two bytes that the macro
`NEXTBYTE` delivers; `malloc_ok` tells whether the allocation of the window succeeds. -/
def zlib_start (b0 b1 : Nat) (malloc_ok : Bool) (s : PngState) : Except Err PngState :=
  let s1 := { s with sum1 := 1, sum2 := 0, inflate_flags := (b0 <<< 8) ||| b1 }
  let s2 := { s1 with
    inflate_window_size := 1 <<< (((s1.inflate_flags >>> 12) &&& 0x0F) + 8) }
  if s2.inflate_window_size > 32768 then .error .ERR_COMP_HDR
  else if 0 ≠ s2.inflate_flags % 31 ∨ 8 ≠ ((s2.inflate_flags >>> 8) &&& 0x0F) ∨
      0 ≠ (s2.inflate_flags &&& 0x0020) then .error .ERR_COMP_HDR
  else if !malloc_ok then .error .ERR_MEMORY
  else .ok { s2 with window_allocated := true, inflated_chunk_size := 0 }

/-- The Paeth choice of `unfilter` (zchunks.c:216-222) among the neighbours `pA` (left),
`pB` (above) and `pC` (above left). -/
def paeth_prediction (pA pB pC : Int) : Int :=
  let prediction := pA + pB - pC
  let dA := |prediction - pA|
  let dB := |prediction - pB|
  let dC := |prediction - pC|
  if dA ≤ dB ∧ dA ≤ dC then pA
  else if dB ≤ dC then pB
  else pC

/-- The value of `prediction` in `unfilter` (zchunks.c:197-227); `none` in the `default`
case of the switch, which leaves the variable without a value. -/
def unfilter_prediction (s : PngState) : Option Int :=
  if PNG_PF_None = s.cur_filter then some 0
  else
    let pA : Int := if s.line_x < s.byte_offset then 0
      else (s.this_line.getD (s.line_x - s.byte_offset) 0 : Nat)
    let pB : Int := (s.last_line.getD s.line_x 0 : Nat)
    let pC : Int := if s.line_x < s.byte_offset then 0
      else (s.last_line.getD (s.line_x - s.byte_offset) 0 : Nat)
    if s.cur_filter = PNG_PF_Sub then some pA
    else if s.cur_filter = PNG_PF_Up then some pB
    else if s.cur_filter = PNG_PF_Average then some ((pA + pB) / 2)
    else if s.cur_filter = PNG_PF_Paeth then some (paeth_prediction pA pB pC)
    else none

/-- unfilter (zchunks.c:188-229): store `0xFF & (inbyte + prediction)` at `line_x` of
`this_line`. -/
def unfilter (inbyte : Nat) (s : PngState) : Option PngState :=
  (unfilter_prediction s).map fun prediction =>
    { s with this_line := s.this_line.set s.line_x (((inbyte : Int) + prediction) % 256).toNat }

/-- new_line_size (zchunks.c:240-264), in `U32` arithmetic. -/
def new_line_size (image : IMG_INFO) (start increment : Nat) : Nat :=
  if image.width ≤ start then 0
  else
    let pixels := (((image.width - start) - 1) / increment) + 1
    if image.bits_per_sample < 8 then
      ((image.bits_per_sample * (pixels - 1)) % 2 ^ 32 / 8) + 1
    else
      (pixels * image.samples_per_pixel * (image.bits_per_sample / 8)) % 2 ^ 32

/-- The loop of `write_byte` that unpacks a row of 1, 2 or 4-bit samples into one byte
per pixel (zchunks.c:294-309).  The result is the list of bytes put to the temporary file
and the final value of `ps.current_col`.  The first argument bounds the iterations. -/
def unpack_row (bps width increment : Nat) :
    Nat → Nat → List Nat → Nat → Nat → List Nat → List Nat × Nat
  | 0, col, _, _, _, out => (out, col)
  | fuel + 1, col, temp, byte, got_bits, out =>
    if col < width then
      let byte1 := if got_bits = 0 then temp.headD 0 else byte
      let temp1 := if got_bits = 0 then temp.tail else temp
      let got_bits1 := if got_bits = 0 then 8 else got_bits
      let pixel := (byte1 >>> (8 - bps)) &&& ((1 <<< bps) - 1)
      let pixel1 := (pixel * 255) / ((1 <<< bps) - 1)
      unpack_row bps width increment fuel (col + increment) temp1
        ((byte1 <<< bps) % 256) (got_bits1 - bps) (out ++ [pixel1])
    else (out, col)

/-- Append bytes to the temporary file `ps.tf[pass]`. -/
def tf_append (tf : List (List Nat)) (pass : Nat) (bytes : List Nat) : List (List Nat) :=
  tf.set pass (tf.getD pass [] ++ bytes)

/-- The `do ... while (ps.line_size < 1)` loop of `write_byte` (zchunks.c:336-346).  The
flag of the result is `true` when the loop left through `return`, with the pass counter
put back to 6.  Each iteration increments the pass, so seven iterations are enough. -/
def advance_pass : Nat → PngState → PngState × Bool
  | 0, s => (s, true)
  | fuel + 1, s =>
    let s1 := { s with interlace_pass := s.interlace_pass + 1 }
    if s1.interlace_pass > 6 then
      ({ s1 with interlace_pass := s1.interlace_pass - 1 }, true)
    else
      let s2 := { s1 with
        current_row := starting_row.getD s1.interlace_pass 0
        line_size := new_line_size s1.image (starting_col.getD s1.interlace_pass 0)
          (col_increment.getD s1.interlace_pass 0) }
      if s2.line_size < 1 then advance_pass fuel s2 else (s2, false)

/-- The library call `memset(p, 0, n)` on a buffer. -/
def memset_zero (p : List Nat) (n : Nat) : List Nat :=
  List.replicate (min n p.length) 0 ++ p.drop n

/-- write_byte (zchunks.c:266-354).  Writes to the temporary files are taken to succeed. -/
def write_byte (s : PngState) : PngState :=
  let s := { s with line_x := s.line_x + 1 }
  if s.line_x ≥ s.line_size then
    let s :=
      if s.image.bits_per_sample < 8 then
        let start := if s.image.is_interlaced then starting_col.getD s.interlace_pass 0 else 0
        let increment :=
          if s.image.is_interlaced then col_increment.getD s.interlace_pass 0 else 1
        let r := unpack_row s.image.bits_per_sample s.image.width increment
          s.image.width start s.this_line 0 0 []
        { s with tf := tf_append s.tf s.interlace_pass r.1, current_col := r.2 }
      else
        { s with tf := tf_append s.tf s.interlace_pass (s.this_line.take s.line_size) }
    let s := { s with
      cur_filter := 255, line_x := 0, last_line := s.this_line, this_line := s.last_line }
    if s.image.is_interlaced then
      let s := { s with current_row := s.current_row + row_increment.getD s.interlace_pass 0 }
      if s.current_row ≥ s.image.height then
        let r := advance_pass 7 s
        if r.2 then r.1
        else { r.1 with last_line := memset_zero r.1.last_line r.1.line_size }
      else s
    else { s with current_row := s.current_row + 1 }
  else s

/-- The library call `getc(ps.tf[pass])` stored into a `U8`: the next byte of the file,
or `EOF`, which the store turns into 0xFF. -/
def getc_tf (tf : List (List Nat)) (pass : Nat) : Nat × List (List Nat) :=
  match tf.getD pass [] with
  | [] => (0xFF, tf)
  | b :: rest => (b, tf.set pass rest)

/-- The three nested loops of `repack_tempfiles` for an interlaced image
(zchunks.c:397-408): the bytes written to the pixel data file. -/
def repack_interlaced (width height bpp : Nat) (tf : List (List Nat)) : List Nat :=
  ((List.range height).foldl (fun acc row =>
    (List.range width).foldl (fun acc col =>
      let pass := (interlace_pattern.getD (row &&& 7) []).getD (col &&& 7) 0
      (List.range bpp).foldl (fun acc _ =>
        let r := getc_tf acc.2 pass
        (acc.1 ++ [r.1], r.2)) acc) acc) ([], tf)).1

/-- repack_tempfiles (zchunks.c:363-424).  Allocations and the opening of the files are
taken to succeed; the temporary files are read from their beginning. -/
def repack_tempfiles (s : PngState) : PngState :=
  let out :=
    if s.image.is_interlaced then
      let bpp := if 16 = s.image.bits_per_sample then s.image.samples_per_pixel * 2
        else s.image.samples_per_pixel
      repack_interlaced s.image.width s.image.height bpp s.tf
    else s.tf.getD 0 []
  { s with image := { s.image with pixel_data_file := some out }, tf := List.replicate 7 [] }

/-- One step of the inner loop of the Adler checksum in `flush_window`
(zchunks.c:644-645), on `U32` accumulators. -/
def adler_step (sums : Nat × Nat) (byte : Nat) : Nat × Nat :=
  let sum1 := (sums.1 + byte) % 2 ^ 32
  (sum1, (sums.2 + sum1) % 2 ^ 32)

/-- The outer loop of the Adler checksum in `flush_window` (zchunks.c:639-650): runs of
at most 5552 bytes, each followed by the reduction modulo 65521.  The first argument
bounds the iterations. -/
def adler_runs : Nat → List Nat → Nat × Nat → Nat × Nat
  | 0, _, sums => sums
  | fuel + 1, data, sums =>
    if data.length > 0 then
      let r := (data.take 5552).foldl adler_step sums
      adler_runs fuel (data.drop 5552) (r.1 % 65521, r.2 % 65521)
    else sums

/-- Body of the second loop of `flush_window` (zchunks.c:664-676) for one byte. -/
def flush_byte (s : PngState) (byte : Nat) : Option PngState :=
  if 255 = s.cur_filter then
    let s1 := { s with cur_filter := byte }
    if s1.cur_filter > 4 then
      some { s1 with warnings := s1.warnings ++ [Warning.WARN_FILTER], cur_filter := 0 }
    else some s1
  else (unfilter byte s).map write_byte

/-- flush_window (zchunks.c:615-679).  `window` is the list of the `size` bytes at
`ps.inflate_window`. -/
def flush_window (window : List Nat) (s : PngState) : Option PngState :=
  let sums := adler_runs window.length window (s.sum1, s.sum2)
  let s1 := { s with
    sum1 := sums.1 % 2 ^ 16
    sum2 := sums.2 % 2 ^ 16
    inflated_chunk_size := (s.inflated_chunk_size + window.length) % 2 ^ 32 }
  if s1.is_ztxt then some { s1 with tf := tf_append s1.tf 0 window }
  else window.foldlM flush_byte s1

/-- decode_IDAT (zchunks.c:60-121) up to the call of `zlib_end`.  `b0`, `b1` are the two
header bytes of the compressed stream; `windows` lists the successive contents of the
window that the external `inflate` hands to `flush_window`.  Allocations and the creation
of the temporary files are taken to succeed. -/
def decode_IDAT (b0 b1 : Nat) (windows : List (List Nat)) (s : PngState) :
    Except Err (Option PngState) :=
  let s :=
    if s.image.is_palette && 0 = s.image.palette_size then
      { s with
        warnings := s.warnings ++ [Warning.WARN_NO_PLTE]
        image := { s.image with is_palette := false, is_color := false } }
    else s
  let bpp := if 0 = s.image.bits_per_sample / 8 then 1 else s.image.bits_per_sample / 8
  let s := { s with
    got_first_idat := true
    byte_offset := s.image.samples_per_pixel * bpp
    line_size := new_line_size s.image 0 1
    this_line := List.replicate (new_line_size s.image 0 1) 0
    last_line := List.replicate (new_line_size s.image 0 1) 0
    current_row := 0, interlace_pass := 0, line_x := 0
    cur_filter := 255 }
  match zlib_start b0 b1 true s with
  | .error e => .error e
  | .ok s =>
    let s := { s with
      tf := List.replicate 7 []
      line_size := if s.image.is_interlaced then new_line_size s.image 0 8
        else new_line_size s.image 0 1 }
    .ok ((windows.foldlM (fun st w => flush_window w st) s).map repack_tempfiles)

/-! ### The forward row filter of the PNG format, for comparison with `unfilter` -/

/-- The predictor of the forward filter for byte `i` of the row `raw`, as the
specification words it: `left` is the byte one pixel (`offset` bytes) back in the same
row, `above` the byte at the same column of the previous row, `upper_left` the byte one
pixel back in the previous row, the first and last being 0 where the column is below
`offset`.  Filter 0 (None) predicts 0, 1 (Sub) `left`, 2 (Up) `above`, 3 (Average)
`floor((left + above) / 2)`, 4 (Paeth) the one of `left`, `above`, `upper_left` closest
to `left + above - upper_left`, ties going to `left`, then `above`. -/
def filter_predictor (filter offset : Nat) (raw prev : List Nat) (i : Nat) : Int :=
  let left : Int := if i < offset then 0 else (raw.getD (i - offset) 0 : Nat)
  let above : Int := (prev.getD i 0 : Nat)
  let upper_left : Int := if i < offset then 0 else (prev.getD (i - offset) 0 : Nat)
  match filter with
  | 0 => 0
  | 1 => left
  | 2 => above
  | 3 => (left + above) / 2
  | _ =>
    let p := left + above - upper_left
    if |p - left| ≤ |p - above| ∧ |p - left| ≤ |p - upper_left| then left
    else if |p - above| ≤ |p - upper_left| then above
    else upper_left

/-- The forward filter of a row: byte `i` becomes `(raw[i] - predictor_i) mod 256`. -/
def forward_filter (filter offset : Nat) (raw prev : List Nat) : List Nat :=
  (List.range' 0 raw.length).map fun i =>
    ((((raw.getD i 0 : Nat) : Int) - filter_predictor filter offset raw prev i) % 256).toNat

/-- Feed the bytes of a filtered row to `unfilter`, the column `ps.line_x` advancing by
one after each byte. -/
def unfilter_bytes : List Nat → PngState → Option PngState
  | [], s => some s
  | b :: bs, s =>
    (unfilter b s).bind fun s1 => unfilter_bytes bs { s1 with line_x := s1.line_x + 1 }

/-! ### The two encodings of a raster, for comparison of the decoder's two paths -/

/-- The elements of `l` at the positions `start`, `start + step`, `start + 2 * step`, ... -/
def every_nth (start step : Nat) (l : List α) : List α :=
  ((List.range l.length).zip l).filterMap fun p =>
    if start ≤ p.1 ∧ (p.1 - start) % step = 0 then some p.2 else none

/-- The non-interlaced pixel stream of a raster of one-byte pixels: each row, top to
bottom, preceded by the filter tag 0 (None). -/
def plain_stream (raster : List (List Nat)) : List Nat :=
  raster.foldr (fun row acc => 0 :: row ++ acc) []

/-- The rows of pass `pass` of the Adam7 interlacing of a raster of one-byte pixels: the
pixels at the rows and columns given by the tuple (start row, start column, row step,
column step) of the pass.  A pass without pixels has no rows. -/
def adam7_pass (raster : List (List Nat)) (pass : Nat) : List (List Nat) :=
  ((every_nth (starting_row.getD pass 0) (row_increment.getD pass 1) raster).map
    (every_nth (starting_col.getD pass 0) (col_increment.getD pass 1))).filter
      fun row => !row.isEmpty

/-- The interlaced pixel stream of a raster of one-byte pixels: the passes 0 to 6 in
order, each row of a pass preceded by the filter tag 0 (None), empty passes left out. -/
def adam7_stream (raster : List (List Nat)) : List Nat :=
  (List.range 7).foldr (fun pass acc => plain_stream (adam7_pass raster pass) ++ acc) []

/-- The contents of the pixel data file after `decode_IDAT` has received `stream` in one
window, behind the usual two header bytes 0x78 0x9C of the compressed stream. -/
def decoded_pixels (image : IMG_INFO) (stream : List Nat) : Option (List Nat) :=
  match decode_IDAT 0x78 0x9C [stream] { image := image } with
  | .ok (some s) => s.image.pixel_data_file
  | _ => none

/-! ## tiff.c: the TIFF writer -/

/-- The constant `MAX_TAGS` (tiff.c:24). -/
def MAX_TAGS : Nat := 40

/-- Modelled from the spec: the tag numbers `TIFF_TAG_*` of `ptot.h` (absent from the
sources), as the TIFF format assigns them. -/
def TIFF_TAG_ImageWidth : Nat := 256

/-- Modelled from the spec: tag number of `ptot.h`, as the TIFF format assigns it. -/
def TIFF_TAG_ImageLength : Nat := 257

/-- Modelled from the spec: tag number of `ptot.h`, as the TIFF format assigns it. -/
def TIFF_TAG_BitsPerSample : Nat := 258

/-- Modelled from the spec: tag number of `ptot.h`, as the TIFF format assigns it. -/
def TIFF_TAG_Compression : Nat := 259

/-- Modelled from the spec: tag number of `ptot.h`, as the TIFF format assigns it. -/
def TIFF_TAG_PhotometricInterpretation : Nat := 262

/-- Modelled from the spec: tag number of `ptot.h`, as the TIFF format assigns it. -/
def TIFF_TAG_StripOffsets : Nat := 273

/-- Modelled from the spec: tag number of `ptot.h`, as the TIFF format assigns it. -/
def TIFF_TAG_SamplesPerPixel : Nat := 277

/-- Modelled from the spec: tag number of `ptot.h`, as the TIFF format assigns it. -/
def TIFF_TAG_RowsPerStrip : Nat := 278

/-- Modelled from the spec: tag number of `ptot.h`, as the TIFF format assigns it. -/
def TIFF_TAG_StripByteCounts : Nat := 279

/-- Modelled from the spec: tag number of `ptot.h`, as the TIFF format assigns it. -/
def TIFF_TAG_PlanarConfiguration : Nat := 284

/-- Modelled from the spec: tag number of `ptot.h`, as the TIFF format assigns it. -/
def TIFF_TAG_ColorMap : Nat := 320

/-- Modelled from the spec: tag number of `ptot.h`, as the TIFF format assigns it. -/
def TIFF_TAG_ExtraSamples : Nat := 338

/-- Modelled from the spec: the data type codes `TIFF_DT_*` of `ptot.h` (absent from the
sources), as the TIFF format assigns them; they index the table `data_sizes`. -/
def TIFF_DT_SHORT : Nat := 3

/-- Modelled from the spec: data type code of `ptot.h`, as the TIFF format assigns it. -/
def TIFF_DT_LONG : Nat := 4

/-- Modelled from the spec: the photometric interpretation codes `TIFF_PI_*` of `ptot.h`
(absent from the sources), as the TIFF format assigns them. -/
def TIFF_PI_GRAY : Nat := 1

/-- Modelled from the spec: code of `ptot.h`, as the TIFF format assigns it. -/
def TIFF_PI_RGB : Nat := 2

/-- Modelled from the spec: code of `ptot.h`, as the TIFF format assigns it. -/
def TIFF_PI_PLTE : Nat := 3

/-- Modelled from the spec: code of `ptot.h`, as the TIFF format assigns it. -/
def TIFF_CT_NONE : Nat := 1

/-- Modelled from the spec: code of `ptot.h`, as the TIFF format assigns it. -/
def TIFF_PC_CONTIG : Nat := 1

/-- Modelled from the spec: code of `ptot.h`, as the TIFF format assigns it. -/
def TIFF_ES_UNASSOC : Nat := 2

/-- The table `data_sizes` (tiff.c:148). -/
def data_sizes : List Nat := [0, 1, 1, 2, 4, 8, 1, 1, 2, 4, 8, 4, 8]

/-- The two bytes of a 16-bit value in host order (`little_endian` tells which). -/
def bytes16 (little_endian : Bool) (v : Nat) : List Nat :=
  if little_endian then [v % 256, v / 256 % 256] else [v / 256 % 256, v % 256]

/-- The four bytes of a 32-bit value in host order. -/
def bytes32 (little_endian : Bool) (v : Nat) : List Nat :=
  if little_endian then [v % 256, v / 256 % 256, v / 65536 % 256, v / 16777216 % 256]
  else [v / 16777216 % 256, v / 65536 % 256, v / 256 % 256, v % 256]

/-- Overwrite the bytes of `buf` from position `off` on with `bytes`, within the bounds of
`buf`. -/
def poke (buf : List Nat) (off : Nat) (bytes : List Nat) : List Nat :=
  (buf.take off ++ bytes ++ buf.drop (off + bytes.length)).take buf.length

/-- Modelled from the spec: the macro `PUT16` of `ptot.h` (absent from the sources): store
a 16-bit value at `buf + off` in host byte order. -/
def PUT16 (little_endian : Bool) (buf : List Nat) (off v : Nat) : List Nat :=
  poke buf off (bytes16 little_endian v)

/-- Modelled from the spec: the macro `PUT32` of `ptot.h` (absent from the sources): store
a 32-bit value at `buf + off` in host byte order. -/
def PUT32 (little_endian : Bool) (buf : List Nat) (off v : Nat) : List Nat :=
  poke buf off (bytes32 little_endian v)

/-- Modelled from the spec: the macro `GET16` of `ptot.h` (absent from the sources): the
16-bit value stored at `p` in host byte order. -/
def GET16 (little_endian : Bool) (p : List Nat) : Nat :=
  if little_endian then p.getD 0 0 + 256 * p.getD 1 0 else 256 * p.getD 0 0 + p.getD 1 0

/-- Modelled from the spec: the macro `GET32` of `ptot.h` (absent from the sources): the
32-bit value stored at `p` in host byte order. -/
def GET32 (little_endian : Bool) (p : List Nat) : Nat :=
  if little_endian then
    p.getD 0 0 + 256 * p.getD 1 0 + 65536 * p.getD 2 0 + 16777216 * p.getD 3 0
  else 16777216 * p.getD 0 0 + 65536 * p.getD 1 0 + 256 * p.getD 2 0 + p.getD 3 0

/-- One 12-byte entry of `ts.ifd`: the 16-bit tag at byte 0, the 16-bit data type at byte
2, the 32-bit count at byte 4, all three held as numbers (the code writes them with
`PUT16`/`PUT32` and reads the tag back with `GET16`), and the four bytes at byte 8, which
hold either the value itself or the offset of the value in the file. -/
structure TiffEntry where
  tag : Nat := 0
  dtype : Nat := 0
  count : Nat := 0
  value : List Nat := [0, 0, 0, 0]
  deriving DecidableEq, Repr

/-- An entry of `ts.ifd` as `memset(ts.ifd, 0, 12 * MAX_TAGS)` leaves it. -/
def zero_entry : TiffEntry := {}

/-- The static `ts` (tiff.c:44-52).  `outf` is the list of the bytes written to the
output file so far; `ifd` is the array of `MAX_TAGS` entries; `little_endian` is the byte
order of the host, which `PUT16`, `PUT32` and `ts.byte_order` follow. -/
structure TiffState where
  image : IMG_INFO := {}
  outf : List Nat := []
  tag_count : Nat := 0
  little_endian : Bool := true
  file_offset : Nat := 0
  ifd : List TiffEntry := List.replicate MAX_TAGS zero_entry
  buf : List Nat := []
  deriving DecidableEq, Repr

/-- The `while` loop of `get_tag_pos` (tiff.c:163-168) from position `newpos` on; the
first argument bounds the iterations. -/
def get_tag_pos_scan (ifd : List TiffEntry) (tag_count newtag : Nat) : Nat → Nat → Nat
  | 0, newpos => newpos
  | fuel + 1, newpos =>
    if newpos < tag_count then
      if (ifd.getD newpos zero_entry).tag > newtag then newpos
      else get_tag_pos_scan ifd tag_count newtag fuel (newpos + 1)
    else newpos

/-- The `for` loop of `get_tag_pos` (tiff.c:169-171) from `tagpos` down to `newpos + 1`:
entry `tagpos` receives a copy of entry `tagpos - 1`.  The loop starts at
`tagpos = ++ts.tag_count`, so its first copy goes to position `tag_count + 1`.  When that
position is `MAX_TAGS`, the source writes twelve bytes past the end of `ts.ifd`, over the
member `ts.buf` that follows it in `ts`; a list has no such position and the model makes
no copy there.  The model is that of the source for `tag_count + 1 < MAX_TAGS`; the
positions copied to are listed by `shift_targets`. -/
def shift_entries (newpos : Nat) : Nat → List TiffEntry → List TiffEntry
  | 0, ifd => ifd
  | tagpos + 1, ifd =>
    if tagpos + 1 > newpos then
      shift_entries newpos tagpos (ifd.set (tagpos + 1) (ifd.getD tagpos zero_entry))
    else ifd

/-- get_tag_pos (tiff.c:157-174): the position found and the updated state. -/
def get_tag_pos (newtag : Nat) (s : TiffState) : Nat × TiffState :=
  let newpos := get_tag_pos_scan s.ifd s.tag_count newtag s.tag_count 0
  let tag_count := s.tag_count + 1
  let ifd := shift_entries newpos tag_count s.ifd
  (newpos, { s with
    tag_count := tag_count
    ifd := ifd.set newpos { (ifd.getD newpos zero_entry) with tag := newtag } })

/-- The loop of `align_file_offset` (tiff.c:256-259); the first argument bounds the
iterations. -/
def align_file_offset_loop (modulus : Nat) : Nat → TiffState → TiffState
  | 0, s => s
  | fuel + 1, s =>
    if 0 ≠ s.file_offset % modulus then
      align_file_offset_loop modulus fuel
        { s with outf := s.outf ++ [0], file_offset := (s.file_offset + 1) % 2 ^ 32 }
    else s

/-- align_file_offset (tiff.c:250-260): fewer than `modulus` pad bytes are needed. -/
def align_file_offset (modulus : Nat) (s : TiffState) : TiffState :=
  align_file_offset_loop modulus modulus s

/-- The `n` bytes that `fwrite` or `memcpy` takes from `buffer`; positions past the end of
the list count as 0. -/
def first_bytes (buffer : List Nat) (n : Nat) : List Nat :=
  buffer.take n ++ List.replicate (n - buffer.length) 0

/-- write_tag (tiff.c:176-209), with `data_size` computed in `U32` arithmetic. -/
def write_tag (newtag data_type count : Nat) (buffer : List Nat) (s : TiffState) :
    TiffState :=
  let r := get_tag_pos newtag s
  let newpos := r.1
  let s := r.2
  let data_size := (count * data_sizes.getD data_type 0) % 2 ^ 32
  if data_size ≤ 4 then
    let value := (first_bytes buffer 4).take data_size ++ List.replicate (4 - data_size) 0
    let entry : TiffEntry :=
      { (s.ifd.getD newpos zero_entry) with dtype := data_type, count := count, value := value }
    { s with ifd := s.ifd.set newpos entry }
  else
    let s := align_file_offset 2 s
    let entry : TiffEntry :=
      { (s.ifd.getD newpos zero_entry) with
        dtype := data_type, count := count, value := bytes32 s.little_endian s.file_offset }
    { s with
      ifd := s.ifd.set newpos entry
      outf := s.outf ++ first_bytes buffer (count * data_sizes.getD data_type 0)
      file_offset := (s.file_offset + count * data_sizes.getD data_type 0) % 2 ^ 32 }

/-- The palette loop of `write_basic_tags` (tiff.c:314-321): entry `index` of the palette
goes, each component twice, to the red, green and blue parts of the colour map in
`ts.buf`. -/
def fill_colormap (palette : List Nat) (palette_size cmap_size : Nat) (buf : List Nat) :
    List Nat :=
  (List.range palette_size).foldl (fun buf index =>
    let r := palette.getD (3 * index) 0
    let g := palette.getD (3 * index + 1) 0
    let b := palette.getD (3 * index + 2) 0
    poke (poke (poke buf (2 * index) [r, r]) (2 * cmap_size + 2 * index) [g, g])
      (4 * cmap_size + 2 * index) [b, b]) buf

/-- The first part of `write_basic_tags` (tiff.c:272-299): the seven tags that every
image receives. -/
def write_basic_tags_fixed (s : TiffState) : TiffState :=
  let le := s.little_endian
  let s := { s with buf := PUT32 le s.buf 0 s.image.width }
  let s := write_tag TIFF_TAG_ImageWidth TIFF_DT_LONG 1 s.buf s
  let s := { s with buf := PUT32 le s.buf 0 s.image.height }
  let s := write_tag TIFF_TAG_ImageLength TIFF_DT_LONG 1 s.buf s
  let short_val :=
    if s.image.is_palette then TIFF_PI_PLTE
    else if s.image.is_color then TIFF_PI_RGB
    else TIFF_PI_GRAY
  let s := { s with buf := PUT16 le s.buf 0 short_val }
  let s := write_tag TIFF_TAG_PhotometricInterpretation TIFF_DT_SHORT 1 s.buf s
  let s := { s with buf := PUT16 le s.buf 0 TIFF_CT_NONE }
  let s := write_tag TIFF_TAG_Compression TIFF_DT_SHORT 1 s.buf s
  let s := { s with buf := PUT16 le s.buf 0 TIFF_PC_CONTIG }
  let s := write_tag TIFF_TAG_PlanarConfiguration TIFF_DT_SHORT 1 s.buf s
  let bits := (List.range s.image.samples_per_pixel).foldl
    (fun buf i => PUT16 le buf (2 * i) s.image.bits_per_sample) s.buf
  let s := { s with buf := bits }
  let s := write_tag TIFF_TAG_BitsPerSample TIFF_DT_SHORT s.image.samples_per_pixel s.buf s
  let s := { s with buf := PUT16 le s.buf 0 s.image.samples_per_pixel }
  write_tag TIFF_TAG_SamplesPerPixel TIFF_DT_SHORT 1 s.buf s

/-- The colour map part of `write_basic_tags` (tiff.c:307-323), for a palette image whose
colour map fits the buffer. -/
def write_colormap (s : TiffState) : TiffState :=
  let cmap_size := 1 <<< s.image.bits_per_sample
  let s := { s with buf := memset_zero s.buf (6 * cmap_size) }
  let s := { s with
    buf := fill_colormap s.image.palette s.image.palette_size cmap_size s.buf }
  write_tag TIFF_TAG_ColorMap TIFF_DT_SHORT (3 * cmap_size) s.buf s

/-- The last part of `write_basic_tags` (tiff.c:331-334): the tag for an alpha channel. -/
def write_extra_samples (s : TiffState) : TiffState :=
  let s := { s with buf := PUT16 s.little_endian s.buf 0 TIFF_ES_UNASSOC }
  write_tag TIFF_TAG_ExtraSamples TIFF_DT_SHORT 1 s.buf s

/-- write_basic_tags (tiff.c:262-336): the value returned (`none` for 0) and the state. -/
def write_basic_tags (IOBUF_SIZE : Nat) (s : TiffState) : Option Err × TiffState :=
  let s := write_basic_tags_fixed s
  if s.image.is_palette ∧ 6 * (1 <<< s.image.bits_per_sample) > IOBUF_SIZE then
    (some .ERR_WRITE, s)
  else
    let s := if s.image.is_palette then write_colormap s else s
    let s := if s.image.has_alpha then write_extra_samples s else s
    (none, s)

/-- Modelled from the spec: the byte-order marks `TIFF_BO_Intel` and `TIFF_BO_Motorola`
of `ptot.h` (absent from the sources), "II" and "MM" as the TIFF format assigns them;
`get_local_byte_order` (tiff.c:62-97) returns the one of the host. -/
def get_local_byte_order (little_endian : Bool) : Nat :=
  if little_endian then 0x4949 else 0x4D4D

/-- Modelled from the spec: `TIFF_MagicNumber` of `ptot.h`, as the TIFF format assigns
it. -/
def TIFF_MagicNumber : Nat := 42

/-- The start of `write_TIFF` (tiff.c:114-127), up to the call of `write_basic_tags`:
the 8-byte header is written and the directory is empty.  `buf0` is the content of the
freshly allocated `ts.buf`. -/
def write_TIFF_start (image : IMG_INFO) (little_endian : Bool) (buf0 : List Nat) :
    TiffState :=
  let buf := PUT16 little_endian buf0 0 (get_local_byte_order little_endian)
  let buf := PUT16 little_endian buf 2 TIFF_MagicNumber
  let buf := PUT32 little_endian buf 4 0
  { image := image
    outf := first_bytes buf 8
    tag_count := 0
    little_endian := little_endian
    file_offset := 8
    ifd := List.replicate MAX_TAGS zero_entry
    buf := buf }

/-- The `do ... while (4 * total_strips > IOBUF_SIZE)` loop of `write_strips`
(tiff.c:535-541) in `U32` arithmetic, from the current `rows_per_strip`.  The result is
(`rows_per_strip`, `total_strips`, `strip_size`) after the loop and the halving that
follows it; `none` stands for the division by a zero `rows_per_strip`.  The variable
doubles at each iteration and is 0 after 32 doublings, so 33 iterations are enough. -/
def strip_sizing_loop (IOBUF_SIZE height line_size : Nat) :
    Nat → Nat → Option (Nat × Nat × Nat)
  | 0, _ => none
  | fuel + 1, rows_per_strip =>
    if rows_per_strip = 0 then none
    else
      let strip_size := (rows_per_strip * line_size) % 2 ^ 32
      let total_strips := ((height + (rows_per_strip - 1)) % 2 ^ 32) / rows_per_strip
      let rows_per_strip1 := (rows_per_strip * 2) % 2 ^ 32
      if (4 * total_strips) % 2 ^ 32 > IOBUF_SIZE then
        strip_sizing_loop IOBUF_SIZE height line_size fuel rows_per_strip1
      else some (rows_per_strip1 / 2, total_strips, strip_size)

/-- The strip-sizing computation at the start of `write_strips` (tiff.c:527-541), with
`size_t` taken as 32 bits wide like `U32`: the values of (`rows_per_strip`,
`total_strips`, `strip_size`); `none` stands for a division by zero. -/
def strip_sizing (IOBUF_SIZE : Nat) (image : IMG_INFO) : Option (Nat × Nat × Nat) :=
  let line_size := new_line_size image 0 1
  if line_size > 4096 then strip_sizing_loop IOBUF_SIZE image.height line_size 33 1
  else if line_size = 0 then none
  else strip_sizing_loop IOBUF_SIZE image.height line_size 33 (8192 / line_size)

/-- The library call `getc(inf)` on the pixel data file: the next byte and the rest of
the file.  At the end of the file `getc` returns -1, which under every mask that
`write_strips` applies acts as the byte 0xFF. -/
def getc (inf : List Nat) : Nat × List Nat :=
  match inf with
  | [] => (0xFF, [])
  | b :: rest => (b, rest)

/-- The body of the column loop of `write_strips` (tiff.c:588-633) at column `col`: the
bytes stored through `lp` and the rest of the pixel data file.  The tests `OKW(col + k)`
fail from some `k` on, so the `break` of the 1-bit case is the same as skipping each bit
whose column is outside the row. -/
def pack_pixels (little_endian : Bool) (bps spp width col : Nat) (inf : List Nat) :
    List Nat × List Nat :=
  if bps = 1 then
    let r0 := getc inf
    let r := (List.range' 1 7).foldl (fun (acc : Nat × List Nat) bit =>
      if col + bit < width then
        let g := getc acc.2
        (if 0 ≠ g.1 &&& 0x80 then acc.1 ||| (1 <<< (7 - bit)) else acc.1, g.2)
      else acc) (r0.1 &&& 0x80, r0.2)
    ([r.1], r.2)
  else if bps = 2 then
    let r0 := getc inf
    let r := [(1, 2, 0x30), (2, 4, 0x0C), (3, 6, 0x03)].foldl
      (fun (acc : Nat × List Nat) (k : Nat × Nat × Nat) =>
        if col + k.1 < width then
          let g := getc acc.2
          (acc.1 ||| ((g.1 >>> k.2.1) &&& k.2.2), g.2)
        else acc) (r0.1 &&& 0xC0, r0.2)
    ([r.1], r.2)
  else if bps = 4 then
    let r0 := getc inf
    let r := if col + 1 < width then
        let g := getc r0.2
        ((r0.1 &&& 0xF0) ||| ((g.1 >>> 4) &&& 0x0F), g.2)
      else (r0.1 &&& 0xF0, r0.2)
    ([r.1], r.2)
  else if bps = 8 then
    (List.range spp).foldl (fun (acc : List Nat × List Nat) _ =>
      let g := getc acc.2
      (acc.1 ++ [0xFF &&& g.1], g.2)) ([], inf)
  else if bps = 16 then
    (List.range spp).foldl (fun (acc : List Nat × List Nat) _ =>
      let g1 := getc acc.2
      let g2 := getc g1.2
      let word := ((g1.1 <<< 8) &&& 0xFF00) ||| (0xFF &&& g2.1)
      (acc.1 ++ bytes16 little_endian word, g2.2)) ([], inf)
  else ([], inf)

/-- The column loop of `write_strips` (tiff.c:587-634) from column `col` on: the bytes
stored in `line_buf` and the rest of the pixel data file.  The first argument bounds the
iterations. -/
def pack_row (little_endian : Bool) (bps spp width step : Nat) :
    Nat → Nat → List Nat → List Nat → List Nat × List Nat
  | 0, _, inf, line => (line, inf)
  | fuel + 1, col, inf, line =>
    if col < width then
      let r := pack_pixels little_endian bps spp width col inf
      pack_row little_endian bps spp width step fuel (col + step) r.2 (line ++ r.1)
    else (line, inf)

/-- What the loops of `write_strips` carry: the writer state, the rest of the pixel data
file, the row buffer `line_buf` and, as a record of the run, the length of the output
file at the moment the first row of each strip is written. -/
structure StripRun where
  ts : TiffState
  inf : List Nat
  line_buf : List Nat
  starts : List Nat
  deriving DecidableEq, Repr

/-- The row loop of `write_strips` for one strip (tiff.c:578-643); the first argument is
the number of rows still allowed by `row < rows_per_strip`.  Writes to the output file
are taken to succeed. -/
def write_strip_rows (line_size : Nat) : Nat → Nat → StripRun → StripRun
  | 0, _, r => r
  | rows + 1, scanline, r =>
    let bps := r.ts.image.bits_per_sample
    let step := if bps < 8 then 8 / bps else 1
    let p := pack_row r.ts.little_endian bps r.ts.image.samples_per_pixel r.ts.image.width
      step r.ts.image.width 0 r.inf []
    let line_buf := (p.1 ++ r.line_buf.drop p.1.length).take line_size
    let ts := { r.ts with
      outf := r.ts.outf ++ line_buf
      file_offset := (r.ts.file_offset + line_size) % 2 ^ 32 }
    let r1 := { r with ts := ts, inf := p.2, line_buf := line_buf }
    if scanline + 1 ≥ r.ts.image.height then r1
    else write_strip_rows line_size rows (scanline + 1) r1

/-- write_strips (tiff.c:518-648): the value returned (`none` for 0) and the final
`StripRun`; the outer `none` stands for a division by zero in the strip sizing.  The
allocation of `line_buf`, whose content is `line_buf0`, and the opening of the pixel data
file are taken to succeed. -/
def write_strips (IOBUF_SIZE : Nat) (line_buf0 : List Nat) (s : TiffState) :
    Option (Option Err × StripRun) :=
  (strip_sizing IOBUF_SIZE s.image).map fun sizes =>
    let line_size := new_line_size s.image 0 1
    let rows_per_strip := sizes.1
    let total_strips := sizes.2.1
    let strip_size := sizes.2.2
    let le := s.little_endian
    let s := { s with buf := PUT32 le s.buf 0 rows_per_strip }
    let s := write_tag TIFF_TAG_RowsPerStrip TIFF_DT_LONG 1 s.buf s
    let counts := (List.range total_strips).foldl
      (fun buf strip => PUT32 le buf (4 * strip) strip_size) s.buf
    let s := { s with buf := counts }
    let s := write_tag TIFF_TAG_StripByteCounts TIFF_DT_LONG total_strips s.buf s
    let s := align_file_offset 2 s
    let strip_size := if 0 ≠ strip_size &&& 1 then (strip_size + 1) % 2 ^ 32 else strip_size
    let offsets := (List.range total_strips).foldl
      (fun buf strip => PUT32 le buf (4 * strip)
        ((s.file_offset + 4 * total_strips + strip * strip_size) % 2 ^ 32)) s.buf
    let s := { s with buf := offsets }
    let s := write_tag TIFF_TAG_StripOffsets TIFF_DT_LONG total_strips s.buf s
    let run : StripRun :=
      { ts := s, inf := (s.image.pixel_data_file).getD [], line_buf := line_buf0, starts := [] }
    (none, (List.range total_strips).foldl (fun (r : StripRun) _ =>
      let ts := align_file_offset 2 r.ts
      write_strip_rows line_size rows_per_strip 0
        { r with ts := ts, starts := r.starts ++ [ts.outf.length] }) run)

/-! ### Reading a directory back -/

/-- The entries of the directory in use: the first `tag_count` entries of `ts.ifd`. -/
def directory (s : TiffState) : List TiffEntry :=
  s.ifd.take s.tag_count

/-- The entry of the directory that carries the tag `tag`, if there is one. -/
def find_tag (s : TiffState) (tag : Nat) : Option TiffEntry :=
  (directory s).find? fun e => e.tag == tag

/-- The bytes of the value of a directory entry, as a TIFF reader finds them: in the
entry itself when they take at most four bytes, otherwise in the file `out` at the offset
that the entry holds. -/
def entry_bytes (little_endian : Bool) (out : List Nat) (e : TiffEntry) : List Nat :=
  let size := e.count * data_sizes.getD e.dtype 0
  if size ≤ 4 then e.value.take size
  else (out.drop (GET32 little_endian e.value)).take size

/-- The values of a directory entry of type SHORT, decoded in host byte order. -/
def entry_shorts (little_endian : Bool) (out : List Nat) (e : TiffEntry) : List Nat :=
  (List.range e.count).map fun i =>
    GET16 little_endian ((entry_bytes little_endian out e).drop (2 * i))

/-- The values of a directory entry of type LONG, decoded in host byte order. -/
def entry_longs (little_endian : Bool) (out : List Nat) (e : TiffEntry) : List Nat :=
  (List.range e.count).map fun i =>
    GET32 little_endian ((entry_bytes little_endian out e).drop (4 * i))

/-- The 1 x 1 truecolour image of 8 bits per sample, with one pixel in its pixel data
file. -/
def one_pixel_rgb : IMG_INFO :=
  { width := 1, height := 1, bits_per_sample := 8, samples_per_pixel := 3, is_color := true
    pixel_data_file := some [11, 22, 33] }

/-! ## Notions used in the statements and proofs -/

/-- The state of the reader inside a chunk of type `t` and body `b` followed by `rest`:
a prefix of the body has been read and folded into the CRC, the suffix is still to come. -/
def InChunk (t b rest : List Nat) (s : ChunkState) : Prop :=
  ∃ pre post, b = pre ++ post ∧ s.inf = post ++ rest ∧
    s.crc = update_crc 0xFFFFFFFF (t ++ pre) ∧ s.bytes_remaining = post.length ∧
    post.length < 2 ^ 32

/-- Ordered insertion of an entry into a list of entries: after the leading entries whose
tag is at most the new tag. -/
def dir_insert (e : TiffEntry) (d : List TiffEntry) : List TiffEntry :=
  d.takeWhile (fun x => decide (x.tag ≤ e.tag)) ++
    e :: d.dropWhile (fun x => decide (x.tag ≤ e.tag))

/-- A sequence of calls `write_tag(newtag, data_type, count, buffer)`, one for each
quadruple of the list, in order. -/
def write_tags (calls : List (Nat × Nat × Nat × List Nat)) (s : TiffState) : TiffState :=
  calls.foldl (fun s c => write_tag c.1 c.2.1 c.2.2.1 c.2.2.2 s) s

/-- The tag ids of the entries of the directory, in the order of the entries. -/
def directory_tags (s : TiffState) : List Nat :=
  (directory s).map fun e => e.tag

/-- The list `bytes` repeated `n` times. -/
def repeat_bytes : Nat → List Nat → List Nat
  | 0, _ => []
  | n + 1, bytes => repeat_bytes n bytes ++ bytes

/-- The state of the writer when `write_basic_tags` returns to `write_TIFF`. -/
def basic_tags_state (IOBUF_SIZE : Nat) (image : IMG_INFO) (little_endian : Bool)
    (buf0 : List Nat) : TiffState :=
  (write_basic_tags IOBUF_SIZE (write_TIFF_start image little_endian buf0)).2

/-- The values of the LONG entry of tag `tag`, as a reader of the file decodes them. -/
def decoded_longs (s : TiffState) (tag : Nat) : Option (List Nat) :=
  (find_tag s tag).map (entry_longs s.little_endian s.outf)

/-- The values of the SHORT entry of tag `tag`, as a reader of the file decodes them. -/
def decoded_shorts (s : TiffState) (tag : Nat) : Option (List Nat) :=
  (find_tag s tag).map (entry_shorts s.little_endian s.outf)

/-- A truecolour image of 100 x 30000 pixels, depth 8. -/
def tall_rgb_image : IMG_INFO :=
  { width := 100, height := 30000, bits_per_sample := 8, samples_per_pixel := 3,
    is_color := true }

/-- A raster of 5 x 5 one-byte pixels, numbered 1 to 25 in reading order. -/
def raster_5x5 : List (List Nat) :=
  [[1, 2, 3, 4, 5], [6, 7, 8, 9, 10], [11, 12, 13, 14, 15], [16, 17, 18, 19, 20],
   [21, 22, 23, 24, 25]]



/-! ## The Adler-32 checksum, for comparison with `flush_window` -/

/-- zlib_end (zchunks.c:162-181).  `b0` to `b3` are the four bytes that the macro
`NEXTBYTE` delivers; the two sums read from them are `U16` variables. -/
def zlib_end (b0 b1 b2 b3 : Nat) (s : PngState) : PngState :=
  if !s.window_allocated then s
  else
    let sum2 := ((b0 <<< 8) % 2 ^ 16) ||| (b1 % 2 ^ 16)
    let sum1 := ((b2 <<< 8) % 2 ^ 16) ||| (b3 % 2 ^ 16)
    if sum1 ≠ s.sum1 ∨ sum2 ≠ s.sum2 then
      { s with warnings := s.warnings ++ [Warning.WARN_BAD_SUM] }
    else s

/-- The successive calls of `flush_window` that the external `inflate` makes for the
window contents `windows`, as in `decode_IDAT`. -/
def flush_windows (windows : List (List Nat)) (s : PngState) : Option PngState :=
  windows.foldlM (fun st w => flush_window w st) s

/-- The first half of the reference Adler-32 checksum of the byte sequence `D`: one plus
the sum of the bytes, modulo 65521. -/
def adler32_sum1 (D : List Nat) : Nat :=
  (1 + D.sum) % 65521

/-- The second half of the reference Adler-32 checksum of the byte sequence `D`: the sum,
over the nonempty prefixes of `D`, of one plus the sum of the prefix, modulo 65521. -/
def adler32_sum2 (D : List Nat) : Nat :=
  ((List.range D.length).map (fun k => 1 + (D.take (k + 1)).sum)).sum % 65521

/-- The sum of the sums of the nonempty prefixes of a byte sequence: the byte at distance
`k` from the end counts `k + 1` times. -/
def weighted_sum : List Nat → Nat
  | [] => 0
  | x :: l => (l.length + 1) * x + weighted_sum l

/-- The condition under which `unfilter` has a case for the filter type: it is one of the
five types, or the mark 255 of a row whose type byte is still to come. -/
def FilterKnown (s : PngState) : Prop :=
  s.cur_filter ≤ 4 ∨ s.cur_filter = 255

/-- The decoder state of `decode_IDAT` for a grey image of one row of three 8-bit
pixels, after `zlib_start`. -/
def gray_row_state : PngState :=
  { image := { width := 3, height := 1, bits_per_sample := 8, samples_per_pixel := 1 }
    sum1 := 1, sum2 := 0, cur_filter := 255, line_size := 3, byte_offset := 1
    this_line := [0, 0, 0], last_line := [0, 0, 0] }

/-! ## ptot.c: the signature and the chunk handlers -/

/-- Modelled from the spec: the bit `PNG_CB_Palette` of the colour type byte, a constant
of `ptot.h` (absent from the sources), with the value of the PNG format. -/
def PNG_CB_Palette : Nat := 1

/-- Modelled from the spec: the bit `PNG_CB_Color` of the colour type byte, a constant of
`ptot.h` (absent from the sources), with the value of the PNG format. -/
def PNG_CB_Color : Nat := 2

/-- Modelled from the spec: the bit `PNG_CB_Alpha` of the colour type byte, a constant of
`ptot.h` (absent from the sources), with the value of the PNG format. -/
def PNG_CB_Alpha : Nat := 4

/-- Modelled from the spec: `BE_GET16` of `ptot.h` (absent from the sources), the 16-bit
big-endian value of the two bytes at the start of `p`. -/
def BE_GET16 (p : List Nat) : Nat :=
  p.getD 0 0 * 256 + p.getD 1 0

/-- Modelled from the spec: `BE_PUT32` of `ptot.h` (absent from the sources): the four
bytes, most significant first, that it stores for a 32-bit value. -/
def BE_PUT32 (v : Nat) : List Nat :=
  [v / 16777216 % 256, v / 65536 % 256, v / 256 % 256, v % 256]

/-- The library call `memcpy(dst, src, n)` on two buffers. -/
def memcpy (dst src : List Nat) (n : Nat) : List Nat :=
  src.take n ++ dst.drop n

/-- The signature check of `read_PNG` (ptot.c:185-194): eight bytes are read and compared
with the signature; if they differ, the next 128 bytes are read and the last eight of
them compared.  `PNG_Signature` is a constant of the missing `ptot.h` and is taken as a
parameter.  On `ERR_BAD_PNG` the function jumps to its exit and reads nothing more. -/
def read_PNG_signature (PNG_Signature : List Nat) (s : ChunkState) : Except Err ChunkState :=
  let s1 := (fread_buf 8 s).2
  let s1 := { s1 with buf := s1.buf.set 8 0 }
  if s1.buf.take 8 ≠ PNG_Signature.take 8 then
    let s2 := (fread_buf 128 s1).2
    let s2 := { s2 with buf := s2.buf.set 128 0 }
    if (s2.buf.drop 120).take 8 ≠ PNG_Signature.take 8 then .error .ERR_BAD_PNG
    else .ok s2
  else .ok s1

/-- decode_IHDR (ptot.c:382-433), on the reader state and the image descriptor.  The
members of the descriptor are set, and the warnings added to the trace, where the
function returns 0; on an error the caller abandons both. -/
def decode_IHDR (IOBUF_SIZE : Nat) (s : ChunkState) (image : IMG_INFO) :
    Except Err (ChunkState × IMG_INFO) :=
  if s.bytes_remaining < 13 then .error .ERR_BAD_PNG
  else
    let s := get_chunk_data IOBUF_SIZE 13 s
    if 13 ≠ s.bytes_in_buf then .error .ERR_READ
    else
      let width := BE_GET32 s.buf
      let height := BE_GET32 (s.buf.drop 4)
      if 0 ≠ s.buf.getD 10 0 ∨ 0 ≠ s.buf.getD 11 0 then .error .ERR_BAD_PNG
      else
        let is_interlaced := s.buf.getD 12 0
        if ¬(0 = is_interlaced ∨ 1 = is_interlaced) then .error .ERR_BAD_PNG
        else
          let is_color := decide (0 ≠ s.buf.getD 9 0 &&& PNG_CB_Color)
          let is_palette := decide (0 ≠ s.buf.getD 9 0 &&& PNG_CB_Palette)
          let has_alpha := decide (0 ≠ s.buf.getD 9 0 &&& PNG_CB_Alpha)
          let samples_per_pixel := if is_color ∧ ¬is_palette then 3 else 1
          let samples_per_pixel :=
            if has_alpha then samples_per_pixel + 1 else samples_per_pixel
          let warn1 := if is_palette ∧ has_alpha then [Warning.WARN_BAD_PNG] else []
          if ¬(1 = s.buf.getD 8 0 ∨ 2 = s.buf.getD 8 0 ∨ 4 = s.buf.getD 8 0 ∨
              8 = s.buf.getD 8 0 ∨ 16 = s.buf.getD 8 0) then .error .ERR_BAD_PNG
          else
            let warn2 := if s.buf.getD 8 0 > 8 ∧ is_palette
              then [Warning.WARN_BAD_PNG] else []
            if s.buf.getD 8 0 < 8 ∧
                (2 = s.buf.getD 9 0 ∨ 4 = s.buf.getD 9 0 ∨ 6 = s.buf.getD 9 0) then
              .error .ERR_BAD_PNG
            else
              .ok ({ s with warnings := s.warnings ++ warn1 ++ warn2 },
                { image with
                  width := width, height := height
                  is_interlaced := decide (is_interlaced ≠ 0)
                  is_color := is_color, is_palette := is_palette, has_alpha := has_alpha
                  samples_per_pixel := samples_per_pixel
                  bits_per_sample := s.buf.getD 8 0 })

/-- decode_PLTE (ptot.c:462-495).  The result is `none` when the loop of
`skip_chunk_data` runs out of its bound. -/
def decode_PLTE (IOBUF_SIZE : Nat) (s : ChunkState) (image : IMG_INFO) :
    Option (Except Err (ChunkState × IMG_INFO)) :=
  let s := if !image.is_color
    then { s with warnings := s.warnings ++ [Warning.WARN_PLTE_GRAY] } else s
  if 0 ≠ image.palette_size then
    (skip_chunk_data IOBUF_SIZE
      { s with warnings := s.warnings ++ [Warning.WARN_MULTI_PLTE] }).map
      fun s1 => .ok (s1, image)
  else
    let image := { image with palette_size := min 256 (s.bytes_remaining / 3) }
    if 0 = image.palette_size then some (.error .ERR_BAD_PNG)
    else
      let s := get_chunk_data IOBUF_SIZE (3 * image.palette_size) s
      if s.bytes_in_buf < 3 * image.palette_size then some (.error .ERR_READ)
      else
        some (.ok (s, { image with
          palette := memcpy image.palette s.buf (3 * image.palette_size) }))

/-- The loop `for (i = bytes_read; i < palette_size; ++i) palette_trans_bytes[i] = 255`
of `decode_tRNS` (ptot.c:523-524). -/
def fill_rest_255 (trans : List Nat) (bytes_read palette_size : Nat) : List Nat :=
  (List.range (palette_size - bytes_read)).foldl
    (fun t k => t.set (bytes_read + k) 255) trans

/-- decode_tRNS (ptot.c:502-537). -/
def decode_tRNS (IOBUF_SIZE : Nat) (s : ChunkState) (image : IMG_INFO) :
    Except Err (ChunkState × IMG_INFO) :=
  let s := if image.has_trns
    then { s with warnings := s.warnings ++ [Warning.WARN_MULTI_TRNS] } else s
  let image := { image with has_trns := true }
  if image.is_palette then
    let s := if 0 = image.palette_size
      then { s with warnings := s.warnings ++ [Warning.WARN_LATE_TRNS] } else s
    let s := get_chunk_data IOBUF_SIZE s.bytes_remaining s
    let bytes_read := s.bytes_in_buf
    let trans := memcpy image.palette_trans_bytes s.buf bytes_read
    .ok (s, { image with
      palette_trans_bytes := fill_rest_255 trans bytes_read image.palette_size })
  else if image.is_color then
    if s.bytes_remaining < 6 then .error .ERR_BAD_PNG
    else
      let s := get_chunk_data IOBUF_SIZE 6 s
      .ok (s, { image with
        trans_values := (List.range 3).foldl
          (fun t i => t.set i (BE_GET16 (s.buf.drop (2 * i)))) image.trans_values })
  else
    if s.bytes_remaining < 2 then .error .ERR_BAD_PNG
    else
      .ok (s, { image with trans_values := image.trans_values.set 0 (BE_GET16 s.buf) })

/-- A reader at the body of an IHDR chunk for a 5 by 5 interlaced truecolour image of
8-bit samples. -/
def ihdr_state : ChunkState :=
  { inf := [0, 0, 0, 5] ++ [0, 0, 0, 5] ++ [8, 2, 0, 0, 1] ++ []
    buf := List.replicate 16 0
    bytes_in_buf := 0
    bytes_remaining := 13
    current_chunk_name := 0x49484452
    crc := 0
    warnings := [] }

/-- A reader at the body of a PLTE chunk of seven bytes: two palette entries and one
byte more. -/
def plte_state : ChunkState :=
  { inf := [255, 0, 0, 0, 255, 0, 9] ++ [1, 2, 3, 4]
    buf := List.replicate 16 0
    bytes_in_buf := 0
    bytes_remaining := 7
    current_chunk_name := 0x504C5445
    crc := 0
    warnings := [] }

/-- A reader at the body of a tRNS chunk of two bytes, and the descriptor of a palette
image with four palette entries. -/
def trns_state : ChunkState :=
  { inf := [7, 128] ++ [1, 2, 3, 4]
    buf := List.replicate 16 0
    bytes_in_buf := 0
    bytes_remaining := 2
    current_chunk_name := 0x74524E53
    crc := 0
    warnings := [] }

/-- The descriptor of a palette image with four palette entries. -/
def four_colour_image : IMG_INFO :=
  { width := 2, height := 2, bits_per_sample := 2, samples_per_pixel := 1
    is_color := true, is_palette := true, palette_size := 4
    palette := [0, 0, 0, 255, 0, 0, 0, 255, 0, 0, 0, 255] }

/-- A reader at the start of a tRNS chunk of length 2 with body 0x12, 0x34, followed by
its CRC. -/
def gray_trns_state : ChunkState :=
  { inf := [0, 0, 0, 2] ++ [116, 82, 78, 83] ++ [0x12, 0x34] ++ [0x2F, 0xD3, 0x49, 0x5E]
    buf := List.replicate 16 0
    bytes_in_buf := 0
    bytes_remaining := 0
    current_chunk_name := 0
    crc := 0
    warnings := [] }

/-- The descriptor of a grey image of 8-bit samples without palette. -/
def gray_image : IMG_INFO :=
  { width := 3, height := 1, bits_per_sample := 8, samples_per_pixel := 1 }

/-! ## zchunks.c: copying a chunk to the file of passed-on chunks -/

/-- One iteration of the loop of `copy_unknown_chunk_data` (zchunks.c:552-559) on the
reader state, the running CRC `output_crc` and the bytes written to `outf`: the call of
`get_chunk_data`, which counts the bytes read off `bytes_remaining`, and after it the
statement `ps.bytes_remaining -= ps.bytes_in_buf` of the loop. -/
def copy_unknown_step (IOBUF_SIZE : Nat) (st : ChunkState × Nat × List Nat) :
    ChunkState × Nat × List Nat :=
  let s1 := get_chunk_data IOBUF_SIZE st.1.bytes_remaining st.1
  let output_crc := update_crc st.2.1 (s1.buf.take s1.bytes_in_buf)
  let outf := st.2.2 ++ s1.buf.take s1.bytes_in_buf
  ({ s1 with
      bytes_remaining := (s1.bytes_remaining + 2 ^ 32 - s1.bytes_in_buf % 2 ^ 32) % 2 ^ 32 },
    output_crc, outf)

/-- The loop `while (0 != ps.bytes_remaining)` of `copy_unknown_chunk_data`
(zchunks.c:552-559); `none` when more than `fuel` iterations are needed. -/
def copy_unknown_loop (IOBUF_SIZE : Nat) :
    Nat → ChunkState × Nat × List Nat → Option (ChunkState × Nat × List Nat)
  | 0, st => if 0 ≠ st.1.bytes_remaining then none else some st
  | fuel + 1, st =>
    if 0 ≠ st.1.bytes_remaining then
      copy_unknown_loop IOBUF_SIZE fuel (copy_unknown_step IOBUF_SIZE st)
    else some st

/-- copy_unknown_chunk_data (zchunks.c:514-567).  The allocation of the file name, the
opening of the file for appending and the writes are taken to succeed, so that the
function returns 0 whenever it returns; `fuel` bounds the iterations of its loop, and the
result is `none` when the loop needs more. -/
def copy_unknown_chunk_data (IOBUF_SIZE fuel : Nat) (s : ChunkState) (image : IMG_INFO) :
    Option (ChunkState × IMG_INFO) :=
  let outf := image.png_data_file.getD []
  let small_buf := BE_PUT32 ((s.bytes_remaining + s.bytes_in_buf) % 2 ^ 32)
    ++ BE_PUT32 s.current_chunk_name
  let output_crc := update_crc 0xFFFFFFFF ((s.buf.drop 4).take 4)
  let outf := outf ++ small_buf
  let st : ChunkState × Nat × List Nat :=
    if 0 ≠ s.bytes_in_buf then
      (s, update_crc output_crc (s.buf.take s.bytes_in_buf),
        outf ++ s.buf.take s.bytes_in_buf)
    else (s, output_crc, outf)
  (copy_unknown_loop IOBUF_SIZE fuel st).map fun st =>
    (st.1, { image with
      png_data_file := some (st.2.2 ++ BE_PUT32 (st.2.1 ^^^ 0xFFFFFFFF)) })

/-- A reader at the start of an sBIT chunk of length 3 with its CRC, followed by the IEND
chunk that ends the file. -/
def sbit_chunk_state : ChunkState :=
  { inf := [0, 0, 0, 3] ++ [115, 66, 73, 84] ++ [8, 8, 8] ++ [0xDB, 0xE1, 0x4F, 0xE0]
      ++ [0, 0, 0, 0, 73, 69, 78, 68, 0xAE, 0x42, 0x60, 0x82]
    buf := List.replicate 32 0
    bytes_in_buf := 0
    bytes_remaining := 0
    current_chunk_name := 0
    crc := 0
    warnings := [] }

/-- A reader at the start of a tEXt chunk of length 8 whose body is the keyword "Zzyzx",
a zero byte and the text "hi", followed by its CRC. -/
def text_chunk_state : ChunkState :=
  { inf := [0, 0, 0, 8] ++ [116, 69, 88, 116] ++ [90, 122, 121, 122, 120, 0, 104, 105]
      ++ [0xD8, 0x7A, 0xE9, 0x00]
    buf := List.replicate 32 0
    bytes_in_buf := 0
    bytes_remaining := 0
    current_chunk_name := 0
    crc := 0
    warnings := [] }

/-- The reader `sbit_chunk_state` after `get_chunk_header`: the eight header bytes are in
the buffer and the three body bytes are still to be read. -/
def sbit_body_state : ChunkState :=
  { inf := [8, 8, 8] ++ [0xDB, 0xE1, 0x4F, 0xE0]
      ++ [0, 0, 0, 0, 73, 69, 78, 68, 0xAE, 0x42, 0x60, 0x82]
    buf := [0, 0, 0, 3] ++ [115, 66, 73, 84] ++ List.replicate 24 0
    bytes_in_buf := 0
    bytes_remaining := 3
    current_chunk_name := 0x73424954
    crc := update_crc 0xFFFFFFFF [115, 66, 73, 84]
    warnings := [] }

/-- The reader `text_chunk_state` after `get_chunk_header` and after the call
`get_chunk_data(ps.bytes_remaining)` that opens `decode_text` (zchunks.c:450): the eight
body bytes are in the buffer. -/
def text_body_state : ChunkState :=
  { inf := [0xD8, 0x7A, 0xE9, 0x00]
    buf := [90, 122, 121, 122, 120, 0, 104, 105] ++ List.replicate 24 0
    bytes_in_buf := 8
    bytes_remaining := 0
    current_chunk_name := 0x74455874
    crc := update_crc 0xFFFFFFFF ([116, 69, 88, 116] ++ [90, 122, 121, 122, 120, 0, 104, 105])
    warnings := [] }

/-- The eight bytes of the PNG signature. -/
def png_magic : List Nat := [137, 80, 78, 71, 13, 10, 26, 10]

/-- A reader at the start of a file of 136 bytes: a foreign header of 128 zero bytes and
the PNG signature after it. -/
def macbinary_state : ChunkState :=
  { inf := List.replicate 128 0 ++ png_magic
    buf := List.replicate 256 0
    bytes_in_buf := 0
    bytes_remaining := 0
    current_chunk_name := 0
    crc := 0
    warnings := [] }

/-- Modelled from the spec: the unit code `PNG_MU_None` of `ptot.h` (absent from the
sources), with the value of the PNG format for a pHYs unit that is not known. -/
def PNG_MU_None : Nat := 0

/-- Modelled from the spec: the unit code `PNG_MU_Pixel` of `ptot.h` (absent from the
sources), with the value of the PNG format for an oFFs unit. -/
def PNG_MU_Pixel : Nat := 0

/-- Modelled from the spec: the unit code `PNG_MU_Meter` of `ptot.h` (absent from the
sources), with the value of the PNG format for a pHYs unit. -/
def PNG_MU_Meter : Nat := 1

/-- Modelled from the spec: the unit code `PNG_MU_Micrometer` of `ptot.h` (absent from
the sources), with the value of the PNG format for an oFFs unit. -/
def PNG_MU_Micrometer : Nat := 1

/-- Modelled from the spec: `TIFF_RU_NONE` of `ptot.h`, as the TIFF format assigns it. -/
def TIFF_RU_NONE : Nat := 1

/-- Modelled from the spec: `TIFF_RU_CM` of `ptot.h`, as the TIFF format assigns it. -/
def TIFF_RU_CM : Nat := 3

/-- Modelled from the spec: the data type `TIFF_DT_ASCII` of `ptot.h`, as the TIFF format
numbers it. -/
def TIFF_DT_ASCII : Nat := 2

/-- Modelled from the spec: the data type `TIFF_DT_RATIONAL` of `ptot.h`, as the TIFF
format numbers it. -/
def TIFF_DT_RATIONAL : Nat := 5

/-- Modelled from the spec: the data type `TIFF_DT_UNDEFINED` of `ptot.h`, as the TIFF
format numbers it. -/
def TIFF_DT_UNDEFINED : Nat := 7

/-- Modelled from the spec: tag id of `ptot.h`, as the TIFF format assigns it. -/
def TIFF_TAG_ImageDescription : Nat := 270

/-- Modelled from the spec: tag id of `ptot.h`, as the TIFF format assigns it. -/
def TIFF_TAG_Model : Nat := 272

/-- Modelled from the spec: tag id of `ptot.h`, as the TIFF format assigns it. -/
def TIFF_TAG_XResolution : Nat := 282

/-- Modelled from the spec: tag id of `ptot.h`, as the TIFF format assigns it. -/
def TIFF_TAG_YResolution : Nat := 283

/-- Modelled from the spec: tag id of `ptot.h`, as the TIFF format assigns it. -/
def TIFF_TAG_XPosition : Nat := 286

/-- Modelled from the spec: tag id of `ptot.h`, as the TIFF format assigns it. -/
def TIFF_TAG_YPosition : Nat := 287

/-- Modelled from the spec: tag id of `ptot.h`, as the TIFF format assigns it. -/
def TIFF_TAG_ResolutionUnit : Nat := 296

/-- Modelled from the spec: tag id of `ptot.h`, as the TIFF format assigns it. -/
def TIFF_TAG_TransferFunction : Nat := 301

/-- Modelled from the spec: tag id of `ptot.h`, as the TIFF format assigns it. -/
def TIFF_TAG_Software : Nat := 305

/-- Modelled from the spec: tag id of `ptot.h`, as the TIFF format assigns it. -/
def TIFF_TAG_Artist : Nat := 315

/-- Modelled from the spec: tag id of `ptot.h`, as the TIFF format assigns it. -/
def TIFF_TAG_WhitePoint : Nat := 318

/-- Modelled from the spec: tag id of `ptot.h`, as the TIFF format assigns it. -/
def TIFF_TAG_PrimaryChromaticities : Nat := 319

/-- Modelled from the spec: tag id of `ptot.h`, as the TIFF format assigns it. -/
def TIFF_TAG_Copyright : Nat := 33432

/-- Modelled from the spec: `N_KEYWORDS` of `ptot.h`, the number of entries of the tables
`keyword_table` (ptot.c:31) and `ASCII_tags` (tiff.c:26). -/
def N_KEYWORDS : Nat := 5

/-- The table `ASCII_tags` (tiff.c:26-29). -/
def ASCII_tags : List Nat :=
  [TIFF_TAG_Artist, TIFF_TAG_Copyright, TIFF_TAG_Software, TIFF_TAG_Model,
    TIFF_TAG_ImageDescription]

/-- The resolution part of `write_extended_tags` (tiff.c:346-367): the value of
`tiff_unit` and the state. -/
def write_resolution_tags (s : TiffState) : Nat × TiffState :=
  if 0 ≠ s.image.xres then
    let tiff_unit :=
      if PNG_MU_None = s.image.resolution_unit then TIFF_RU_NONE else TIFF_RU_CM
    let le := s.little_endian
    let s := { s with buf := PUT16 le s.buf 0 tiff_unit }
    let s := write_tag TIFF_TAG_ResolutionUnit TIFF_DT_SHORT 1 s.buf s
    let s := { s with buf := PUT32 le (PUT32 le s.buf 0 s.image.xres) 4 100 }
    let s := write_tag TIFF_TAG_XResolution TIFF_DT_RATIONAL 1 s.buf s
    let s := { s with buf := PUT32 le (PUT32 le s.buf 0 s.image.yres) 4 100 }
    let s := write_tag TIFF_TAG_YResolution TIFF_DT_RATIONAL 1 s.buf s
    (tiff_unit, s)
  else (0xFFFF, s)

/-- The loop `while (longside > 2000)` of `write_extended_tags` (tiff.c:403-406): the
final `bias`.  `longside` is halved at each iteration, so 32 iterations are enough. -/
def offset_bias : Nat → Nat → Nat → Nat
  | 0, _, bias => bias
  | fuel + 1, longside, bias =>
    if longside > 2000 then offset_bias fuel (longside / 2) ((bias * 2) % 2 ^ 32) else bias

/-- The values `xoff` and `yoff` of `write_extended_tags` (tiff.c:386-412), in `U32`
arithmetic; `none` stands for a division by zero. -/
def scaled_offsets (image : IMG_INFO) : Option (Nat × Nat) :=
  if PNG_MU_Micrometer ≠ image.offset_unit then
    if PNG_MU_None = image.resolution_unit then
      some ((image.xoffset * 3175) % 2 ^ 32 / 9, (image.yoffset * 3175) % 2 ^ 32 / 9)
    else
      let bias := offset_bias 32 (max image.xoffset image.yoffset) 1
      if bias = 0 ∨ image.xres / bias = 0 ∨ image.yres / bias = 0 then none
      else
        some ((image.xoffset * (1000000 / bias)) % 2 ^ 32 / (image.xres / bias),
          (image.yoffset * (1000000 / bias)) % 2 ^ 32 / (image.yres / bias))
  else some (image.xoffset, image.yoffset)

/-- The statement of `write_extended_tags` that assigns the unit when none is assigned
yet (tiff.c:379-383). -/
def write_default_unit (tiff_unit : Nat) (s : TiffState) : TiffState :=
  if 0xFFFF = tiff_unit then
    let s := { s with buf := PUT16 s.little_endian s.buf 0 TIFF_RU_CM }
    write_tag TIFF_TAG_ResolutionUnit TIFF_DT_SHORT 1 s.buf s
  else s

/-- The two position tags of `write_extended_tags` (tiff.c:414-422) for the values `xoff`
and `yoff`. -/
def write_positions (off : Nat × Nat) (s : TiffState) : TiffState :=
  let le := s.little_endian
  let s := { s with buf := PUT32 le (PUT32 le s.buf 0 off.1) 4 10000 }
  let s := write_tag TIFF_TAG_XPosition TIFF_DT_RATIONAL 1 s.buf s
  let s := { s with buf := PUT32 le (PUT32 le s.buf 0 off.2) 4 10000 }
  write_tag TIFF_TAG_YPosition TIFF_DT_RATIONAL 1 s.buf s

/-- The offset part of `write_extended_tags` (tiff.c:376-424), given the value of
`tiff_unit`; `none` stands for a division by zero. -/
def write_position_tags (tiff_unit : Nat) (s : TiffState) : Option TiffState :=
  if 0 ≠ s.image.xoffset then
    if TIFF_RU_NONE ≠ tiff_unit then
      (scaled_offsets s.image).map fun off =>
        write_positions off (write_default_unit tiff_unit s)
    else some s
  else some s

/-- The chromaticity part of `write_extended_tags` (tiff.c:428-445). -/
def write_chromaticity_tags (s : TiffState) : TiffState :=
  if 0 ≠ s.image.chromaticities.getD 0 0 then
    let le := s.little_endian
    let white := (List.range 2).foldl (fun buf i =>
      PUT32 le (PUT32 le buf (8 * i) (s.image.chromaticities.getD i 0)) (8 * i + 4) 100000)
      s.buf
    let s := { s with buf := white }
    let s := write_tag TIFF_TAG_WhitePoint TIFF_DT_RATIONAL 2 s.buf s
    let primaries := (List.range 6).foldl (fun buf i =>
      PUT32 le (PUT32 le buf (8 * i) (s.image.chromaticities.getD (i + 2) 0)) (8 * i + 4)
        100000) s.buf
    let s := { s with buf := primaries }
    write_tag TIFF_TAG_PrimaryChromaticities TIFF_DT_RATIONAL 6 s.buf s
  else s

/-- The keyword part of `write_extended_tags` (tiff.c:450-456): one ASCII tag for every
keyword that has a text; the value is the text with its terminating zero. -/
def write_ascii_tags (s : TiffState) : TiffState :=
  (List.range N_KEYWORDS).foldl (fun s i =>
    match s.image.keywords.getD i none with
    | none => s
    | some text =>
      write_tag (ASCII_tags.getD i 0) TIFF_DT_ASCII ((text.length + 1) % 2 ^ 32)
        (text ++ [0]) s) s

/-- The gamma part of `write_extended_tags` (tiff.c:460-476).  The table entries are
computed in floating point; `gamma_curve index` stands for the value of
`floor(0.5 + 65535 * pow(index / maxval, 1.0 / source_gamma))`, which the store into a
`U16` reduces modulo 2^16. -/
def write_transfer_function (IOBUF_SIZE : Nat) (gamma_curve : Nat → Nat) (s : TiffState) :
    Option Err × TiffState :=
  if 0 ≠ s.image.source_gamma then
    let count := (1 <<< s.image.bits_per_sample) % 2 ^ 32
    if (2 * count) % 2 ^ 32 > IOBUF_SIZE then (some .ERR_WRITE, s)
    else
      let le := s.little_endian
      let table := (List.range (count - 1)).foldl (fun buf k =>
        PUT16 le buf (2 * (k + 1)) (gamma_curve (k + 1) % 2 ^ 16)) (PUT16 le s.buf 0 0)
      let s := { s with buf := table }
      (none, write_tag TIFF_TAG_TransferFunction TIFF_DT_SHORT count s.buf s)
  else (none, s)

/-- write_extended_tags (tiff.c:338-478): the value returned (`none` for 0) and the
state; the outer `none` stands for a division by zero. -/
def write_extended_tags (IOBUF_SIZE : Nat) (gamma_curve : Nat → Nat) (s : TiffState) :
    Option (Option Err × TiffState) :=
  let r := write_resolution_tags s
  (write_position_tags r.1 r.2).map fun s =>
    write_transfer_function IOBUF_SIZE gamma_curve
      (write_ascii_tags (write_chromaticity_tags s))

/-- The first part of `write_png_data` (tiff.c:224-229): the entry for the tag
`TIFF_TAG_PNGChunks`, a constant of the missing `ptot.h` that is taken as the parameter
`PNGChunks`, with the type, the count and, after the alignment, the file offset. -/
def write_png_entry (PNGChunks : Nat) (s : TiffState) : TiffState :=
  let r := get_tag_pos PNGChunks s
  let newpos := r.1
  let s := r.2
  let entry : TiffEntry :=
    { (s.ifd.getD newpos zero_entry) with
      dtype := TIFF_DT_UNDEFINED, count := s.image.png_data_size }
  let s := { s with ifd := s.ifd.set newpos entry }
  let s := align_file_offset 2 s
  let entry : TiffEntry :=
    { (s.ifd.getD newpos zero_entry) with
      value := bytes32 s.little_endian s.file_offset }
  { s with ifd := s.ifd.set newpos entry }

/-- The loop of `write_png_data` (tiff.c:230-237) on the unread bytes `inf` of the file
of passed-on chunks; `none` when more than `fuel` iterations are needed. -/
def write_png_loop (IOBUF_SIZE : Nat) : Nat → List Nat → TiffState → Option TiffState
  | 0, _, s => if 0 ≠ s.image.png_data_size then none else some s
  | fuel + 1, inf, s =>
    if 0 ≠ s.image.png_data_size then
      let rd := inf.take (min IOBUF_SIZE s.image.png_data_size)
      write_png_loop IOBUF_SIZE fuel (inf.drop (min IOBUF_SIZE s.image.png_data_size))
        { s with
          buf := rd ++ s.buf.drop rd.length
          outf := s.outf ++ rd
          image := { s.image with
            png_data_size := (s.image.png_data_size + 2 ^ 32 - rd.length % 2 ^ 32) % 2 ^ 32 }
          file_offset := (s.file_offset + rd.length) % 2 ^ 32 }
    else some s

/-- write_png_data (tiff.c:211-240).  The opening of the file is taken to succeed.  Every
iteration that ends the loop or goes on usefully reads at least one byte, so
`png_data_size` iterations are enough; the result is `none` when the loop does not end. -/
def write_png_data (IOBUF_SIZE PNGChunks : Nat) (s : TiffState) : Option TiffState :=
  write_png_loop IOBUF_SIZE s.image.png_data_size (s.image.png_data_file.getD [])
    (write_png_entry PNGChunks s)

/-- The twelve bytes of an entry of `ts.ifd` in the memory of the host. -/
def entry_image (little_endian : Bool) (e : TiffEntry) : List Nat :=
  bytes16 little_endian e.tag ++ bytes16 little_endian e.dtype
    ++ bytes32 little_endian e.count ++ first_bytes e.value 4

/-- write_ifd (tiff.c:480-507): the directory is appended to the file and its offset is
written over bytes 4 to 7. -/
def write_ifd (s : TiffState) : TiffState :=
  let s := align_file_offset 2 s
  let le := s.little_endian
  let s := { s with buf := PUT16 le s.buf 0 s.tag_count }
  let s := { s with outf := s.outf ++ first_bytes s.buf 2 }
  let s := { s with outf := s.outf ++ (directory s).flatMap (entry_image le) }
  let s := { s with buf := PUT32 le s.buf 0 0 }
  let s := { s with outf := s.outf ++ first_bytes s.buf 4 }
  let s := { s with buf := PUT32 le s.buf 0 s.file_offset }
  { s with outf := poke s.outf 4 (first_bytes s.buf 4) }

/-- write_TIFF (tiff.c:103-143): the final state of the writer, whose `outf` is the
finished file, and the trace of the offsets at which the strips start.  `none` stands for
a run that does not reach the end (a division by zero, or the loop of `write_png_data`
not ending); allocations and writes are taken to succeed. -/
def write_TIFF (IOBUF_SIZE PNGChunks : Nat) (gamma_curve : Nat → Nat) (little_endian : Bool)
    (buf0 line_buf0 : List Nat) (image : IMG_INFO) :
    Option (Except Err (TiffState × List Nat)) :=
  let s := write_TIFF_start image little_endian buf0
  match write_basic_tags IOBUF_SIZE s with
  | (some e, _) => some (.error e)
  | (none, s) =>
    match write_strips IOBUF_SIZE line_buf0 s with
    | none => none
    | some (some e, _) => some (.error e)
    | some (none, run) =>
      match write_extended_tags IOBUF_SIZE gamma_curve run.ts with
      | none => none
      | some (some e, _) => some (.error e)
      | some (none, s) =>
        (if 0 ≠ s.image.png_data_size then write_png_data IOBUF_SIZE PNGChunks s
          else some s).map fun s => .ok (write_ifd s, run.starts)

/-! ## Notions used in the statements about the layout of the file -/

/-- The cursor follows the file: `file_offset` is the number of bytes written so far,
modulo 2^32. -/
def Tracked (s : TiffState) : Prop :=
  s.outf.length % 2 ^ 32 = s.file_offset

/-- Every entry of the directory whose value lies outside the entry (a value of more than
four bytes, or the value of type UNDEFINED that `write_png_data` enters) holds an even
file offset. -/
def EvenOffsets (s : TiffState) : Prop :=
  ∀ e ∈ directory s,
    (4 < (e.count * data_sizes.getD e.dtype 0) % 2 ^ 32 ∨ e.dtype = TIFF_DT_UNDEFINED) →
      GET32 s.little_endian e.value % 2 = 0

/-- The states that the writer reaches from a state by the steps of which `write_TIFF` is
made: a call of `write_tag` for a type other than UNDEFINED, a change of the contents of
the buffer, a call of `align_file_offset(2)`, a write of bytes to the file with the
cursor advanced by their number, and the entry for the passed-on chunks.  The index
counts the entries added to the directory. -/
inductive Reach : Nat → TiffState → TiffState → Prop where
  | refl (s : TiffState) : Reach 0 s s
  | tag {k : Nat} {s s1 : TiffState} (t ty c : Nat) (b : List Nat) :
      Reach k s s1 → ty ≠ TIFF_DT_UNDEFINED → Reach (k + 1) s (write_tag t ty c b s1)
  | buf {k : Nat} {s s1 : TiffState} (b : List Nat) :
      Reach k s s1 → b.length = s1.buf.length → Reach k s { s1 with buf := b }
  | align {k : Nat} {s s1 : TiffState} :
      Reach k s s1 → Reach k s (align_file_offset 2 s1)
  | put {k : Nat} {s s1 : TiffState} (bytes : List Nat) :
      Reach k s s1 → Reach k s { s1 with
        outf := s1.outf ++ bytes
        file_offset := (s1.file_offset + bytes.length) % 2 ^ 32 }
  | blob {k : Nat} {s s1 : TiffState} (PNGChunks : Nat) :
      Reach k s s1 → Reach (k + 1) s (write_png_entry PNGChunks s1)

/-- The 1 x 1 truecolour image of depth 8 together with a file of passed-on chunks that
holds three bytes. -/
def one_pixel_with_chunks : IMG_INFO :=
  { one_pixel_rgb with png_data_file := some [7, 8, 9], png_data_size := 3 }

/-- The state and the strip trace that `write_TIFF` ends with for `one_pixel_with_chunks`,
on a little-endian host with buffers of 768 bytes, the tag 65000 for the passed-on chunks
and a transfer table of zeros. -/
def one_pixel_tiff : TiffState × List Nat :=
  match write_TIFF 768 65000 (fun _ => 0) true (List.replicate 768 0) [0, 0, 0]
      one_pixel_with_chunks with
  | some (.ok r) => r
  | _ => (write_TIFF_start one_pixel_with_chunks true [], [])

/-! ## The stepping rule of the interlacing passes, for comparison with `interlace_pattern` -/

/-- The stepping rule of the spec for pass `p`: row `r` and column `c` belong to the pass
when `r` is at or after the starting row of the pass, at a multiple of its row increment
from it, and `c` likewise for the starting column and the column increment. -/
def in_pass (p r c : Nat) : Bool :=
  decide (r ≥ starting_row.getD p 0 ∧ (r - starting_row.getD p 0) % row_increment.getD p 0 = 0 ∧
    c ≥ starting_col.getD p 0 ∧ (c - starting_col.getD p 0) % col_increment.getD p 0 = 0)

/-! ## The row filters in the words of the spec, for comparison with `unfilter` -/

/-- The Paeth predictor in the words of the spec: the first of `left`, `above`,
`upper_left`, in that order, whose absolute distance to `left + above - upper_left` is
the least of the three distances. -/
def paeth_first_closest (left above upper_left : Nat) : Nat :=
  let estimate : Int := (left : Int) + above - upper_left
  let distance := fun (v : Nat) => (estimate - (v : Int)).natAbs
  let least := min (distance left) (min (distance above) (distance upper_left))
  ([left, above, upper_left].find? fun v => distance v == least).getD upper_left

/-- The predictor of the spec for the filter tag `f` in 0..4: 0 for None, `left` for Sub,
`above` for Up, the floor of the mean of `left` and `above` for Average, and for Paeth
the choice `paeth_first_closest`. -/
def filter_prediction (f left above upper_left : Nat) : Nat :=
  match f with
  | 0 => 0
  | 1 => left
  | 2 => above
  | 3 => (left + above) / 2
  | _ => paeth_first_closest left above upper_left

/-! ## The columns of a pass, for comparison with `new_line_size` -/

/-- The number of columns `c < width` with `c ≥ start` and `c` congruent to `start`
modulo `increment`, in the words of the spec. -/
def columns_of_pass (width start increment : Nat) : Nat :=
  ((List.range width).filter fun c => decide (c ≥ start ∧ (c - start) % increment = 0)).length

/-- The row width that `write_byte` computes for pass `q` (zchunks.c:342-344). -/
def pass_line_size (image : IMG_INFO) (q : Nat) : Nat :=
  new_line_size image (starting_col.getD q 0) (col_increment.getD q 0)

/-- An image of 3 columns and 8 rows with one sample of 4 bits per pixel: too narrow for
pass 1 of the interlacing. -/
def narrow_image : IMG_INFO :=
  { width := 3, height := 8, bits_per_sample := 4, samples_per_pixel := 1 }

/-! ## Notions used in the statement about the order of the insertions -/

/-- The tag id, the type and the count of every entry of the directory, in the order of
the entries. -/
def directory_triples (s : TiffState) : List (Nat × Nat × Nat) :=
  (directory s).map fun e => (e.tag, e.dtype, e.count)

/-- The entry that `write_tag(newtag, data_type, count, buffer)` makes for a value that
it stores inline: the first `data_size` bytes of the buffer, then zero bytes. -/
def inline_entry (c : Nat × Nat × Nat × List Nat) : TiffEntry :=
  { tag := c.1, dtype := c.2.1, count := c.2.2.1
    value := (first_bytes c.2.2.2 4).take ((c.2.2.1 * data_sizes.getD c.2.1 0) % 2 ^ 32) ++
      List.replicate (4 - (c.2.2.1 * data_sizes.getD c.2.1 0) % 2 ^ 32) 0 }

/-! ## ptot.c: the chunks of physical size and offset -/

/-- decode_pHYs (ptot.c:558-576). -/
def decode_pHYs (IOBUF_SIZE : Nat) (s : ChunkState) (image : IMG_INFO) :
    Except Err (ChunkState × IMG_INFO) :=
  if s.bytes_remaining < 9 then .error .ERR_BAD_PNG
  else
    let s := get_chunk_data IOBUF_SIZE 9 s
    if 9 ≠ s.bytes_in_buf then .error .ERR_READ
    else
      let image := { image with resolution_unit := s.buf.getD 8 0 }
      let s := if s.buf.getD 8 0 > PNG_MU_Meter
        then { s with warnings := s.warnings ++ [Warning.WARN_BAD_VAL] } else s
      .ok (s, { image with xres := BE_GET32 s.buf, yres := BE_GET32 (s.buf.drop 4) })

/-- decode_oFFs (ptot.c:578-596). -/
def decode_oFFs (IOBUF_SIZE : Nat) (s : ChunkState) (image : IMG_INFO) :
    Except Err (ChunkState × IMG_INFO) :=
  if s.bytes_remaining < 9 then .error .ERR_BAD_PNG
  else
    let s := get_chunk_data IOBUF_SIZE 9 s
    if 9 ≠ s.bytes_in_buf then .error .ERR_READ
    else
      let image := { image with offset_unit := s.buf.getD 8 0 }
      let s := if s.buf.getD 8 0 > PNG_MU_Micrometer
        then { s with warnings := s.warnings ++ [Warning.WARN_BAD_VAL] } else s
      .ok (s, { image with xoffset := BE_GET32 s.buf, yoffset := BE_GET32 (s.buf.drop 4) })

/-- The condition of `ASSERT(PNG_MU_Meter == ts.image->resolution_unit)` in
`write_extended_tags` (tiff.c:348-352) for the descriptor `image`; `none` when control
does not reach the assertion. -/
def resolution_unit_assertion (image : IMG_INFO) : Option Bool :=
  if 0 ≠ image.xres then
    if PNG_MU_None = image.resolution_unit then none
    else some (PNG_MU_Meter == image.resolution_unit)
  else none

/-- The condition of `ASSERT(PNG_MU_Pixel == ts.image->offset_unit)` in
`write_extended_tags` (tiff.c:377-390) for the descriptor `image`, with `tiff_unit` as
the resolution part leaves it (tiff.c:346-354); `none` when control does not reach the
assertion. -/
def offset_unit_assertion (image : IMG_INFO) : Option Bool :=
  let tiff_unit :=
    if 0 ≠ image.xres then
      if PNG_MU_None = image.resolution_unit then TIFF_RU_NONE else TIFF_RU_CM
    else 0xFFFF
  if 0 ≠ image.xoffset then
    if TIFF_RU_NONE ≠ tiff_unit then
      if PNG_MU_Micrometer ≠ image.offset_unit then
        some (PNG_MU_Pixel == image.offset_unit)
      else none
    else none
  else none

/-- A reader at the body of a pHYs chunk: 2835 pixels per unit in both directions and the
unit code 2, which the PNG format does not define. -/
def phys_state : ChunkState :=
  { inf := [0, 0, 11, 19] ++ [0, 0, 11, 19] ++ [2] ++ [1, 2, 3, 4]
    buf := List.replicate 16 0
    bytes_in_buf := 0
    bytes_remaining := 9
    current_chunk_name := 0x70485973
    crc := 0
    warnings := [] }

/-- A reader at the body of an oFFs chunk: the offsets 100 and 50 and the unit code 2,
which the PNG format does not define. -/
def offs_state : ChunkState :=
  { inf := [0, 0, 0, 100] ++ [0, 0, 0, 50] ++ [2] ++ [1, 2, 3, 4]
    buf := List.replicate 16 0
    bytes_in_buf := 0
    bytes_remaining := 9
    current_chunk_name := 0x6F464673
    crc := 0
    warnings := [] }

/-! ## zchunks.c: the byte source of the decompressor -/

/-- Modelled from the spec: the chunk name `PNG_CN_IDAT` of `ptot.h` (absent from the
sources): the four letters "IDAT" as the big-endian number that get_chunk_header stores
in `current_chunk_name`. -/
def PNG_CN_IDAT : Nat := 0x49444154

/-- Modelled from the spec: the chunk name `PNG_CN_zTXt` of `ptot.h` (absent from the
sources): the four letters "zTXt" as a big-endian number. -/
def PNG_CN_zTXt : Nat := 0x7A545874

/-- fill_buf (zchunks.c:577-608) up to the conversion of the value returned: `.error e`
stands for a `return` of the error code `e`, and `.ok (byte, state)` for the final
`return *ps.bufp++` of a byte read from the file. -/
def fill_buf (PNG_MaxChunkLength IOBUF_SIZE : Nat) (s : ChunkState) :
    Except Err (Nat × ChunkState) :=
  let next : Except Err ChunkState :=
    if 0 = s.bytes_remaining then
      if PNG_CN_zTXt = s.current_chunk_name then .error .ERR_BAD_PNG
      else
        match verify_chunk_crc s with
        | .error e => .error e
        | .ok s =>
          match get_chunk_header PNG_MaxChunkLength s with
          | .error e => .error e
          | .ok s =>
            if ¬ PNG_CN_IDAT = s.current_chunk_name then .error .ERR_EARLY_EOI else .ok s
    else .ok s
  match next with
  | .error e => .error e
  | .ok s =>
    let r := fread_buf (min IOBUF_SIZE s.bytes_remaining) s
    let s : ChunkState := { r.2 with
      bufp := 0
      bytes_in_buf := r.1
      bytes_remaining := (r.2.bytes_remaining + 2 ^ 32 - r.1 % 2 ^ 32) % 2 ^ 32 }
    if 0 = s.bytes_in_buf then .error .ERR_READ
    else
      let s : ChunkState := { s with crc := update_crc s.crc (s.buf.take s.bytes_in_buf) }
      let s : ChunkState := { s with bytes_in_buf := s.bytes_in_buf - 1 }
      .ok (s.buf.getD s.bufp 0, { s with bufp := s.bufp + 1 })

/-- The value that the caller of `fill_buf` receives.  The function is declared with the
return type `U8` (zchunks.c:577), so that an error code arrives reduced modulo 256, like
a byte; `code` gives the values of the error codes in the missing `errors.h`. -/
def fill_buf_result (code : Err → Int) (r : Except Err (Nat × ChunkState)) : Nat :=
  match r with
  | .error e => (code e % 256).toNat
  | .ok (byte, _) => byte % 256

/-- The reader in a zTXt chunk of which every byte has been read, with the byte source
of the decompressor empty. -/
def ztxt_exhausted_state : ChunkState :=
  { inf := [1, 2, 3, 4] ++ [0, 0, 0, 0, 73, 69, 78, 68]
    buf := List.replicate 16 0
    bytes_in_buf := 0xFFFFFFFF
    bytes_remaining := 0
    current_chunk_name := PNG_CN_zTXt
    crc := 0
    warnings := [] }

/-- The reader in an IDAT chunk of which every byte has been read; the file goes on with
the four CRC bytes and the header of an IEND chunk. -/
def idat_exhausted_state : ChunkState :=
  { inf := [1, 2, 3, 4] ++ [0, 0, 0, 0, 73, 69, 78, 68]
    buf := List.replicate 16 0
    bytes_in_buf := 0xFFFFFFFF
    bytes_remaining := 0
    current_chunk_name := PNG_CN_IDAT
    crc := 0
    warnings := [] }

/-- The reader in an IDAT chunk with one byte of data left, the byte `byte`. -/
def idat_data_state (byte : Nat) : ChunkState :=
  { inf := [byte] ++ [1, 2, 3, 4]
    buf := List.replicate 16 0
    bytes_in_buf := 0xFFFFFFFF
    bytes_remaining := 1
    current_chunk_name := PNG_CN_IDAT
    crc := 0
    warnings := [] }

/-! ## ppm.c: the PPM writer -/

/-- The conversion `%d` of `fprintf` applied to a 32-bit value, with `int` taken as 32
bits wide: the characters of the decimal numeral, after a minus sign for the values from
2^31 on. -/
def fprintf_d (v : Nat) : List Nat :=
  if v % 2 ^ 32 < 2 ^ 31 then (Nat.toDigits 10 (v % 2 ^ 32)).map Char.toNat
  else 45 :: (Nat.toDigits 10 (2 ^ 32 - v % 2 ^ 32)).map Char.toNat

/-- The loop `while (! feof(inf))` of `write_PPM` (ppm.c:54-58) on the unread bytes `inf`
of the pixel data file, the end-of-file indicator `eof` of the stream and the bytes `out`
written so far.  The indicator is set only by a read at the end of the file; `getc` then
returns `EOF`, which the store into the `char c` turns into the byte 0xFF, and the byte
is written like the others.  The first argument bounds the iterations. -/
def write_PPM_loop : Nat → List Nat → Bool → List Nat → List Nat
  | 0, _, _, out => out
  | fuel + 1, inf, eof, out =>
    if !eof then
      match inf with
      | [] => write_PPM_loop fuel [] true (out ++ [0xFF])
      | c :: rest => write_PPM_loop fuel rest false (out ++ [c])
    else out

/-- write_PPM (ppm.c:16-63): the value returned (`none` for 0) and the bytes written to
`outf`.  The loop makes one iteration for each byte of the pixel data file and one more,
so two more than the length of the file are enough. -/
def write_PPM (image : IMG_INFO) : Option Err × List Nat :=
  match image.pixel_data_file with
  | none => (some .ERR_READ, [])
  | some inf =>
    if image.is_palette then (some .ERR_BAD_PNG, [])
    else if !image.is_color then (some .ERR_BAD_PNG, [])
    else
      (none, write_PPM_loop (inf.length + 2) inf false
        ([80, 54, 10] ++ fprintf_d image.width ++ [32] ++ fprintf_d image.height
          ++ [10, 50, 53, 53, 10]))

/-! ## A palette longer than the colour map -/

/-- A reader at the body of a PLTE chunk of twelve bytes: four palette entries. -/
def plte_four_state : ChunkState :=
  { inf := [1, 2, 3, 4, 5, 6, 7, 8, 9, 10, 11, 12] ++ [1, 2, 3, 4]
    buf := List.replicate 768 0
    bytes_in_buf := 0
    bytes_remaining := 12
    current_chunk_name := 0x504C5445
    crc := 0
    warnings := [] }

/-- The descriptor of a palette image of bit depth 1, as decode_IHDR leaves it. -/
def one_bit_palette_image : IMG_INFO :=
  { width := 1, height := 1, bits_per_sample := 1, samples_per_pixel := 1
    is_color := true, is_palette := true, palette := List.replicate 768 0 }

/-- The descriptor `one_bit_palette_image` with the four palette entries of
`plte_four_state`, as decode_PLTE leaves it. -/
def one_bit_four_entries : IMG_INFO :=
  { one_bit_palette_image with
    palette_size := 4
    palette := [1, 2, 3, 4, 5, 6, 7, 8, 9, 10, 11, 12] ++ List.replicate 756 0 }

/-! ## The samples of a packed row, for comparison with the unpacking of `write_byte` -/

/-- Sample `j` of a row of `d`-bit samples packed into bytes, the samples of a byte taken
from its most significant bits on, in the words of the spec. -/
def row_sample (d : Nat) (row : List Nat) (j : Nat) : Nat :=
  (row.getD (j * d / 8) 0 >>> (8 - d - j * d % 8)) % 2 ^ d

/-- The first `n` samples of a row of `d`-bit samples, each scaled to the range 0..255:
the floor of `sample * 255 / (2^d - 1)`. -/
def scaled_samples (d n : Nat) (row : List Nat) : List Nat :=
  (List.range n).map fun j => row_sample d row j * 255 / (2 ^ d - 1)

/-- The state of the unpacking loop of `write_byte` before it takes sample `k` of the
row: at a byte boundary no bits are left and `temp` stands at the byte of the sample;
otherwise `temp` stands after that byte and `byte` holds it, shifted left by the bits
already taken. -/
def UnpackInv (d : Nat) (row : List Nat) (k : Nat) (temp : List Nat) (byte got_bits : Nat) :
    Prop :=
  if k * d % 8 = 0 then got_bits = 0 ∧ temp = row.drop (k * d / 8)
  else got_bits = 8 - k * d % 8 ∧ temp = row.drop (k * d / 8 + 1) ∧
    byte = row.getD (k * d / 8) 0 * 2 ^ (k * d % 8) % 256

/-- The decoder at the last byte of the only row of a 5 x 1 grey image of bit depth 2,
not interlaced: the row holds the samples 0, 1, 2, 3, 3. -/
def two_bit_row_state : PngState :=
  { image := { width := 5, height := 1, bits_per_sample := 2, samples_per_pixel := 1 }
    this_line := [27, 192], last_line := [0, 0], line_x := 1, line_size := 2
    byte_offset := 1, cur_filter := 0 }

/-! ## Headers and chunks that the reader accepts although the PNG format forbids them -/

/-- A reader at the body of an IHDR chunk for a 4 by 4 image of bit depth 4 with the
colour type 5 (the palette bit and the alpha bit), not interlaced. -/
def ihdr_palette_alpha_state : ChunkState :=
  { inf := [0, 0, 0, 4] ++ [0, 0, 0, 4] ++ [4, 5, 0, 0, 0] ++ [1, 2, 3, 4]
    buf := List.replicate 16 0
    bytes_in_buf := 0
    bytes_remaining := 13
    current_chunk_name := 0x49484452
    crc := 0
    warnings := [] }

/-- A reader at the body of a pHYs chunk: 2835 pixels per metre (72 per inch) in both
directions, unit code 1. -/
def phys_meter_state : ChunkState :=
  { inf := [0, 0, 11, 19] ++ [0, 0, 11, 19] ++ [1] ++ [1, 2, 3, 4]
    buf := List.replicate 16 0
    bytes_in_buf := 0
    bytes_remaining := 9
    current_chunk_name := 0x70485973
    crc := 0
    warnings := [] }

/-- A reader at the body of an oFFs chunk: the offsets 6000000 and 0 in pixels, unit
code 0. -/
def offs_far_state : ChunkState :=
  { inf := [0, 91, 141, 128] ++ [0, 0, 0, 0] ++ [0] ++ [1, 2, 3, 4]
    buf := List.replicate 16 0
    bytes_in_buf := 0
    bytes_remaining := 9
    current_chunk_name := 0x6F464673
    crc := 0
    warnings := [] }

/-- The descriptor of the 1 x 1 truecolour image after decode_pHYs on `phys_meter_state`
and decode_oFFs on `offs_far_state`. -/
def far_offset_image : Option IMG_INFO :=
  match decode_pHYs 8192 phys_meter_state one_pixel_rgb with
  | .ok r =>
    match decode_oFFs 8192 offs_far_state r.2 with
    | .ok r2 => some r2.2
    | .error _ => none
  | .error _ => none

/-! ## The bit-serial CRC, for comparison with the table-driven `update_crc` -/

/-- One step of the bit-serial reflected CRC in the words of the spec: shift right by one
and XOR 0xEDB88320 when the bit shifted out was 1. -/
def crc_shift_step (c : Nat) : Nat :=
  if c % 2 = 1 then (c / 2) ^^^ 0xEDB88320 else c / 2

/-- The bit-serial reflected CRC update in the words of the spec: for each byte, XOR the
byte into the low 8 bits and make 8 steps. -/
def crc_bit_serial (crc : Nat) (data : List Nat) : Nat :=
  data.foldl (fun c b => crc_shift_step^[8] (c ^^^ b)) crc

/-! ## The check of the cursor in `write_ifd` -/

/-- The value that `write_ifd` gives to its local `err` (tiff.c:491-493): after the
alignment, `ts.file_offset` is compared with `(U32)ftell(ts.outf)`, the length of the
file as a 32-bit number; `none` stands for 0.  The function returns 0 whatever the
outcome. -/
def write_ifd_err (s : TiffState) : Option Err :=
  let s := align_file_offset 2 s
  if s.file_offset = s.outf.length % 2 ^ 32 then none else some Err.ERR_WRITE

/-! ## A sample run of `decode_IDAT` over two rows -/

/-- A grey image of two rows of three 8-bit pixels before `decode_IDAT`. -/
def two_row_image_state : PngState :=
  { image := { width := 3, height := 2, bits_per_sample := 8, samples_per_pixel := 1 } }

/-- The state that `decode_IDAT` ends with for `two_row_image_state` when the stream has
the header bytes 78 9C and inflates to one window holding the row 1, 2, 3 with the filter
None and the row 1, 1, 1 with the filter Up. -/
def two_row_result : Option PngState :=
  match decode_IDAT 0x78 0x9C [[0, 1, 2, 3, 2, 1, 1, 1]] two_row_image_state with
  | .ok r => r
  | .error _ => none

/-! ## The strip loop of `write_strips` on an image whose height is no multiple of the strip -/

/-- The part of `write_strips` between the strip sizing and the strip loop
(tiff.c:543-560): the entries RowsPerStrip, StripByteCounts and StripOffsets, for the
values `sizes` = (`rows_per_strip`, `total_strips`, `strip_size`) of the sizing. -/
def strip_tags_state (sizes : Nat × Nat × Nat) (s : TiffState) : TiffState :=
  let rows_per_strip := sizes.1
  let total_strips := sizes.2.1
  let strip_size := sizes.2.2
  let le := s.little_endian
  let s := { s with buf := PUT32 le s.buf 0 rows_per_strip }
  let s := write_tag TIFF_TAG_RowsPerStrip TIFF_DT_LONG 1 s.buf s
  let counts := (List.range total_strips).foldl
    (fun buf strip => PUT32 le buf (4 * strip) strip_size) s.buf
  let s := { s with buf := counts }
  let s := write_tag TIFF_TAG_StripByteCounts TIFF_DT_LONG total_strips s.buf s
  let s := align_file_offset 2 s
  let strip_size := if 0 ≠ strip_size &&& 1 then (strip_size + 1) % 2 ^ 32 else strip_size
  let offsets := (List.range total_strips).foldl
    (fun buf strip => PUT32 le buf (4 * strip)
      ((s.file_offset + 4 * total_strips + strip * strip_size) % 2 ^ 32)) s.buf
  let s := { s with buf := offsets }
  write_tag TIFF_TAG_StripOffsets TIFF_DT_LONG total_strips s.buf s

/-- A grey image of depth 8 with 4096 columns and 3 rows, every pixel 7. -/
def three_row_gray : IMG_INFO :=
  { width := 4096, height := 3, bits_per_sample := 8, samples_per_pixel := 1
    pixel_data_file := some (List.replicate 12288 7) }
/-! ## Sequences of insertions into the directory -/

/-- One insertion into the directory: a call `write_tag(newtag, data_type, count, buffer)`
or a call of `write_png_data`, the two callers of `get_tag_pos`. -/
inductive Insertion where
  | tag (newtag data_type count : Nat) (buffer : List Nat) : Insertion
  | png_data : Insertion
  deriving DecidableEq, Repr

/-- The tag id that an insertion hands to `get_tag_pos`; `PNGChunks` is the tag id of the
entry of `write_png_data`. -/
def inserted_tag (PNGChunks : Nat) : Insertion → Nat
  | .tag newtag _ _ _ => newtag
  | .png_data => PNGChunks

/-- A sequence of insertions made in order; `none` when a call of `write_png_data` does not
return. -/
def insert_all (IOBUF_SIZE PNGChunks : Nat) : List Insertion → TiffState → Option TiffState
  | [], s => some s
  | .tag newtag data_type count buffer :: rest, s =>
    insert_all IOBUF_SIZE PNGChunks rest (write_tag newtag data_type count buffer s)
  | .png_data :: rest, s =>
    (write_png_data IOBUF_SIZE PNGChunks s).bind (insert_all IOBUF_SIZE PNGChunks rest)

/-- The positions `tagpos` of `ts.ifd` that the `for` loop of `get_tag_pos`
(tiff.c:169-171) copies to, in order, from the start value `tagpos` down to
`newpos + 1`. -/
def shift_targets (newpos : Nat) : Nat → List Nat
  | 0 => []
  | tagpos + 1 =>
    if tagpos + 1 > newpos then (tagpos + 1) :: shift_targets newpos tagpos else []

/-- The positions of `ts.ifd` that `get_tag_pos(newtag)` copies to (tiff.c:169-171): the
loop starts at `tagpos = ++ts.tag_count`. -/
def get_tag_pos_targets (newtag : Nat) (s : TiffState) : List Nat :=
  shift_targets (get_tag_pos_scan s.ifd s.tag_count newtag s.tag_count 0) (s.tag_count + 1)

/-- Three insertions, the second by `write_png_data`. -/
def sample_insertions : List Insertion :=
  [.tag 277 3 1 [3, 0], .png_data, .tag 256 4 1 [1, 0, 0, 0]]

/-- The state after `sample_insertions`, made from the start state of `write_TIFF` for
`one_pixel_with_chunks` with a buffer of 16 bytes and the tag 65000 for the passed-on
chunks. -/
def sample_insertions_state : TiffState :=
  match insert_all 16 65000 sample_insertions
      (write_TIFF_start one_pixel_with_chunks true (List.replicate 16 0)) with
  | some s => s
  | none => write_TIFF_start one_pixel_with_chunks true []

/-- The state after 39 calls of `write_tag`, for the tag ids 256 to 294 with one SHORT
each, made from the start state of `write_TIFF`. -/
def thirty_nine_tags : TiffState :=
  write_tags ((List.range 39).map fun k => (256 + k, TIFF_DT_SHORT, 1, [0, 0]))
    (write_TIFF_start {} true (List.replicate 16 0))

/-! ## An interlaced image of four rows -/

/-- The 1 x 4 raster of one-byte pixels 10, 20, 30, 65. -/
def raster_1x4 : List (List Nat) := [[10], [20], [30], [65]]

/-- The descriptor of an interlaced grey image of depth 8 with 1 column and 4 rows. -/
def image_1x4_interlaced : IMG_INFO :=
  { width := 1, height := 4, bits_per_sample := 8, samples_per_pixel := 1,
    is_interlaced := true }

/-- The descriptor of a grey image of depth 8 with 1 column and 4 rows, not interlaced. -/
def image_1x4_plain : IMG_INFO :=
  { width := 1, height := 4, bits_per_sample := 8, samples_per_pixel := 1 }

/-- The state of the decoder after `decode_IDAT` has received `stream` in one window,
behind the header bytes 0x78 0x9C: the pass, the row, the column, the filter tag, the row
width and the first `line_size` bytes of the previous-row buffer. -/
def decoder_position (image : IMG_INFO) (stream : List Nat) :
    Option (Nat × Nat × Nat × Nat × Nat × List Nat) :=
  match decode_IDAT 0x78 0x9C [stream] { image := image } with
  | .ok (some s) => some (s.interlace_pass, s.current_row, s.line_x, s.cur_filter,
      s.line_size, s.last_line.take s.line_size)
  | _ => none

/-! # Theorems

All definitions of the embedding stand above this line; the statements proved about them
follow, grouped by source file. -/

/-! ## Theorems: CRC-32 -/

theorem update_crc_append (c : Nat) (x y : List Nat) :
    update_crc (update_crc c x) y = update_crc c (x ++ y) := by
  simp [update_crc, List.foldl_append]

/-- C1: the CRC-32 of the nine ASCII bytes of "123456789", computed by `update_crc` from
the seed 0xFFFFFFFF and XORed with 0xFFFFFFFF at the end, is 0xCBF43926. -/
theorem crc32_check_value :
    update_crc 0xFFFFFFFF [0x31, 0x32, 0x33, 0x34, 0x35, 0x36, 0x37, 0x38, 0x39] ^^^ 0xFFFFFFFF
      = 0xCBF43926 := by
  decide

/-! ## Theorems: the running CRC of a chunk -/

theorem take_append_of_length_le (post rest : List Nat) (m : Nat)
    (h : ((post ++ rest).take m).length ≤ post.length) :
    (post ++ rest).take m = post.take m ∧ (post ++ rest).drop m = post.drop m ++ rest := by
  rcases Nat.lt_or_ge post.length m with hm | hm
  swap
  · exact ⟨List.take_append_of_le_length hm, List.drop_append_of_le_length hm⟩
  · have hr : rest = [] := by
      rw [List.length_take, List.length_append] at h
      have : rest.length = 0 := by omega
      exact List.length_eq_zero.mp this
    subst hr
    simp

theorem get_chunk_data_inChunk (IOBUF_SIZE n : Nat) (t b rest : List Nat) (s : ChunkState)
    (hs : InChunk t b rest s)
    (hn : (get_chunk_data IOBUF_SIZE n s).bytes_in_buf ≤ s.bytes_remaining) :
    InChunk t b rest (get_chunk_data IOBUF_SIZE n s) := by
  obtain ⟨pre, post, hb, hinf, hcrc, hrem, hlt⟩ := hs
  have hlen : ((post ++ rest).take (min IOBUF_SIZE n)).length ≤ post.length := by
    have := hn
    simp only [get_chunk_data, fread_buf, hinf, hrem] at this
    exact this
  obtain ⟨htake, hdrop⟩ := take_append_of_length_le post rest _ hlen
  refine ⟨pre ++ post.take (min IOBUF_SIZE n), post.drop (min IOBUF_SIZE n), ?_, ?_, ?_, ?_, ?_⟩
  · rw [List.append_assoc, List.take_append_drop]; exact hb
  · simp [get_chunk_data, fread_buf, hinf, hdrop]
  · simp only [get_chunk_data, fread_buf, hinf, hcrc, htake, List.take_left', update_crc_append,
      List.append_assoc]
  · simp only [get_chunk_data, fread_buf, hinf, hrem, htake, List.length_take, List.length_drop]
    omega
  · simp only [List.length_drop]; omega

theorem get_chunk_data_remaining (IOBUF_SIZE n : Nat) (t b rest : List Nat) (s : ChunkState)
    (hs : InChunk t b rest s) (hn : min IOBUF_SIZE n ≤ s.bytes_remaining) :
    (get_chunk_data IOBUF_SIZE n s).bytes_in_buf ≤ s.bytes_remaining ∧
    (get_chunk_data IOBUF_SIZE n s).bytes_remaining
      = s.bytes_remaining - min IOBUF_SIZE n := by
  obtain ⟨pre, post, hb, hinf, hcrc, hrem, hlt⟩ := hs
  simp only [get_chunk_data, fread_buf, hinf, hrem, List.length_take, List.length_append]
  rw [hrem] at hn
  omega

theorem handler_reads_inChunk (IOBUF_SIZE : Nat) (t b rest : List Nat) (ns : List Nat) :
    ∀ s : ChunkState, InChunk t b rest s →
      requests_within_chunk IOBUF_SIZE ns s.bytes_remaining = true →
      InChunk t b rest (handler_reads IOBUF_SIZE ns s) := by
  induction ns with
  | nil => intro s hs _; exact hs
  | cons n ns ih =>
    intro s hs hr
    simp only [requests_within_chunk, Bool.and_eq_true, decide_eq_true_eq] at hr
    obtain ⟨h1, h2⟩ := get_chunk_data_remaining IOBUF_SIZE n t b rest s hs hr.1
    exact ih _ (get_chunk_data_inChunk IOBUF_SIZE n t b rest s hs h1) (by rw [h2]; exact hr.2)

theorem skip_chunk_data_loop_inChunk (IOBUF_SIZE : Nat) (hio : 0 < IOBUF_SIZE)
    (t b rest : List Nat) :
    ∀ (fuel : Nat) (s : ChunkState), InChunk t b rest s → s.bytes_remaining < fuel →
      ∃ s3, skip_chunk_data_loop IOBUF_SIZE fuel s = some s3 ∧
        s3.crc = update_crc 0xFFFFFFFF (t ++ b) ∧ s3.inf = rest ∧ s3.bytes_remaining = 0 := by
  intro fuel
  induction fuel with
  | zero => intro s _ h; omega
  | succ fuel ih =>
    intro s hs hfuel
    have hread : (get_chunk_data IOBUF_SIZE s.bytes_remaining s).bytes_in_buf
        ≤ s.bytes_remaining := by
      simp only [get_chunk_data, fread_buf, List.length_take]
      omega
    have hs1 := get_chunk_data_inChunk IOBUF_SIZE s.bytes_remaining t b rest s hs hread
    obtain ⟨pre, post, hb, hinf, hcrc, hrem, hlt⟩ := hs
    have hcount : (get_chunk_data IOBUF_SIZE s.bytes_remaining s).bytes_in_buf
        = min IOBUF_SIZE post.length := by
      simp only [get_chunk_data, fread_buf, List.length_take, hinf, hrem, List.length_append]
      omega
    have hrem1 : (get_chunk_data IOBUF_SIZE s.bytes_remaining s).bytes_remaining
        = post.length - min IOBUF_SIZE post.length := by
      simp only [get_chunk_data, fread_buf, List.length_take, hinf, hrem, List.length_append]
      omega
    simp only [skip_chunk_data_loop]
    by_cases hz : (get_chunk_data IOBUF_SIZE s.bytes_remaining s).bytes_in_buf ≠ 0
    · rw [if_pos hz]
      apply ih _ hs1
      rw [hrem1]; rw [hcount] at hz; omega
    · rw [if_neg hz]
      have hpost : post = [] := by
        rw [hcount] at hz
        apply List.length_eq_zero.mp; omega
      obtain ⟨pre1, post1, hb1, hinf1, hcrc1, hrem1', _⟩ := hs1
      have hp1 : post1 = [] := by
        apply List.length_eq_zero.mp
        rw [← hrem1', hrem1, hpost]; simp
      subst hp1
      refine ⟨_, rfl, ?_, ?_, ?_⟩
      · rw [hcrc1, hb1, List.append_nil]
      · simpa using hinf1
      · simpa using hrem1'

theorem BE_GET32_lt (p : List Nat) (h : ∀ x ∈ p, x < 256) : BE_GET32 p < 2 ^ 32 := by
  have hb : ∀ i, p.getD i 0 < 256 := by
    intro i
    rw [List.getD_eq_getElem?_getD]
    cases hi : p[i]? with
    | none => simp
    | some v => simpa using h v (List.getElem?_mem hi)
  have h0 := hb 0; have h1 := hb 1; have h2 := hb 2; have h3 := hb 3
  unfold BE_GET32
  omega

theorem get_chunk_header_inChunk (maxlen : Nat) (s0 : ChunkState) (len t b rest : List Nat)
    (hlen : len.length = 4) (hbytes : ∀ x ∈ len, x < 256) (ht : t.length = 4)
    (halpha : t.all isalpha = true) (hb : b.length = BE_GET32 len)
    (hinf : s0.inf = len ++ t ++ b ++ rest) :
    ∃ s1, get_chunk_header maxlen s0 = .ok s1 ∧ InChunk t b rest s1 ∧
      s1.bytes_remaining = BE_GET32 len := by
  have h8 : (len ++ t ++ b ++ rest).take 8 = len ++ t := by
    rw [List.append_assoc (len ++ t), List.take_left' (by simp [hlen, ht])]
  have hd8 : (len ++ t ++ b ++ rest).drop 8 = b ++ rest := by
    rw [List.append_assoc (len ++ t), List.drop_left' (by simp [hlen, ht])]
  have hbuf : (fread_buf 8 s0).2.buf = len ++ t ++ s0.buf.drop 8 := by
    simp only [fread_buf, hinf, h8, List.length_append, hlen, ht]
  have hname : (((fread_buf 8 s0).2.buf).drop 4).take 4 = t := by
    rw [hbuf, List.append_assoc, List.drop_left' hlen, List.take_left' ht]
  have hget : BE_GET32 (fread_buf 8 s0).2.buf = BE_GET32 len := by
    rw [hbuf]
    match len, hlen with
    | [a, b1, c, d], _ => simp [BE_GET32]
  have hcount : (fread_buf 8 s0).1 = 8 := by
    simp only [fread_buf, hinf, h8, List.length_append, hlen, ht]
  have hinf1 : (fread_buf 8 s0).2.inf = b ++ rest := by
    simp only [fread_buf, hinf, hd8]
  have hlt := BE_GET32_lt len hbytes
  unfold get_chunk_header
  simp only [hcount, ne_eq, not_true_eq_false, if_false]
  split_ifs with h1 h2 h2
  · exact ⟨_, rfl, ⟨[], b, rfl, hinf1, by simp [hname], by simp [hget, hb], by omega⟩, hget⟩
  · exact absurd (by simpa [hname] using halpha) h2
  · exact ⟨_, rfl, ⟨[], b, rfl, hinf1, by simp [hname], by simp [hget, hb], by omega⟩, hget⟩
  · exact absurd (by simpa [hname] using halpha) h2

/-- C8: for a chunk with type bytes `t` and body `b`, whatever pieces of the body the
handler reads through `get_chunk_data` (no request exceeding what is left of the chunk),
once `skip_chunk_data` has consumed what the handler left (it returns), called directly
or by `read_PNG` when bytes are left, the value `ps.crc XOR 0xFFFFFFFF` that
`verify_chunk_crc` compares with the trailer is
`update_crc(0xFFFFFFFF, t ++ b) XOR 0xFFFFFFFF`, and the reader stands right after the
body; moreover `update_crc(update_crc(c, x), y) = update_crc(c, x ++ y)`. -/
theorem chunk_crc_covers_type_and_body (IOBUF_SIZE maxlen : Nat) (hio : 0 < IOBUF_SIZE)
    (s0 : ChunkState) (len t b rest ns : List Nat)
    (hlen : len.length = 4) (hbytes : ∀ x ∈ len, x < 256) (ht : t.length = 4)
    (halpha : t.all isalpha = true) (hb : b.length = BE_GET32 len)
    (hinf : s0.inf = len ++ t ++ b ++ rest)
    (hreq : requests_within_chunk IOBUF_SIZE ns b.length = true) :
    (∃ s1, get_chunk_header maxlen s0 = .ok s1 ∧
      (∃ s3, skip_chunk_data IOBUF_SIZE (handler_reads IOBUF_SIZE ns s1) = some s3 ∧
        s3.crc ^^^ 0xFFFFFFFF = update_crc 0xFFFFFFFF (t ++ b) ^^^ 0xFFFFFFFF ∧
        s3.inf = rest ∧ s3.bytes_remaining = 0) ∧
      (∃ s3, skip_unread_bytes IOBUF_SIZE (handler_reads IOBUF_SIZE ns s1) = some s3 ∧
        s3.crc ^^^ 0xFFFFFFFF = update_crc 0xFFFFFFFF (t ++ b) ^^^ 0xFFFFFFFF ∧
        s3.inf = rest ∧ s3.bytes_remaining = 0)) ∧
    ∀ c x y, update_crc (update_crc c x) y = update_crc c (x ++ y) := by
  refine ⟨?_, update_crc_append⟩
  obtain ⟨s1, hs1, hin, hrem1⟩ :=
    get_chunk_header_inChunk maxlen s0 len t b rest hlen hbytes ht halpha hb hinf
  refine ⟨s1, hs1, ?_⟩
  have h2 := handler_reads_inChunk IOBUF_SIZE t b rest ns s1 hin (by rw [hrem1, ← hb]; exact hreq)
  obtain ⟨s3, h3, hcrc, hi, hrem⟩ :=
    skip_chunk_data_loop_inChunk IOBUF_SIZE hio t b rest _ _ h2 (Nat.lt_succ_self _)
  refine ⟨⟨s3, h3, by rw [hcrc], hi, hrem⟩, ?_⟩
  unfold skip_unread_bytes
  split_ifs with hz
  · have h2w : InChunk t b rest { (handler_reads IOBUF_SIZE ns s1) with
        warnings := (handler_reads IOBUF_SIZE ns s1).warnings ++ [Warning.WARN_EXTRA_BYTES] } :=
      h2
    obtain ⟨s4, h4, hcrc4, hi4, hrem4⟩ :=
      skip_chunk_data_loop_inChunk IOBUF_SIZE hio t b rest _ _ h2w (Nat.lt_succ_self _)
    exact ⟨s4, h4, by rw [hcrc4], hi4, hrem4⟩
  · obtain ⟨pre, post, hb1, hinf1, hcrc1, hrem1, _⟩ := h2
    have hp : post = [] := by
      apply List.length_eq_zero.mp
      omega
    subst hp
    refine ⟨_, rfl, ?_, by simpa using hinf1, by omega⟩
    rw [hcrc1, hb1, List.append_nil]

theorem chunk_crc_covers_type_and_body_witness :
    (∃ s1, get_chunk_header 0x7FFFFFFF sample_chunk_state = .ok s1 ∧
      (∃ s3, skip_chunk_data 8192 (handler_reads 8192 [2] s1) = some s3 ∧
        s3.crc ^^^ 0xFFFFFFFF
          = update_crc 0xFFFFFFFF ([116, 69, 88, 116] ++ [1, 2, 3]) ^^^ 0xFFFFFFFF ∧
        s3.inf = [9, 9, 9, 9] ∧ s3.bytes_remaining = 0) ∧
      (∃ s3, skip_unread_bytes 8192 (handler_reads 8192 [2] s1) = some s3 ∧
        s3.crc ^^^ 0xFFFFFFFF
          = update_crc 0xFFFFFFFF ([116, 69, 88, 116] ++ [1, 2, 3]) ^^^ 0xFFFFFFFF ∧
        s3.inf = [9, 9, 9, 9] ∧ s3.bytes_remaining = 0)) ∧
    ∀ c x y, update_crc (update_crc c x) y = update_crc c (x ++ y) :=
  chunk_crc_covers_type_and_body 8192 0x7FFFFFFF (by decide) sample_chunk_state
    [0, 0, 0, 3] [116, 69, 88, 116] [1, 2, 3] [9, 9, 9, 9] [2]
    (by decide) (by decide) (by decide) (by decide) (by decide) rfl (by decide)

/-! ## Theorems: verify_chunk_crc -/

/-- C9: `verify_chunk_crc` succeeds whenever four trailer bytes can be read, whether or
not they match the running CRC; it then adds exactly one `WARN_BAD_CRC` to the warnings
when `crc XOR 0xFFFFFFFF` differs from the big-endian trailer and adds nothing otherwise;
and it fails, with `ERR_READ`, exactly when fewer than four bytes are left. -/
theorem verify_chunk_crc_warns_never_fails (s : ChunkState) :
    (∀ t0 t1 t2 t3 rest, s.inf = t0 :: t1 :: t2 :: t3 :: rest →
      ∃ s1, verify_chunk_crc s = .ok s1 ∧ s1.inf = rest ∧
        s1.warnings = s.warnings ++
          (if s.crc ^^^ 0xFFFFFFFF ≠ ((t0 * 256 + t1) * 256 + t2) * 256 + t3
            then [Warning.WARN_BAD_CRC] else [])) ∧
    (∀ e, verify_chunk_crc s = .error e → e = Err.ERR_READ ∧ s.inf.length < 4) ∧
    (s.inf.length < 4 → verify_chunk_crc s = .error Err.ERR_READ) := by
  refine ⟨?_, ?_, ?_⟩
  · intro t0 t1 t2 t3 rest hinf
    have h4 : (fread_buf 4 s).1 = 4 := by simp [fread_buf, hinf]
    have hbe : BE_GET32 (fread_buf 4 s).2.buf = ((t0 * 256 + t1) * 256 + t2) * 256 + t3 := by
      simp [fread_buf, hinf, BE_GET32]
    have hi : (fread_buf 4 s).2.inf = rest := by simp [fread_buf, hinf]
    have hw : (fread_buf 4 s).2.warnings = s.warnings := rfl
    have hcrc : (fread_buf 4 s).2.crc = s.crc := rfl
    unfold verify_chunk_crc
    simp only [h4, hbe, hcrc, ne_eq, not_true_eq_false, if_false]
    split_ifs with hc
    · exact ⟨_, rfl, hi, by simp [hw]⟩
    · exact ⟨_, rfl, hi, by simp [hw]⟩
  · intro e he
    unfold verify_chunk_crc at he
    simp only [] at he
    split_ifs at he with h1 h2
    · simp only [fread_buf, List.length_take] at h1
      refine ⟨?_, by omega⟩
      cases he; rfl
  · intro hlt
    have : (fread_buf 4 s).1 ≠ 4 := by
      simp only [fread_buf, List.length_take]; omega
    simp [verify_chunk_crc, this]
theorem verify_chunk_crc_warns_never_fails_witness :
    (∃ s1, verify_chunk_crc { sample_chunk_state with inf := [1, 2, 3, 4], crc := 0 }
        = .ok s1 ∧ s1.inf = [] ∧ s1.warnings = [Warning.WARN_BAD_CRC]) ∧
    verify_chunk_crc { sample_chunk_state with inf := [1, 2, 3] } = .error Err.ERR_READ :=
  ⟨by
    obtain ⟨s1, h1, h2, h3⟩ :=
      (verify_chunk_crc_warns_never_fails
        { sample_chunk_state with inf := [1, 2, 3, 4], crc := 0 }).1 1 2 3 4 [] rfl
    exact ⟨s1, h1, h2, h3⟩,
   (verify_chunk_crc_warns_never_fails
      { sample_chunk_state with inf := [1, 2, 3] }).2.2 (by decide)⟩

/-! ## Theorems: zlib_start -/

theorem zlib_flags_fields (b0 b1 : Nat) (h1 : b1 < 256) :
    ((b0 <<< 8) ||| b1) = 256 * b0 + b1 ∧
    (((256 * b0 + b1) >>> 12) &&& 0x0F) = b0 / 16 % 16 ∧
    (((256 * b0 + b1) >>> 8) &&& 0x0F) = b0 % 16 ∧
    ((256 * b0 + b1) &&& 0x0020) = b1 &&& 0x20 := by
  have hor : ((b0 <<< 8) ||| b1) = 256 * b0 + b1 := by
    rw [Nat.shiftLeft_eq, Nat.mul_comm]
    exact (Nat.mul_add_lt_is_or (i := 8) h1 b0).symm
  have hand : ∀ x : Nat, x &&& 0x0F = x % 16 := fun x => Nat.and_pow_two_sub_one_eq_mod x 4
  refine ⟨hor, ?_, ?_, ?_⟩
  · rw [hand, Nat.shiftRight_eq_div_pow]; omega
  · rw [hand, Nat.shiftRight_eq_div_pow]; omega
  · have h32 : (256 * b0 + b1) &&& 0x0020 = ((256 * b0 + b1).testBit 5).toNat * 2 ^ 5 :=
      Nat.and_two_pow _ 5
    have h32b : b1 &&& 0x20 = (b1.testBit 5).toNat * 2 ^ 5 := Nat.and_two_pow _ 5
    rw [h32, h32b, Nat.testBit_to_div_mod, Nat.testBit_to_div_mod]
    have : (256 * b0 + b1) / 2 ^ 5 % 2 = b1 / 2 ^ 5 % 2 := by omega
    rw [this]

theorem zlib_start_unfold (b0 b1 : Nat) (h0 : b0 < 256) (h1 : b1 < 256) (malloc_ok : Bool)
    (s : PngState) :
    zlib_start b0 b1 malloc_ok s =
      if 2 ^ (b0 / 16 + 8) > 32768 then .error .ERR_COMP_HDR
      else if 0 ≠ (256 * b0 + b1) % 31 ∨ 8 ≠ b0 % 16 ∨ 0 ≠ b1 &&& 0x20 then
        .error .ERR_COMP_HDR
      else if !malloc_ok then .error .ERR_MEMORY
      else .ok { s with
        sum1 := 1, sum2 := 0, inflate_flags := 256 * b0 + b1
        inflate_window_size := 2 ^ (b0 / 16 + 8)
        window_allocated := true, inflated_chunk_size := 0 } := by
  obtain ⟨hor, hN, hlow, hbit⟩ := zlib_flags_fields b0 b1 h1
  have hN' : b0 / 16 % 16 = b0 / 16 := by omega
  simp only [zlib_start, hor, hN, hN', hlow, hbit, Nat.one_shiftLeft]

/-- C10: for header bytes `b0`, `b1`, `zlib_start` succeeds (the allocation succeeding)
exactly when the low nibble of `b0` is 8, the high nibble `N` of `b0` gives a window
`2^(N+8)` of at most 32768, bit 0x20 of `b1` is clear and `256*b0 + b1` is a multiple of
31; then the window size is `2^(N+8)`, the checksum lanes are (1, 0) and the count of
produced bytes is 0.  When the condition fails the result is `ERR_COMP_HDR`, whether or
not memory is available. -/
theorem zlib_start_header_check (b0 b1 : Nat) (h0 : b0 < 256) (h1 : b1 < 256) (s : PngState) :
    ((b0 % 16 = 8 ∧ 2 ^ (b0 / 16 + 8) ≤ 32768 ∧ b1 &&& 0x20 = 0 ∧ (256 * b0 + b1) % 31 = 0) →
      (∃ s1, zlib_start b0 b1 true s = .ok s1 ∧ s1.inflate_window_size = 2 ^ (b0 / 16 + 8) ∧
        s1.sum1 = 1 ∧ s1.sum2 = 0 ∧ s1.inflated_chunk_size = 0) ∧
      zlib_start b0 b1 false s = .error Err.ERR_MEMORY) ∧
    (¬(b0 % 16 = 8 ∧ 2 ^ (b0 / 16 + 8) ≤ 32768 ∧ b1 &&& 0x20 = 0 ∧ (256 * b0 + b1) % 31 = 0) →
      ∀ malloc_ok, zlib_start b0 b1 malloc_ok s = .error Err.ERR_COMP_HDR) := by
  constructor
  · rintro ⟨hm, hw, hb, h31⟩
    have hc1 : ¬ (2 ^ (b0 / 16 + 8) > 32768) := by omega
    have hc2 : ¬ (0 ≠ (256 * b0 + b1) % 31 ∨ 8 ≠ b0 % 16 ∨ 0 ≠ b1 &&& 0x20) := by
      rw [hb]; omega
    constructor
    · rw [zlib_start_unfold b0 b1 h0 h1, if_neg hc1, if_neg hc2]
      exact ⟨_, rfl, rfl, rfl, rfl, rfl⟩
    · rw [zlib_start_unfold b0 b1 h0 h1, if_neg hc1, if_neg hc2]
      rfl
  · intro hnot malloc_ok
    rw [zlib_start_unfold b0 b1 h0 h1]
    by_cases hc1 : 2 ^ (b0 / 16 + 8) > 32768
    · rw [if_pos hc1]
    · rw [if_neg hc1, if_pos]
      by_contra hcon
      apply hnot
      refine ⟨?_, by omega, ?_, ?_⟩
      · by_contra h; exact hcon (Or.inr (Or.inl (Ne.symm h)))
      · by_contra h; exact hcon (Or.inr (Or.inr (Ne.symm h)))
      · by_contra h; exact hcon (Or.inl (Ne.symm h))

theorem zlib_start_header_check_witness :
    (∃ s1, zlib_start 0x78 0x9C true {} = .ok s1 ∧
      s1.inflate_window_size = 2 ^ (0x78 / 16 + 8) ∧
      s1.sum1 = 1 ∧ s1.sum2 = 0 ∧ s1.inflated_chunk_size = 0) ∧
    zlib_start 0x78 0x9C false {} = .error Err.ERR_MEMORY ∧
    zlib_start 0x88 0x9C true {} = .error Err.ERR_COMP_HDR :=
  ⟨((zlib_start_header_check 0x78 0x9C (by decide) (by decide) {}).1 (by decide)).1,
   ((zlib_start_header_check 0x78 0x9C (by decide) (by decide) {}).1 (by decide)).2,
   (zlib_start_header_check 0x88 0x9C (by decide) (by decide) {}).2 (by decide) true⟩

/-! ## Theorems: unfilter inverts the forward filter -/

theorem unfilter_prediction_eq (ft bo : Nat) (raw prev : List Nat) (s : PngState) (k : Nat)
    (hft : ft ≤ 4) (hbo : 1 ≤ bo) (hx : s.line_x = k) (hboff : s.byte_offset = bo)
    (hcf : s.cur_filter = ft) (hlast : s.last_line = prev)
    (hdone : ∀ i, i < k → s.this_line.getD i 0 = raw.getD i 0) :
    unfilter_prediction s = some (filter_predictor ft bo raw prev k) := by
  have hleft : ¬ k < bo → s.this_line.getD (k - bo) 0 = raw.getD (k - bo) 0 :=
    fun h => hdone (k - bo) (by omega)
  unfold unfilter_prediction filter_predictor
  rw [hx, hboff, hcf, hlast]
  by_cases hk : k < bo
  · simp only [hk, if_true]
    interval_cases ft <;>
      simp [PNG_PF_None, PNG_PF_Sub, PNG_PF_Up, PNG_PF_Average, PNG_PF_Paeth, paeth_prediction]
  · rw [hleft hk]
    simp only [hk, if_false]
    interval_cases ft <;>
      simp [PNG_PF_None, PNG_PF_Sub, PNG_PF_Up, PNG_PF_Average, PNG_PF_Paeth, paeth_prediction]

theorem unfilter_byte_roundtrip (r : Nat) (p : Int) (hr : r < 256) :
    (((((r : Int) - p) % 256).toNat : Int) + p) % 256 = (r : Int) := by
  omega

theorem list_eq_of_getD_eq (a b : List Nat) (hlen : a.length = b.length)
    (h : ∀ i, i < b.length → a.getD i 0 = b.getD i 0) : a = b := by
  apply List.ext_getElem hlen
  intro i h1 h2
  have := h i h2
  rwa [List.getD_eq_getElem _ _ h1, List.getD_eq_getElem _ _ h2] at this

theorem unfilter_bytes_suffix (ft bo : Nat) (raw prev : List Nat) (hft : ft ≤ 4)
    (hbo : 1 ≤ bo) (hraw : ∀ x ∈ raw, x < 256) :
    ∀ (m k : Nat) (s : PngState), k + m = raw.length → s.line_x = k → s.byte_offset = bo →
      s.cur_filter = ft → s.last_line = prev → s.this_line.length = raw.length →
      (∀ i, i < k → s.this_line.getD i 0 = raw.getD i 0) →
      ∃ s1, unfilter_bytes ((List.range' k m).map fun i =>
          ((((raw.getD i 0 : Nat) : Int) - filter_predictor ft bo raw prev i) % 256).toNat) s
            = some s1 ∧ s1.this_line = raw ∧ s1.last_line = prev := by
  intro m
  induction m with
  | zero =>
    intro k s hk _ _ _ hlast hlen hdone
    refine ⟨s, rfl, ?_, hlast⟩
    exact list_eq_of_getD_eq _ _ hlen (fun i hi => hdone i (by omega))
  | succ m ih =>
    intro k s hk hx hboff hcf hlast hlen hdone
    have hpred := unfilter_prediction_eq ft bo raw prev s k hft hbo hx hboff hcf hlast hdone
    have hklt : k < raw.length := by omega
    have hrk : raw.getD k 0 < 256 := by
      rw [List.getD_eq_getElem _ _ hklt]
      exact hraw _ (List.getElem_mem _)
    have hval := unfilter_byte_roundtrip (raw.getD k 0) (filter_predictor ft bo raw prev k) hrk
    simp only [List.range', List.map_cons, unfilter_bytes, unfilter, hpred, Option.map_some',
      Option.some_bind, hval, Int.toNat_ofNat, hx]
    apply ih (k + 1)
    · omega
    · rfl
    · exact hboff
    · exact hcf
    · exact hlast
    · simpa using hlen
    · intro i hi
      show (s.this_line.set k (raw.getD k 0)).getD i 0 = raw.getD i 0
      by_cases hik : i = k
      · subst hik
        rw [List.getD_eq_getElem _ _ (by simpa using (by omega : i < s.this_line.length))]
        simp
      · have := hdone i (by omega)
        rw [List.getD_eq_getElem?_getD, List.getElem?_set_ne (Ne.symm hik),
          ← List.getD_eq_getElem?_getD]
        exact this

/-- C2: for each of the five filter tags, every pixel byte width `byte_offset >= 1` and
every pair of byte rows `raw`, `prev` of equal length, feeding the forward-filtered row
(`filtered[i] = (raw[i] - predictor_i) mod 256`) byte by byte through `unfilter`, with
`last_line = prev` and `line_x` advancing from 0, returns and leaves `this_line` equal to
`raw`, the columns below `byte_offset` included. -/
theorem unfilter_inverts_forward_filter (ft bo : Nat) (raw prev : List Nat) (s : PngState)
    (hft : ft ≤ 4) (hbo : 1 ≤ bo) (_hprev : prev.length = raw.length)
    (hraw : ∀ x ∈ raw, x < 256) (hx : s.line_x = 0) (hboff : s.byte_offset = bo)
    (hcf : s.cur_filter = ft) (hlast : s.last_line = prev)
    (hthis : s.this_line.length = raw.length) :
    ∃ s1, unfilter_bytes (forward_filter ft bo raw prev) s = some s1 ∧ s1.this_line = raw := by
  obtain ⟨s1, h1, h2, _⟩ := unfilter_bytes_suffix ft bo raw prev hft hbo hraw raw.length 0 s
    (by omega) hx hboff hcf hlast hthis (fun i hi => absurd hi (Nat.not_lt_zero i))
  exact ⟨s1, h1, h2⟩

theorem unfilter_inverts_forward_filter_witness :
    ∃ s1, unfilter_bytes (forward_filter 4 2 [10, 200, 30, 77] [5, 250, 7, 90])
        { this_line := [1, 2, 3, 4], last_line := [5, 250, 7, 90], byte_offset := 2,
          cur_filter := 4 } = some s1 ∧
      s1.this_line = [10, 200, 30, 77] :=
  unfilter_inverts_forward_filter 4 2 [10, 200, 30, 77] [5, 250, 7, 90]
    { this_line := [1, 2, 3, 4], last_line := [5, 250, 7, 90], byte_offset := 2,
      cur_filter := 4 }
    (by decide) (by decide) (by decide) (by decide) rfl rfl rfl rfl (by decide)

/-! ## Theorems: interlaced images of fewer than five rows -/

/-- C3 (the code departs from it): the 1 x 2 raster of one-byte pixels 10, 20.  Its
Adam7 stream holds pass 0 (row 0) and pass 6 (row 1), the other passes being empty; after
pass 0 `write_byte` skips pass 1 because its row width is 0 but stops at pass 2, whose
width is 1 although it has no row below height 2, so the row of pass 6 lands in the
temporary file of pass 2 and `repack_tempfiles` reads end-of-file for row 1.  The same
raster fed non-interlaced is decoded correctly. -/
theorem interlaced_two_row_image_decoded_wrongly :
    adam7_stream [[10], [20]] = [0, 10, 0, 20] ∧
    decoded_pixels
        { width := 1, height := 2, bits_per_sample := 8, samples_per_pixel := 1,
          is_interlaced := true } (adam7_stream [[10], [20]]) = some [10, 255] ∧
    decoded_pixels
        { width := 1, height := 2, bits_per_sample := 8, samples_per_pixel := 1,
          is_interlaced := false } (plain_stream [[10], [20]]) = some [10, 20] := by
  decide
/-- With five rows and five columns every pass that `write_byte` expects has a row: the
interlaced stream of the 5 x 5 raster, in which pass 1 consists of the single pixel of
column 4, is decoded to the same pixel file as the non-interlaced stream. -/
theorem interlaced_5x5_image_decoded :
    adam7_stream raster_5x5 =
      [0, 1, 0, 5, 0, 21, 25, 0, 3, 0, 23, 0, 11, 13, 15, 0, 2, 4, 0, 12, 14, 0, 22, 24,
       0, 6, 7, 8, 9, 10, 0, 16, 17, 18, 19, 20] ∧
    decoded_pixels
        { width := 5, height := 5, bits_per_sample := 8, samples_per_pixel := 1,
          is_interlaced := true } (adam7_stream raster_5x5) =
      decoded_pixels
        { width := 5, height := 5, bits_per_sample := 8, samples_per_pixel := 1,
          is_interlaced := false } (plain_stream raster_5x5) := by
  decide

/-! ## Theorems: the sorted directory -/

theorem takeWhile_eq_take_length (p : TiffEntry → Bool) (l : List TiffEntry) :
    l.takeWhile p = l.take (l.takeWhile p).length ∧
      l.dropWhile p = l.drop (l.takeWhile p).length := by
  induction l with
  | nil => simp
  | cons a l ih =>
    by_cases h : p a
    · simp only [List.takeWhile_cons, List.dropWhile_cons, h, if_true, List.length_cons,
        List.take_succ_cons, List.drop_succ_cons]
      exact ⟨by rw [← ih.1], ih.2⟩
    · simp [List.takeWhile_cons, List.dropWhile_cons, h]

theorem get_tag_pos_scan_eq (ifd : List TiffEntry) (c t : Nat) (hc : c ≤ ifd.length) :
    ∀ fuel pos, pos ≤ c → c ≤ pos + fuel →
      get_tag_pos_scan ifd c t fuel pos =
        pos + (((ifd.take c).drop pos).takeWhile (fun x => decide (x.tag ≤ t))).length := by
  intro fuel
  induction fuel with
  | zero =>
    intro pos h1 h2
    have : pos = c := by omega
    subst this
    simp [get_tag_pos_scan]
  | succ fuel ih =>
    intro pos h1 h2
    unfold get_tag_pos_scan
    by_cases hlt : pos < c
    · have hpos : pos < (ifd.take c).length := by simp; omega
      have hget : (ifd.take c)[pos] = ifd.getD pos zero_entry := by
        rw [List.getElem_take, List.getD_eq_getElem _ _ (by omega)]
      rw [if_pos hlt, List.drop_eq_getElem_cons hpos, List.takeWhile_cons, hget]
      by_cases hgt : (ifd.getD pos zero_entry).tag > t
      · rw [if_pos hgt]
        have : ¬ (ifd.getD pos zero_entry).tag ≤ t := by omega
        simp only [this, decide_False, Bool.false_eq_true, if_false, List.length_nil,
          Nat.add_zero]
      · rw [if_neg hgt, ih (pos + 1) (by omega) (by omega)]
        have : (ifd.getD pos zero_entry).tag ≤ t := by omega
        simp only [this, decide_True, if_true, List.length_cons]
        omega
    · have : pos = c := by omega
      subst this
      simp

theorem shift_entries_length (newpos : Nat) :
    ∀ (T : Nat) (ifd : List TiffEntry), (shift_entries newpos T ifd).length = ifd.length := by
  intro T
  induction T with
  | zero => intro ifd; rfl
  | succ T ih =>
    intro ifd
    unfold shift_entries
    split_ifs
    · rw [ih]; simp
    · rfl

theorem shift_entries_getElem? (newpos : Nat) :
    ∀ (T : Nat) (ifd : List TiffEntry) (i : Nat),
      (shift_entries newpos T ifd)[i]? =
        if newpos < i ∧ i ≤ T ∧ i < ifd.length then ifd[i - 1]? else ifd[i]? := by
  intro T
  induction T with
  | zero =>
    intro ifd i
    have : ¬ (newpos < i ∧ i ≤ 0 ∧ i < ifd.length) := by omega
    rw [if_neg this]; rfl
  | succ T ih =>
    intro ifd i
    unfold shift_entries
    by_cases hT : T + 1 > newpos
    · rw [if_pos hT, ih]
      simp only [List.length_set]
      by_cases h1 : newpos < i ∧ i ≤ T ∧ i < ifd.length
      · rw [if_pos h1, if_pos (by omega), List.getElem?_set_ne (by omega)]
      · rw [if_neg h1]
        by_cases h2 : i = T + 1
        · subst h2
          by_cases h3 : T + 1 < ifd.length
          · rw [if_pos (by omega), List.getElem?_set, if_pos rfl, if_pos h3,
              Nat.add_sub_cancel, List.getD_eq_getElem _ _ (by omega),
              List.getElem?_eq_getElem (by omega)]
          · rw [if_neg (by omega), List.getElem?_set, if_pos rfl, if_neg h3,
              List.getElem?_eq_none (by omega)]
        · rw [if_neg (by omega), List.getElem?_set_ne (by omega)]
    · rw [if_neg hT, if_neg (by omega)]

theorem getElem?_take_drop_insert (d : List TiffEntry) (e : TiffEntry) (p i : Nat)
    (hp : p ≤ d.length) :
    (d.take p ++ e :: d.drop p)[i]? =
      if i < p then d[i]? else if i = p then some e else d[i - 1]? := by
  have hlen : (d.take p).length = p := by simp; omega
  by_cases h1 : i < p
  · rw [if_pos h1, List.getElem?_append_left (by omega), List.getElem?_take_of_lt h1]
  · rw [if_neg h1, List.getElem?_append_right (by omega), hlen]
    by_cases h2 : i = p
    · subst h2; simp
    · rw [if_neg h2]
      obtain ⟨k, hk⟩ : ∃ k, i - p = k + 1 := ⟨i - p - 1, by omega⟩
      rw [hk, List.getElem?_cons_succ, List.getElem?_drop]
      congr 1; omega

theorem get_tag_pos_fst (t : Nat) (s : TiffState) (h : s.tag_count ≤ s.ifd.length) :
    (get_tag_pos t s).1 =
      ((directory s).takeWhile (fun x => decide (x.tag ≤ t))).length := by
  simp only [get_tag_pos, directory]
  rw [get_tag_pos_scan_eq s.ifd s.tag_count t h s.tag_count 0 (by omega) (by omega)]
  simp

theorem directory_get_tag_pos (t : Nat) (s : TiffState) (h : s.tag_count < s.ifd.length) :
    directory (get_tag_pos t s).2 =
      dir_insert { (s.ifd.getD (get_tag_pos t s).1 zero_entry) with tag := t } (directory s) := by
  have hfst := get_tag_pos_fst t s (by omega)
  have hple : (get_tag_pos t s).1 ≤ (directory s).length := by
    rw [hfst]; exact (List.takeWhile_prefix _).length_le
  have hdlen : (directory s).length = s.tag_count := by simp [directory]; omega
  obtain ⟨htw, hdw⟩ := takeWhile_eq_take_length (fun x => decide (x.tag ≤ t)) (directory s)
  unfold dir_insert
  simp only []
  rw [htw, hdw, ← hfst]
  generalize hp : (get_tag_pos t s).1 = p at *
  have hp' : get_tag_pos_scan s.ifd s.tag_count t s.tag_count 0 = p := hp
  apply List.ext_getElem?
  intro i
  rw [getElem?_take_drop_insert _ _ _ _ hple]
  simp only [directory, get_tag_pos, hp', List.getElem?_take, List.getElem?_set,
    shift_entries_getElem?, shift_entries_length, List.getD_eq_getElem?_getD]
  have hpi : ¬ (p < p ∧ p ≤ s.tag_count + 1 ∧ p < s.ifd.length) := by omega
  simp only [if_neg hpi]
  split_ifs <;> first | rfl | omega

theorem dir_insert_cons (e a : TiffEntry) (d : List TiffEntry) :
    dir_insert e (a :: d) = if a.tag ≤ e.tag then a :: dir_insert e d else e :: a :: d := by
  unfold dir_insert
  by_cases h : a.tag ≤ e.tag
  · simp [List.takeWhile_cons, List.dropWhile_cons, h]
  · simp [List.takeWhile_cons, List.dropWhile_cons, h]

theorem dir_insert_perm (e : TiffEntry) (d : List TiffEntry) :
    (dir_insert e d).Perm (e :: d) := by
  unfold dir_insert
  have h := List.takeWhile_append_dropWhile (fun x => decide (x.tag ≤ e.tag)) d
  calc (d.takeWhile _ ++ e :: d.dropWhile _).Perm (e :: (d.takeWhile _ ++ d.dropWhile _)) :=
        List.perm_middle
    _ = e :: d := by rw [h]

theorem mem_dir_insert (e x : TiffEntry) (d : List TiffEntry) :
    x ∈ dir_insert e d ↔ x = e ∨ x ∈ d := by
  rw [(dir_insert_perm e d).mem_iff, List.mem_cons]

theorem dir_insert_sorted_le (e : TiffEntry) (d : List TiffEntry)
    (h : d.Pairwise (fun a b => a.tag ≤ b.tag)) :
    (dir_insert e d).Pairwise (fun a b => a.tag ≤ b.tag) := by
  induction d with
  | nil => simp [dir_insert]
  | cons a d ih =>
    rw [dir_insert_cons]
    rw [List.pairwise_cons] at h
    by_cases hle : a.tag ≤ e.tag
    · rw [if_pos hle, List.pairwise_cons]
      refine ⟨?_, ih h.2⟩
      intro x hx
      rcases (mem_dir_insert e x d).mp hx with hx | hx
      · rw [hx]; exact hle
      · exact h.1 x hx
    · rw [if_neg hle, List.pairwise_cons]
      refine ⟨?_, List.pairwise_cons.mpr h⟩
      intro x hx
      rcases List.mem_cons.mp hx with hx | hx
      · rw [hx]; omega
      · have := h.1 x hx; omega

theorem dir_insert_sorted_lt (e : TiffEntry) (d : List TiffEntry)
    (h : d.Pairwise (fun a b => a.tag < b.tag)) (hnew : ∀ x ∈ d, x.tag ≠ e.tag) :
    (dir_insert e d).Pairwise (fun a b => a.tag < b.tag) := by
  induction d with
  | nil => simp [dir_insert]
  | cons a d ih =>
    rw [dir_insert_cons]
    rw [List.pairwise_cons] at h
    have hae : a.tag ≠ e.tag := hnew a (List.mem_cons_self _ _)
    by_cases hle : a.tag ≤ e.tag
    · rw [if_pos hle, List.pairwise_cons]
      refine ⟨?_, ih h.2 (fun x hx => hnew x (List.mem_cons_of_mem _ hx))⟩
      intro x hx
      rcases (mem_dir_insert e x d).mp hx with hx | hx
      · rw [hx]; omega
      · exact h.1 x hx
    · rw [if_neg hle, List.pairwise_cons]
      refine ⟨?_, List.pairwise_cons.mpr h⟩
      intro x hx
      rcases List.mem_cons.mp hx with hx | hx
      · rw [hx]; omega
      · have := h.1 x hx; omega

theorem dir_insert_set (e e1 : TiffEntry) (d : List TiffEntry) (h : e1.tag = e.tag) :
    (dir_insert e d).set ((d.takeWhile (fun x => decide (x.tag ≤ e.tag))).length) e1
      = dir_insert e1 d := by
  unfold dir_insert
  rw [h, List.set_append_right _ _ (Nat.le_refl _)]
  simp

theorem get_tag_pos_fields (t : Nat) (s : TiffState) :
    (get_tag_pos t s).2.tag_count = s.tag_count + 1 ∧
    (get_tag_pos t s).2.ifd.length = s.ifd.length ∧
    (get_tag_pos t s).2.outf = s.outf ∧
    (get_tag_pos t s).2.file_offset = s.file_offset ∧
    (get_tag_pos t s).2.little_endian = s.little_endian ∧
    (get_tag_pos t s).2.image = s.image ∧
    (get_tag_pos t s).2.buf = s.buf := by
  simp [get_tag_pos, shift_entries_length]

theorem get_tag_pos_tag (t : Nat) (s : TiffState) (h : s.tag_count < s.ifd.length) :
    ((get_tag_pos t s).2.ifd.getD (get_tag_pos t s).1 zero_entry).tag = t := by
  have hfst := get_tag_pos_fst t s (by omega)
  have hple : (get_tag_pos t s).1 ≤ (directory s).length := by
    rw [hfst]; exact (List.takeWhile_prefix _).length_le
  have hdlen : (directory s).length = s.tag_count := by simp [directory]; omega
  have hlt : (get_tag_pos t s).1 < s.ifd.length := by omega
  have hlt2 : get_tag_pos_scan s.ifd s.tag_count t s.tag_count 0 < s.ifd.length := hlt
  have hset : ∀ (l : List TiffEntry) (p : Nat) (e : TiffEntry), p < l.length →
      (l.set p e).getD p zero_entry = e := by
    intro l p e hp
    rw [List.getD_eq_getElem _ _ (by simpa using hp)]
    simp
  have hgoal := hset (shift_entries (get_tag_pos_scan s.ifd s.tag_count t s.tag_count 0)
      (s.tag_count + 1) s.ifd) (get_tag_pos_scan s.ifd s.tag_count t s.tag_count 0)
    { (((shift_entries (get_tag_pos_scan s.ifd s.tag_count t s.tag_count 0)
        (s.tag_count + 1) s.ifd).getD
          (get_tag_pos_scan s.ifd s.tag_count t s.tag_count 0) zero_entry)) with tag := t }
    (by simpa [shift_entries_length] using hlt2)
  exact congrArg TiffEntry.tag hgoal

theorem align_file_offset_loop_fields (modulus : Nat) :
    ∀ (fuel : Nat) (s : TiffState),
      (align_file_offset_loop modulus fuel s).ifd = s.ifd ∧
      (align_file_offset_loop modulus fuel s).tag_count = s.tag_count ∧
      (align_file_offset_loop modulus fuel s).little_endian = s.little_endian ∧
      (align_file_offset_loop modulus fuel s).image = s.image ∧
      (align_file_offset_loop modulus fuel s).buf = s.buf ∧
      ∃ k, (align_file_offset_loop modulus fuel s).outf = s.outf ++ List.replicate k 0 := by
  intro fuel
  induction fuel with
  | zero => intro s; exact ⟨rfl, rfl, rfl, rfl, rfl, 0, by simp [align_file_offset_loop]⟩
  | succ fuel ih =>
    intro s
    unfold align_file_offset_loop
    split_ifs with h
    · obtain ⟨h1, h2, h3, h4, h5, k, h6⟩ := ih
        { s with outf := s.outf ++ [0], file_offset := (s.file_offset + 1) % 2 ^ 32 }
      refine ⟨h1, h2, h3, h4, h5, k + 1, ?_⟩
      rw [h6]
      simp [List.replicate_succ]
    · exact ⟨rfl, rfl, rfl, rfl, rfl, 0, by simp⟩

theorem align_file_offset_even (s : TiffState) (h : s.file_offset % 2 = 0) :
    align_file_offset 2 s = s := by
  simp [align_file_offset, align_file_offset_loop, h]

/-- The four value bytes that `write_tag` leaves in the entry when the value is stored in
the entry itself. -/
theorem write_tag_inline (t ty c : Nat) (b : List Nat) (s : TiffState)
    (h : s.tag_count < s.ifd.length) (hsize : (c * data_sizes.getD ty 0) % 2 ^ 32 ≤ 4) :
    directory (write_tag t ty c b s) =
      dir_insert
        { tag := t, dtype := ty, count := c
          value := (first_bytes b 4).take ((c * data_sizes.getD ty 0) % 2 ^ 32) ++
            List.replicate (4 - (c * data_sizes.getD ty 0) % 2 ^ 32) 0 } (directory s) ∧
    (write_tag t ty c b s).tag_count = s.tag_count + 1 ∧
    (write_tag t ty c b s).ifd.length = s.ifd.length ∧
    (write_tag t ty c b s).outf = s.outf ∧
    (write_tag t ty c b s).file_offset = s.file_offset ∧
    (write_tag t ty c b s).little_endian = s.little_endian ∧
    (write_tag t ty c b s).image = s.image ∧
    (write_tag t ty c b s).buf = s.buf := by
  obtain ⟨f1, f2, f3, f4, f5, f6, f7⟩ := get_tag_pos_fields t s
  have hdir := directory_get_tag_pos t s h
  have hfst := get_tag_pos_fst t s (by omega)
  simp only [write_tag, if_pos hsize]
  refine ⟨?_, f1, by simp [f2], f3, f4, f5, f6, f7⟩
  simp only [directory, List.length_set, f1]
  rw [List.set_take, get_tag_pos_tag t s h]
  have : List.take (s.tag_count + 1) (get_tag_pos t s).2.ifd = directory (get_tag_pos t s).2 := by
    simp [directory, f1]
  rw [this, hdir, hfst]
  exact dir_insert_set _ _ _ rfl

/-- The entry and the file after `write_tag` has stored a value of more than four bytes
at an even file offset. -/
theorem write_tag_outline (t ty c : Nat) (b : List Nat) (s : TiffState)
    (h : s.tag_count < s.ifd.length) (hsize : ¬ (c * data_sizes.getD ty 0) % 2 ^ 32 ≤ 4)
    (heven : s.file_offset % 2 = 0) :
    directory (write_tag t ty c b s) =
      dir_insert
        { tag := t, dtype := ty, count := c
          value := bytes32 s.little_endian s.file_offset } (directory s) ∧
    (write_tag t ty c b s).tag_count = s.tag_count + 1 ∧
    (write_tag t ty c b s).ifd.length = s.ifd.length ∧
    (write_tag t ty c b s).outf = s.outf ++ first_bytes b (c * data_sizes.getD ty 0) ∧
    (write_tag t ty c b s).file_offset
      = (s.file_offset + c * data_sizes.getD ty 0) % 2 ^ 32 ∧
    (write_tag t ty c b s).little_endian = s.little_endian ∧
    (write_tag t ty c b s).image = s.image ∧
    (write_tag t ty c b s).buf = s.buf := by
  obtain ⟨f1, f2, f3, f4, f5, f6, f7⟩ := get_tag_pos_fields t s
  have hdir := directory_get_tag_pos t s h
  have hfst := get_tag_pos_fst t s (by omega)
  have hal : align_file_offset 2 (get_tag_pos t s).2 = (get_tag_pos t s).2 :=
    align_file_offset_even _ (by rw [f4]; exact heven)
  simp only [write_tag, if_neg hsize, hal]
  refine ⟨?_, f1, by simp [f2], by rw [f3], by rw [f4], f5, f6, f7⟩
  simp only [directory, List.length_set, f1]
  rw [List.set_take, get_tag_pos_tag t s h]
  have : List.take (s.tag_count + 1) (get_tag_pos t s).2.ifd = directory (get_tag_pos t s).2 := by
    simp [directory, f1]
  rw [this, hdir, hfst, f4, f5]
  exact dir_insert_set _ _ _ rfl

theorem write_tag_directory (t ty c : Nat) (b : List Nat) (s : TiffState)
    (h : s.tag_count < s.ifd.length) :
    (∃ v, directory (write_tag t ty c b s) =
      dir_insert { tag := t, dtype := ty, count := c, value := v } (directory s)) ∧
    (write_tag t ty c b s).tag_count = s.tag_count + 1 ∧
    (write_tag t ty c b s).ifd.length = s.ifd.length := by
  by_cases hsize : (c * data_sizes.getD ty 0) % 2 ^ 32 ≤ 4
  · obtain ⟨h1, h2, h3, _⟩ := write_tag_inline t ty c b s h hsize
    exact ⟨⟨_, h1⟩, h2, h3⟩
  · obtain ⟨f1, f2, f3, f4, f5, f6, f7⟩ := get_tag_pos_fields t s
    obtain ⟨a1, a2, a3, a4, a5, _⟩ :=
      align_file_offset_loop_fields 2 2 (get_tag_pos t s).2
    have hdir := directory_get_tag_pos t s h
    have hfst := get_tag_pos_fst t s (by omega)
    simp only [write_tag, if_neg hsize, align_file_offset]
    refine ⟨⟨bytes32 (align_file_offset_loop 2 2 (get_tag_pos t s).2).little_endian
      (align_file_offset_loop 2 2 (get_tag_pos t s).2).file_offset, ?_⟩, ?_, ?_⟩
    · simp only [directory, List.length_set, a1, a2, f1]
      rw [List.set_take, get_tag_pos_tag t s h]
      have : List.take (s.tag_count + 1) (get_tag_pos t s).2.ifd
          = directory (get_tag_pos t s).2 := by
        simp [directory, f1]
      rw [this, hdir, hfst]
      exact dir_insert_set _ _ _ rfl
    · simp only [a2, f1]
    · simp [a1, f2]

theorem directory_tags_write_tag (t ty c : Nat) (b : List Nat) (s : TiffState)
    (h : s.tag_count < s.ifd.length) :
    ∃ e : TiffEntry, e.tag = t ∧
      directory (write_tag t ty c b s) = dir_insert e (directory s) := by
  obtain ⟨⟨v, hv⟩, _⟩ := write_tag_directory t ty c b s h
  exact ⟨_, rfl, hv⟩

theorem write_tags_sorted (calls : List (Nat × Nat × Nat × List Nat)) :
    ∀ s : TiffState, s.tag_count + calls.length ≤ s.ifd.length →
      (write_tags calls s).tag_count = s.tag_count + calls.length ∧
      (write_tags calls s).ifd.length = s.ifd.length ∧
      (directory_tags (write_tags calls s)).Perm (calls.map (fun c => c.1) ++ directory_tags s) ∧
      ((directory_tags s).Pairwise (· ≤ ·) →
        (directory_tags (write_tags calls s)).Pairwise (· ≤ ·)) ∧
      ((directory_tags s).Pairwise (· < ·) →
        (calls.map (fun c => c.1) ++ directory_tags s).Nodup →
        (directory_tags (write_tags calls s)).Pairwise (· < ·)) := by
  induction calls with
  | nil =>
    intro s _
    exact ⟨rfl, rfl, List.Perm.refl _, fun h => h, fun h _ => h⟩
  | cons c calls ih =>
    intro s hs
    simp only [List.length_cons] at hs
    obtain ⟨⟨v, hv⟩, hcnt, hlen⟩ := write_tag_directory c.1 c.2.1 c.2.2.1 c.2.2.2 s (by omega)
    obtain ⟨i1, i2, i3, i4, i5⟩ := ih (write_tag c.1 c.2.1 c.2.2.1 c.2.2.2 s)
      (by rw [hcnt, hlen]; omega)
    have hstep : directory_tags (write_tag c.1 c.2.1 c.2.2.1 c.2.2.2 s)
        = (dir_insert { tag := c.1, dtype := c.2.1, count := c.2.2.1, value := v }
            (directory s)).map fun e => e.tag := by
      simp only [directory_tags, hv]
    have hperm1 : (directory_tags (write_tag c.1 c.2.1 c.2.2.1 c.2.2.2 s)).Perm
        (c.1 :: directory_tags s) := by
      rw [hstep]
      exact (dir_insert_perm _ _).map _
    have hwt : write_tags (c :: calls) s
        = write_tags calls (write_tag c.1 c.2.1 c.2.2.1 c.2.2.2 s) := rfl
    rw [hwt]
    refine ⟨by rw [i1, hcnt, List.length_cons]; omega, by rw [i2, hlen], ?_, ?_, ?_⟩
    · refine i3.trans ?_
      simp only [List.map_cons, List.cons_append]
      exact (List.Perm.append_left _ hperm1).trans List.perm_middle
    · intro hsorted
      apply i4
      rw [hstep, List.pairwise_map]
      apply dir_insert_sorted_le
      rw [← List.pairwise_map (f := fun e : TiffEntry => e.tag) (R := (· ≤ ·))]
      exact hsorted
    · intro hsorted hnodup
      apply i5
      · rw [hstep, List.pairwise_map]
        apply dir_insert_sorted_lt
        · rw [← List.pairwise_map (f := fun e : TiffEntry => e.tag) (R := (· < ·))]
          exact hsorted
        · intro x hx heq
          simp only [List.map_cons, List.cons_append, List.nodup_cons, List.mem_append] at hnodup
          apply hnodup.1
          right
          have heq1 : x.tag = c.1 := heq
          rw [← heq1]
          exact List.mem_map_of_mem _ hx
      · have hp : (List.map (fun c => c.1) calls
            ++ directory_tags (write_tag c.1 c.2.1 c.2.2.1 c.2.2.2 s)).Perm
            (List.map (fun c => c.1) (c :: calls) ++ directory_tags s) := by
          simp only [List.map_cons, List.cons_append]
          exact (List.Perm.append_left _ hperm1).trans List.perm_middle
        exact hp.nodup_iff.mpr hnodup

/-- C4 as stated fails: inserting the tag id 256 twice leaves the directory with the tag
ids 256, 256, which are not in strictly ascending order. -/
theorem directory_duplicate_tag_not_strict :
    directory_tags (write_tags [(256, 4, 1, [1, 0, 0, 0]), (256, 4, 1, [2, 0, 0, 0])]
        (write_TIFF_start {} true (List.replicate 16 0))) = [256, 256] ∧
    ¬ (directory_tags (write_tags [(256, 4, 1, [1, 0, 0, 0]), (256, 4, 1, [2, 0, 0, 0])]
        (write_TIFF_start {} true (List.replicate 16 0)))).Pairwise (· < ·) := by
  decide
/-! ## Theorems: the basic tags -/

theorem find_dir_insert_ne (e : TiffEntry) (d : List TiffEntry) (T : Nat) (h : e.tag ≠ T) :
    (dir_insert e d).find? (fun x => x.tag == T) = d.find? (fun x => x.tag == T) := by
  induction d with
  | nil =>
    have : (e.tag == T) = false := by simpa using h
    simp [dir_insert, List.find?, this]
  | cons a d ih =>
    rw [dir_insert_cons]
    by_cases hle : a.tag ≤ e.tag
    · rw [if_pos hle]
      simp only [List.find?_cons, ih]
    · rw [if_neg hle]
      have : (e.tag == T) = false := by simpa using h
      simp only [List.find?_cons, this]

theorem find_dir_insert_fresh (e : TiffEntry) (d : List TiffEntry)
    (h : d.find? (fun x => x.tag == e.tag) = none) :
    (dir_insert e d).find? (fun x => x.tag == e.tag) = some e := by
  induction d with
  | nil => simp [dir_insert, List.find?]
  | cons a d ih =>
    rw [dir_insert_cons]
    have ha : (a.tag == e.tag) = false := by
      by_contra hcon
      simp only [List.find?_cons] at h
      cases hb : (a.tag == e.tag) with
      | true => rw [hb] at h; cases h
      | false => exact hcon hb
    have hd : d.find? (fun x => x.tag == e.tag) = none := by
      simp only [List.find?_cons, ha] at h
      exact h
    by_cases hle : a.tag ≤ e.tag
    · rw [if_pos hle]
      simp only [List.find?_cons, ha, ih hd]
    · rw [if_neg hle]
      simp [List.find?_cons]

theorem write_tag_tag_count (t ty c : Nat) (b : List Nat) (s : TiffState) :
    (write_tag t ty c b s).tag_count = s.tag_count + 1 := by
  obtain ⟨a1, a2, a3, a4, a5, _⟩ := align_file_offset_loop_fields 2 2 (get_tag_pos t s).2
  unfold write_tag
  simp only []
  split_ifs
  · rfl
  · simp only [align_file_offset, a2]; rfl

theorem write_tag_ifd_length (t ty c : Nat) (b : List Nat) (s : TiffState) :
    (write_tag t ty c b s).ifd.length = s.ifd.length := by
  obtain ⟨a1, a2, a3, a4, a5, _⟩ := align_file_offset_loop_fields 2 2 (get_tag_pos t s).2
  obtain ⟨f1, f2, _⟩ := get_tag_pos_fields t s
  unfold write_tag
  simp only []
  split_ifs
  · simp [f2]
  · simp [align_file_offset, a1, f2]

theorem write_tag_little_endian (t ty c : Nat) (b : List Nat) (s : TiffState) :
    (write_tag t ty c b s).little_endian = s.little_endian := by
  obtain ⟨a1, a2, a3, a4, a5, _⟩ := align_file_offset_loop_fields 2 2 (get_tag_pos t s).2
  unfold write_tag
  simp only []
  split_ifs
  · rfl
  · simp only [align_file_offset, a3]; rfl

theorem write_tag_image (t ty c : Nat) (b : List Nat) (s : TiffState) :
    (write_tag t ty c b s).image = s.image := by
  obtain ⟨a1, a2, a3, a4, a5, _⟩ := align_file_offset_loop_fields 2 2 (get_tag_pos t s).2
  unfold write_tag
  simp only []
  split_ifs
  · rfl
  · simp only [align_file_offset, a4]; rfl

theorem write_tag_buf (t ty c : Nat) (b : List Nat) (s : TiffState) :
    (write_tag t ty c b s).buf = s.buf := by
  obtain ⟨a1, a2, a3, a4, a5, _⟩ := align_file_offset_loop_fields 2 2 (get_tag_pos t s).2
  unfold write_tag
  simp only []
  split_ifs
  · rfl
  · simp only [align_file_offset, a5]; rfl

theorem write_tag_outf_prefix (t ty c : Nat) (b : List Nat) (s : TiffState) :
    ∃ ext, (write_tag t ty c b s).outf = s.outf ++ ext := by
  obtain ⟨a1, a2, a3, a4, a5, k, a6⟩ := align_file_offset_loop_fields 2 2 (get_tag_pos t s).2
  unfold write_tag
  simp only []
  split_ifs
  · exact ⟨[], by simp; rfl⟩
  · refine ⟨List.replicate k 0 ++ first_bytes b (c * data_sizes.getD ty 0), ?_⟩
    simp only [align_file_offset, a6, List.append_assoc]
    rfl

theorem find_tag_write_tag_ne (t ty c : Nat) (b : List Nat) (s : TiffState) (T : Nat)
    (h : s.tag_count < s.ifd.length) (hne : t ≠ T) :
    find_tag (write_tag t ty c b s) T = find_tag s T := by
  obtain ⟨⟨v, hv⟩, _⟩ := write_tag_directory t ty c b s h
  unfold find_tag
  rw [hv]
  exact find_dir_insert_ne _ _ _ hne

theorem directory_of_tag_count_zero (s : TiffState) (h : s.tag_count = 0) :
    directory s = [] := by
  simp [directory, h]

theorem find_tag_write_tag_inline (t ty c : Nat) (b : List Nat) (s : TiffState)
    (h : s.tag_count < s.ifd.length) (hsize : (c * data_sizes.getD ty 0) % 2 ^ 32 ≤ 4)
    (hfresh : find_tag s t = none) :
    find_tag (write_tag t ty c b s) t = some
        { tag := t, dtype := ty, count := c
          value := (first_bytes b 4).take ((c * data_sizes.getD ty 0) % 2 ^ 32) ++
            List.replicate (4 - (c * data_sizes.getD ty 0) % 2 ^ 32) 0 } ∧
      (write_tag t ty c b s).outf = s.outf ∧
      (write_tag t ty c b s).file_offset = s.file_offset := by
  obtain ⟨h1, _, _, h4, h5, _⟩ := write_tag_inline t ty c b s h hsize
  refine ⟨?_, h4, h5⟩
  unfold find_tag
  rw [h1]
  exact find_dir_insert_fresh
    { tag := t, dtype := ty, count := c, value := _ } (directory s) hfresh

theorem find_tag_write_tag_outline (t ty c : Nat) (b : List Nat) (s : TiffState)
    (h : s.tag_count < s.ifd.length) (hsize : ¬ (c * data_sizes.getD ty 0) % 2 ^ 32 ≤ 4)
    (heven : s.file_offset % 2 = 0) (hfresh : find_tag s t = none) :
    find_tag (write_tag t ty c b s) t = some
        { tag := t, dtype := ty, count := c
          value := bytes32 s.little_endian s.file_offset } ∧
      (write_tag t ty c b s).outf = s.outf ++ first_bytes b (c * data_sizes.getD ty 0) := by
  obtain ⟨h1, _, _, h4, _⟩ := write_tag_outline t ty c b s h hsize heven
  refine ⟨?_, h4⟩
  unfold find_tag
  rw [h1]
  exact find_dir_insert_fresh
    { tag := t, dtype := ty, count := c, value := _ } (directory s) hfresh

theorem length_poke (buf : List Nat) (off : Nat) (bytes : List Nat) :
    (poke buf off bytes).length = buf.length := by
  simp only [poke, List.length_take, List.length_append, List.length_drop]
  omega

theorem take_poke (buf : List Nat) (off : Nat) (bytes : List Nat)
    (h : off + bytes.length ≤ buf.length) :
    (poke buf off bytes).take (off + bytes.length) = buf.take off ++ bytes := by
  have hl : (buf.take off ++ bytes).length = off + bytes.length := by
    simp only [List.length_append, List.length_take]; omega
  unfold poke
  rw [List.take_take, Nat.min_eq_left h, List.take_append_of_le_length (by omega),
    List.take_of_length_le (by omega)]

theorem first_bytes_of_le (b : List Nat) (n : Nat) (h : n ≤ b.length) :
    first_bytes b n = b.take n := by
  simp [first_bytes, Nat.sub_eq_zero_of_le h]

theorem GET16_bytes16 (le : Bool) (v : Nat) (rest : List Nat) (h : v < 2 ^ 16) :
    GET16 le (bytes16 le v ++ rest) = v := by
  cases le <;> simp [GET16, bytes16] <;> omega

theorem GET32_bytes32 (le : Bool) (v : Nat) (rest : List Nat) (h : v < 2 ^ 32) :
    GET32 le (bytes32 le v ++ rest) = v := by
  cases le <;> simp [GET32, bytes32] <;> omega

theorem length_bytes16 (le : Bool) (v : Nat) : (bytes16 le v).length = 2 := by
  cases le <;> rfl

theorem length_bytes32 (le : Bool) (v : Nat) : (bytes32 le v).length = 4 := by
  cases le <;> rfl
theorem find_tag_of_tag_count_zero (s : TiffState) (T : Nat) (h : s.tag_count = 0) :
    find_tag s T = none := by
  simp [find_tag, directory, h]

/-- One statement pair of `write_basic_tags`: the buffer is given the content `b`, then
`write_tag` stores from it a value that fits the entry. -/
theorem put_write_inline (s : TiffState) (b : List Nat) (t ty c n : Nat) (s1 : TiffState)
    (hs1 : s1 = write_tag t ty c b { s with buf := b })
    (hn : s.tag_count = n) (hlt : n < MAX_TAGS) (hifd : s.ifd.length = MAX_TAGS)
    (hsz : (c * data_sizes.getD ty 0) % 2 ^ 32 ≤ 4) :
    s1.tag_count = n + 1 ∧ s1.ifd.length = MAX_TAGS ∧ s1.little_endian = s.little_endian ∧
    s1.image = s.image ∧ s1.buf = b ∧ s1.outf = s.outf ∧ s1.file_offset = s.file_offset ∧
    (∀ T, t ≠ T → find_tag s1 T = find_tag s T) ∧
    (find_tag s t = none → find_tag s1 t = some
      { tag := t, dtype := ty, count := c
        value := (first_bytes b 4).take ((c * data_sizes.getD ty 0) % 2 ^ 32) ++
          List.replicate (4 - (c * data_sizes.getD ty 0) % 2 ^ 32) 0 }) := by
  have hlt1 : ({ s with buf := b } : TiffState).tag_count
      < ({ s with buf := b } : TiffState).ifd.length := by
    show s.tag_count < s.ifd.length
    omega
  obtain ⟨_, _, _, h4, h5, _⟩ := write_tag_inline t ty c b { s with buf := b } hlt1 hsz
  subst hs1
  refine ⟨?_, ?_, ?_, ?_, ?_, h4, h5, ?_, ?_⟩
  · rw [write_tag_tag_count]; exact congrArg (· + 1) hn
  · rw [write_tag_ifd_length]; exact hifd
  · rw [write_tag_little_endian]
  · rw [write_tag_image]
  · rw [write_tag_buf]
  · intro T hT
    exact find_tag_write_tag_ne t ty c b _ T hlt1 hT
  · intro hfresh
    exact (find_tag_write_tag_inline t ty c b _ hlt1 hsz hfresh).1

/-- One statement pair of `write_basic_tags`: the buffer is given the content `b`, then
`write_tag` stores from it a value of more than four bytes at an even file offset. -/
theorem put_write_outline (s : TiffState) (b : List Nat) (t ty c n : Nat) (s1 : TiffState)
    (hs1 : s1 = write_tag t ty c b { s with buf := b })
    (hn : s.tag_count = n) (hlt : n < MAX_TAGS) (hifd : s.ifd.length = MAX_TAGS)
    (hsz : ¬ (c * data_sizes.getD ty 0) % 2 ^ 32 ≤ 4) (heven : s.file_offset % 2 = 0) :
    s1.tag_count = n + 1 ∧ s1.ifd.length = MAX_TAGS ∧ s1.little_endian = s.little_endian ∧
    s1.image = s.image ∧ s1.buf = b ∧
    s1.outf = s.outf ++ first_bytes b (c * data_sizes.getD ty 0) ∧
    (∀ T, t ≠ T → find_tag s1 T = find_tag s T) ∧
    (find_tag s t = none → find_tag s1 t = some
      { tag := t, dtype := ty, count := c, value := bytes32 s.little_endian s.file_offset }) := by
  have hlt1 : ({ s with buf := b } : TiffState).tag_count
      < ({ s with buf := b } : TiffState).ifd.length := by
    show s.tag_count < s.ifd.length
    omega
  obtain ⟨_, _, _, h4, _⟩ := write_tag_outline t ty c b { s with buf := b } hlt1 hsz heven
  subst hs1
  refine ⟨?_, ?_, ?_, ?_, ?_, h4, ?_, ?_⟩
  · rw [write_tag_tag_count]; exact congrArg (· + 1) hn
  · rw [write_tag_ifd_length]; exact hifd
  · rw [write_tag_little_endian]
  · rw [write_tag_image]
  · rw [write_tag_buf]
  · intro T hT
    exact find_tag_write_tag_ne t ty c b _ T hlt1 hT
  · intro hfresh
    exact (find_tag_write_tag_outline t ty c b _ hlt1 hsz heven hfresh).1

theorem first_bytes_PUT32 (le : Bool) (b : List Nat) (v : Nat) (h : 4 ≤ b.length) :
    (first_bytes (PUT32 le b 0 v) 4).take 4 = bytes32 le v := by
  rw [first_bytes_of_le _ _ (by rw [PUT32, length_poke]; omega), List.take_take]
  have := take_poke b 0 (bytes32 le v) (by rw [length_bytes32]; omega)
  rw [length_bytes32] at this
  simpa [PUT32] using this

theorem first_bytes_PUT16 (le : Bool) (b : List Nat) (v : Nat) (h : 4 ≤ b.length) :
    (first_bytes (PUT16 le b 0 v) 4).take 2 = bytes16 le v := by
  rw [first_bytes_of_le _ _ (by rw [PUT16, length_poke]; omega), List.take_take]
  have := take_poke b 0 (bytes16 le v) (by rw [length_bytes16]; omega)
  rw [length_bytes16] at this
  simpa [PUT16] using this

theorem length_PUT16 (le : Bool) (b : List Nat) (off v : Nat) :
    (PUT16 le b off v).length = b.length :=
  length_poke _ _ _

theorem take_PUT16 (le : Bool) (b : List Nat) (off v : Nat) (h : off + 2 ≤ b.length) :
    (PUT16 le b off v).take (off + 2) = b.take off ++ bytes16 le v := by
  have := take_poke b off (bytes16 le v) (by rw [length_bytes16]; omega)
  rw [length_bytes16] at this
  exact this

theorem bits_loop (le : Bool) (v : Nat) :
    ∀ (n : Nat) (b : List Nat), 2 * n ≤ b.length →
      ((List.range n).foldl (fun buf i => PUT16 le buf (2 * i) v) b).length = b.length ∧
      ((List.range n).foldl (fun buf i => PUT16 le buf (2 * i) v) b).take (2 * n)
        = repeat_bytes n (bytes16 le v) := by
  intro n
  induction n with
  | zero => intro b _; simp [repeat_bytes]
  | succ n ih =>
    intro b hb
    obtain ⟨ih1, ih2⟩ := ih b (by omega)
    rw [List.range_succ, List.foldl_append]
    simp only [List.foldl_cons, List.foldl_nil]
    refine ⟨by rw [length_PUT16, ih1], ?_⟩
    rw [show 2 * (n + 1) = 2 * n + 2 by ring, take_PUT16 _ _ _ _ (by rw [ih1]; omega), ih2]
    rfl
theorem write_basic_tags_fixed_spec (s : TiffState) (h0 : s.tag_count = 0)
    (hifd : s.ifd.length = MAX_TAGS) (hbuf : 8 ≤ s.buf.length)
    (heven : s.file_offset % 2 = 0) (hspp : s.image.samples_per_pixel ≤ 4) :
    (write_basic_tags_fixed s).tag_count = 7 ∧
    (write_basic_tags_fixed s).ifd.length = MAX_TAGS ∧
    (write_basic_tags_fixed s).little_endian = s.little_endian ∧
    (write_basic_tags_fixed s).image = s.image ∧
    find_tag (write_basic_tags_fixed s) TIFF_TAG_ImageWidth = some
      { tag := TIFF_TAG_ImageWidth, dtype := TIFF_DT_LONG, count := 1
        value := bytes32 s.little_endian s.image.width } ∧
    find_tag (write_basic_tags_fixed s) TIFF_TAG_ImageLength = some
      { tag := TIFF_TAG_ImageLength, dtype := TIFF_DT_LONG, count := 1
        value := bytes32 s.little_endian s.image.height } ∧
    find_tag (write_basic_tags_fixed s) TIFF_TAG_SamplesPerPixel = some
      { tag := TIFF_TAG_SamplesPerPixel, dtype := TIFF_DT_SHORT, count := 1
        value := bytes16 s.little_endian s.image.samples_per_pixel ++ [0, 0] } ∧
    (s.image.samples_per_pixel ≤ 2 →
      (write_basic_tags_fixed s).outf = s.outf ∧
      find_tag (write_basic_tags_fixed s) TIFF_TAG_BitsPerSample = some
        { tag := TIFF_TAG_BitsPerSample, dtype := TIFF_DT_SHORT
          count := s.image.samples_per_pixel
          value := repeat_bytes s.image.samples_per_pixel
              (bytes16 s.little_endian s.image.bits_per_sample) ++
            List.replicate (4 - 2 * s.image.samples_per_pixel) 0 }) ∧
    (2 < s.image.samples_per_pixel →
      (write_basic_tags_fixed s).outf = s.outf ++ repeat_bytes s.image.samples_per_pixel
        (bytes16 s.little_endian s.image.bits_per_sample) ∧
      find_tag (write_basic_tags_fixed s) TIFF_TAG_BitsPerSample = some
        { tag := TIFF_TAG_BitsPerSample, dtype := TIFF_DT_SHORT
          count := s.image.samples_per_pixel
          value := bytes32 s.little_endian s.file_offset }) := by
  have hm : (0 : Nat) < MAX_TAGS ∧ 1 < MAX_TAGS ∧ 2 < MAX_TAGS ∧ 3 < MAX_TAGS ∧ 4 < MAX_TAGS ∧
      5 < MAX_TAGS ∧ 6 < MAX_TAGS := by decide
  generalize hsf : write_basic_tags_fixed s = sf
  unfold write_basic_tags_fixed at hsf
  lift_lets at hsf
  extract_lets le s1 s2 s3 s4 sv s5 s6 s7 s8 s9 s10 bits s11 s12 s13 at hsf
  have hsz4 : (1 * data_sizes.getD TIFF_DT_LONG 0) % 2 ^ 32 ≤ 4 := by decide
  have hsz2 : (1 * data_sizes.getD TIFF_DT_SHORT 0) % 2 ^ 32 ≤ 4 := by decide
  have hnone : ∀ T, find_tag s T = none := fun T => find_tag_of_tag_count_zero s T h0
  obtain ⟨a1, a2, a3, a4, a5, a6, a7, a8, a9⟩ := put_write_inline s
    (PUT32 le s.buf 0 s.image.width) TIFF_TAG_ImageWidth TIFF_DT_LONG 1 0 s2 rfl h0 hm.1 hifd hsz4
  obtain ⟨b1, b2, b3, b4, b5, b6, b7, b8, b9⟩ := put_write_inline s2
    (PUT32 le s2.buf 0 s2.image.height) TIFF_TAG_ImageLength TIFF_DT_LONG 1 1 s4 rfl a1 hm.2.1
    a2 hsz4
  obtain ⟨c1, c2, c3, c4, c5, c6, c7, c8, c9⟩ := put_write_inline s4
    (PUT16 le s4.buf 0 sv) TIFF_TAG_PhotometricInterpretation TIFF_DT_SHORT 1 2 s6 rfl b1
    hm.2.2.1 b2 hsz2
  obtain ⟨d1, d2, d3, d4, d5, d6, d7, d8, d9⟩ := put_write_inline s6
    (PUT16 le s6.buf 0 TIFF_CT_NONE) TIFF_TAG_Compression TIFF_DT_SHORT 1 3 s8 rfl c1
    hm.2.2.2.1 c2 hsz2
  obtain ⟨e1, e2, e3, e4, e5, e6, e7, e8, e9⟩ := put_write_inline s8
    (PUT16 le s8.buf 0 TIFF_PC_CONTIG) TIFF_TAG_PlanarConfiguration TIFF_DT_SHORT 1 4 s10 rfl d1
    hm.2.2.2.2.1 d2 hsz2
  have himg : s10.image = s.image := by rw [e4, d4, c4, b4, a4]
  have hle : s10.little_endian = s.little_endian := by rw [e3, d3, c3, b3, a3]
  have hle0 : le = s.little_endian := rfl
  have hout : s10.outf = s.outf := by rw [e6, d6, c6, b6, a6]
  have hoff : s10.file_offset = s.file_offset := by rw [e7, d7, c7, b7, a7]
  have hlen10 : s10.buf.length = s.buf.length := by
    rw [e5, length_PUT16, d5, length_PUT16, c5, length_PUT16, b5, PUT32, length_poke, a5, PUT32,
      length_poke]
  have hds : data_sizes.getD TIFF_DT_SHORT 0 = 2 := rfl
  obtain ⟨hbl, hbt⟩ := bits_loop le s10.image.bits_per_sample s10.image.samples_per_pixel
    s10.buf (by rw [hlen10, himg]; omega)
  change bits.length = _ at hbl
  change bits.take _ = _ at hbt
  rw [himg, hle0] at hbt
  have hfind_w : find_tag s10 TIFF_TAG_ImageWidth = some
      { tag := TIFF_TAG_ImageWidth, dtype := TIFF_DT_LONG, count := 1
        value := bytes32 s.little_endian s.image.width } := by
    rw [e8 _ (by decide), d8 _ (by decide), c8 _ (by decide), b8 _ (by decide), a9 (hnone _)]
    have h4 : (1 * data_sizes.getD TIFF_DT_LONG 0) % 2 ^ 32 = 4 := by decide
    rw [h4, first_bytes_PUT32 _ _ _ (by omega)]
    simp
  have hfind_l : find_tag s10 TIFF_TAG_ImageLength = some
      { tag := TIFF_TAG_ImageLength, dtype := TIFF_DT_LONG, count := 1
        value := bytes32 s.little_endian s.image.height } := by
    rw [e8 _ (by decide), d8 _ (by decide), c8 _ (by decide),
      b9 (by rw [a8 _ (by decide)]; exact hnone _)]
    have h4 : (1 * data_sizes.getD TIFF_DT_LONG 0) % 2 ^ 32 = 4 := by decide
    rw [h4, first_bytes_PUT32 _ _ _ (by rw [a5, PUT32, length_poke]; omega), a4]
    simp
  have hfresh_b : find_tag s10 TIFF_TAG_BitsPerSample = none := by
    rw [e8 _ (by decide), d8 _ (by decide), c8 _ (by decide), b8 _ (by decide),
      a8 _ (by decide)]
    exact hnone _
  have hfresh_s : find_tag s10 TIFF_TAG_SamplesPerPixel = none := by
    rw [e8 _ (by decide), d8 _ (by decide), c8 _ (by decide), b8 _ (by decide),
      a8 _ (by decide)]
    exact hnone _
  have hspp_val : ∀ (st : TiffState), st.buf.length = s.buf.length →
      (first_bytes (PUT16 le st.buf 0 s.image.samples_per_pixel) 4).take
          ((1 * data_sizes.getD TIFF_DT_SHORT 0) % 2 ^ 32) ++
        List.replicate (4 - (1 * data_sizes.getD TIFF_DT_SHORT 0) % 2 ^ 32) 0
        = bytes16 s.little_endian s.image.samples_per_pixel ++ [0, 0] := by
    intro st hst
    have h2 : (1 * data_sizes.getD TIFF_DT_SHORT 0) % 2 ^ 32 = 2 := by decide
    rw [h2, first_bytes_PUT16 _ _ _ (by omega)]
    rfl
  by_cases hsp : s.image.samples_per_pixel ≤ 2
  · have hszb : (s10.image.samples_per_pixel * data_sizes.getD TIFF_DT_SHORT 0) % 2 ^ 32 ≤ 4 := by
      rw [himg, hds]; omega
    obtain ⟨f1, f2, f3, f4, f5, f6, f7, f8, f9⟩ := put_write_inline s10 bits
      TIFF_TAG_BitsPerSample TIFF_DT_SHORT s10.image.samples_per_pixel 5 s12 rfl e1
      hm.2.2.2.2.2.1 e2 hszb
    obtain ⟨g1, g2, g3, g4, g5, g6, g7, g8, g9⟩ := put_write_inline s12
      (PUT16 le s12.buf 0 s12.image.samples_per_pixel) TIFF_TAG_SamplesPerPixel TIFF_DT_SHORT 1 6
      (write_tag TIFF_TAG_SamplesPerPixel TIFF_DT_SHORT 1 s13.buf s13) rfl f1
      hm.2.2.2.2.2.2 f2 hsz2
    rw [hsf] at g1 g2 g3 g4 g6 g8 g9
    refine ⟨g1, g2, by rw [g3, f3, hle], by rw [g4, f4, himg], ?_, ?_, ?_, ?_, ?_⟩
    · rw [g8 _ (by decide), f8 _ (by decide), hfind_w]
    · rw [g8 _ (by decide), f8 _ (by decide), hfind_l]
    · rw [g9 (by rw [f8 _ (by decide)]; exact hfresh_s), f4, himg,
        hspp_val s12 (by rw [f5, hbl, hlen10])]
    · intro _
      refine ⟨by rw [g6, f6, hout], ?_⟩
      rw [g8 _ (by decide), f9 hfresh_b, himg, hds]
      have hmod : (s.image.samples_per_pixel * 2) % 2 ^ 32 = 2 * s.image.samples_per_pixel := by
        omega
      rw [hmod, first_bytes_of_le _ _ (by rw [hbl, hlen10]; omega), List.take_take,
        Nat.min_eq_left (by omega), hbt]
    · intro h; omega
  · have hszb : ¬ (s10.image.samples_per_pixel * data_sizes.getD TIFF_DT_SHORT 0) % 2 ^ 32 ≤ 4 := by
      rw [himg, hds]; omega
    obtain ⟨f1, f2, f3, f4, f5, f6, f8, f9⟩ := put_write_outline s10 bits
      TIFF_TAG_BitsPerSample TIFF_DT_SHORT s10.image.samples_per_pixel 5 s12 rfl e1
      hm.2.2.2.2.2.1 e2 hszb (by rw [hoff]; exact heven)
    obtain ⟨g1, g2, g3, g4, g5, g6, g7, g8, g9⟩ := put_write_inline s12
      (PUT16 le s12.buf 0 s12.image.samples_per_pixel) TIFF_TAG_SamplesPerPixel TIFF_DT_SHORT 1 6
      (write_tag TIFF_TAG_SamplesPerPixel TIFF_DT_SHORT 1 s13.buf s13) rfl f1
      hm.2.2.2.2.2.2 f2 hsz2
    rw [hsf] at g1 g2 g3 g4 g6 g8 g9
    refine ⟨g1, g2, by rw [g3, f3, hle], by rw [g4, f4, himg], ?_, ?_, ?_, ?_, ?_⟩
    · rw [g8 _ (by decide), f8 _ (by decide), hfind_w]
    · rw [g8 _ (by decide), f8 _ (by decide), hfind_l]
    · rw [g9 (by rw [f8 _ (by decide)]; exact hfresh_s), f4, himg,
        hspp_val s12 (by rw [f5, hbl, hlen10])]
    · intro h; omega
    · intro _
      constructor
      · rw [g6, f6, hout, himg, hds,
          first_bytes_of_le _ _ (by rw [hbl, hlen10]; omega),
          show s.image.samples_per_pixel * 2 = 2 * s.image.samples_per_pixel by ring, hbt]
      · rw [g8 _ (by decide), f9 hfresh_b, himg, hle, hoff]

theorem write_colormap_preserves (s : TiffState) (h : s.tag_count < s.ifd.length) :
    (write_colormap s).tag_count = s.tag_count + 1 ∧
    (write_colormap s).ifd.length = s.ifd.length ∧
    (write_colormap s).little_endian = s.little_endian ∧
    (write_colormap s).image = s.image ∧
    (∃ ext, (write_colormap s).outf = s.outf ++ ext) ∧
    (∀ T, TIFF_TAG_ColorMap ≠ T → find_tag (write_colormap s) T = find_tag s T) := by
  unfold write_colormap
  simp only []
  refine ⟨?_, ?_, ?_, ?_, ?_, ?_⟩
  · rw [write_tag_tag_count]
  · rw [write_tag_ifd_length]
  · rw [write_tag_little_endian]
  · rw [write_tag_image]
  · exact write_tag_outf_prefix _ _ _ _ _
  · intro T hT
    refine (find_tag_write_tag_ne _ _ _ _ _ T ?_ hT).trans rfl
    exact h

theorem write_extra_samples_preserves (s : TiffState) (h : s.tag_count < s.ifd.length) :
    (write_extra_samples s).tag_count = s.tag_count + 1 ∧
    (write_extra_samples s).ifd.length = s.ifd.length ∧
    (write_extra_samples s).little_endian = s.little_endian ∧
    (write_extra_samples s).image = s.image ∧
    (∃ ext, (write_extra_samples s).outf = s.outf ++ ext) ∧
    (∀ T, TIFF_TAG_ExtraSamples ≠ T → find_tag (write_extra_samples s) T = find_tag s T) := by
  unfold write_extra_samples
  simp only []
  refine ⟨?_, ?_, ?_, ?_, ?_, ?_⟩
  · rw [write_tag_tag_count]
  · rw [write_tag_ifd_length]
  · rw [write_tag_little_endian]
  · rw [write_tag_image]
  · exact write_tag_outf_prefix _ _ _ _ _
  · intro T hT
    refine (find_tag_write_tag_ne _ _ _ _ _ T ?_ hT).trans rfl
    exact h

/-- What `write_basic_tags` adds after its seven fixed tags: nothing that a reader of the
four tags of interest could see. -/
theorem write_basic_tags_tail (IOBUF_SIZE : Nat) (s : TiffState)
    (h : (write_basic_tags_fixed s).tag_count + 2 ≤ (write_basic_tags_fixed s).ifd.length) :
    (∃ ext, (write_basic_tags IOBUF_SIZE s).2.outf = (write_basic_tags_fixed s).outf ++ ext) ∧
    (∀ T, TIFF_TAG_ColorMap ≠ T → TIFF_TAG_ExtraSamples ≠ T →
      find_tag (write_basic_tags IOBUF_SIZE s).2 T = find_tag (write_basic_tags_fixed s) T) := by
  unfold write_basic_tags
  simp only []
  split_ifs with h1 h2 h3 h3
  · exact ⟨⟨[], by simp⟩, fun T _ _ => rfl⟩
  · obtain ⟨c1, c2, _, _, ⟨ext1, c5⟩, c6⟩ :=
      write_colormap_preserves (write_basic_tags_fixed s) (by omega)
    obtain ⟨_, _, _, _, ⟨ext2, e5⟩, e6⟩ :=
      write_extra_samples_preserves (write_colormap (write_basic_tags_fixed s))
        (by rw [c1, c2]; omega)
    exact ⟨⟨ext1 ++ ext2, by rw [e5, c5, List.append_assoc]⟩,
      fun T hc he => by rw [e6 T he, c6 T hc]⟩
  · obtain ⟨_, _, _, _, c5, c6⟩ :=
      write_colormap_preserves (write_basic_tags_fixed s) (by omega)
    exact ⟨c5, fun T hc _ => c6 T hc⟩
  · obtain ⟨_, _, _, _, e5, e6⟩ :=
      write_extra_samples_preserves (write_basic_tags_fixed s) (by omega)
    exact ⟨e5, fun T _ he => e6 T he⟩
  · exact ⟨⟨[], by simp⟩, fun T _ _ => rfl⟩

theorem entry_longs_inline_one (le : Bool) (out : List Nat) (t v : Nat) (hv : v < 2 ^ 32) :
    entry_longs le out { tag := t, dtype := TIFF_DT_LONG, count := 1, value := bytes32 le v }
      = [v] := by
  have h := GET32_bytes32 le v [] hv
  rw [List.append_nil] at h
  have hr : List.range 1 = [0] := rfl
  have hb : entry_bytes le out
      { tag := t, dtype := TIFF_DT_LONG, count := 1, value := bytes32 le v } = bytes32 le v := by
    have : (bytes32 le v).length = 4 := length_bytes32 le v
    simp [entry_bytes, TIFF_DT_LONG, data_sizes, List.take_of_length_le, this]
  simp only [entry_longs, hb, hr, List.map_cons, List.map_nil, Nat.mul_zero, List.drop_zero, h]

theorem entry_shorts_inline_one (le : Bool) (out : List Nat) (t v : Nat) (hv : v < 2 ^ 16) :
    entry_shorts le out
      { tag := t, dtype := TIFF_DT_SHORT, count := 1, value := bytes16 le v ++ [0, 0] }
      = [v] := by
  have h := GET16_bytes16 le v [] hv
  rw [List.append_nil] at h
  have hr : List.range 1 = [0] := rfl
  have hb : entry_bytes le out
      { tag := t, dtype := TIFF_DT_SHORT, count := 1, value := bytes16 le v ++ [0, 0] }
        = bytes16 le v := by
    have : (bytes16 le v).length = 2 := length_bytes16 le v
    simp [entry_bytes, TIFF_DT_SHORT, data_sizes, List.take_append_of_le_length,
      List.take_of_length_le, this]
  simp only [entry_shorts, hb, hr, List.map_cons, List.map_nil, Nat.mul_zero, List.drop_zero, h]

theorem shorts_of_repeat_bytes (le : Bool) (n v : Nat) (hv : v < 2 ^ 16) (hn : n ≤ 4) :
    ((List.range n).map fun i => GET16 le ((repeat_bytes n (bytes16 le v)).drop (2 * i)))
      = List.replicate n v := by
  have h := GET16_bytes16 le v
  have hl := length_bytes16 le v
  generalize bytes16 le v = b at h hl
  match b, hl with
  | [x, y], _ =>
    have h0 := h [] hv
    have hG : ∀ rest, GET16 le (x :: y :: rest) = v := fun rest => h rest hv
    interval_cases n
    · rfl
    · simp [repeat_bytes, List.range_succ, hG]
    · simp [repeat_bytes, List.range_succ, hG]
    · simp [repeat_bytes, List.range_succ, hG]
    · simp [repeat_bytes, List.range_succ, hG]

theorem entry_shorts_bits_inline (le : Bool) (out : List Nat) (t n v : Nat) (hv : v < 2 ^ 16)
    (hn : n ≤ 2) :
    entry_shorts le out
      { tag := t, dtype := TIFF_DT_SHORT, count := n
        value := repeat_bytes n (bytes16 le v) ++ List.replicate (4 - 2 * n) 0 }
      = List.replicate n v := by
  have hlen : (repeat_bytes n (bytes16 le v)).length = n * 2 := by
    interval_cases n <;> simp [repeat_bytes, length_bytes16]
  have hb : entry_bytes le out
      { tag := t, dtype := TIFF_DT_SHORT, count := n
        value := repeat_bytes n (bytes16 le v) ++ List.replicate (4 - 2 * n) 0 }
        = repeat_bytes n (bytes16 le v) := by
    have hsz : n * data_sizes.getD TIFF_DT_SHORT 0 ≤ 4 := by
      have : data_sizes.getD TIFF_DT_SHORT 0 = 2 := rfl
      rw [this]; omega
    simp only [entry_bytes, if_pos hsz]
    rw [List.take_left' (by rw [hlen]; rfl)]
  simp only [entry_shorts, hb]
  exact shorts_of_repeat_bytes le n v hv (by omega)

theorem entry_shorts_bits_outline (le : Bool) (pre ext : List Nat) (t n v : Nat)
    (hv : v < 2 ^ 16) (hn1 : 3 ≤ n) (hn : n ≤ 4) (hpre : pre.length < 2 ^ 32) :
    entry_shorts le (pre ++ repeat_bytes n (bytes16 le v) ++ ext)
      { tag := t, dtype := TIFF_DT_SHORT, count := n, value := bytes32 le pre.length }
      = List.replicate n v := by
  have hoff := GET32_bytes32 le pre.length [] hpre
  rw [List.append_nil] at hoff
  have hbytes : entry_bytes le (pre ++ repeat_bytes n (bytes16 le v) ++ ext)
      { tag := t, dtype := TIFF_DT_SHORT, count := n, value := bytes32 le pre.length }
      = repeat_bytes n (bytes16 le v) := by
    have hlen : (repeat_bytes n (bytes16 le v)).length = n * 2 := by
      interval_cases n <;> simp [repeat_bytes, length_bytes16]
    have hsz : ¬ n * data_sizes.getD TIFF_DT_SHORT 0 ≤ 4 := by
      have : data_sizes.getD TIFF_DT_SHORT 0 = 2 := rfl
      rw [this]; omega
    simp only [entry_bytes, if_neg hsz, hoff]
    rw [List.append_assoc, List.drop_left, List.take_left' (by rw [hlen]; rfl)]
  simp only [entry_shorts, hbytes]
  exact shorts_of_repeat_bytes le n v hv hn

theorem write_TIFF_start_fields (image : IMG_INFO) (le : Bool) (buf0 : List Nat) :
    (write_TIFF_start image le buf0).tag_count = 0 ∧
    (write_TIFF_start image le buf0).ifd.length = MAX_TAGS ∧
    (write_TIFF_start image le buf0).little_endian = le ∧
    (write_TIFF_start image le buf0).image = image ∧
    (write_TIFF_start image le buf0).file_offset = 8 ∧
    (write_TIFF_start image le buf0).outf.length = 8 ∧
    (write_TIFF_start image le buf0).buf.length = buf0.length := by
  refine ⟨rfl, by simp [write_TIFF_start], rfl, rfl, rfl, ?_, ?_⟩
  · simp only [write_TIFF_start, first_bytes, List.length_append, List.length_take,
      List.length_replicate]
    omega
  · simp only [write_TIFF_start, PUT32, PUT16, length_poke]

/-- The decoded values of the four tags after `write_basic_tags`, for any image
descriptor within the ranges of its fields. -/
theorem write_basic_tags_values (IOBUF_SIZE : Nat) (image : IMG_INFO) (le : Bool)
    (buf0 : List Nat) (hbuf : 8 ≤ buf0.length) (hw : image.width < 2 ^ 32)
    (hh : image.height < 2 ^ 32) (hspp : image.samples_per_pixel ≤ 4)
    (hbps : image.bits_per_sample < 2 ^ 16) :
    ∃ ew el es eb,
      find_tag (write_basic_tags IOBUF_SIZE (write_TIFF_start image le buf0)).2
        TIFF_TAG_ImageWidth = some ew ∧
      find_tag (write_basic_tags IOBUF_SIZE (write_TIFF_start image le buf0)).2
        TIFF_TAG_ImageLength = some el ∧
      find_tag (write_basic_tags IOBUF_SIZE (write_TIFF_start image le buf0)).2
        TIFF_TAG_SamplesPerPixel = some es ∧
      find_tag (write_basic_tags IOBUF_SIZE (write_TIFF_start image le buf0)).2
        TIFF_TAG_BitsPerSample = some eb ∧
      entry_longs le (write_basic_tags IOBUF_SIZE (write_TIFF_start image le buf0)).2.outf ew
        = [image.width] ∧
      entry_longs le (write_basic_tags IOBUF_SIZE (write_TIFF_start image le buf0)).2.outf el
        = [image.height] ∧
      entry_shorts le (write_basic_tags IOBUF_SIZE (write_TIFF_start image le buf0)).2.outf es
        = [image.samples_per_pixel] ∧
      entry_shorts le (write_basic_tags IOBUF_SIZE (write_TIFF_start image le buf0)).2.outf eb
        = List.replicate image.samples_per_pixel image.bits_per_sample ∧
      eb.count = image.samples_per_pixel ∧ eb.dtype = TIFF_DT_SHORT ∧
      (image.samples_per_pixel ≤ 2 → eb.value.take (2 * image.samples_per_pixel)
        = repeat_bytes image.samples_per_pixel (bytes16 le image.bits_per_sample)) ∧
      (2 < image.samples_per_pixel → GET32 le eb.value = 8) := by
  obtain ⟨t1, t2, t3, t4, t5, t6, t7⟩ := write_TIFF_start_fields image le buf0
  obtain ⟨f1, f2, f3, f4, f5, f6, f7, f8, f9⟩ :=
    write_basic_tags_fixed_spec (write_TIFF_start image le buf0) t1 t2 (by omega)
      (by rw [t5]) (by rw [t4]; exact hspp)
  obtain ⟨⟨ext, g1⟩, g2⟩ := write_basic_tags_tail IOBUF_SIZE (write_TIFF_start image le buf0)
    (by rw [f1, f2]; decide)
  rw [t3, t4] at f5 f6 f7 f8 f9
  rw [t5] at f9
  have hspp16 : image.samples_per_pixel < 2 ^ 16 := by omega
  by_cases hsp : image.samples_per_pixel ≤ 2
  · obtain ⟨_, f8b⟩ := f8 hsp
    refine ⟨_, _, _, _, (g2 _ (by decide) (by decide)).trans f5,
      (g2 _ (by decide) (by decide)).trans f6, (g2 _ (by decide) (by decide)).trans f7,
      (g2 _ (by decide) (by decide)).trans f8b,
      entry_longs_inline_one le _ _ _ hw, entry_longs_inline_one le _ _ _ hh,
      entry_shorts_inline_one le _ _ _ hspp16,
      entry_shorts_bits_inline le _ _ _ _ hbps hsp, rfl, rfl, ?_, fun h => by omega⟩
    intro _
    have hlen : (repeat_bytes image.samples_per_pixel (bytes16 le image.bits_per_sample)).length
        = image.samples_per_pixel * 2 := by
      interval_cases image.samples_per_pixel <;> simp [repeat_bytes, length_bytes16]
    exact List.take_left' (by rw [hlen]; ring)
  · obtain ⟨f9a, f9b⟩ := f9 (by omega)
    have hout : (write_basic_tags IOBUF_SIZE (write_TIFF_start image le buf0)).2.outf
        = (write_TIFF_start image le buf0).outf ++
          repeat_bytes image.samples_per_pixel (bytes16 le image.bits_per_sample) ++ ext := by
      rw [g1, f9a]
    have h8 : (8 : Nat) = (write_TIFF_start image le buf0).outf.length := t6.symm
    refine ⟨_, _, _, _, (g2 _ (by decide) (by decide)).trans f5,
      (g2 _ (by decide) (by decide)).trans f6, (g2 _ (by decide) (by decide)).trans f7,
      (g2 _ (by decide) (by decide)).trans f9b,
      entry_longs_inline_one le _ _ _ hw, entry_longs_inline_one le _ _ _ hh,
      entry_shorts_inline_one le _ _ _ hspp16, ?_, rfl, rfl, fun h => by omega, ?_⟩
    · rw [hout, h8]
      exact entry_shorts_bits_outline le _ _ _ _ _ hbps (by omega) hspp (by rw [t6]; decide)
    · intro _
      have := GET32_bytes32 le 8 [] (by decide)
      rwa [List.append_nil] at this

theorem basic_tags_state_little_endian (IOBUF_SIZE : Nat) (image : IMG_INFO) (le : Bool)
    (buf0 : List Nat) : (basic_tags_state IOBUF_SIZE image le buf0).little_endian = le := by
  have hfixed : (write_basic_tags_fixed (write_TIFF_start image le buf0)).little_endian = le := by
    simp only [write_basic_tags_fixed, write_tag_little_endian]
    rfl
  unfold basic_tags_state write_basic_tags
  simp only []
  split_ifs <;>
    simp only [write_colormap, write_extra_samples, write_tag_little_endian, hfixed]

/-- C6: for every image descriptor (width and height 32-bit values, at most 4 samples per
pixel, a bit depth that fits 16 bits), after `write_basic_tags` the directory entries of
ImageWidth, ImageLength, SamplesPerPixel and BitsPerSample decode to `width`, `height`,
`samples_per_pixel` and `samples_per_pixel` copies of `bits_per_sample`; the
BitsPerSample entry is a SHORT entry of count `samples_per_pixel` that holds the values
themselves when `samples_per_pixel <= 2` and otherwise the file offset 8, where the
values were written.  For the 1 x 1 truecolour image of depth 8 the decoded values are
1, 1, 3 and (8, 8, 8). -/
theorem write_basic_tags_decoded (IOBUF_SIZE : Nat) (image : IMG_INFO) (le : Bool)
    (buf0 : List Nat) (hbuf : 8 ≤ buf0.length) (hw : image.width < 2 ^ 32)
    (hh : image.height < 2 ^ 32) (hspp : image.samples_per_pixel ≤ 4) (hbps : image.bits_per_sample < 2 ^ 16) :
    (decoded_longs (basic_tags_state IOBUF_SIZE image le buf0) TIFF_TAG_ImageWidth
        = some [image.width] ∧
      decoded_longs (basic_tags_state IOBUF_SIZE image le buf0) TIFF_TAG_ImageLength
        = some [image.height] ∧
      decoded_shorts (basic_tags_state IOBUF_SIZE image le buf0) TIFF_TAG_SamplesPerPixel
        = some [image.samples_per_pixel] ∧
      decoded_shorts (basic_tags_state IOBUF_SIZE image le buf0) TIFF_TAG_BitsPerSample
        = some (List.replicate image.samples_per_pixel image.bits_per_sample) ∧
      (find_tag (basic_tags_state IOBUF_SIZE image le buf0) TIFF_TAG_BitsPerSample).map
          (fun e => (e.dtype, e.count)) = some (TIFF_DT_SHORT, image.samples_per_pixel) ∧
      (image.samples_per_pixel ≤ 2 →
        (find_tag (basic_tags_state IOBUF_SIZE image le buf0) TIFF_TAG_BitsPerSample).map
          (fun e => e.value.take (2 * image.samples_per_pixel))
            = some (repeat_bytes image.samples_per_pixel (bytes16 le image.bits_per_sample))) ∧
      (2 < image.samples_per_pixel →
        (find_tag (basic_tags_state IOBUF_SIZE image le buf0) TIFF_TAG_BitsPerSample).map
          (fun e => GET32 le e.value) = some 8)) ∧
    (decoded_longs (basic_tags_state IOBUF_SIZE one_pixel_rgb le buf0) TIFF_TAG_ImageWidth
        = some [1] ∧
      decoded_longs (basic_tags_state IOBUF_SIZE one_pixel_rgb le buf0) TIFF_TAG_ImageLength
        = some [1] ∧
      decoded_shorts (basic_tags_state IOBUF_SIZE one_pixel_rgb le buf0) TIFF_TAG_SamplesPerPixel
        = some [3] ∧
      decoded_shorts (basic_tags_state IOBUF_SIZE one_pixel_rgb le buf0) TIFF_TAG_BitsPerSample
        = some [8, 8, 8]) := by
  have key : ∀ img : IMG_INFO, img.width < 2 ^ 32 → img.height < 2 ^ 32 →
      img.samples_per_pixel ≤ 4 → img.bits_per_sample < 2 ^ 16 →
      decoded_longs (basic_tags_state IOBUF_SIZE img le buf0) TIFF_TAG_ImageWidth
        = some [img.width] ∧
      decoded_longs (basic_tags_state IOBUF_SIZE img le buf0) TIFF_TAG_ImageLength
        = some [img.height] ∧
      decoded_shorts (basic_tags_state IOBUF_SIZE img le buf0) TIFF_TAG_SamplesPerPixel
        = some [img.samples_per_pixel] ∧
      decoded_shorts (basic_tags_state IOBUF_SIZE img le buf0) TIFF_TAG_BitsPerSample
        = some (List.replicate img.samples_per_pixel img.bits_per_sample) ∧
      (find_tag (basic_tags_state IOBUF_SIZE img le buf0) TIFF_TAG_BitsPerSample).map
          (fun e => (e.dtype, e.count)) = some (TIFF_DT_SHORT, img.samples_per_pixel) ∧
      (img.samples_per_pixel ≤ 2 →
        (find_tag (basic_tags_state IOBUF_SIZE img le buf0) TIFF_TAG_BitsPerSample).map
          (fun e => e.value.take (2 * img.samples_per_pixel))
            = some (repeat_bytes img.samples_per_pixel (bytes16 le img.bits_per_sample))) ∧
      (2 < img.samples_per_pixel →
        (find_tag (basic_tags_state IOBUF_SIZE img le buf0) TIFF_TAG_BitsPerSample).map
          (fun e => GET32 le e.value) = some 8) := by
    intro img h1 h2 h3 h4
    obtain ⟨ew, el, es, eb, a1, a2, a3, a4, b1, b2, b3, b4, c1, c2, c3, c4⟩ :=
      write_basic_tags_values IOBUF_SIZE img le buf0 hbuf h1 h2 h3 h4
    have hle := basic_tags_state_little_endian IOBUF_SIZE img le buf0
    simp only [decoded_longs, decoded_shorts, hle]
    unfold basic_tags_state
    rw [a1, a2, a3, a4]
    simp only [Option.map_some']
    refine ⟨by rw [b1], by rw [b2], by rw [b3], by rw [b4], by rw [c1, c2], ?_, ?_⟩
    · intro h; rw [c3 h]
    · intro h; rw [c4 h]
  refine ⟨key image hw hh hspp hbps, ?_⟩
  obtain ⟨k1, k2, k3, k4, _⟩ := key one_pixel_rgb (by decide) (by decide) (by decide) (by decide)
  exact ⟨k1, k2, k3, k4⟩

theorem write_basic_tags_decoded_witness :
    decoded_longs (basic_tags_state 8192
        { width := 640, height := 480, bits_per_sample := 16, samples_per_pixel := 4,
          is_color := true, has_alpha := true } false (List.replicate 8192 0))
        TIFF_TAG_ImageWidth = some [640] ∧
    decoded_shorts (basic_tags_state 8192
        { width := 640, height := 480, bits_per_sample := 16, samples_per_pixel := 4,
          is_color := true, has_alpha := true } false (List.replicate 8192 0))
        TIFF_TAG_BitsPerSample = some [16, 16, 16, 16] :=
  have h := (write_basic_tags_decoded 8192
    { width := 640, height := 480, bits_per_sample := 16, samples_per_pixel := 4,
      is_color := true, has_alpha := true } false (List.replicate 8192 0)
    (by simp only [List.length_replicate]; decide) (by decide) (by decide) (by decide)
    (by decide)).1
  ⟨h.1, h.2.2.2.1⟩

/-! ## Theorems: the strips -/

/-- C5 (the code departs from it): for the 4097 x 2^30 greyscale image of depth 8 a row
takes 4097 bytes, so `rows_per_strip` starts at 1 and `total_strips` is 2^30; the test
`4 * total_strips > IOBUF_SIZE` is made in 32-bit arithmetic, where `4 * 2^30` is 0, so
the loop stops at once, whatever `IOBUF_SIZE` is, although the strip tables take 2^32
bytes, more than any 32-bit `IOBUF_SIZE`. -/
theorem strip_sizing_wraps_around (IOBUF_SIZE : Nat) :
    strip_sizing IOBUF_SIZE
        { width := 4097, height := 2 ^ 30, bits_per_sample := 8, samples_per_pixel := 1 }
      = some (1, 2 ^ 30, 4097) ∧
    ¬ (IOBUF_SIZE < 2 ^ 32 ∧ 4 * 2 ^ 30 ≤ IOBUF_SIZE) := by
  constructor
  · simp [strip_sizing, new_line_size, strip_sizing_loop]
  · omega

set_option maxRecDepth 100000 in
/-- C7 (the code departs from it): the 1 x 1 truecolour image of depth 8 is written as one
strip.  The first byte of its pixel row goes to offset 14 of the output file, where the
three bytes of the pixel are found afterwards, but the StripOffsets entry, which holds
its value inline, records the offset 18: the four bytes of an offset table that is not
written for a single strip are counted in. -/
theorem single_strip_offset_is_off_by_four :
    (write_strips 768 [0, 0, 0]
        (basic_tags_state 768 one_pixel_rgb true (List.replicate 768 0))).map
      (fun r => (decoded_longs r.2.ts TIFF_TAG_StripOffsets, r.2.starts, r.2.ts.outf.drop 14))
      = some (some [18], [14], [11, 22, 33]) := by
  decide

theorem strip_sizing_loop_in_range (IOBUF_SIZE height line_size : Nat) (hio : 4 ≤ IOBUF_SIZE)
    (hh : height < 2 ^ 30) :
    ∀ (fuel rows : Nat), 1 ≤ rows → rows < 2 ^ 31 → 2 ^ 33 ≤ rows * 2 ^ fuel →
      ∃ rows_per_strip total_strips strip_size,
        strip_sizing_loop IOBUF_SIZE height line_size fuel rows
          = some (rows_per_strip, total_strips, strip_size) ∧
        1 ≤ rows_per_strip ∧
        total_strips = (height + (rows_per_strip - 1)) / rows_per_strip ∧
        4 * total_strips ≤ IOBUF_SIZE := by
  intro fuel
  induction fuel with
  | zero => intro rows _ h2 h3; omega
  | succ fuel ih =>
    intro rows h1 h2 h3
    have hne : rows ≠ 0 := by omega
    have hsum : (height + (rows - 1)) % 2 ^ 32 = height + (rows - 1) :=
      Nat.mod_eq_of_lt (by omega)
    have htot_le : (height + (rows - 1)) / rows ≤ height := by
      rw [Nat.div_le_iff_le_mul_add_pred (by omega)]
      have : height ≤ rows * height := Nat.le_mul_of_pos_left height (by omega)
      omega
    have h4 : (4 * ((height + (rows - 1)) / rows)) % 2 ^ 32
        = 4 * ((height + (rows - 1)) / rows) := Nat.mod_eq_of_lt (by omega)
    have hdbl : (rows * 2) % 2 ^ 32 = rows * 2 := Nat.mod_eq_of_lt (by omega)
    unfold strip_sizing_loop
    simp only [if_neg hne, hsum, h4, hdbl]
    by_cases hc : 4 * ((height + (rows - 1)) / rows) > IOBUF_SIZE
    · rw [if_pos hc]
      have htwo : 2 ≤ (height + (rows - 1)) / rows := by omega
      have hge : 2 * rows ≤ height + (rows - 1) := by
        have := Nat.mul_le_of_le_div _ _ _ htwo
        omega
      apply ih (rows * 2) (by omega) (by omega)
      have hpow : rows * 2 ^ (fuel + 1) = rows * 2 * 2 ^ fuel := by
        rw [Nat.pow_succ]; ring
      rw [hpow] at h3
      exact h3
    · rw [if_neg hc]
      refine ⟨_, _, _, rfl, ?_, ?_, by omega⟩
      · omega
      · rw [Nat.mul_div_cancel _ (by decide : 0 < 2)]

/-- C5 within the range of 32-bit arithmetic: for an image of fewer than 2^30 rows whose
row takes at least one byte, and an I/O buffer of at least 4 bytes, the strip sizing ends
with `rows_per_strip >= 1`, `total_strips = ceil(height / rows_per_strip)` and
`4 * total_strips <= IOBUF_SIZE`. -/
theorem strip_sizing_in_range (IOBUF_SIZE : Nat) (image : IMG_INFO) (hio : 4 ≤ IOBUF_SIZE)
    (hh : image.height < 2 ^ 30) (hline : 0 < new_line_size image 0 1) :
    ∃ rows_per_strip total_strips strip_size,
      strip_sizing IOBUF_SIZE image = some (rows_per_strip, total_strips, strip_size) ∧
      1 ≤ rows_per_strip ∧
      total_strips = (image.height + (rows_per_strip - 1)) / rows_per_strip ∧
      4 * total_strips ≤ IOBUF_SIZE := by
  unfold strip_sizing
  simp only []
  split_ifs with h1 h2
  · exact strip_sizing_loop_in_range IOBUF_SIZE image.height _ hio hh 33 1 (by omega)
      (by omega) (by omega)
  · omega
  · have hpos : 1 ≤ 8192 / new_line_size image 0 1 :=
      Nat.div_pos (by omega) hline
    have hle : 8192 / new_line_size image 0 1 ≤ 8192 := Nat.div_le_self _ _
    exact strip_sizing_loop_in_range IOBUF_SIZE image.height _ hio hh 33 _ hpos
      (by omega) (by
        have : 2 ^ 33 ≤ 1 * 2 ^ 33 := by omega
        exact Nat.le_trans this (Nat.mul_le_mul_right _ hpos))

theorem strip_sizing_in_range_witness :
    ∃ rows_per_strip total_strips strip_size,
      strip_sizing 8192 tall_rgb_image = some (rows_per_strip, total_strips, strip_size) ∧
      1 ≤ rows_per_strip ∧
      total_strips = (tall_rgb_image.height + (rows_per_strip - 1)) / rows_per_strip ∧
      4 * total_strips ≤ 8192 :=
  strip_sizing_in_range 8192 tall_rgb_image (by decide) (by decide) (by decide)

/-! ## Theorems: the Adler-32 checksum of the window -/

theorem weighted_sum_append (D l : List Nat) :
    weighted_sum (D ++ l) = weighted_sum D + l.length * D.sum + weighted_sum l := by
  induction D with
  | nil => simp [weighted_sum]
  | cons x D ih =>
    rw [List.cons_append]
    simp only [weighted_sum, List.append_eq, ih, List.length_append, List.sum_cons]
    ring

theorem weighted_sum_le (l : List Nat) (hb : ∀ x ∈ l, x < 256) :
    2 * weighted_sum l ≤ 255 * (l.length * (l.length + 1)) := by
  induction l with
  | nil => simp [weighted_sum]
  | cons x l ih =>
    have hx : x ≤ 255 := by
      have := hb x (List.mem_cons_self _ _); omega
    have ih1 := ih (fun y hy => hb y (List.mem_cons_of_mem _ hy))
    simp only [weighted_sum, List.length_cons]
    have h2 : (l.length + 1) * x ≤ (l.length + 1) * 255 := Nat.mul_le_mul_left _ hx
    nlinarith

theorem sum_le_of_bytes (l : List Nat) (hb : ∀ x ∈ l, x < 256) : l.sum ≤ 255 * l.length := by
  induction l with
  | nil => simp
  | cons x l ih =>
    have hx := hb x (List.mem_cons_self _ _)
    have ih1 := ih (fun y hy => hb y (List.mem_cons_of_mem _ hy))
    simp only [List.sum_cons, List.length_cons]
    omega

theorem running_sums_eq (D : List Nat) :
    ((List.range D.length).map (fun k => 1 + (D.take (k + 1)).sum)).sum
      = D.length + weighted_sum D := by
  induction D with
  | nil => simp [weighted_sum]
  | cons x D ih =>
    rw [List.length_cons, List.range_succ_eq_map, List.map_cons, List.sum_cons, List.map_map]
    have hf : ((fun k => 1 + (List.take (k + 1) (x :: D)).sum) ∘ Nat.succ)
        = fun k => 1 + (x + (List.take (k + 1) D).sum) := by
      funext k
      simp only [Function.comp, Nat.succ_eq_add_one, List.take_succ_cons, List.sum_cons]
    have : ∀ r : List Nat,
        (List.map (fun k => 1 + (x + (List.take (k + 1) D).sum)) r).sum
        = r.length * x + (List.map (fun k => 1 + (List.take (k + 1) D).sum) r).sum := by
      intro r
      induction r with
      | nil => simp
      | cons k r ihr =>
        rw [List.map_cons, List.sum_cons, ihr, List.map_cons, List.sum_cons, List.length_cons]
        ring
    rw [hf, this, ih, List.length_range]
    simp only [weighted_sum, List.take_succ_cons, List.take_zero, List.sum_cons, List.sum_nil]
    ring

/-- Within a run that does not overflow, the wrapping accumulators hold the plain sums. -/
theorem adler_fold_plain (l : List Nat) (a b : Nat)
    (h1 : a + l.sum < 2 ^ 32) (h2 : b + l.length * a + weighted_sum l < 2 ^ 32) :
    l.foldl adler_step (a, b) = (a + l.sum, b + l.length * a + weighted_sum l) := by
  induction l generalizing a b with
  | nil => simp [weighted_sum]
  | cons x l ih =>
    simp only [List.sum_cons, List.length_cons, weighted_sum] at h1 h2
    have e : adler_step (a, b) x = (a + x, b + (a + x)) := by
      have h3 : a + x < 2 ^ 32 := by omega
      have h4 : b + (a + x) < 2 ^ 32 := by nlinarith
      simp only [adler_step, Nat.mod_eq_of_lt h3, Nat.mod_eq_of_lt h4]
    rw [List.foldl_cons, e, ih]
    · simp only [List.sum_cons, List.length_cons, weighted_sum, Prod.mk.injEq]
      constructor
      · ring
      · ring
    · omega
    · have : b + (a + x) + l.length * (a + x) + weighted_sum l
          = b + (l.length + 1) * a + ((l.length + 1) * x + weighted_sum l) := by ring
      omega

/-- One run of at most 5552 bytes followed by the reduction carries the reference lanes
of `D` to those of `D ++ l`. -/
theorem adler_run (D l : List Nat) (hb : ∀ x ∈ l, x < 256) (hl : l.length ≤ 5552) :
    ((l.foldl adler_step ((1 + D.sum) % 65521, (D.length + weighted_sum D) % 65521)).1 % 65521,
     (l.foldl adler_step ((1 + D.sum) % 65521, (D.length + weighted_sum D) % 65521)).2 % 65521)
      = ((1 + (D ++ l).sum) % 65521, ((D ++ l).length + weighted_sum (D ++ l)) % 65521) := by
  have ha : (1 + D.sum) % 65521 < 65521 := Nat.mod_lt _ (by decide)
  have hb2 : (D.length + weighted_sum D) % 65521 < 65521 := Nat.mod_lt _ (by decide)
  have hs := sum_le_of_bytes l hb
  have hw := weighted_sum_le l hb
  have hna : l.length * ((1 + D.sum) % 65521) ≤ 5552 * 65520 :=
    Nat.mul_le_mul hl (by omega)
  have hnn : l.length * (l.length + 1) ≤ 5552 * 5553 := Nat.mul_le_mul hl (by omega)
  rw [adler_fold_plain l _ _ (by omega) (by omega)]
  have e1 : ((1 + D.sum) % 65521 + l.sum) % 65521 = (1 + (D ++ l).sum) % 65521 := by
    rw [List.sum_append]; omega
  have e2 : ((D.length + weighted_sum D) % 65521 + l.length * ((1 + D.sum) % 65521)
      + weighted_sum l) % 65521 = ((D ++ l).length + weighted_sum (D ++ l)) % 65521 := by
    have h1 : (D.length + weighted_sum D) % 65521 ≡ D.length + weighted_sum D [MOD 65521] :=
      Nat.mod_modEq _ _
    have h2 : (1 + D.sum) % 65521 ≡ 1 + D.sum [MOD 65521] := Nat.mod_modEq _ _
    have h3 := ((h1.add (h2.mul_left l.length)).add_right (weighted_sum l))
    have h4 : (D ++ l).length + weighted_sum (D ++ l)
        = D.length + weighted_sum D + l.length * (1 + D.sum) + weighted_sum l := by
      rw [weighted_sum_append, List.length_append]; ring
    rw [h4]; exact h3
  simp only [e1, e2]

theorem adler_runs_lanes (fuel : Nat) (D data : List Nat) (hf : data.length ≤ fuel)
    (hb : ∀ x ∈ data, x < 256) :
    adler_runs fuel data ((1 + D.sum) % 65521, (D.length + weighted_sum D) % 65521)
      = ((1 + (D ++ data).sum) % 65521,
         ((D ++ data).length + weighted_sum (D ++ data)) % 65521) := by
  induction fuel generalizing D data with
  | zero =>
    have : data = [] := List.length_eq_zero.mp (by omega)
    subst this
    simp [adler_runs]
  | succ fuel ih =>
    unfold adler_runs
    split_ifs with h
    · simp only []
      rw [adler_run D (data.take 5552) (fun x hx => hb x (List.mem_of_mem_take hx))
        (by rw [List.length_take]; omega)]
      rw [ih (D ++ data.take 5552) (data.drop 5552) (by rw [List.length_drop]; omega)
        (fun x hx => hb x (List.mem_of_mem_drop hx))]
      rw [List.append_assoc, List.take_append_drop]
    · have : data = [] := List.length_eq_zero.mp (by omega)
      subst this
      simp

theorem adler32_lanes_eq (D : List Nat) :
    adler32_sum1 D = (1 + D.sum) % 65521 ∧
      adler32_sum2 D = (D.length + weighted_sum D) % 65521 := by
  simp only [adler32_sum1, adler32_sum2, running_sums_eq, and_self]

theorem advance_pass_sums (fuel : Nat) (s : PngState) :
    (advance_pass fuel s).1.sum1 = s.sum1 ∧ (advance_pass fuel s).1.sum2 = s.sum2 ∧
      (advance_pass fuel s).1.cur_filter = s.cur_filter := by
  induction fuel generalizing s with
  | zero => simp [advance_pass]
  | succ fuel ih =>
    unfold advance_pass
    simp only []
    split_ifs
    · simp
    · rw [(ih _).1, (ih _).2.1, (ih _).2.2]; simp
    · simp

theorem write_byte_sums (s : PngState) :
    (write_byte s).sum1 = s.sum1 ∧ (write_byte s).sum2 = s.sum2 ∧
      ((write_byte s).cur_filter = s.cur_filter ∨ (write_byte s).cur_filter = 255) := by
  unfold write_byte
  simp only []
  split_ifs <;> simp [(advance_pass_sums _ _).1, (advance_pass_sums _ _).2.1,
    (advance_pass_sums _ _).2.2]

theorem unfilter_known (byte : Nat) (s : PngState) (h : s.cur_filter ≤ 4) :
    ∃ s1, unfilter byte s = some s1 ∧ s1.sum1 = s.sum1 ∧ s1.sum2 = s.sum2 ∧
      s1.cur_filter = s.cur_filter := by
  have hp : (unfilter_prediction s).isSome = true := by
    unfold unfilter_prediction
    simp only [PNG_PF_None, PNG_PF_Sub, PNG_PF_Up, PNG_PF_Average, PNG_PF_Paeth]
    split_ifs <;> first | rfl | (exfalso; omega)
  obtain ⟨p, hp⟩ := Option.isSome_iff_exists.mp hp
  refine ⟨{ s with this_line := s.this_line.set s.line_x (((byte : Int) + p) % 256).toNat },
    ?_, rfl, rfl, rfl⟩
  simp only [unfilter, hp, Option.map_some']

theorem flush_byte_known (s : PngState) (byte : Nat) (h : FilterKnown s) :
    ∃ s1, flush_byte s byte = some s1 ∧ FilterKnown s1 ∧ s1.sum1 = s.sum1 ∧
      s1.sum2 = s.sum2 := by
  unfold flush_byte
  by_cases h255 : 255 = s.cur_filter
  · rw [if_pos h255]
    simp only []
    split_ifs with h4
    · exact ⟨_, rfl, Or.inl (by simp), rfl, rfl⟩
    · exact ⟨_, rfl, Or.inl (by simp only [] at h4 ⊢; omega), rfl, rfl⟩
  · rw [if_neg h255]
    have h4 : s.cur_filter ≤ 4 := by
      rcases h with h | h
      · exact h
      · exact absurd h.symm h255
    obtain ⟨s1, hs1, e1, e2, e3⟩ := unfilter_known byte s h4
    refine ⟨write_byte s1, by rw [hs1]; rfl, ?_, ?_, ?_⟩
    · rcases (write_byte_sums s1).2.2 with hw | hw
      · exact Or.inl (by rw [hw, e3]; exact h4)
      · exact Or.inr hw
    · rw [(write_byte_sums s1).1, e1]
    · rw [(write_byte_sums s1).2.1, e2]

theorem flush_bytes_known (window : List Nat) (s : PngState) (h : FilterKnown s) :
    ∃ s1, window.foldlM flush_byte s = some s1 ∧ FilterKnown s1 ∧ s1.sum1 = s.sum1 ∧
      s1.sum2 = s.sum2 := by
  induction window generalizing s with
  | nil => exact ⟨s, rfl, h, rfl, rfl⟩
  | cons b w ih =>
    obtain ⟨s1, hs1, k1, e1, e2⟩ := flush_byte_known s b h
    obtain ⟨s2, hs2, k2, f1, f2⟩ := ih s1 k1
    refine ⟨s2, ?_, k2, by rw [f1, e1], by rw [f2, e2]⟩
    rw [List.foldlM_cons, hs1]
    exact hs2

/-- One call of `flush_window` returns and carries the reference lanes of `D` to those of
`D ++ window`. -/
theorem flush_window_lanes (D window : List Nat) (s : PngState) (hk : FilterKnown s)
    (hb : ∀ x ∈ window, x < 256)
    (h1 : s.sum1 = adler32_sum1 D) (h2 : s.sum2 = adler32_sum2 D) :
    ∃ s1, flush_window window s = some s1 ∧ FilterKnown s1 ∧
      s1.sum1 = adler32_sum1 (D ++ window) ∧ s1.sum2 = adler32_sum2 (D ++ window) := by
  rw [(adler32_lanes_eq D).1] at h1
  rw [(adler32_lanes_eq D).2] at h2
  rw [(adler32_lanes_eq (D ++ window)).1, (adler32_lanes_eq (D ++ window)).2]
  unfold flush_window
  rw [h1, h2, adler_runs_lanes window.length D window le_rfl hb]
  have m1 : (1 + (D ++ window).sum) % 65521 % 2 ^ 16 = (1 + (D ++ window).sum) % 65521 :=
    Nat.mod_eq_of_lt (by omega)
  have m2 : ((D ++ window).length + weighted_sum (D ++ window)) % 65521 % 2 ^ 16
      = ((D ++ window).length + weighted_sum (D ++ window)) % 65521 :=
    Nat.mod_eq_of_lt (by omega)
  simp only [m1, m2]
  split_ifs with hz
  · exact ⟨_, rfl, hk, rfl, rfl⟩
  · exact flush_bytes_known window _ (by exact hk)

theorem flush_windows_lanes (windows : List (List Nat)) (D : List Nat) (s : PngState)
    (hk : FilterKnown s) (hb : ∀ w ∈ windows, ∀ x ∈ w, x < 256)
    (h1 : s.sum1 = adler32_sum1 D) (h2 : s.sum2 = adler32_sum2 D) :
    ∃ s1, flush_windows windows s = some s1 ∧ FilterKnown s1 ∧
      s1.sum1 = adler32_sum1 (D ++ windows.flatten) ∧
      s1.sum2 = adler32_sum2 (D ++ windows.flatten) := by
  induction windows generalizing D s with
  | nil => exact ⟨s, rfl, hk, by simpa using h1, by simpa using h2⟩
  | cons w ws ih =>
    obtain ⟨s1, hs1, k1, e1, e2⟩ :=
      flush_window_lanes D w s hk (hb w (List.mem_cons_self _ _)) h1 h2
    obtain ⟨s2, hs2, k2, f1, f2⟩ :=
      ih (D ++ w) s1 k1 (fun v hv => hb v (List.mem_cons_of_mem _ hv)) e1 e2
    refine ⟨s2, ?_, k2, ?_, ?_⟩
    · unfold flush_windows at hs2 ⊢
      rw [List.foldlM_cons, hs1]
      exact hs2
    · rw [f1, List.flatten_cons, List.append_assoc]
    · rw [f2, List.flatten_cons, List.append_assoc]

/-- C11: for every sequence of calls of flush_window with windows of at least one byte,
started with the lanes (1, 0) that zlib_start sets and a filter type that unfilter knows,
every call returns, and afterwards sum1 and sum2 are the two halves of the reference
Adler-32 checksum of the concatenation of the windows: one plus the sum of the bytes, and
the sum over the nonempty prefixes of one plus the prefix sum, both modulo 65521. -/
theorem flush_window_computes_adler32 (windows : List (List Nat)) (s : PngState)
    (hsize : ∀ w ∈ windows, 1 ≤ w.length)
    (hbytes : ∀ w ∈ windows, ∀ x ∈ w, x < 256)
    (hfilter : s.cur_filter ≤ 4 ∨ s.cur_filter = 255)
    (h1 : s.sum1 = 1) (h2 : s.sum2 = 0) :
    ∃ s1, flush_windows windows s = some s1 ∧
      s1.sum1 = adler32_sum1 windows.flatten ∧ s1.sum2 = adler32_sum2 windows.flatten ∧
      s1.sum1 = (1 + windows.flatten.sum) % 65521 ∧
      s1.sum2 = ((List.range windows.flatten.length).map
        (fun k => 1 + (windows.flatten.take (k + 1)).sum)).sum % 65521 := by
  have _ := hsize
  obtain ⟨s1, hs1, _, e1, e2⟩ := flush_windows_lanes windows [] s hfilter hbytes
    (by rw [h1]; rfl) (by rw [h2]; rfl)
  rw [List.nil_append] at e1 e2
  exact ⟨s1, hs1, e1, e2, e1, e2⟩

theorem flush_window_computes_adler32_witness :
    ∃ s1, flush_windows [[1, 2, 3], [250]] gray_row_state = some s1 ∧
      s1.sum1 = adler32_sum1 [1, 2, 3, 250] ∧ s1.sum2 = adler32_sum2 [1, 2, 3, 250] ∧
      s1.sum1 = 257 ∧ s1.sum2 = 270 := by
  have h := flush_window_computes_adler32 [[1, 2, 3], [250]] gray_row_state
    (by decide) (by decide) (by decide) rfl rfl
  obtain ⟨s1, hs1, e1, e2, e3, e4⟩ := h
  exact ⟨s1, hs1, e1, e2, by rw [e3]; decide, by rw [e4]; decide⟩

/-- With the lanes of `flush_window` in place, `zlib_end` warns exactly when the four
trailer bytes are not the big-endian second and first halves of the checksum. -/
theorem zlib_end_warns_iff (b0 b1 b2 b3 : Nat) (s : PngState)
    (h0 : b0 < 256) (h1 : b1 < 256) (h2 : b2 < 256) (h3 : b3 < 256)
    (hw : s.window_allocated = true) :
    (zlib_end b0 b1 b2 b3 s).warnings =
      if b2 * 256 + b3 = s.sum1 ∧ b0 * 256 + b1 = s.sum2 then s.warnings
      else s.warnings ++ [Warning.WARN_BAD_SUM] := by
  have e : ∀ a b : Nat, a < 256 → b < 256 →
      ((a <<< 8) % 2 ^ 16) ||| (b % 2 ^ 16) = a * 256 + b := by
    intro a b ha hb
    rw [Nat.mod_eq_of_lt (by omega : b < 2 ^ 16), Nat.shiftLeft_eq,
      Nat.mod_eq_of_lt (by omega : a * 2 ^ 8 < 2 ^ 16)]
    rw [Nat.mul_comm a (2 ^ 8)]
    exact (Nat.mul_add_lt_is_or (show b < 2 ^ 8 by omega) a).symm.trans (by ring)
  unfold zlib_end
  simp only [hw, Bool.not_true, Bool.false_eq_true, if_false, e b0 b1 h0 h1, e b2 b3 h2 h3]
  by_cases c1 : b2 * 256 + b3 = s.sum1 <;> by_cases c2 : b0 * 256 + b1 = s.sum2 <;>
    simp [c1, c2]

/-! ## Theorems: the chunk handlers of ptot.c -/

theorem get_chunk_data_whole (IOBUF_SIZE n : Nat) (s : ChunkState) (body rest : List Nat)
    (hio : n ≤ IOBUF_SIZE) (hn : body.length = n) (hinf : s.inf = body ++ rest) :
    (get_chunk_data IOBUF_SIZE n s).buf = body ++ s.buf.drop n ∧
    (get_chunk_data IOBUF_SIZE n s).bytes_in_buf = n ∧
    (get_chunk_data IOBUF_SIZE n s).inf = rest ∧
    (get_chunk_data IOBUF_SIZE n s).warnings = s.warnings ∧
    (get_chunk_data IOBUF_SIZE n s).bytes_remaining
      = (s.bytes_remaining + 2 ^ 32 - n % 2 ^ 32) % 2 ^ 32 ∧
    (get_chunk_data IOBUF_SIZE n s).current_chunk_name = s.current_chunk_name := by
  have hmin : min IOBUF_SIZE n = n := by omega
  have ht : (body ++ rest).take n = body := by rw [← hn]; exact List.take_left' rfl
  have hd : (body ++ rest).drop n = rest := by rw [← hn]; exact List.drop_left' rfl
  simp only [get_chunk_data, fread_buf, hmin, hinf, ht, hd, hn, and_self]

/-- C12: for every 13-byte header body, decode_IHDR fails with ERR_BAD_PNG exactly when
the compression or filter method byte is nonzero, or the interlace byte is neither 0 nor
1, or the bit depth is not one of 1, 2, 4, 8, 16, or the depth is below 8 with colour
type 2, 4 or 6.  Otherwise it succeeds, a depth above 8 with the palette bit set adding a
warning, and samples_per_pixel is 3 for colour without palette and 1 otherwise, plus 1
with alpha, hence between 1 and 4. -/
theorem decode_IHDR_accepts_iff (IOBUF_SIZE : Nat) (s : ChunkState) (image : IMG_INFO)
    (w h rest : List Nat) (depth ctype comp filt ilace : Nat)
    (hio : 13 ≤ IOBUF_SIZE) (hw : w.length = 4) (hh : h.length = 4)
    (hinf : s.inf = w ++ h ++ [depth, ctype, comp, filt, ilace] ++ rest)
    (hrem : 13 ≤ s.bytes_remaining) :
    (decode_IHDR IOBUF_SIZE s image = .error Err.ERR_BAD_PNG ↔
      (comp ≠ 0 ∨ filt ≠ 0 ∨ ¬(ilace = 0 ∨ ilace = 1) ∨
        ¬(depth = 1 ∨ depth = 2 ∨ depth = 4 ∨ depth = 8 ∨ depth = 16) ∨
        (depth < 8 ∧ (ctype = 2 ∨ ctype = 4 ∨ ctype = 6)))) ∧
    (¬(comp ≠ 0 ∨ filt ≠ 0 ∨ ¬(ilace = 0 ∨ ilace = 1) ∨
        ¬(depth = 1 ∨ depth = 2 ∨ depth = 4 ∨ depth = 8 ∨ depth = 16) ∨
        (depth < 8 ∧ (ctype = 2 ∨ ctype = 4 ∨ ctype = 6))) →
      ∃ s1 image1, decode_IHDR IOBUF_SIZE s image = .ok (s1, image1) ∧
        image1.samples_per_pixel =
          (if 0 ≠ ctype &&& PNG_CB_Color ∧ ¬(0 ≠ ctype &&& PNG_CB_Palette) then 3 else 1)
            + (if 0 ≠ ctype &&& PNG_CB_Alpha then 1 else 0) ∧
        1 ≤ image1.samples_per_pixel ∧ image1.samples_per_pixel ≤ 4 ∧
        image1.bits_per_sample = depth ∧
        image1.width = BE_GET32 w ∧ image1.height = BE_GET32 h ∧
        image1.is_interlaced = decide (ilace = 1) ∧
        s1.warnings = s.warnings ++
          (if 0 ≠ ctype &&& PNG_CB_Palette ∧ 0 ≠ ctype &&& PNG_CB_Alpha
            then [Warning.WARN_BAD_PNG] else []) ++
          (if depth > 8 ∧ 0 ≠ ctype &&& PNG_CB_Palette
            then [Warning.WARN_BAD_PNG] else [])) := by
  obtain ⟨hbuf, hcount, -, hwarn, -, -⟩ := get_chunk_data_whole IOBUF_SIZE 13 s
    (w ++ h ++ [depth, ctype, comp, filt, ilace]) rest hio (by simp [hw, hh]) hinf
  have hnot : ¬ s.bytes_remaining < 13 := by omega
  have h13 : ¬ (13 ≠ (get_chunk_data IOBUF_SIZE 13 s).bytes_in_buf) := by
    rw [hcount]; exact fun hc => hc rfl
  unfold decode_IHDR
  rw [if_neg hnot]
  simp only []
  rw [if_neg h13]
  generalize get_chunk_data IOBUF_SIZE 13 s = s1 at hbuf hwarn ⊢
  have g : s1.buf.getD 8 0 = depth ∧ s1.buf.getD 9 0 = ctype ∧ s1.buf.getD 10 0 = comp ∧
      s1.buf.getD 11 0 = filt ∧ s1.buf.getD 12 0 = ilace ∧
      BE_GET32 s1.buf = BE_GET32 w ∧ BE_GET32 (s1.buf.drop 4) = BE_GET32 h := by
    rw [hbuf]
    match w, hw, h, hh with
    | [w0, w1, w2, w3], _, [h0, h1, h2, h3], _ => exact ⟨rfl, rfl, rfl, rfl, rfl, rfl, rfl⟩
  obtain ⟨g8, g9, g10, g11, g12, gw, gh⟩ := g
  simp only [g8, g9, g10, g11, g12, gw, gh, hwarn, decide_eq_true_eq]
  clear hbuf hinf g8 g9 g10 g11 g12 gw gh
  have e1 : (0 ≠ comp ∨ 0 ≠ filt) ↔ (comp ≠ 0 ∨ filt ≠ 0) := by omega
  have e2 : (0 = ilace ∨ 1 = ilace) ↔ (ilace = 0 ∨ ilace = 1) := by omega
  have e3 : (1 = depth ∨ 2 = depth ∨ 4 = depth ∨ 8 = depth ∨ 16 = depth) ↔
      (depth = 1 ∨ depth = 2 ∨ depth = 4 ∨ depth = 8 ∨ depth = 16) := by omega
  have e4 : (2 = ctype ∨ 4 = ctype ∨ 6 = ctype) ↔ (ctype = 2 ∨ ctype = 4 ∨ ctype = 6) := by
    omega
  have hil : decide (ilace ≠ 0) = decide (ilace = 1) ∨ ¬(ilace = 0 ∨ ilace = 1) := by
    by_cases h0 : ilace = 0
    · left; subst h0; rfl
    · by_cases h1 : ilace = 1
      · left; subst h1; rfl
      · right; omega
  simp only [e1, e2, e3, e4]
  clear e1 e2 e3 e4
  by_cases a1 : comp ≠ 0 ∨ filt ≠ 0
  · rw [if_pos a1]
    exact ⟨⟨fun _ => a1.elim (fun h => Or.inl h) (fun h => Or.inr (Or.inl h)), fun _ => rfl⟩,
      fun hn => absurd (a1.elim (fun h => Or.inl h) (fun h => Or.inr (Or.inl h))) hn⟩
  rw [if_neg a1]
  by_cases a2 : ¬(ilace = 0 ∨ ilace = 1)
  · rw [if_pos a2]
    exact ⟨⟨fun _ => Or.inr (Or.inr (Or.inl a2)), fun _ => rfl⟩,
      fun hn => absurd (Or.inr (Or.inr (Or.inl a2))) hn⟩
  rw [if_neg a2]
  by_cases a3 : ¬(depth = 1 ∨ depth = 2 ∨ depth = 4 ∨ depth = 8 ∨ depth = 16)
  · rw [if_pos a3]
    exact ⟨⟨fun _ => Or.inr (Or.inr (Or.inr (Or.inl a3))), fun _ => rfl⟩,
      fun hn => absurd (Or.inr (Or.inr (Or.inr (Or.inl a3)))) hn⟩
  rw [if_neg a3]
  by_cases a4 : depth < 8 ∧ (ctype = 2 ∨ ctype = 4 ∨ ctype = 6)
  · rw [if_pos a4]
    exact ⟨⟨fun _ => Or.inr (Or.inr (Or.inr (Or.inr a4))), fun _ => rfl⟩,
      fun hn => absurd (Or.inr (Or.inr (Or.inr (Or.inr a4)))) hn⟩
  rw [if_neg a4]
  have hil1 : decide (ilace ≠ 0) = decide (ilace = 1) := hil.resolve_right a2
  have hgood : ¬(comp ≠ 0 ∨ filt ≠ 0 ∨ ¬(ilace = 0 ∨ ilace = 1) ∨
      ¬(depth = 1 ∨ depth = 2 ∨ depth = 4 ∨ depth = 8 ∨ depth = 16) ∨
      (depth < 8 ∧ (ctype = 2 ∨ ctype = 4 ∨ ctype = 6))) := by
    rintro (hb | hb | hb | hb | hb)
    · exact a1 (Or.inl hb)
    · exact a1 (Or.inr hb)
    · exact a2 hb
    · exact a3 hb
    · exact a4 hb
  refine ⟨⟨fun hc => Except.noConfusion hc, fun hc => absurd hc hgood⟩,
    fun _ => ⟨_, _, rfl, ?_, ?_, ?_, rfl, rfl, rfl, hil1, ?_⟩⟩
  · show (if _ then _ else _) = _
    split_ifs <;> rfl
  · show 1 ≤ (if _ then _ else _)
    split_ifs <;> decide
  · show (if _ then _ else _) ≤ 4
    split_ifs <;> decide
  · rfl

theorem decode_IHDR_accepts_iff_witness :
    ∃ s1 image1, decode_IHDR 8192 ihdr_state {} = .ok (s1, image1) ∧
      image1.samples_per_pixel = 3 ∧ image1.bits_per_sample = 8 ∧ image1.width = 5 := by
  obtain ⟨s1, image1, h, hspp, -, -, hbits, hwidth, -⟩ :=
    (decode_IHDR_accepts_iff 8192 ihdr_state {} [0, 0, 0, 5] [0, 0, 0, 5] [] 8 2 0 0 1
      (by decide) rfl rfl rfl (by decide)).2 (by decide)
  exact ⟨s1, image1, h, hspp, hbits, hwidth⟩

theorem skip_chunk_data_loop_consumes (IOBUF_SIZE : Nat) (hio : 0 < IOBUF_SIZE) :
    ∀ (fuel : Nat) (s : ChunkState) (post rest : List Nat), s.inf = post ++ rest →
      s.bytes_remaining = post.length → post.length < 2 ^ 32 → post.length < fuel →
      ∃ s3, skip_chunk_data_loop IOBUF_SIZE fuel s = some s3 ∧ s3.inf = rest ∧
        s3.bytes_remaining = 0 ∧ s3.warnings = s.warnings ∧
        s3.current_chunk_name = s.current_chunk_name := by
  intro fuel
  induction fuel with
  | zero => intro s post rest _ _ _ h; omega
  | succ fuel ih =>
    intro s post rest hinf hrem hlt hfuel
    have hm : min IOBUF_SIZE post.length ≤ post.length := Nat.min_le_right _ _
    have htake : (post ++ rest).take (min IOBUF_SIZE post.length)
        = post.take (min IOBUF_SIZE post.length) := List.take_append_of_le_length hm
    have hdrop : (post ++ rest).drop (min IOBUF_SIZE post.length)
        = post.drop (min IOBUF_SIZE post.length) ++ rest := List.drop_append_of_le_length hm
    have hcount : (get_chunk_data IOBUF_SIZE s.bytes_remaining s).bytes_in_buf
        = min IOBUF_SIZE post.length := by
      simp only [get_chunk_data, fread_buf, hinf, hrem, htake, List.length_take]
      omega
    have hrem1 : (get_chunk_data IOBUF_SIZE s.bytes_remaining s).bytes_remaining
        = post.length - min IOBUF_SIZE post.length := by
      simp only [get_chunk_data, fread_buf, hinf, hrem, htake, List.length_take]
      omega
    have hinf1 : (get_chunk_data IOBUF_SIZE s.bytes_remaining s).inf
        = post.drop (min IOBUF_SIZE post.length) ++ rest := by
      simp only [get_chunk_data, fread_buf, hinf, hrem, hdrop]
    have hw1 : (get_chunk_data IOBUF_SIZE s.bytes_remaining s).warnings = s.warnings := rfl
    have hn1 : (get_chunk_data IOBUF_SIZE s.bytes_remaining s).current_chunk_name
        = s.current_chunk_name := rfl
    simp only [skip_chunk_data_loop]
    by_cases hz : (get_chunk_data IOBUF_SIZE s.bytes_remaining s).bytes_in_buf ≠ 0
    · rw [if_pos hz]
      rw [hcount] at hz
      obtain ⟨s3, h3, i3, r3, w3, n3⟩ := ih _ _ rest hinf1
        (by rw [hrem1, List.length_drop]) (by rw [List.length_drop]; omega)
        (by rw [List.length_drop]; omega)
      exact ⟨s3, h3, i3, r3, by rw [w3, hw1], by rw [n3, hn1]⟩
    · rw [if_neg hz]
      rw [hcount] at hz
      have hpost : post.length = 0 := by omega
      have hp : post = [] := List.length_eq_zero.mp hpost
      refine ⟨_, rfl, ?_, ?_, hw1, hn1⟩
      · rw [hinf1, hp]; simp
      · rw [hrem1, hpost]; simp

theorem memcpy_take (dst src : List Nat) (n : Nat) (h : n ≤ src.length) :
    (memcpy dst src n).take n = src.take n := by
  unfold memcpy
  rw [List.take_append_of_le_length (by rw [List.length_take]; omega), List.take_take,
    Nat.min_self]

/-- C13: decode_PLTE on a palette block with a body of `L` bytes.  With palette_size 0 it
fails when `L < 3`, and otherwise sets palette_size to min(256, L / 3) and stores the
first 3 * palette_size body bytes as the palette.  With palette_size nonzero it adds the
warning WARN_MULTI_PLTE, reads the block to its end and leaves the descriptor, and so the
palette and palette_size, unchanged. -/
theorem decode_PLTE_sets_palette_once (IOBUF_SIZE : Nat) (s : ChunkState) (image : IMG_INFO)
    (body rest : List Nat) (hio : 768 ≤ IOBUF_SIZE) (hinf : s.inf = body ++ rest)
    (hrem : s.bytes_remaining = body.length) (hL : body.length < 2 ^ 32) :
    (image.palette_size = 0 →
      (body.length < 3 → decode_PLTE IOBUF_SIZE s image = some (.error Err.ERR_BAD_PNG)) ∧
      (3 ≤ body.length → ∃ s1 image1,
        decode_PLTE IOBUF_SIZE s image = some (.ok (s1, image1)) ∧
        image1.palette_size = min 256 (body.length / 3) ∧
        image1.palette.take (3 * image1.palette_size)
          = body.take (3 * image1.palette_size) ∧
        s1.inf = body.drop (3 * image1.palette_size) ++ rest)) ∧
    (image.palette_size ≠ 0 → ∃ s1,
      decode_PLTE IOBUF_SIZE s image = some (.ok (s1, image)) ∧
      s1.bytes_remaining = 0 ∧ s1.inf = rest ∧
      s1.warnings = s.warnings ++ (if image.is_color then [] else [Warning.WARN_PLTE_GRAY])
        ++ [Warning.WARN_MULTI_PLTE]) := by
  constructor
  · intro hp0
    have hc : ¬ (0 ≠ image.palette_size) := by omega
    constructor
    · intro h3
      have hz : 0 = min 256 (body.length / 3) := by omega
      unfold decode_PLTE
      simp only []
      rw [if_neg hc]
      split_ifs <;> simp_all
    · intro h3
      have hz : ¬ (0 = min 256 (body.length / 3)) := by omega
      have hn : 3 * min 256 (body.length / 3) ≤ body.length := by omega
      have hn2 : 3 * min 256 (body.length / 3) ≤ IOBUF_SIZE := by omega
      have hsplit : body ++ rest = body.take (3 * min 256 (body.length / 3))
          ++ (body.drop (3 * min 256 (body.length / 3)) ++ rest) := by
        rw [← List.append_assoc, List.take_append_drop]
      unfold decode_PLTE
      simp only []
      rw [if_neg hc]
      generalize hs0 : (if (!image.is_color) = true
        then { s with warnings := s.warnings ++ [Warning.WARN_PLTE_GRAY] } else s) = s0
      have hi0 : s0.inf = body ++ rest := by
        rw [← hs0, ← hinf]; split_ifs <;> rfl
      have hr0 : s0.bytes_remaining = body.length := by
        rw [← hs0, ← hrem]; split_ifs <;> rfl
      obtain ⟨hbuf, hcount, hinf1, -, -, -⟩ := get_chunk_data_whole IOBUF_SIZE
        (3 * min 256 (body.length / 3)) s0 (body.take (3 * min 256 (body.length / 3)))
        (body.drop (3 * min 256 (body.length / 3)) ++ rest) hn2
        (by rw [List.length_take]; omega) (by rw [hi0]; exact hsplit)
      simp only [hr0, hz, if_false, hcount, Nat.lt_irrefl]
      refine ⟨_, _, rfl, rfl, ?_, hinf1⟩
      dsimp only
      rw [memcpy_take _ _ _ (by rw [hbuf, List.length_append, List.length_take]; omega), hbuf,
        List.take_append_of_le_length (by rw [List.length_take]; omega), List.take_take,
        Nat.min_self]
  · intro hp
    have hc : 0 ≠ image.palette_size := fun h => hp h.symm
    unfold decode_PLTE
    simp only []
    rw [if_pos hc]
    generalize hs0 : (if (!image.is_color) = true
      then { s with warnings := s.warnings ++ [Warning.WARN_PLTE_GRAY] } else s) = s0
    have hi0 : s0.inf = body ++ rest := by
      rw [← hs0, ← hinf]; split_ifs <;> rfl
    have hr0 : s0.bytes_remaining = body.length := by
      rw [← hs0, ← hrem]; split_ifs <;> rfl
    have hw0 : s0.warnings = s.warnings ++
        (if image.is_color then [] else [Warning.WARN_PLTE_GRAY]) := by
      rw [← hs0]
      cases image.is_color <;> simp
    obtain ⟨s3, h3, i3, r3, w3, -⟩ := skip_chunk_data_loop_consumes IOBUF_SIZE (by omega)
      (body.length + 1) { s0 with warnings := s0.warnings ++ [Warning.WARN_MULTI_PLTE] }
      body rest hi0 hr0 hL (Nat.lt_succ_self _)
    have h3b : skip_chunk_data IOBUF_SIZE
        { s0 with warnings := s0.warnings ++ [Warning.WARN_MULTI_PLTE] } = some s3 := by
      unfold skip_chunk_data
      rw [← hr0] at h3
      exact h3
    rw [h3b]
    exact ⟨s3, rfl, r3, i3, by rw [w3]; dsimp only; rw [hw0]⟩

theorem decode_PLTE_sets_palette_once_witness :
    ∃ s1 image1, decode_PLTE 8192 plte_state {} = some (.ok (s1, image1)) ∧
      image1.palette_size = 2 ∧ image1.palette.take 6 = [255, 0, 0, 0, 255, 0] := by
  obtain ⟨s1, image1, h, hsize, hpal, -⟩ :=
    ((decode_PLTE_sets_palette_once 8192 plte_state {} [255, 0, 0, 0, 255, 0, 9] [1, 2, 3, 4]
      (by decide) rfl rfl (by decide)).1 rfl).2 (by decide)
  have h2 : image1.palette_size = 2 := by rw [hsize]; decide
  rw [h2] at hpal
  exact ⟨s1, image1, h, h2, hpal⟩

theorem fill_rest_loop (n d : Nat) : ∀ (k : Nat) (t : List Nat),
    ((List.range k).foldl (fun t j => t.set (n + j) 255) t).length = t.length ∧
    ∀ i, ((List.range k).foldl (fun t j => t.set (n + j) 255) t).getD i d
      = if n ≤ i ∧ i < n + k ∧ i < t.length then 255 else t.getD i d := by
  intro k
  induction k with
  | zero =>
    intro t
    refine ⟨rfl, fun i => ?_⟩
    have : ¬ (n ≤ i ∧ i < n + 0 ∧ i < t.length) := by omega
    rw [if_neg this]; rfl
  | succ k ih =>
    intro t
    obtain ⟨hl, hg⟩ := ih t
    rw [List.range_succ, List.foldl_append, List.foldl_cons, List.foldl_nil]
    refine ⟨by rw [List.length_set, hl], fun i => ?_⟩
    rw [List.getD_eq_getElem?_getD, List.getElem?_set]
    by_cases hi : n + k = i
    · rw [if_pos hi, hl]
      subst hi
      by_cases hlt : n + k < t.length
      · rw [if_pos hlt, if_pos ⟨by omega, by omega, hlt⟩]; rfl
      · rw [if_neg hlt, if_neg (by omega)]
        rw [List.getD_eq_getElem?_getD, List.getElem?_eq_none (by omega)]
    · rw [if_neg hi, ← List.getD_eq_getElem?_getD, hg i]
      by_cases hc : n ≤ i ∧ i < n + k ∧ i < t.length
      · rw [if_pos hc, if_pos ⟨hc.1, by omega, hc.2.2⟩]
      · rw [if_neg hc, if_neg (by omega)]

/-- C14: for a palette image with `palette_size = P` and a transparency block of at most
256 body bytes, decode_tRNS succeeds, and afterwards entry `i < P` of palette_trans_bytes
is body byte `i` when `i` is below the number of body bytes and 255 otherwise. -/
theorem decode_tRNS_palette_alpha (IOBUF_SIZE : Nat) (s : ChunkState) (image : IMG_INFO)
    (body rest : List Nat) (hio : 256 ≤ IOBUF_SIZE) (hpal : image.is_palette = true)
    (hn : body.length ≤ 256) (hinf : s.inf = body ++ rest)
    (hrem : s.bytes_remaining = body.length)
    (hlen : image.palette_trans_bytes.length = 256) (hP : image.palette_size ≤ 256) :
    ∃ s1 image1, decode_tRNS IOBUF_SIZE s image = .ok (s1, image1) ∧
      image1.palette_size = image.palette_size ∧ image1.has_trns = true ∧
      s1.inf = rest ∧
      ∀ i, i < image.palette_size →
        image1.palette_trans_bytes.getD i 0 = if i < body.length then body.getD i 0 else 255 := by
  unfold decode_tRNS
  simp only [hpal, if_true]
  generalize hs0 : (if 0 = image.palette_size
    then { (if image.has_trns = true
        then { s with warnings := s.warnings ++ [Warning.WARN_MULTI_TRNS] } else s) with
      warnings := (if image.has_trns = true
        then { s with warnings := s.warnings ++ [Warning.WARN_MULTI_TRNS] } else s).warnings
          ++ [Warning.WARN_LATE_TRNS] }
    else (if image.has_trns = true
        then { s with warnings := s.warnings ++ [Warning.WARN_MULTI_TRNS] } else s)) = s0
  have hi0 : s0.inf = body ++ rest := by
    rw [← hs0, ← hinf]; split_ifs <;> rfl
  have hr0 : s0.bytes_remaining = body.length := by
    rw [← hs0, ← hrem]; split_ifs <;> rfl
  obtain ⟨hbuf, hcount, hinf1, -, -, -⟩ := get_chunk_data_whole IOBUF_SIZE
    body.length s0 body rest (by omega) rfl hi0
  rw [hr0]
  refine ⟨_, _, rfl, rfl, rfl, hinf1, fun i hi => ?_⟩
  dsimp only
  rw [hcount]
  unfold fill_rest_255
  have hm : memcpy image.palette_trans_bytes
      (get_chunk_data IOBUF_SIZE body.length s0).buf body.length
      = body ++ image.palette_trans_bytes.drop body.length := by
    unfold memcpy
    rw [hbuf, List.take_left' rfl]
  rw [hm, (fill_rest_loop body.length 0 _ _).2 i]
  have hl : (body ++ image.palette_trans_bytes.drop body.length).length = 256 := by
    rw [List.length_append, List.length_drop, hlen]; omega
  rw [hl]
  by_cases hb : i < body.length
  · rw [if_neg (by omega), if_pos hb, List.getD_append _ _ _ _ hb]
  · rw [if_pos ⟨by omega, by omega, by omega⟩, if_neg hb]

theorem decode_tRNS_palette_alpha_witness :
    ∃ s1 image1, decode_tRNS 8192 trns_state four_colour_image = .ok (s1, image1) ∧
      image1.palette_trans_bytes.getD 0 0 = 7 ∧ image1.palette_trans_bytes.getD 1 0 = 128 ∧
      image1.palette_trans_bytes.getD 2 0 = 255 ∧ image1.palette_trans_bytes.getD 3 0 = 255 := by
  obtain ⟨s1, image1, h, -, -, -, hv⟩ :=
    decode_tRNS_palette_alpha 8192 trns_state four_colour_image [7, 128] [1, 2, 3, 4]
      (by decide) rfl (by decide) rfl rfl (List.length_replicate _ _) (by decide)
  exact ⟨s1, image1, h, hv 0 (by decide), hv 1 (by decide), hv 2 (by decide),
    hv 3 (by decide)⟩

/-- For a truecolour image without palette, decode_tRNS stores the three big-endian
16-bit values of the first six body bytes. -/
theorem decode_tRNS_truecolor_values (IOBUF_SIZE : Nat) (s : ChunkState) (image : IMG_INFO)
    (r0 r1 g0 g1 b0 b1 : Nat) (rest : List Nat) (hio : 6 ≤ IOBUF_SIZE)
    (hpal : image.is_palette = false) (hcol : image.is_color = true)
    (hinf : s.inf = [r0, r1, g0, g1, b0, b1] ++ rest) (hrem : 6 ≤ s.bytes_remaining)
    (hlen : image.trans_values.length = 3) :
    ∃ s1 image1, decode_tRNS IOBUF_SIZE s image = .ok (s1, image1) ∧
      image1.trans_values = [256 * r0 + r1, 256 * g0 + g1, 256 * b0 + b1] ∧
      s1.inf = rest := by
  unfold decode_tRNS
  simp only [hpal, hcol, if_true, Bool.false_eq_true, if_false]
  generalize hs0 : (if image.has_trns = true
    then { s with warnings := s.warnings ++ [Warning.WARN_MULTI_TRNS] } else s) = s0
  have hi0 : s0.inf = [r0, r1, g0, g1, b0, b1] ++ rest := by
    rw [← hs0, ← hinf]; split_ifs <;> rfl
  have hr0 : ¬ s0.bytes_remaining < 6 := by
    have : s0.bytes_remaining = s.bytes_remaining := by rw [← hs0]; split_ifs <;> rfl
    omega
  obtain ⟨hbuf, -, hinf1, -, -, -⟩ := get_chunk_data_whole IOBUF_SIZE
    6 s0 [r0, r1, g0, g1, b0, b1] rest hio rfl hi0
  rw [if_neg hr0]
  refine ⟨_, _, rfl, ?_, hinf1⟩
  dsimp only
  rw [hbuf]
  match h : image.trans_values, hlen with
  | [t0, t1, t2], _ =>
    simp [List.range_succ, BE_GET16, Nat.mul_comm]

/-- C15: a grey image receives a transparency block whose two body bytes are 0x12, 0x34.
decode_tRNS succeeds, but trans_values[0] is 0, the top half of the block length that
get_chunk_header left at the start of the buffer, and not 0x1234 = 256 * body[0] + body[1]:
the two body bytes are never read and are still the next bytes of the file. -/
theorem decode_tRNS_gray_ignores_body :
    ∃ s1 s2 image1, get_chunk_header 0x7FFFFFFF gray_trns_state = .ok s1 ∧
      decode_tRNS 8192 s1 gray_image = .ok (s2, image1) ∧
      image1.trans_values.getD 0 0 = 0 ∧
      image1.trans_values.getD 0 0 ≠ 256 * 0x12 + 0x34 ∧
      s2.inf.take 2 = [0x12, 0x34] ∧ s2.bytes_remaining = 2 := by
  refine ⟨_, _, _, rfl, rfl, ?_, ?_, ?_, ?_⟩ <;> decide

/-! ## Theorems: copy_unknown_chunk_data -/

/-- Once the file is exhausted with `bytes_remaining` not zero, the loop of
`copy_unknown_chunk_data` makes no progress: no bound on its iterations lets it end. -/
theorem copy_unknown_loop_stuck (IOBUF_SIZE : Nat) :
    ∀ (fuel : Nat) (st : ChunkState × Nat × List Nat), st.1.inf = [] →
      st.1.bytes_remaining ≠ 0 → st.1.bytes_remaining < 2 ^ 32 →
      copy_unknown_loop IOBUF_SIZE fuel st = none := by
  intro fuel
  induction fuel with
  | zero =>
    intro st _ hr _
    simp only [copy_unknown_loop, ne_eq]
    rw [if_pos (fun h => hr h.symm)]
  | succ fuel ih =>
    intro st hinf hr hlt
    simp only [copy_unknown_loop, ne_eq]
    rw [if_pos (fun h => hr h.symm)]
    have h1 : (copy_unknown_step IOBUF_SIZE st).1.inf = [] := by
      simp [copy_unknown_step, get_chunk_data, fread_buf, hinf]
    have h2 : (copy_unknown_step IOBUF_SIZE st).1.bytes_remaining = st.1.bytes_remaining := by
      simp only [copy_unknown_step, get_chunk_data, fread_buf, hinf, List.take_nil,
        List.length_nil, Nat.zero_mod, Nat.sub_zero]
      omega
    exact ih _ h1 (by rw [h2]; exact hr) (by rw [h2]; exact hlt)

theorem copy_unknown_loop_succ (IOBUF_SIZE fuel : Nat) (st : ChunkState × Nat × List Nat)
    (h : st.1.bytes_remaining ≠ 0) :
    copy_unknown_loop IOBUF_SIZE (fuel + 1) st
      = copy_unknown_loop IOBUF_SIZE fuel (copy_unknown_step IOBUF_SIZE st) := by
  simp only [copy_unknown_loop, ne_eq]
  rw [if_pos (fun h0 => h h0.symm)]

theorem copy_unknown_loop_done (IOBUF_SIZE fuel : Nat) (st : ChunkState × Nat × List Nat)
    (h : st.1.bytes_remaining = 0) :
    copy_unknown_loop IOBUF_SIZE fuel st = some st := by
  cases fuel <;> simp [copy_unknown_loop, h]

/-- C16: two chunks that `copy_unknown_chunk_data` is given to copy.  (1) An sBIT chunk
of three body bytes, reached from `decode_chunk` with nothing of the body read: the loop
counts every byte read off `bytes_remaining` twice (once in `get_chunk_data`, once in the
loop), the count wraps past zero, the loop reads on through the rest of the file and no
number of iterations ends it.  (2) A tEXt chunk of eight body bytes, reached from
`decode_text` with the body in the buffer: the function returns with `bytes_remaining`
0 and appends the length, the type and the body, but the four CRC bytes are not the
CRC-32 of type and body, the CRC having been started on bytes 4..7 of the buffer, which
hold body bytes. -/
theorem copy_unknown_chunk_data_fails_to_copy :
    (get_chunk_header 0x7FFFFFFF sbit_chunk_state = .ok sbit_body_state ∧
      ∀ fuel, copy_unknown_chunk_data 8192 fuel sbit_body_state {} = none) ∧
    ((get_chunk_header 0x7FFFFFFF text_chunk_state).map
        (fun s1 => get_chunk_data 8192 s1.bytes_remaining s1) = .ok text_body_state ∧
      (∀ fuel, copy_unknown_chunk_data 8192 fuel text_body_state {}
        = copy_unknown_chunk_data 8192 0 text_body_state {}) ∧
      ∃ s3 image3, copy_unknown_chunk_data 8192 0 text_body_state {} = some (s3, image3) ∧
        s3.bytes_remaining = 0 ∧
        image3.png_data_file = some ([0, 0, 0, 8] ++ [116, 69, 88, 116]
          ++ [90, 122, 121, 122, 120, 0, 104, 105] ++ [79, 19, 54, 50]) ∧
        BE_PUT32 (update_crc 0xFFFFFFFF ([116, 69, 88, 116]
          ++ [90, 122, 121, 122, 120, 0, 104, 105]) ^^^ 0xFFFFFFFF) = [216, 122, 233, 0]) := by
  refine ⟨⟨rfl, fun fuel => ?_⟩, rfl, fun fuel => ?_, ?_⟩
  · have hloop : ∀ (c : Nat) (o : List Nat),
        copy_unknown_loop 8192 fuel (sbit_body_state, c, o) = none := by
      intro c o
      have h0 : (sbit_body_state, c, o).1.bytes_remaining ≠ 0 := by
        show sbit_body_state.bytes_remaining ≠ 0
        decide
      have h1 : (copy_unknown_step 8192 (sbit_body_state, c, o)).1.bytes_remaining ≠ 0 := by
        show (copy_unknown_step 8192 (sbit_body_state, 0, [])).1.bytes_remaining ≠ 0
        decide
      match fuel with
      | 0 => simp only [copy_unknown_loop, ne_eq]; rw [if_pos (by decide)]
      | 1 =>
        rw [copy_unknown_loop_succ _ _ _ h0]
        simp only [copy_unknown_loop, ne_eq]
        rw [if_pos (fun h => h1 h.symm)]
      | n + 2 =>
        rw [copy_unknown_loop_succ _ _ _ h0, copy_unknown_loop_succ _ _ _ h1]
        apply copy_unknown_loop_stuck
        · show (copy_unknown_step 8192
            ((copy_unknown_step 8192 (sbit_body_state, 0, [])).1, 0, [])).1.inf = []
          decide
        · show (copy_unknown_step 8192
            ((copy_unknown_step 8192 (sbit_body_state, 0, [])).1, 0, [])).1.bytes_remaining ≠ 0
          decide
        · show (copy_unknown_step 8192
            ((copy_unknown_step 8192 (sbit_body_state, 0, [])).1, 0, [])).1.bytes_remaining
              < 2 ^ 32
          decide
    unfold copy_unknown_chunk_data
    simp only []
    rw [if_neg (by decide), hloop]
    rfl
  · unfold copy_unknown_chunk_data
    simp only []
    rw [copy_unknown_loop_done _ fuel _ (by rw [if_pos (by decide)]; decide),
      copy_unknown_loop_done _ 0 _ (by rw [if_pos (by decide)]; decide)]
  · refine ⟨_, _, rfl, by decide, by decide, by decide⟩

/-! ## Theorems: the signature check of read_PNG -/

theorem take_set_self (l : List Nat) (n a : Nat) : (l.set n a).take n = l.take n := by
  rw [List.set_take, List.set_eq_of_length_le (by rw [List.length_take]; omega)]

/-- C17: for every input of at least 136 bytes, the signature check of read_PNG passes
exactly when bytes 0..7 are the signature or bytes 128..135 are; when neither holds the
result is ERR_BAD_PNG, returned before any chunk is read.  When it passes, reading goes
on after byte 7 in the first case and after byte 135 in the second. -/
theorem read_PNG_signature_iff (PNG_Signature stream : List Nat) (s : ChunkState)
    (hsig : PNG_Signature.length = 8) (hlen : 136 ≤ stream.length) (hinf : s.inf = stream) :
    ((∃ s1, read_PNG_signature PNG_Signature s = .ok s1) ↔
      (stream.take 8 = PNG_Signature ∨ (stream.drop 128).take 8 = PNG_Signature)) ∧
    (¬(stream.take 8 = PNG_Signature ∨ (stream.drop 128).take 8 = PNG_Signature) →
      read_PNG_signature PNG_Signature s = .error Err.ERR_BAD_PNG) ∧
    (stream.take 8 = PNG_Signature →
      ∃ s1, read_PNG_signature PNG_Signature s = .ok s1 ∧ s1.inf = stream.drop 8) ∧
    (stream.take 8 ≠ PNG_Signature → (stream.drop 128).take 8 = PNG_Signature →
      ∃ s1, read_PNG_signature PNG_Signature s = .ok s1 ∧ s1.inf = stream.drop 136) := by
  have hs8 : PNG_Signature.take 8 = PNG_Signature := List.take_of_length_le (by omega)
  have hA : (((fread_buf 8 s).2.buf.set 8 0).take 8) = stream.take 8 := by
    rw [take_set_self]
    simp only [fread_buf, hinf]
    rw [List.take_left' (by rw [List.length_take]; omega)]
  have hB : ∀ b : List Nat,
      ((((fread_buf 128 { (fread_buf 8 s).2 with buf := b }).2.buf.set 128 0).drop 120).take 8)
        = (stream.drop 128).take 8 := by
    intro b
    have h1 : ∀ l : List Nat, (l.drop 120).take 8 = (l.take 128).drop 120 := by
      intro l; rw [List.drop_take]
    rw [h1, take_set_self]
    simp only [fread_buf, hinf]
    rw [List.take_left' (by rw [List.length_take, List.length_drop]; omega)]
    rw [List.drop_take, List.drop_drop]
  have hI1 : (fread_buf 8 s).2.inf = stream.drop 8 := by simp only [fread_buf, hinf]
  have hI2 : ∀ b : List Nat,
      (fread_buf 128 { (fread_buf 8 s).2 with buf := b }).2.inf = stream.drop 136 := by
    intro b
    simp only [fread_buf, hinf, List.drop_drop]
  have hE : read_PNG_signature PNG_Signature s =
      if stream.take 8 ≠ PNG_Signature then
        if (stream.drop 128).take 8 ≠ PNG_Signature then .error Err.ERR_BAD_PNG
        else .ok { (fread_buf 128 { (fread_buf 8 s).2 with
          buf := (fread_buf 8 s).2.buf.set 8 0 }).2 with
          buf := (fread_buf 128 { (fread_buf 8 s).2 with
            buf := (fread_buf 8 s).2.buf.set 8 0 }).2.buf.set 128 0 }
      else .ok { (fread_buf 8 s).2 with buf := (fread_buf 8 s).2.buf.set 8 0 } := by
    unfold read_PNG_signature
    simp only [hA, hB, hs8]
  rw [hE]
  by_cases h1 : stream.take 8 = PNG_Signature
  · rw [if_neg (by simpa using h1)]
    exact ⟨⟨fun _ => Or.inl h1, fun _ => ⟨_, rfl⟩⟩, fun hn => absurd (Or.inl h1) hn,
      fun _ => ⟨_, rfl, hI1⟩, fun hn => absurd h1 hn⟩
  · rw [if_pos h1]
    by_cases h2 : (stream.drop 128).take 8 = PNG_Signature
    · rw [if_neg (by simpa using h2)]
      exact ⟨⟨fun _ => Or.inr h2, fun _ => ⟨_, rfl⟩⟩, fun hn => absurd (Or.inr h2) hn,
        fun h => absurd h h1, fun _ _ => ⟨_, rfl, hI2 _⟩⟩
    · rw [if_pos h2]
      refine ⟨⟨fun ⟨s1, hs1⟩ => Except.noConfusion hs1, fun h => ?_⟩, fun _ => rfl,
        fun h => absurd h h1, fun _ h => absurd h h2⟩
      rcases h with h | h
      · exact absurd h h1
      · exact absurd h h2

theorem read_PNG_signature_iff_witness :
    ∃ s1, read_PNG_signature png_magic macbinary_state = .ok s1 ∧ s1.inf = [] := by
  obtain ⟨s1, h1, h2⟩ := (read_PNG_signature_iff png_magic (List.replicate 128 0 ++ png_magic)
    macbinary_state rfl (by simp [png_magic]) rfl).2.2.2 (by decide) (by decide)
  exact ⟨s1, h1, by rw [h2]; decide⟩

/-! ## Theorems: write_tag and the alignment of the file offset -/

theorem align_file_offset_two (x : TiffState) (h : x.file_offset < 2 ^ 32) :
    align_file_offset 2 x = { x with
      outf := x.outf ++ List.replicate (x.file_offset % 2) 0
      file_offset := (x.file_offset + x.file_offset % 2) % 2 ^ 32 } := by
  rcases Nat.mod_two_eq_zero_or_one x.file_offset with h0 | h1
  · rw [align_file_offset_even x h0, h0]
    cases x
    simp only [List.replicate_zero, List.append_nil, Nat.add_zero] at h ⊢
    rw [Nat.mod_eq_of_lt h]
  · have h2 : ¬ (0 ≠ ((x.file_offset + 1) % 2 ^ 32) % 2) := by omega
    have h3 : 0 ≠ x.file_offset % 2 := by omega
    simp only [align_file_offset, align_file_offset_loop, if_pos h3, if_neg h2, h1]
    rfl

/-- The entry and the file after `write_tag` has stored a value of more than four bytes,
at any file offset. -/
theorem write_tag_outline_any (t ty c : Nat) (b : List Nat) (s : TiffState)
    (h : s.tag_count < s.ifd.length) (hsize : ¬ (c * data_sizes.getD ty 0) % 2 ^ 32 ≤ 4)
    (hfo : s.file_offset < 2 ^ 32) :
    directory (write_tag t ty c b s) =
      dir_insert
        { tag := t, dtype := ty, count := c
          value := bytes32 s.little_endian ((s.file_offset + s.file_offset % 2) % 2 ^ 32) }
        (directory s) ∧
    (write_tag t ty c b s).tag_count = s.tag_count + 1 ∧
    (write_tag t ty c b s).ifd.length = s.ifd.length ∧
    (write_tag t ty c b s).outf = s.outf ++ List.replicate (s.file_offset % 2) 0
      ++ first_bytes b (c * data_sizes.getD ty 0) ∧
    (write_tag t ty c b s).file_offset
      = ((s.file_offset + s.file_offset % 2) % 2 ^ 32 + c * data_sizes.getD ty 0) % 2 ^ 32 ∧
    (write_tag t ty c b s).little_endian = s.little_endian ∧
    (write_tag t ty c b s).image = s.image ∧
    (write_tag t ty c b s).buf = s.buf := by
  obtain ⟨f1, f2, f3, f4, f5, f6, f7⟩ := get_tag_pos_fields t s
  have hdir := directory_get_tag_pos t s h
  have hfst := get_tag_pos_fst t s (by omega)
  have hal := align_file_offset_two (get_tag_pos t s).2 (by rw [f4]; exact hfo)
  simp only [write_tag, if_neg hsize, hal]
  refine ⟨?_, f1, by simp [f2], by rw [f3, f4], by rw [f4], f5, f6, f7⟩
  simp only [directory, List.length_set, f1]
  rw [List.set_take, get_tag_pos_tag t s h]
  have : List.take (s.tag_count + 1) (get_tag_pos t s).2.ifd = directory (get_tag_pos t s).2 := by
    simp [directory, f1]
  rw [this, hdir, hfst, f4, f5]
  exact dir_insert_set _ _ _ rfl

theorem length_first_bytes (b : List Nat) (n : Nat) : (first_bytes b n).length = n := by
  simp only [first_bytes, List.length_append, List.length_take, List.length_replicate]
  omega

/-- The entry and the file after `write_png_entry`. -/
theorem write_png_entry_spec (T : Nat) (s : TiffState) (h : s.tag_count < s.ifd.length)
    (hfo : s.file_offset < 2 ^ 32) :
    directory (write_png_entry T s) =
      dir_insert
        { tag := T, dtype := TIFF_DT_UNDEFINED, count := s.image.png_data_size
          value := bytes32 s.little_endian ((s.file_offset + s.file_offset % 2) % 2 ^ 32) }
        (directory s) ∧
    (write_png_entry T s).tag_count = s.tag_count + 1 ∧
    (write_png_entry T s).ifd.length = s.ifd.length ∧
    (write_png_entry T s).outf = s.outf ++ List.replicate (s.file_offset % 2) 0 ∧
    (write_png_entry T s).file_offset = (s.file_offset + s.file_offset % 2) % 2 ^ 32 ∧
    (write_png_entry T s).little_endian = s.little_endian ∧
    (write_png_entry T s).image = s.image ∧
    (write_png_entry T s).buf = s.buf := by
  obtain ⟨f1, f2, f3, f4, f5, f6, f7⟩ := get_tag_pos_fields T s
  have hdir := directory_get_tag_pos T s h
  have hfst := get_tag_pos_fst T s (by omega)
  have hpos : (get_tag_pos T s).1 < (get_tag_pos T s).2.ifd.length := by
    rw [f2, hfst]
    have : ((directory s).takeWhile (fun x => decide (x.tag ≤ T))).length
        ≤ (directory s).length := ( List.takeWhile_prefix _).length_le
    have hd : (directory s).length ≤ s.tag_count := by
      simp only [directory, List.length_take]; omega
    omega
  have hget : ∀ (l : List TiffEntry) (p : Nat) (e : TiffEntry), p < l.length →
      (l.set p e).getD p zero_entry = e := by
    intro l p e hp
    rw [List.getD_eq_getElem _ _ (by simpa using hp)]
    simp
  unfold write_png_entry
  simp only []
  rw [align_file_offset_two _ (by show (get_tag_pos T s).2.file_offset < 2 ^ 32; rw [f4]; exact hfo)]
  simp only [hget _ _ _ hpos, List.set_set, f3, f4, f5, f6, f7, f1]
  refine ⟨?_, by simp [f2]⟩
  simp only [directory, List.length_set, f1]
  rw [List.set_take, get_tag_pos_tag T s h]
  have : List.take (s.tag_count + 1) (get_tag_pos T s).2.ifd = directory (get_tag_pos T s).2 := by
    simp [directory, f1]
  rw [this, hdir, hfst]
  exact dir_insert_set _ _ _ rfl

theorem even_offsets_insert (le : Bool) (e : TiffEntry) (d : List TiffEntry)
    (he : (4 < (e.count * data_sizes.getD e.dtype 0) % 2 ^ 32 ∨ e.dtype = TIFF_DT_UNDEFINED) →
      GET32 le e.value % 2 = 0)
    (hd : ∀ x ∈ d,
      (4 < (x.count * data_sizes.getD x.dtype 0) % 2 ^ 32 ∨ x.dtype = TIFF_DT_UNDEFINED) →
        GET32 le x.value % 2 = 0) :
    ∀ x ∈ dir_insert e d,
      (4 < (x.count * data_sizes.getD x.dtype 0) % 2 ^ 32 ∨ x.dtype = TIFF_DT_UNDEFINED) →
        GET32 le x.value % 2 = 0 := by
  intro x hx
  rcases (mem_dir_insert e x d).mp hx with h | h
  · rw [h]; exact he
  · exact hd x h

theorem GET32_bytes32_self (le : Bool) (v : Nat) (h : v < 2 ^ 32) :
    GET32 le (bytes32 le v) = v := by
  have := GET32_bytes32 le v [] h
  rw [List.append_nil] at this
  exact this

/-- What every state reached by the steps of the writer keeps: the size of the directory
array, the count of entries, the byte order, the size of the buffer, the cursor following
the file, the even offsets of the values outside the entries, and the bytes already
written. -/
theorem Reach_inv {k : Nat} {s s1 : TiffState} (h : Reach k s s1) :
    s.tag_count + k ≤ s.ifd.length → Tracked s → EvenOffsets s →
    s1.ifd.length = s.ifd.length ∧ s1.tag_count = s.tag_count + k ∧
    s1.little_endian = s.little_endian ∧ s1.buf.length = s.buf.length ∧
    Tracked s1 ∧ EvenOffsets s1 ∧ (∃ ext, s1.outf = s.outf ++ ext) ∧ s1.image = s.image := by
  induction h with
  | refl s => intro _ ht he; exact ⟨rfl, rfl, rfl, rfl, ht, he, ⟨[], by simp⟩, rfl⟩
  | @tag k s s1 t ty c b _ hty ih =>
    intro hcap ht he
    obtain ⟨i1, i2, i3, i4, i5, i6, ⟨ext, i7⟩, i8⟩ := ih (by omega) ht he
    have hc : s1.tag_count < s1.ifd.length := by omega
    have hfo : s1.file_offset < 2 ^ 32 := by
      rw [← i5]; exact Nat.mod_lt _ (by decide)
    by_cases hsz : (c * data_sizes.getD ty 0) % 2 ^ 32 ≤ 4
    · obtain ⟨d1, d2, d3, d4, d5, d6, d7, d8⟩ := write_tag_inline t ty c b s1 hc hsz
      refine ⟨by rw [d3, i1], by rw [d2, i2]; omega, by rw [d6, i3], by rw [d8, i4], ?_, ?_,
        ⟨ext, by rw [d4, i7]⟩, by rw [d7, i8]⟩
      · unfold Tracked; rw [d4, d5]; exact i5
      · unfold EvenOffsets
        rw [d1, d6]
        apply even_offsets_insert _ _ _ _ i6
        intro hx
        rcases hx with hx | hx
        · exact absurd hx (by simp only []; omega)
        · exact absurd hx hty
    · obtain ⟨d1, d2, d3, d4, d5, d6, d7, d8⟩ := write_tag_outline_any t ty c b s1 hc hsz hfo
      refine ⟨by rw [d3, i1], by rw [d2, i2]; omega, by rw [d6, i3], by rw [d8, i4], ?_, ?_,
        ⟨ext ++ List.replicate (s1.file_offset % 2) 0
          ++ first_bytes b (c * data_sizes.getD ty 0),
          by rw [d4, i7]; simp only [List.append_assoc]⟩, by rw [d7, i8]⟩
      · unfold Tracked at i5 ⊢
        rw [d4, d5, List.length_append, List.length_append, List.length_replicate,
          length_first_bytes]
        generalize c * data_sizes.getD ty 0 = n
        omega
      · unfold EvenOffsets
        rw [d1, d6]
        apply even_offsets_insert _ _ _ _ i6
        intro _
        simp only []
        rw [GET32_bytes32_self _ _ (Nat.mod_lt _ (by decide))]
        omega
  | @buf k s s1 b _ hb ih =>
    intro hcap ht he
    obtain ⟨i1, i2, i3, i4, i5, i6, i7, i8⟩ := ih hcap ht he
    exact ⟨i1, i2, i3, by rw [← i4]; exact hb, i5, i6, i7, i8⟩
  | @align k s s1 _ ih =>
    intro hcap ht he
    obtain ⟨i1, i2, i3, i4, i5, i6, ⟨ext, i7⟩, i8⟩ := ih hcap ht he
    have hfo : s1.file_offset < 2 ^ 32 := by
      rw [← i5]; exact Nat.mod_lt _ (by decide)
    rw [align_file_offset_two s1 hfo]
    refine ⟨i1, i2, i3, i4, ?_, i6, ⟨ext ++ List.replicate (s1.file_offset % 2) 0,
      by simp only [i7, List.append_assoc]⟩, i8⟩
    unfold Tracked at i5 ⊢
    simp only [List.length_append, List.length_replicate]
    omega
  | @put k s s1 bytes _ ih =>
    intro hcap ht he
    obtain ⟨i1, i2, i3, i4, i5, i6, ⟨ext, i7⟩, i8⟩ := ih hcap ht he
    refine ⟨i1, i2, i3, i4, ?_, i6, ⟨ext ++ bytes, by simp only [i7, List.append_assoc]⟩, i8⟩
    unfold Tracked at i5 ⊢
    simp only [List.length_append]
    omega
  | @blob k s s1 T _ ih =>
    intro hcap ht he
    obtain ⟨i1, i2, i3, i4, i5, i6, ⟨ext, i7⟩, i8⟩ := ih (by omega) ht he
    have hc : s1.tag_count < s1.ifd.length := by omega
    have hfo : s1.file_offset < 2 ^ 32 := by
      rw [← i5]; exact Nat.mod_lt _ (by decide)
    obtain ⟨d1, d2, d3, d4, d5, d6, d7, d8⟩ := write_png_entry_spec T s1 hc hfo
    refine ⟨by rw [d3, i1], by rw [d2, i2]; omega, by rw [d6, i3], by rw [d8, i4], ?_, ?_,
      ⟨ext ++ List.replicate (s1.file_offset % 2) 0,
        by rw [d4, i7]; simp only [List.append_assoc]⟩, by rw [d7, i8]⟩
    · unfold Tracked at i5 ⊢
      rw [d4, d5, List.length_append, List.length_replicate]
      omega
    · unfold EvenOffsets
      rw [d1, d6]
      apply even_offsets_insert _ _ _ _ i6
      intro _
      simp only []
      rw [GET32_bytes32_self _ _ (Nat.mod_lt _ (by decide))]
      omega

theorem Reach_trans {a b : Nat} {s s1 s2 : TiffState} (h1 : Reach a s s1) (h2 : Reach b s1 s2) :
    Reach (a + b) s s2 := by
  induction h2 with
  | refl _ => exact h1
  | tag t ty c b _ hty ih => exact Reach.tag t ty c b (ih h1) hty
  | buf b _ hb ih => exact Reach.buf b (ih h1) hb
  | align _ ih => exact Reach.align (ih h1)
  | put bytes _ ih => exact Reach.put bytes (ih h1)
  | blob T _ ih => exact Reach.blob T (ih h1)

theorem length_PUT32 (le : Bool) (buf : List Nat) (off v : Nat) :
    (PUT32 le buf off v).length = buf.length := by
  simp only [PUT32, length_poke]

theorem foldl_length (f : List Nat → Nat → List Nat) (hf : ∀ b i, (f b i).length = b.length)
    (l : List Nat) (b : List Nat) : (l.foldl f b).length = b.length := by
  induction l generalizing b with
  | nil => rfl
  | cons x l ih => rw [List.foldl_cons, ih, hf]

theorem reach_write_basic_tags_fixed (s : TiffState) :
    Reach 7 s (write_basic_tags_fixed s) := by
  unfold write_basic_tags_fixed
  lift_lets
  intro le s1 s2 s3 s4 short_val s5 s6 s7 s8 s9 s10 bits s11 s12 s13
  have h1 : Reach 0 s s1 := Reach.buf _ (Reach.refl s) (length_PUT32 _ _ _ _)
  have h2 : Reach 1 s s2 := Reach.tag _ _ _ _ h1 (by decide)
  have h3 : Reach 1 s s3 := Reach.buf _ h2 (length_PUT32 _ _ _ _)
  have h4 : Reach 2 s s4 := Reach.tag _ _ _ _ h3 (by decide)
  have h5 : Reach 2 s s5 := Reach.buf _ h4 (length_PUT16 _ _ _ _)
  have h6 : Reach 3 s s6 := Reach.tag _ _ _ _ h5 (by decide)
  have h7 : Reach 3 s s7 := Reach.buf _ h6 (length_PUT16 _ _ _ _)
  have h8 : Reach 4 s s8 := Reach.tag _ _ _ _ h7 (by decide)
  have h9 : Reach 4 s s9 := Reach.buf _ h8 (length_PUT16 _ _ _ _)
  have h10 : Reach 5 s s10 := Reach.tag _ _ _ _ h9 (by decide)
  have h11 : Reach 5 s s11 :=
    Reach.buf _ h10 (foldl_length _ (fun b i => length_PUT16 _ _ _ _) _ _)
  have h12 : Reach 6 s s12 := Reach.tag _ _ _ _ h11 (by decide)
  have h13 : Reach 6 s s13 := Reach.buf _ h12 (length_PUT16 _ _ _ _)
  exact Reach.tag _ _ _ _ h13 (by decide)

theorem reach_le_trans {a b : Nat} {s s1 s2 : TiffState}
    (h1 : ∃ k, k ≤ a ∧ Reach k s s1) (h2 : ∃ k, k ≤ b ∧ Reach k s1 s2) :
    ∃ k, k ≤ a + b ∧ Reach k s s2 := by
  obtain ⟨k1, hk1, r1⟩ := h1
  obtain ⟨k2, hk2, r2⟩ := h2
  exact ⟨k1 + k2, by omega, Reach_trans r1 r2⟩

theorem length_memset_zero (p : List Nat) (n : Nat) : (memset_zero p n).length = p.length := by
  simp only [memset_zero, List.length_append, List.length_replicate, List.length_drop]
  omega

theorem length_fill_colormap (palette : List Nat) (palette_size cmap_size : Nat)
    (buf : List Nat) :
    (fill_colormap palette palette_size cmap_size buf).length = buf.length := by
  unfold fill_colormap
  apply foldl_length
  intro b i
  simp only [length_poke]

theorem reach_write_colormap (s : TiffState) : Reach 1 s (write_colormap s) := by
  unfold write_colormap
  lift_lets
  intro cmap_size s1 s2
  have h1 : Reach 0 s s1 := Reach.buf _ (Reach.refl s) (length_memset_zero _ _)
  have h2 : Reach 0 s s2 := Reach.buf _ h1 (length_fill_colormap _ _ _ _)
  exact Reach.tag _ _ _ _ h2 (by decide)

theorem reach_write_extra_samples (s : TiffState) : Reach 1 s (write_extra_samples s) := by
  unfold write_extra_samples
  lift_lets
  intro s1
  have h1 : Reach 0 s s1 := Reach.buf _ (Reach.refl s) (length_PUT16 _ _ _ _)
  exact Reach.tag _ _ _ _ h1 (by decide)

theorem reach_write_basic_tags (IOBUF_SIZE : Nat) (s : TiffState) :
    ∃ k, k ≤ 9 ∧ Reach k s (write_basic_tags IOBUF_SIZE s).2 := by
  have h7 : ∃ k, k ≤ 7 ∧ Reach k s (write_basic_tags_fixed s) :=
    ⟨7, le_rfl, reach_write_basic_tags_fixed s⟩
  have hc : ∀ x : TiffState, ∃ k, k ≤ 1 ∧ Reach k x (if x.image.is_palette = true
      then write_colormap x else x) := by
    intro x
    split_ifs
    · exact ⟨1, le_rfl, reach_write_colormap x⟩
    · exact ⟨0, by omega, Reach.refl x⟩
  have he : ∀ x : TiffState, ∃ k, k ≤ 1 ∧ Reach k x (if x.image.has_alpha = true
      then write_extra_samples x else x) := by
    intro x
    split_ifs
    · exact ⟨1, le_rfl, reach_write_extra_samples x⟩
    · exact ⟨0, by omega, Reach.refl x⟩
  unfold write_basic_tags
  simp only []
  by_cases h : (write_basic_tags_fixed s).image.is_palette = true ∧
      6 * 1 <<< (write_basic_tags_fixed s).image.bits_per_sample > IOBUF_SIZE
  · rw [if_pos h]
    obtain ⟨k, hk, r⟩ := h7
    exact ⟨k, by omega, r⟩
  · rw [if_neg h]
    exact reach_le_trans (reach_le_trans h7 (hc _)) (he _)

/-- The rows of one strip: bytes are appended to the file, the cursor follows, the trace
of the strip starts is not touched. -/
theorem write_strip_rows_reach (line_size : Nat) :
    ∀ (rows scanline : Nat) (r : StripRun), r.line_buf.length = line_size →
      Reach 0 r.ts (write_strip_rows line_size rows scanline r).ts ∧
      (write_strip_rows line_size rows scanline r).starts = r.starts ∧
      (write_strip_rows line_size rows scanline r).line_buf.length = line_size := by
  intro rows
  induction rows with
  | zero => intro scanline r h; exact ⟨Reach.refl _, rfl, h⟩
  | succ rows ih =>
    intro scanline r hlen
    generalize hp : pack_row r.ts.little_endian r.ts.image.bits_per_sample
      r.ts.image.samples_per_pixel r.ts.image.width
      (if r.ts.image.bits_per_sample < 8 then 8 / r.ts.image.bits_per_sample else 1)
      r.ts.image.width 0 r.inf [] = p
    have hl : ((p.1 ++ r.line_buf.drop p.1.length).take line_size).length = line_size := by
      rw [List.length_take, List.length_append, List.length_drop]
      omega
    have hts : Reach 0 r.ts { r.ts with
        outf := r.ts.outf ++ (p.1 ++ r.line_buf.drop p.1.length).take line_size
        file_offset := (r.ts.file_offset + line_size) % 2 ^ 32 } := by
      have h := Reach.put ((p.1 ++ r.line_buf.drop p.1.length).take line_size)
        (Reach.refl r.ts)
      rw [hl] at h
      exact h
    rw [write_strip_rows]
    simp only [hp]
    split_ifs
    · exact ⟨hts, rfl, hl⟩
    · obtain ⟨i1, i2, i3⟩ := ih (scanline + 1)
        { r with
          ts := { r.ts with
            outf := r.ts.outf ++ (p.1 ++ r.line_buf.drop p.1.length).take line_size
            file_offset := (r.ts.file_offset + line_size) % 2 ^ 32 }
          inf := p.2
          line_buf := (p.1 ++ r.line_buf.drop p.1.length).take line_size } hl
      exact ⟨Reach_trans hts i1, i2, i3⟩

/-- The loop over the strips: every strip starts, after the alignment, at an even length
of the file. -/
theorem write_strip_loop_reach (line_size rows_per_strip : Nat) (s : TiffState) (k : Nat)
    (hcap : s.tag_count + k ≤ s.ifd.length) (ht : Tracked s) (he : EvenOffsets s) :
    ∀ (strips : List Nat) (r : StripRun), Reach k s r.ts → r.line_buf.length = line_size →
      (∀ p ∈ r.starts, p % 2 = 0) →
      Reach k s (strips.foldl (fun (r : StripRun) _ =>
        let ts := align_file_offset 2 r.ts
        write_strip_rows line_size rows_per_strip 0
          { r with ts := ts, starts := r.starts ++ [ts.outf.length] }) r).ts ∧
      ∀ p ∈ (strips.foldl (fun (r : StripRun) _ =>
        let ts := align_file_offset 2 r.ts
        write_strip_rows line_size rows_per_strip 0
          { r with ts := ts, starts := r.starts ++ [ts.outf.length] }) r).starts, p % 2 = 0 := by
  intro strips
  induction strips with
  | nil => intro r hr _ hs; exact ⟨hr, hs⟩
  | cons x strips ih =>
    intro r hr hlen hs
    rw [List.foldl_cons]
    have hal : Reach k s (align_file_offset 2 r.ts) := Reach.align hr
    obtain ⟨-, -, -, -, t1, -, -, -⟩ := Reach_inv hr hcap ht he
    obtain ⟨-, -, -, -, t2, -, -, -⟩ := Reach_inv hal hcap ht he
    have hfo : r.ts.file_offset < 2 ^ 32 := by
      rw [← t1]; exact Nat.mod_lt _ (by decide)
    have heven : (align_file_offset 2 r.ts).outf.length % 2 = 0 := by
      have hoff : (align_file_offset 2 r.ts).file_offset
          = (r.ts.file_offset + r.ts.file_offset % 2) % 2 ^ 32 := by
        rw [align_file_offset_two r.ts hfo]
      unfold Tracked at t2
      omega
    obtain ⟨i1, i2, i3⟩ := write_strip_rows_reach line_size rows_per_strip 0
      { r with ts := align_file_offset 2 r.ts,
               starts := r.starts ++ [(align_file_offset 2 r.ts).outf.length] } hlen
    apply ih
    · exact Reach_trans hal i1
    · exact i3
    · intro p hp
      rw [i2] at hp
      rcases List.mem_append.mp hp with h | h
      · exact hs p h
      · rw [List.mem_singleton.mp h]; exact heven

theorem write_strips_reach (IOBUF_SIZE : Nat) (line_buf0 : List Nat) (s : TiffState)
    (r : Option Err × StripRun) (h : write_strips IOBUF_SIZE line_buf0 s = some r)
    (hlb : line_buf0.length = new_line_size s.image 0 1)
    (hcap : s.tag_count + 3 ≤ s.ifd.length) (ht : Tracked s) (he : EvenOffsets s) :
    r.1 = none ∧ Reach 3 s r.2.ts ∧ ∀ p ∈ r.2.starts, p % 2 = 0 := by
  unfold write_strips at h
  cases hs : strip_sizing IOBUF_SIZE s.image with
  | none => rw [hs] at h; exact absurd h (by simp)
  | some sizes =>
    rw [hs, Option.map_some', Option.some.injEq] at h
    rw [← h]
    lift_lets
    intro line_size rows_per_strip total_strips strip_size le s1 s2 counts s3 s4 s5
      strip_size2 offsets s6 s7 run
    have h1 : Reach 0 s s1 := Reach.buf _ (Reach.refl s) (length_PUT32 _ _ _ _)
    have h2 : Reach 1 s s2 := Reach.tag _ _ _ _ h1 (by decide)
    have h3 : Reach 1 s s3 :=
      Reach.buf _ h2 (foldl_length _ (fun b i => length_PUT32 _ _ _ _) _ _)
    have h4 : Reach 2 s s4 := Reach.tag _ _ _ _ h3 (by decide)
    have h5 : Reach 2 s s5 := Reach.align h4
    have h6 : Reach 2 s s6 :=
      Reach.buf _ h5 (foldl_length _ (fun b i => length_PUT32 _ _ _ _) _ _)
    have h7 : Reach 3 s s7 := Reach.tag _ _ _ _ h6 (by decide)
    obtain ⟨g1, g2⟩ := write_strip_loop_reach line_size rows_per_strip s 3 hcap ht he
      (List.range total_strips) run h7 hlb (by intro p hp; exact absurd hp (List.not_mem_nil p))
    exact ⟨rfl, g1, g2⟩

theorem reach_write_resolution_tags (s : TiffState) :
    ∃ k, k ≤ 3 ∧ Reach k s (write_resolution_tags s).2 := by
  unfold write_resolution_tags
  by_cases c : 0 ≠ s.image.xres
  · rw [if_pos c]
    lift_lets
    intro tiff_unit le s1 s2 s3 s4 s5 s6
    have h1 : Reach 0 s s1 := Reach.buf _ (Reach.refl s) (length_PUT16 _ _ _ _)
    have h2 : Reach 1 s s2 := Reach.tag _ _ _ _ h1 (by decide)
    have h3 : Reach 1 s s3 :=
      Reach.buf _ h2 (by rw [length_PUT32, length_PUT32])
    have h4 : Reach 2 s s4 := Reach.tag _ _ _ _ h3 (by decide)
    have h5 : Reach 2 s s5 :=
      Reach.buf _ h4 (by rw [length_PUT32, length_PUT32])
    have h6 : Reach 3 s s6 := Reach.tag _ _ _ _ h5 (by decide)
    exact ⟨3, le_rfl, h6⟩
  · rw [if_neg c]
    exact ⟨0, by omega, Reach.refl s⟩

theorem reach_write_default_unit (tiff_unit : Nat) (s : TiffState) :
    ∃ k, k ≤ 1 ∧ Reach k s (write_default_unit tiff_unit s) := by
  unfold write_default_unit
  by_cases c : 0xFFFF = tiff_unit
  · rw [if_pos c]
    exact ⟨1, le_rfl, Reach.tag _ _ _ _
      (Reach.buf _ (Reach.refl s) (length_PUT16 _ _ _ _)) (by decide)⟩
  · rw [if_neg c]
    exact ⟨0, by omega, Reach.refl s⟩

theorem reach_write_positions (off : Nat × Nat) (s : TiffState) :
    Reach 2 s (write_positions off s) := by
  unfold write_positions
  lift_lets
  intro le s3 s4 s5
  have h3 : Reach 0 s s3 :=
    Reach.buf _ (Reach.refl s) (by rw [length_PUT32, length_PUT32])
  have h4 : Reach 1 s s4 := Reach.tag _ _ _ _ h3 (by decide)
  have h5 : Reach 1 s s5 := Reach.buf _ h4 (by rw [length_PUT32, length_PUT32])
  exact Reach.tag _ _ _ _ h5 (by decide)

theorem reach_write_position_tags (tiff_unit : Nat) (s s1 : TiffState)
    (h : write_position_tags tiff_unit s = some s1) :
    ∃ k, k ≤ 3 ∧ Reach k s s1 := by
  unfold write_position_tags at h
  by_cases c1 : 0 ≠ s.image.xoffset
  · rw [if_pos c1] at h
    by_cases c2 : TIFF_RU_NONE ≠ tiff_unit
    · rw [if_pos c2] at h
      cases ho : scaled_offsets s.image with
      | none => rw [ho] at h; exact absurd h (by simp)
      | some off =>
        rw [ho, Option.map_some', Option.some.injEq] at h
        rw [← h]
        obtain ⟨k, hk, hr⟩ := reach_le_trans (reach_write_default_unit tiff_unit s)
          ⟨2, le_rfl, reach_write_positions off _⟩
        exact ⟨k, by omega, hr⟩
    · rw [if_neg c2, Option.some.injEq] at h
      rw [← h]; exact ⟨0, by omega, Reach.refl s⟩
  · rw [if_neg c1, Option.some.injEq] at h
    rw [← h]; exact ⟨0, by omega, Reach.refl s⟩

theorem reach_write_chromaticity_tags (s : TiffState) :
    ∃ k, k ≤ 2 ∧ Reach k s (write_chromaticity_tags s) := by
  unfold write_chromaticity_tags
  by_cases c : 0 ≠ s.image.chromaticities.getD 0 0
  · rw [if_pos c]
    lift_lets
    intro le white s1 s2 primaries s3
    have hf : ∀ (f : Nat → Nat) (b : List Nat) (i : Nat),
        (PUT32 le (PUT32 le b (8 * i) (f i)) (8 * i + 4) 100000).length = b.length := by
      intro f b i; rw [length_PUT32, length_PUT32]
    have h1 : Reach 0 s s1 := Reach.buf _ (Reach.refl s)
      (foldl_length _ (fun b i => by rw [length_PUT32, length_PUT32]) _ _)
    have h2 : Reach 1 s s2 := Reach.tag _ _ _ _ h1 (by decide)
    have h3 : Reach 1 s s3 := Reach.buf _ h2
      (foldl_length _ (fun b i => by rw [length_PUT32, length_PUT32]) _ _)
    exact ⟨2, le_rfl, Reach.tag _ _ _ _ h3 (by decide)⟩
  · rw [if_neg c]
    exact ⟨0, by omega, Reach.refl s⟩

theorem reach_write_ascii_tags (s : TiffState) :
    ∃ k, k ≤ 5 ∧ Reach k s (write_ascii_tags s) := by
  unfold write_ascii_tags
  have step : ∀ (l : List Nat) (x : TiffState), ∃ k, k ≤ l.length ∧
      Reach k x (l.foldl (fun s i =>
        match s.image.keywords.getD i none with
        | none => s
        | some text =>
          write_tag (ASCII_tags.getD i 0) TIFF_DT_ASCII ((text.length + 1) % 2 ^ 32)
            (text ++ [0]) s) x) := by
    intro l
    induction l with
    | nil => intro x; exact ⟨0, by simp, Reach.refl x⟩
    | cons i l ih =>
      intro x
      rw [List.foldl_cons]
      have h1 : ∃ k, k ≤ 1 ∧ Reach k x (match x.image.keywords.getD i none with
          | none => x
          | some text =>
            write_tag (ASCII_tags.getD i 0) TIFF_DT_ASCII ((text.length + 1) % 2 ^ 32)
              (text ++ [0]) x) := by
        cases x.image.keywords.getD i none with
        | none => exact ⟨0, by omega, Reach.refl x⟩
        | some text => exact ⟨1, le_rfl, Reach.tag _ _ _ _ (Reach.refl x) (by decide)⟩
      obtain ⟨k, hk, hr⟩ := reach_le_trans h1 (ih _)
      exact ⟨k, by rw [List.length_cons]; omega, hr⟩
  obtain ⟨k, hk, hr⟩ := step (List.range N_KEYWORDS) s
  exact ⟨k, by rw [List.length_range] at hk; exact hk, hr⟩

theorem reach_write_transfer_function (IOBUF_SIZE : Nat) (gamma_curve : Nat → Nat)
    (s : TiffState) :
    ∃ k, k ≤ 1 ∧ Reach k s (write_transfer_function IOBUF_SIZE gamma_curve s).2 := by
  unfold write_transfer_function
  by_cases c : 0 ≠ s.image.source_gamma
  swap
  · rw [if_neg c]
    exact ⟨0, by omega, Reach.refl s⟩
  rw [if_pos c]
  simp only []
  by_cases c2 : 2 * (1 <<< s.image.bits_per_sample % 2 ^ 32) % 2 ^ 32 > IOBUF_SIZE
  · rw [if_pos c2]
    exact ⟨0, by omega, Reach.refl s⟩
  · rw [if_neg c2]
    exact ⟨1, le_rfl, Reach.tag _ _ _ _ (Reach.buf _ (Reach.refl s) (by
      rw [foldl_length _ (fun b i => length_PUT16 _ _ _ _), length_PUT16])) (by decide)⟩

theorem reach_write_extended_tags (IOBUF_SIZE : Nat) (gamma_curve : Nat → Nat)
    (s : TiffState) (r : Option Err × TiffState)
    (h : write_extended_tags IOBUF_SIZE gamma_curve s = some r) :
    ∃ k, k ≤ 14 ∧ Reach k s r.2 := by
  unfold write_extended_tags at h
  simp only [] at h
  cases hp : write_position_tags (write_resolution_tags s).1 (write_resolution_tags s).2 with
  | none => rw [hp] at h; exact absurd h (by simp)
  | some s1 =>
    rw [hp, Option.map_some', Option.some.injEq] at h
    rw [← h]
    obtain ⟨k, hk, hr⟩ := reach_le_trans (reach_le_trans (reach_le_trans (reach_le_trans
      (reach_write_resolution_tags s) (reach_write_position_tags _ _ _ hp))
      (reach_write_chromaticity_tags s1)) (reach_write_ascii_tags _))
      (reach_write_transfer_function IOBUF_SIZE gamma_curve _)
    exact ⟨k, by omega, hr⟩

theorem write_png_loop_inv (IOBUF_SIZE : Nat) :
    ∀ (fuel : Nat) (inf : List Nat) (s s1 : TiffState),
      write_png_loop IOBUF_SIZE fuel inf s = some s1 → IOBUF_SIZE ≤ s.buf.length →
      Tracked s →
      s1.ifd = s.ifd ∧ s1.tag_count = s.tag_count ∧ s1.little_endian = s.little_endian ∧
      s1.buf.length = s.buf.length ∧ Tracked s1 ∧ ∃ ext, s1.outf = s.outf ++ ext := by
  intro fuel
  induction fuel with
  | zero =>
    intro inf s s1 h _ ht
    unfold write_png_loop at h
    split_ifs at h
    rw [Option.some.injEq] at h
    rw [← h]
    exact ⟨rfl, rfl, rfl, rfl, ht, [], by simp⟩
  | succ fuel ih =>
    intro inf s s1 h hb ht
    unfold write_png_loop at h
    split_ifs at h
    · have hrd : (inf.take (min IOBUF_SIZE s.image.png_data_size)).length ≤ s.buf.length := by
        rw [List.length_take]; omega
      obtain ⟨i1, i2, i3, i4, i5, ext, i6⟩ := ih _ _ _ h
        (by simp only [List.length_append, List.length_drop]; omega)
        (by
          unfold Tracked at ht ⊢
          simp only [List.length_append]
          omega)
      refine ⟨i1, i2, i3, ?_, i5, inf.take (min IOBUF_SIZE s.image.png_data_size) ++ ext, ?_⟩
      · rw [i4]; simp only [List.length_append, List.length_drop]; omega
      · rw [i6]; simp only [List.append_assoc]
    · rw [Option.some.injEq] at h
      rw [← h]
      exact ⟨rfl, rfl, rfl, rfl, ht, [], by simp⟩

theorem write_png_data_inv (IOBUF_SIZE T : Nat) (s s1 : TiffState)
    (h : write_png_data IOBUF_SIZE T s = some s1) (hcap : s.tag_count < s.ifd.length)
    (hb : IOBUF_SIZE ≤ s.buf.length) (ht : Tracked s) (he : EvenOffsets s) :
    s1.ifd.length = s.ifd.length ∧ s1.tag_count = s.tag_count + 1 ∧
    s1.little_endian = s.little_endian ∧ s1.buf.length = s.buf.length ∧
    Tracked s1 ∧ EvenOffsets s1 ∧ (∃ ext, s1.outf = s.outf ++ ext) ∧
    ∃ e ∈ directory s1, e.tag = T ∧ e.dtype = TIFF_DT_UNDEFINED ∧
      e.count = s.image.png_data_size := by
  have hr : Reach 1 s (write_png_entry T s) := Reach.blob T (Reach.refl s)
  obtain ⟨r1, r2, r3, r4, r5, r6, ⟨ext1, r7⟩, -⟩ := Reach_inv hr (by omega) ht he
  have hfo : s.file_offset < 2 ^ 32 := by
    rw [← ht]; exact Nat.mod_lt _ (by decide)
  obtain ⟨d1, -⟩ := write_png_entry_spec T s hcap hfo
  unfold write_png_data at h
  obtain ⟨i1, i2, i3, i4, i5, ext, i6⟩ := write_png_loop_inv IOBUF_SIZE _ _ _ _ h
    (by rw [r4]; exact hb) r5
  have hdir : directory s1 = directory (write_png_entry T s) := by
    unfold directory; rw [i1, i2]
  refine ⟨by rw [i1, r1], by rw [i2, r2], by rw [i3, r3], by rw [i4, r4], i5, ?_,
    ⟨ext1 ++ ext, by rw [i6, r7, List.append_assoc]⟩, ?_⟩
  · unfold EvenOffsets at r6 ⊢
    rw [hdir, i3]
    exact r6
  · rw [hdir, d1]
    exact ⟨_, (mem_dir_insert _ _ _).mpr (Or.inl rfl), rfl, rfl, rfl⟩

/-- The state from which `write_TIFF` writes the directory: at most 27 entries in an array
of 40, the cursor following the file, even offsets for the values outside the entries,
the header still at the start of the file, and even starts for all strips. -/
theorem write_TIFF_before_ifd (IOBUF_SIZE T : Nat) (gamma_curve : Nat → Nat) (le : Bool)
    (buf0 line_buf0 : List Nat) (image : IMG_INFO) (s : TiffState) (starts : List Nat)
    (h : write_TIFF IOBUF_SIZE T gamma_curve le buf0 line_buf0 image = some (.ok (s, starts)))
    (hbuf : IOBUF_SIZE ≤ buf0.length)
    (hlb : line_buf0.length = new_line_size image 0 1) :
    ∃ s0, s = write_ifd s0 ∧ s0.ifd.length = MAX_TAGS ∧ s0.tag_count ≤ 27 ∧
      s0.little_endian = le ∧ s0.buf.length = buf0.length ∧ Tracked s0 ∧ EvenOffsets s0 ∧
      (∃ ext, s0.outf = (write_TIFF_start image le buf0).outf ++ ext) ∧
      (∀ p ∈ starts, p % 2 = 0) ∧
      (0 ≠ image.png_data_size → ∃ e ∈ directory s0, e.tag = T ∧
        e.dtype = TIFF_DT_UNDEFINED ∧ e.count = image.png_data_size) := by
  obtain ⟨a1, a2, a3, a4, a5, a6, a7⟩ := write_TIFF_start_fields image le buf0
  unfold write_TIFF at h
  simp only [] at h
  generalize write_TIFF_start image le buf0 = s0 at *
  have ht0 : Tracked s0 := by unfold Tracked; rw [a6, a5]; decide
  have he0 : EvenOffsets s0 := by
    intro e hemem
    unfold directory at hemem
    rw [a1] at hemem
    exact absurd hemem (by simp)
  obtain ⟨k1, hk1, r1⟩ := reach_write_basic_tags IOBUF_SIZE s0
  generalize write_basic_tags IOBUF_SIZE s0 = rb at h r1
  obtain ⟨eb, sb⟩ := rb
  cases eb with
  | some e => exact absurd h (by simp)
  | none =>
    simp only [] at h r1
    obtain ⟨b1, b2, b3, b4, b5, b6, b7, b8⟩ := Reach_inv r1 (by rw [a1, a2]; unfold MAX_TAGS; omega) ht0 he0
    cases hst : write_strips IOBUF_SIZE line_buf0 sb with
    | none => rw [hst] at h; exact absurd h (by simp)
    | some rs =>
      rw [hst] at h
      obtain ⟨c1, c2, c3⟩ := write_strips_reach IOBUF_SIZE line_buf0 sb rs hst
        (by rw [b8, a4]; exact hlb) (by rw [b1, b2, a1, a2]; unfold MAX_TAGS; omega) b5 b6
      obtain ⟨es, run⟩ := rs
      simp only [] at c1 c2 c3
      subst c1
      simp only [] at h
      obtain ⟨d1, d2, d3, d4, d5, d6, d7, d8⟩ := Reach_inv c2
        (by rw [b1, b2, a1, a2]; unfold MAX_TAGS; omega) b5 b6
      cases hex : write_extended_tags IOBUF_SIZE gamma_curve run.ts with
      | none => rw [hex] at h; exact absurd h (by simp)
      | some re =>
        rw [hex] at h
        obtain ⟨k3, hk3, r3⟩ := reach_write_extended_tags IOBUF_SIZE gamma_curve run.ts re hex
        obtain ⟨ee, se⟩ := re
        cases ee with
        | some e => exact absurd h (by simp)
        | none =>
          simp only [] at h r3
          obtain ⟨e1, e2, e3, e4, e5, e6, e7, e8⟩ := Reach_inv r3
            (by rw [d1, d2, b1, b2, a1, a2]; unfold MAX_TAGS; omega) d5 d6
          have hcount : se.tag_count ≤ 26 := by rw [e2, d2, b2, a1]; omega
          have hlen : se.ifd.length = MAX_TAGS := by rw [e1, d1, b1, a2]
          have hle : se.little_endian = le := by rw [e3, d3, b3, a3]
          have hbl : se.buf.length = buf0.length := by rw [e4, d4, b4, a7]
          have himg : se.image = image := by rw [e8, d8, b8, a4]
          have hpre : ∃ ext, se.outf = s0.outf ++ ext := by
            obtain ⟨x1, y1⟩ := b7
            obtain ⟨x2, y2⟩ := d7
            obtain ⟨x3, y3⟩ := e7
            exact ⟨x1 ++ x2 ++ x3, by rw [y3, y2, y1]; simp only [List.append_assoc]⟩
          by_cases hp : 0 ≠ se.image.png_data_size
          · rw [if_pos hp] at h
            cases hpd : write_png_data IOBUF_SIZE T se with
            | none => rw [hpd] at h; exact absurd h (by simp)
            | some sp =>
              rw [hpd, Option.map_some', Option.some.injEq, Except.ok.injEq,
                Prod.mk.injEq] at h
              obtain ⟨f1, f2, f3, f4, f5, f6, ⟨x4, f7⟩, f8⟩ :=
                write_png_data_inv IOBUF_SIZE T se sp hpd
                  (by rw [hlen]; unfold MAX_TAGS; omega) (by rw [hbl]; exact hbuf) e5 e6
              obtain ⟨x, hx⟩ := hpre
              refine ⟨sp, h.1.symm, by rw [f1, hlen], by rw [f2]; omega, by rw [f3, hle],
                by rw [f4, hbl], f5, f6, ⟨x ++ x4, by rw [f7, hx, List.append_assoc]⟩, ?_, ?_⟩
              · rw [← h.2]; exact c3
              · intro _
                rw [himg] at f8
                exact f8
          · rw [if_neg hp, Option.map_some', Option.some.injEq, Except.ok.injEq,
              Prod.mk.injEq] at h
            refine ⟨se, h.1.symm, hlen, by omega, hle, hbl, e5, e6, hpre, ?_, ?_⟩
            · rw [← h.2]; exact c3
            · intro hne
              rw [himg] at hp
              exact absurd hne hp

theorem poke_eq (buf : List Nat) (off : Nat) (bytes : List Nat)
    (h : off + bytes.length ≤ buf.length) :
    poke buf off bytes = buf.take off ++ bytes ++ buf.drop (off + bytes.length) := by
  unfold poke
  apply List.take_of_length_le
  simp only [List.length_append, List.length_take, List.length_drop]
  omega

theorem poke_drop (buf : List Nat) (off n : Nat) (bytes : List Nat)
    (h : off + bytes.length ≤ n) (hn : n ≤ buf.length) :
    (poke buf off bytes).drop n = buf.drop n := by
  rw [poke_eq buf off bytes (by omega)]
  have hl : (buf.take off ++ bytes).length = off + bytes.length := by
    simp only [List.length_append, List.length_take]; omega
  rw [List.drop_append_eq_append_drop, hl, List.drop_of_length_le (by omega), List.nil_append,
    List.drop_drop]
  congr 1
  omega

theorem first_bytes_PUT16_two (le : Bool) (b : List Nat) (v : Nat) (h : 2 ≤ b.length) :
    first_bytes (PUT16 le b 0 v) 2 = bytes16 le v := by
  rw [first_bytes_of_le _ _ (by rw [length_PUT16]; omega)]
  have := take_poke b 0 (bytes16 le v) (by rw [length_bytes16]; omega)
  rw [length_bytes16] at this
  simpa [PUT16] using this

theorem first_bytes_PUT32_four (le : Bool) (b : List Nat) (v : Nat) (h : 4 ≤ b.length) :
    first_bytes (PUT32 le b 0 v) 4 = bytes32 le v := by
  have h1 := first_bytes_PUT32 le b v h
  rw [List.take_of_length_le (by rw [length_first_bytes])] at h1
  exact h1

theorem length_entry_image (le : Bool) (e : TiffEntry) : (entry_image le e).length = 12 := by
  simp only [entry_image, List.length_append, length_bytes16, length_bytes32,
    length_first_bytes]

theorem length_flatMap_entry_image (le : Bool) (d : List TiffEntry) :
    (d.flatMap (entry_image le)).length = 12 * d.length := by
  induction d with
  | nil => rfl
  | cons e d ih =>
    rw [List.flatMap_cons, List.length_append, ih, length_entry_image, List.length_cons]
    omega

/-- The file after `write_ifd`: the directory (count, entries, four zero bytes) is the
end of the file and starts at an even length `D1` of the file, the cursor holds `D1`
modulo 2^32 and is stored in bytes 4 to 7, and the first four bytes are untouched. -/
theorem write_ifd_layout (s0 : TiffState) (ht : Tracked s0) (h8 : 8 ≤ s0.outf.length)
    (hb : 4 ≤ s0.buf.length) (hc : s0.tag_count ≤ s0.ifd.length) :
    directory (write_ifd s0) = directory s0 ∧
    (write_ifd s0).tag_count = s0.tag_count ∧
    (write_ifd s0).little_endian = s0.little_endian ∧
    (write_ifd s0).file_offset = (s0.outf.length + s0.outf.length % 2) % 2 ^ 32 ∧
    (s0.outf.length + s0.outf.length % 2) % 2 = 0 ∧
    (write_ifd s0).outf.take 4 = s0.outf.take 4 ∧
    ((write_ifd s0).outf.drop 4).take 4
      = bytes32 s0.little_endian (write_ifd s0).file_offset ∧
    (write_ifd s0).outf.drop (s0.outf.length + s0.outf.length % 2)
      = bytes16 s0.little_endian s0.tag_count
        ++ (directory s0).flatMap (entry_image s0.little_endian) ++ [0, 0, 0, 0] ∧
    (write_ifd s0).outf.length
      = (s0.outf.length + s0.outf.length % 2) + 2 + 12 * s0.tag_count + 4 := by
  have hfo : s0.file_offset < 2 ^ 32 := by
    rw [← ht]; exact Nat.mod_lt _ (by decide)
  have hpar : s0.file_offset % 2 = s0.outf.length % 2 := by
    unfold Tracked at ht; omega
  have hD : (s0.file_offset + s0.file_offset % 2) % 2 ^ 32
      = (s0.outf.length + s0.outf.length % 2) % 2 ^ 32 := by
    unfold Tracked at ht; omega
  have hz : bytes32 s0.little_endian 0 = [0, 0, 0, 0] := by
    cases s0.little_endian <;> rfl
  have hdl : (directory s0).length = s0.tag_count := by
    simp only [directory, List.length_take]; omega
  have h16 : first_bytes (PUT16 s0.little_endian s0.buf 0 s0.tag_count) 2
      = bytes16 s0.little_endian s0.tag_count :=
    first_bytes_PUT16_two _ _ _ (by omega)
  have h32a : first_bytes (PUT32 s0.little_endian
      (PUT16 s0.little_endian s0.buf 0 s0.tag_count) 0 0) 4 = [0, 0, 0, 0] := by
    rw [first_bytes_PUT32_four _ _ _ (by rw [length_PUT16]; exact hb), hz]
  have h32b : ∀ v, first_bytes (PUT32 s0.little_endian (PUT32 s0.little_endian
      (PUT16 s0.little_endian s0.buf 0 s0.tag_count) 0 0) 0 v) 4
      = bytes32 s0.little_endian v := fun v =>
    first_bytes_PUT32_four _ _ _ (by rw [length_PUT32, length_PUT16]; exact hb)
  have hout : (write_ifd s0).outf = poke (s0.outf ++ List.replicate (s0.outf.length % 2) 0
      ++ bytes16 s0.little_endian s0.tag_count
      ++ (directory s0).flatMap (entry_image s0.little_endian) ++ [0, 0, 0, 0]) 4
      (bytes32 s0.little_endian ((s0.outf.length + s0.outf.length % 2) % 2 ^ 32)) := by
    unfold write_ifd
    rw [align_file_offset_two s0 hfo]
    have hD2 : (s0.file_offset + s0.outf.length % 2) % 2 ^ 32
        = (s0.outf.length + s0.outf.length % 2) % 2 ^ 32 := by
      unfold Tracked at ht; omega
    simp only [directory, h16, h32a, h32b, hpar, hD2]
  have hoff : (write_ifd s0).file_offset = (s0.outf.length + s0.outf.length % 2) % 2 ^ 32 := by
    unfold write_ifd
    rw [align_file_offset_two s0 hfo]
    simp only [hD]
  have hdir : directory (write_ifd s0) = directory s0 := by
    unfold write_ifd
    rw [align_file_offset_two s0 hfo]
    rfl
  have htc : (write_ifd s0).tag_count = s0.tag_count := by
    unfold write_ifd
    rw [align_file_offset_two s0 hfo]
  have hle : (write_ifd s0).little_endian = s0.little_endian := by
    unfold write_ifd
    rw [align_file_offset_two s0 hfo]
  generalize hA : s0.outf ++ List.replicate (s0.outf.length % 2) 0 = A at hout
  have hAl : A.length = s0.outf.length + s0.outf.length % 2 := by
    rw [← hA, List.length_append, List.length_replicate]
  generalize hX : A ++ bytes16 s0.little_endian s0.tag_count
      ++ (directory s0).flatMap (entry_image s0.little_endian) ++ [0, 0, 0, 0] = X at hout
  have hXl : X.length = A.length + 2 + 12 * s0.tag_count + 4 := by
    rw [← hX]
    simp only [List.length_append, length_bytes16, length_flatMap_entry_image, hdl,
      List.length_cons, List.length_nil]
  have hb32 : (bytes32 s0.little_endian
      ((s0.outf.length + s0.outf.length % 2) % 2 ^ 32)).length = 4 := length_bytes32 _ _
  refine ⟨hdir, htc, hle, hoff, by omega, ?_, ?_, ?_, ?_⟩
  · rw [hout, poke_eq _ _ _ (by omega), List.append_assoc,
      List.take_append_of_le_length (by rw [List.length_take]; omega), List.take_take,
      Nat.min_self, ← hX]
    simp only [List.append_assoc]
    rw [List.take_append_of_le_length (by omega), ← hA,
      List.take_append_of_le_length (by omega)]
  · rw [hout, hoff]
    have := take_poke X 4 (bytes32 s0.little_endian
      ((s0.outf.length + s0.outf.length % 2) % 2 ^ 32)) (by omega)
    rw [hb32] at this
    have h2 : List.drop 4 (List.take 8 (poke X 4 (bytes32 s0.little_endian
        ((s0.outf.length + s0.outf.length % 2) % 2 ^ 32))))
        = bytes32 s0.little_endian ((s0.outf.length + s0.outf.length % 2) % 2 ^ 32) := by
      rw [this, List.drop_append_of_le_length (by rw [List.length_take]; omega),
        List.drop_of_length_le (by rw [List.length_take]; omega), List.nil_append]
    have h3 : ∀ l : List Nat, (l.drop 4).take 4 = (l.take 8).drop 4 := by
      intro l; rw [List.drop_take]
    rw [h3, h2]
  · rw [hout, ← hAl, poke_drop _ _ _ _ (by rw [length_bytes32]; omega) (by omega), ← hX]
    simp only [List.append_assoc]
    rw [List.drop_left]
  · rw [hout, length_poke, hXl, hAl]

theorem write_TIFF_start_header (image : IMG_INFO) (le : Bool) (buf0 : List Nat)
    (h8 : 8 ≤ buf0.length) :
    (write_TIFF_start image le buf0).outf
      = bytes16 le (get_local_byte_order le) ++ bytes16 le TIFF_MagicNumber ++ [0, 0, 0, 0] := by
  match buf0, h8 with
  | b0 :: b1 :: b2 :: b3 :: b4 :: b5 :: b6 :: b7 :: rest, _ =>
    cases le <;>
      simp [write_TIFF_start, PUT16, PUT32, poke, first_bytes, bytes16, bytes32,
        get_local_byte_order, TIFF_MagicNumber]

/-- C19: in every file that write_TIFF produces, every value stored outside its entry
(a value of more than four bytes, or the passed-on chunks, whose entry is there whenever
png_data_size is not zero) has an even offset in its entry, every strip starts at an
even length of the file, and the directory starts at an even length D1 of the file,
which is the offset stored in bytes 4 to 7 when it is below 2^32. -/
theorem write_TIFF_even_offsets (IOBUF_SIZE T : Nat) (gamma_curve : Nat → Nat) (le : Bool)
    (buf0 line_buf0 : List Nat) (image : IMG_INFO) (s : TiffState) (starts : List Nat)
    (h : write_TIFF IOBUF_SIZE T gamma_curve le buf0 line_buf0 image = some (.ok (s, starts)))
    (hbuf : IOBUF_SIZE ≤ buf0.length) (h8 : 8 ≤ buf0.length)
    (hlb : line_buf0.length = new_line_size image 0 1) :
    (∀ e ∈ directory s, 4 < (e.count * data_sizes.getD e.dtype 0) % 2 ^ 32 →
      GET32 le e.value % 2 = 0) ∧
    (∀ e ∈ directory s, e.dtype = TIFF_DT_UNDEFINED → GET32 le e.value % 2 = 0) ∧
    (0 ≠ image.png_data_size → ∃ e ∈ directory s, e.tag = T ∧
      e.dtype = TIFF_DT_UNDEFINED ∧ e.count = image.png_data_size) ∧
    (∀ p ∈ starts, p % 2 = 0) ∧
    ∃ D1, D1 % 2 = 0 ∧
      s.outf.drop D1 = bytes16 le s.tag_count ++ (directory s).flatMap (entry_image le)
        ++ [0, 0, 0, 0] ∧
      GET32 le ((s.outf.drop 4).take 4) = D1 % 2 ^ 32 ∧
      GET32 le ((s.outf.drop 4).take 4) % 2 = 0 := by
  obtain ⟨s0, hs, p1, p2, p3, p4, p5, p6, ⟨ext, p7⟩, p8, p9⟩ :=
    write_TIFF_before_ifd IOBUF_SIZE T gamma_curve le buf0 line_buf0 image s starts h hbuf hlb
  have hlen8 : 8 ≤ s0.outf.length := by
    rw [p7, List.length_append, (write_TIFF_start_fields image le buf0).2.2.2.2.2.1]
    omega
  obtain ⟨l1, l2, l3, l4, l5, l6, l7, l8, l9⟩ := write_ifd_layout s0 p5 hlen8
    (by rw [p4]; omega) (by rw [p1]; unfold MAX_TAGS; omega)
  clear h
  subst hs
  rw [p3] at l7 l8
  have hget : GET32 le (((write_ifd s0).outf.drop 4).take 4) = (write_ifd s0).file_offset := by
    rw [l7]
    exact GET32_bytes32_self _ _ (by rw [l4]; exact Nat.mod_lt _ (by decide))
  refine ⟨?_, ?_, ?_, p8, s0.outf.length + s0.outf.length % 2, by omega, ?_, ?_, ?_⟩
  · intro e he hsz
    rw [l1] at he
    have := p6 e he (Or.inl hsz)
    rw [p3] at this
    exact this
  · intro e he hty
    rw [l1] at he
    have := p6 e he (Or.inr hty)
    rw [p3] at this
    exact this
  · intro hne
    rw [l1]
    exact p9 hne
  · rw [l8, l2, l1]
  · rw [hget, l4]
  · rw [hget, l4]; omega

set_option maxRecDepth 100000 in
theorem write_TIFF_even_offsets_witness :
    write_TIFF 768 65000 (fun _ => 0) true (List.replicate 768 0) [0, 0, 0]
        one_pixel_with_chunks = some (.ok (one_pixel_tiff.1, one_pixel_tiff.2)) ∧
    (∀ e ∈ directory one_pixel_tiff.1, e.dtype = TIFF_DT_UNDEFINED →
      GET32 true e.value % 2 = 0) ∧
    (∃ e ∈ directory one_pixel_tiff.1, e.tag = 65000 ∧ e.dtype = TIFF_DT_UNDEFINED ∧
      e.count = 3) ∧
    (∀ p ∈ one_pixel_tiff.2, p % 2 = 0) ∧
    GET32 true ((one_pixel_tiff.1.outf.drop 4).take 4) % 2 = 0 :=
  have h := write_TIFF_even_offsets 768 65000 (fun _ => 0) true (List.replicate 768 0)
    [0, 0, 0] one_pixel_with_chunks one_pixel_tiff.1 one_pixel_tiff.2 rfl
    (by simp only [List.length_replicate]; decide)
    (by simp only [List.length_replicate]; decide) rfl
  ⟨rfl, h.2.1, h.2.2.1 (by decide), h.2.2.2.1,
    match h.2.2.2.2 with
    | ⟨_, _, _, _, h4⟩ => h4⟩


/-- C20: in every file that write_TIFF produces, as long as it is shorter than 2^32 bytes
(the range of its 32-bit offsets), with `N = tag_count` entries in the directory: bytes
0..1 are the byte-order mark of the host, bytes 2..3 the magic number, bytes 4..7 hold
the length `D` that the file had when `write_ifd`, after its alignment, started to write
the directory; from `D` on the file holds the 2-byte count `N`, the `N` entries of 12
bytes each and 4 zero bytes, and nothing else, so that its length is
`D + 2 + 12 * N + 4`. -/
theorem write_TIFF_layout (IOBUF_SIZE T : Nat) (gamma_curve : Nat → Nat) (le : Bool)
    (buf0 line_buf0 : List Nat) (image : IMG_INFO) (s : TiffState) (starts : List Nat)
    (h : write_TIFF IOBUF_SIZE T gamma_curve le buf0 line_buf0 image = some (.ok (s, starts)))
    (hbuf : IOBUF_SIZE ≤ buf0.length) (h8 : 8 ≤ buf0.length)
    (hlb : line_buf0.length = new_line_size image 0 1)
    (hsmall : s.outf.length < 2 ^ 32) :
    s.outf.take 2 = bytes16 le (get_local_byte_order le) ∧
    (s.outf.drop 2).take 2 = bytes16 le TIFF_MagicNumber ∧
    (directory s).length = s.tag_count ∧
    (∀ e ∈ directory s, (entry_image le e).length = 12) ∧
    ∃ s0 D, s = write_ifd s0 ∧ D = (align_file_offset 2 s0).outf.length ∧
      (s.outf.drop 4).take 4 = bytes32 le D ∧
      s.outf.drop D = bytes16 le s.tag_count ++ (directory s).flatMap (entry_image le)
        ++ [0, 0, 0, 0] ∧
      s.outf.length = D + 2 + 12 * s.tag_count + 4 := by
  obtain ⟨s0, hs, p1, p2, p3, p4, p5, p6, ⟨ext, p7⟩, p8, p9⟩ :=
    write_TIFF_before_ifd IOBUF_SIZE T gamma_curve le buf0 line_buf0 image s starts h hbuf hlb
  have hhead := write_TIFF_start_header image le buf0 h8
  have hlen8 : 8 ≤ s0.outf.length := by
    rw [p7, List.length_append, (write_TIFF_start_fields image le buf0).2.2.2.2.2.1]
    omega
  obtain ⟨l1, l2, l3, l4, l5, l6, l7, l8, l9⟩ := write_ifd_layout s0 p5 hlen8
    (by rw [p4]; omega) (by rw [p1]; unfold MAX_TAGS; omega)
  clear h
  subst hs
  rw [p3] at l7 l8
  have hfo : s0.file_offset < 2 ^ 32 := by
    rw [← p5]; exact Nat.mod_lt _ (by decide)
  have hpar : s0.file_offset % 2 = s0.outf.length % 2 := by
    unfold Tracked at p5; omega
  have hD : (align_file_offset 2 s0).outf.length = s0.outf.length + s0.outf.length % 2 := by
    rw [align_file_offset_two s0 hfo]
    simp only [List.length_append, List.length_replicate]
    rw [hpar]
  have h4 : ((write_ifd s0).outf.take 4) = bytes16 le (get_local_byte_order le)
      ++ bytes16 le TIFF_MagicNumber := by
    rw [l6, p7, hhead, List.append_assoc, List.append_assoc, ← List.append_assoc,
      List.take_left' (by rw [List.length_append, length_bytes16, length_bytes16])]
  refine ⟨?_, ?_, ?_, ?_, s0, _, rfl, rfl, ?_, ?_, ?_⟩
  · have : (write_ifd s0).outf.take 2 = ((write_ifd s0).outf.take 4).take 2 := by
      rw [List.take_take]; rfl
    rw [this, h4, List.take_left' (length_bytes16 _ _)]
  · have : ((write_ifd s0).outf.drop 2).take 2 = (((write_ifd s0).outf.take 4).drop 2) := by
      rw [List.drop_take]
    rw [this, h4, List.drop_left' (length_bytes16 _ _)]
  · rw [l1, l2]
    unfold directory
    rw [List.length_take, p1]
    unfold MAX_TAGS
    omega
  · intro e _
    exact length_entry_image le e
  · rw [l7, l4, hD, Nat.mod_eq_of_lt (by omega)]
  · rw [hD, l8, l2, l1]
  · rw [hD, l9, l2]

set_option maxRecDepth 100000 in
theorem write_TIFF_layout_witness :
    write_TIFF 768 65000 (fun _ => 0) true (List.replicate 768 0) [0, 0, 0]
        one_pixel_with_chunks = some (.ok (one_pixel_tiff.1, one_pixel_tiff.2)) ∧
    one_pixel_tiff.1.outf.length < 2 ^ 32 ∧
    one_pixel_tiff.1.outf.take 2 = bytes16 true (get_local_byte_order true) ∧
    (one_pixel_tiff.1.outf.drop 2).take 2 = bytes16 true TIFF_MagicNumber ∧
    (directory one_pixel_tiff.1).length = one_pixel_tiff.1.tag_count ∧
    ∃ s0 D, one_pixel_tiff.1 = write_ifd s0 ∧ D = (align_file_offset 2 s0).outf.length ∧
      (one_pixel_tiff.1.outf.drop 4).take 4 = bytes32 true D ∧
      one_pixel_tiff.1.outf.drop D = bytes16 true one_pixel_tiff.1.tag_count
        ++ (directory one_pixel_tiff.1).flatMap (entry_image true) ++ [0, 0, 0, 0] ∧
      one_pixel_tiff.1.outf.length = D + 2 + 12 * one_pixel_tiff.1.tag_count + 4 :=
  have h := write_TIFF_layout 768 65000 (fun _ => 0) true (List.replicate 768 0)
    [0, 0, 0] one_pixel_with_chunks one_pixel_tiff.1 one_pixel_tiff.2 rfl
    (by simp only [List.length_replicate]; decide)
    (by simp only [List.length_replicate]; decide) rfl (by decide)
  ⟨rfl, by decide, h.1, h.2.1, h.2.2.1, h.2.2.2.2⟩


theorem in_pass_mod_eight (p r c : Nat) (hp : p < 7) :
    in_pass p r c = in_pass p (r % 8) (c % 8) := by
  unfold in_pass
  rw [decide_eq_decide]
  interval_cases p <;>
    simp only [starting_row, starting_col, row_increment, col_increment, List.getD_cons_zero,
      List.getD_cons_succ] <;> omega

theorem interlace_pattern_small :
    ∀ r < 8, ∀ c < 8, ∀ p < 7,
      ((interlace_pattern.getD r []).getD c 0 = p ↔ in_pass p r c = true) := by
  decide

/-- C29: the table interlace_pattern agrees with the stepping rule of the seven passes.
For every row `r`, column `c` and pass `p` in 0..6, the entry at `r mod 8`, `c mod 8`
(which is the entry at `r & 7`, `c & 7` that repack_tempfiles looks up) is `p` exactly
when `r` and `c` are at or after the starting row and column of `p` and at multiples of
its increments from them; hence exactly one pass holds the pixel. -/
theorem interlace_pattern_is_stepping_rule (r c p : Nat) (hp : p < 7) :
    ((interlace_pattern.getD (r % 8) []).getD (c % 8) 0 = p ↔ in_pass p r c = true) ∧
    (interlace_pattern.getD (r &&& 7) []).getD (c &&& 7) 0
      = (interlace_pattern.getD (r % 8) []).getD (c % 8) 0 ∧
    (interlace_pattern.getD (r % 8) []).getD (c % 8) 0 < 7 ∧
    ∃! q, q < 7 ∧ in_pass q r c = true := by
  have hr : r % 8 < 8 := Nat.mod_lt _ (by decide)
  have hc : c % 8 < 8 := Nat.mod_lt _ (by decide)
  have hlt : (interlace_pattern.getD (r % 8) []).getD (c % 8) 0 < 7 := by
    have : ∀ r < 8, ∀ c < 8, (interlace_pattern.getD r []).getD c 0 < 7 := by decide
    exact this _ hr _ hc
  have hand : ∀ n : Nat, n &&& 7 = n % 8 := fun n =>
    Nat.and_pow_two_sub_one_eq_mod n 3
  refine ⟨?_, by rw [hand, hand], hlt, ?_⟩
  · rw [in_pass_mod_eight p r c hp]
    exact interlace_pattern_small _ hr _ hc p hp
  · refine ⟨(interlace_pattern.getD (r % 8) []).getD (c % 8) 0, ⟨hlt, ?_⟩, ?_⟩
    · rw [in_pass_mod_eight _ r c hlt]
      exact (interlace_pattern_small _ hr _ hc _ hlt).1 rfl
    · rintro q ⟨hq, hin⟩
      rw [in_pass_mod_eight q r c hq] at hin
      exact ((interlace_pattern_small _ hr _ hc q hq).2 hin).symm

theorem interlace_pattern_is_stepping_rule_witness :
    ((interlace_pattern.getD (11 % 8) []).getD (21 % 8) 0 = 6 ↔ in_pass 6 11 21 = true) ∧
    ∃! q, q < 7 ∧ in_pass q 11 21 = true :=
  have h := interlace_pattern_is_stepping_rule 11 21 6 (by decide)
  ⟨h.1, h.2.2.2⟩

theorem paeth_prediction_eq (a b c : Nat) :
    paeth_prediction a b c = (paeth_first_closest a b c : Nat) := by
  unfold paeth_prediction paeth_first_closest
  dsimp only
  simp only [Int.abs_eq_natAbs, Nat.cast_le]
  by_cases h1 : ((a : Int) + b - c - a).natAbs ≤ ((a : Int) + b - c - b).natAbs ∧
      ((a : Int) + b - c - a).natAbs ≤ ((a : Int) + b - c - c).natAbs
  · rw [if_pos h1, List.find?_cons_of_pos _ (by simp only [beq_iff_eq]; omega)]
    rfl
  · rw [if_neg h1, List.find?_cons_of_neg _ (by simp only [beq_iff_eq]; omega)]
    by_cases h2 : ((a : Int) + b - c - b).natAbs ≤ ((a : Int) + b - c - c).natAbs
    · rw [if_pos h2, List.find?_cons_of_pos _ (by simp only [beq_iff_eq]; omega)]
      rfl
    · rw [if_neg h2, List.find?_cons_of_neg _ (by simp only [beq_iff_eq]; omega),
        List.find?_cons_of_pos _ (by simp only [beq_iff_eq]; omega)]
      rfl

theorem unfilter_prediction_spec (s : PngState) (hf4 : s.cur_filter ≤ 4) :
    unfilter_prediction s = some ((filter_prediction s.cur_filter
      (if s.line_x < s.byte_offset then 0 else s.this_line.getD (s.line_x - s.byte_offset) 0)
      (s.last_line.getD s.line_x 0)
      (if s.line_x < s.byte_offset then 0
        else s.last_line.getD (s.line_x - s.byte_offset) 0) : Nat) : Int) := by
  have hcases : s.cur_filter = 0 ∨ s.cur_filter = 1 ∨ s.cur_filter = 2 ∨ s.cur_filter = 3 ∨
      s.cur_filter = 4 := by omega
  have hcast : ∀ (c : Prop) [Decidable c] (n : Nat),
      (if c then (0 : Int) else (n : Int)) = ((if c then 0 else n : Nat) : Int) := by
    intro c _ n; split_ifs <;> rfl
  unfold unfilter_prediction
  rcases hcases with h | h | h | h | h <;> rw [h] <;>
    simp only [PNG_PF_None, PNG_PF_Sub, PNG_PF_Up, PNG_PF_Average, PNG_PF_Paeth,
      filter_prediction, hcast, paeth_prediction_eq] <;>
    simp

/-- C26: for every filter tag in 0..4, input byte `x` and column `line_x` within the row,
unfilter stores `(x + p) mod 256` at `this_line[line_x]` and changes nothing else, where
`p` is the predictor of the spec: with `left` and `upper_left` the entries of this_line
and last_line at `line_x - byte_offset` (both 0 when `line_x < byte_offset`) and `above`
the entry of last_line at `line_x`, 0 for None, `left` for Sub, `above` for Up, the floor
of `(left + above) / 2` for Average, and for Paeth the first of `left`, `above`,
`upper_left` that is closest to `left + above - upper_left`. -/
theorem unfilter_stores_spec_prediction (x : Nat) (s : PngState) (hf4 : s.cur_filter ≤ 4)
    (hx : s.line_x < s.this_line.length) :
    ∃ s1, unfilter x s = some s1 ∧
      s1.this_line.getD s.line_x 0 = (x + filter_prediction s.cur_filter
        (if s.line_x < s.byte_offset then 0
          else s.this_line.getD (s.line_x - s.byte_offset) 0)
        (s.last_line.getD s.line_x 0)
        (if s.line_x < s.byte_offset then 0
          else s.last_line.getD (s.line_x - s.byte_offset) 0)) % 256 ∧
      (∀ i, i ≠ s.line_x → s1.this_line.getD i 0 = s.this_line.getD i 0) ∧
      s1.this_line.length = s.this_line.length ∧
      s1 = { s with this_line := s1.this_line } := by
  unfold unfilter
  rw [unfilter_prediction_spec s hf4]
  refine ⟨_, rfl, ?_, ?_, ?_, rfl⟩
  · simp only [Option.map_some']
    rw [List.getD_eq_getElem?_getD, List.getElem?_set_self hx]
    simp only [Option.getD_some]
    omega
  · intro i hi
    simp only [Option.map_some']
    rw [List.getD_eq_getElem?_getD, List.getElem?_set_ne (Ne.symm hi),
      List.getD_eq_getElem?_getD]
  · simp only [Option.map_some', List.length_set]

theorem unfilter_stores_spec_prediction_witness :
    ∃ s1, unfilter 250
        { cur_filter := 4, line_x := 1, byte_offset := 1, this_line := [10, 0, 0],
          last_line := [20, 30, 40] } = some s1 ∧
      s1.this_line.getD 1 0 = (250 + paeth_first_closest 10 30 20) % 256 :=
  match unfilter_stores_spec_prediction 250
      { cur_filter := 4, line_x := 1, byte_offset := 1, this_line := [10, 0, 0],
        last_line := [20, 30, 40] } (by decide) (by decide) with
  | ⟨s1, h1, h2, _⟩ => ⟨s1, h1, h2⟩

theorem columns_of_pass_eq (start increment : Nat) :
    ∀ width, columns_of_pass width start increment
      = if width ≤ start then 0 else (width - start - 1) / increment + 1 := by
  intro width
  induction width with
  | zero => simp [columns_of_pass]
  | succ w ih =>
    unfold columns_of_pass at ih ⊢
    rw [List.range_succ, List.filter_append, List.length_append, ih]
    by_cases h1 : w < start
    · have h2 : w + 1 ≤ start := h1
      have h0 : w ≤ start := by omega
      rw [if_pos h0, if_pos h2, List.filter_cons_of_neg (by simp; omega)]
      rfl
    · have hk : w + 1 - start - 1 = w - start := by omega
      have h2 : ¬ w + 1 ≤ start := by omega
      rw [if_neg h2, hk]
      by_cases h3 : w = start
      · have h0 : w ≤ start := by omega
        rw [if_pos h0, List.filter_cons_of_pos (by simp [h3])]
        simp [h3]
      · have h0 : ¬ w ≤ start := by omega
        rw [if_neg h0]
        obtain ⟨k, hk2⟩ : ∃ k, w - start = k + 1 := ⟨w - start - 1, by omega⟩
        have hk3 : w - start - 1 = k := by omega
        rw [hk3, hk2, Nat.succ_div]
        by_cases h4 : increment ∣ k + 1
        · rw [if_pos h4, List.filter_cons_of_pos (by
            simp only [decide_eq_true_eq]
            exact ⟨by omega, by rw [hk2]; exact Nat.mod_eq_zero_of_dvd h4⟩)]
          simp only [List.filter_nil, List.length_cons, List.length_nil]
        · rw [if_neg h4, List.filter_cons_of_neg (by
            simp only [decide_eq_true_eq, not_and]
            intro _
            rw [hk2]
            intro h5
            exact h4 (Nat.dvd_of_mod_eq_zero h5))]
          simp only [List.filter_nil, List.length_nil]

theorem advance_pass_skips (fuel : Nat) : ∀ s : PngState, s.interlace_pass ≤ 6 →
    6 - s.interlace_pass < fuel →
    (advance_pass fuel s).1.image = s.image ∧
    ((advance_pass fuel s).2 = false →
      s.interlace_pass < (advance_pass fuel s).1.interlace_pass ∧
      (advance_pass fuel s).1.interlace_pass ≤ 6 ∧
      pass_line_size s.image (advance_pass fuel s).1.interlace_pass ≠ 0 ∧
      (advance_pass fuel s).1.line_size
        = pass_line_size s.image (advance_pass fuel s).1.interlace_pass ∧
      (advance_pass fuel s).1.current_row
        = starting_row.getD (advance_pass fuel s).1.interlace_pass 0 ∧
      ∀ q, s.interlace_pass < q → q < (advance_pass fuel s).1.interlace_pass →
        pass_line_size s.image q = 0) ∧
    ((advance_pass fuel s).2 = true →
      (advance_pass fuel s).1.interlace_pass = 6 ∧
      ∀ q, s.interlace_pass < q → q ≤ 6 → pass_line_size s.image q = 0) := by
  induction fuel with
  | zero => intro s _ h; omega
  | succ fuel ih =>
    intro s hp hfuel
    rw [advance_pass]
    dsimp only
    by_cases h6 : s.interlace_pass + 1 > 6
    · rw [if_pos h6]
      refine ⟨rfl, fun h => absurd h (by simp), fun _ => ⟨?_, ?_⟩⟩
      · show s.interlace_pass + 1 - 1 = 6
        omega
      · intro q h1 h2; omega
    · rw [if_neg h6]
      by_cases hsz : new_line_size s.image (starting_col.getD (s.interlace_pass + 1) 0)
          (col_increment.getD (s.interlace_pass + 1) 0) < 1
      · rw [if_pos hsz]
        have hz : pass_line_size s.image (s.interlace_pass + 1) = 0 := by
          unfold pass_line_size; omega
        obtain ⟨i1, i2, i3⟩ := ih
          { s with
            interlace_pass := s.interlace_pass + 1
            current_row := starting_row.getD (s.interlace_pass + 1) 0
            line_size := new_line_size s.image (starting_col.getD (s.interlace_pass + 1) 0)
              (col_increment.getD (s.interlace_pass + 1) 0) }
          (by show s.interlace_pass + 1 ≤ 6; omega)
          (by show 6 - (s.interlace_pass + 1) < fuel; omega)
        refine ⟨i1, fun h => ?_, fun h => ?_⟩
        · obtain ⟨j1, j2, j3, j4, j5, j6⟩ := i2 h
          refine ⟨?_, j2, j3, j4, j5, ?_⟩
          · have : s.interlace_pass + 1 < _ := j1
            omega
          · intro q h1 h2
            by_cases hq : q = s.interlace_pass + 1
            · rw [hq]; exact hz
            · exact j6 q (by show s.interlace_pass + 1 < q; omega) h2
        · obtain ⟨j1, j2⟩ := i3 h
          refine ⟨j1, ?_⟩
          intro q h1 h2
          by_cases hq : q = s.interlace_pass + 1
          · rw [hq]; exact hz
          · exact j2 q (by show s.interlace_pass + 1 < q; omega) h2
      · rw [if_neg hsz]
        refine ⟨rfl, fun _ => ⟨?_, ?_, ?_, rfl, rfl, ?_⟩, fun h => absurd h (by simp)⟩
        · show s.interlace_pass < s.interlace_pass + 1
          omega
        · show s.interlace_pass + 1 ≤ 6
          omega
        · show pass_line_size s.image (s.interlace_pass + 1) ≠ 0
          unfold pass_line_size; omega
        · intro q h1 h2
          have : q < s.interlace_pass + 1 := h2
          omega

theorem new_line_size_eq (image : IMG_INFO) (start increment : Nat)
    (hdepth : image.bits_per_sample = 1 ∨ image.bits_per_sample = 2 ∨
      image.bits_per_sample = 4 ∨ image.bits_per_sample = 8 ∨ image.bits_per_sample = 16)
    (hspp : 1 ≤ image.samples_per_pixel)
    (hno : (if image.bits_per_sample < 8 then image.bits_per_sample * image.width
      else image.width * image.samples_per_pixel * (image.bits_per_sample / 8)) < 2 ^ 32)
    (hw : start < image.width) :
    new_line_size image start increment
      = (((image.width - start - 1) / increment + 1) *
          (if image.bits_per_sample < 8 then image.bits_per_sample
            else image.bits_per_sample * image.samples_per_pixel) + 7) / 8 ∧
    new_line_size image start increment ≠ 0 := by
  have hle : (image.width - start - 1) / increment + 1 ≤ image.width := by
    have := Nat.div_le_self (image.width - start - 1) increment
    omega
  have hmul : ((image.width - start - 1) / increment + 1) * image.samples_per_pixel
      ≤ image.width * image.samples_per_pixel := Nat.mul_le_mul_right _ hle
  have hpos : 1 ≤ ((image.width - start - 1) / increment + 1) * image.samples_per_pixel :=
    Nat.mul_pos (Nat.succ_pos _) hspp
  have hwle : image.width ≤ image.width * image.samples_per_pixel :=
    Nat.le_mul_of_pos_right _ hspp
  have hnw : ¬ image.width ≤ start := by omega
  unfold new_line_size
  rw [if_neg hnw]
  dsimp only
  generalize hn : (image.width - start - 1) / increment = n at *
  generalize hP : (n + 1) * image.samples_per_pixel = P at *
  generalize hW : image.width * image.samples_per_pixel = W at *
  rcases hdepth with h | h | h | h | h <;> rw [h] at hno ⊢
  · simp only [show (1 : Nat) < 8 from by decide, if_true, Nat.add_sub_cancel] at hno ⊢
    omega
  · simp only [show (2 : Nat) < 8 from by decide, if_true, Nat.add_sub_cancel] at hno ⊢
    omega
  · simp only [show (4 : Nat) < 8 from by decide, if_true, Nat.add_sub_cancel] at hno ⊢
    omega
  · have e2 : (n + 1) * (8 * image.samples_per_pixel) = 8 * P := by rw [← hP]; ring
    have e8 : (8 : Nat) / 8 = 1 := rfl
    simp only [show ¬ (8 : Nat) < 8 from by decide, if_false, hP, e2, e8, hW] at hno ⊢
    omega
  · have e2 : (n + 1) * (16 * image.samples_per_pixel) = 16 * P := by rw [← hP]; ring
    have e16 : (16 : Nat) / 8 = 2 := rfl
    simp only [show ¬ (16 : Nat) < 8 from by decide, if_false, hP, e2, e16, hW] at hno ⊢
    omega

/-- C30: for every image of depth 1, 2, 4, 8 or 16 with at least one sample per pixel
for which the products that new_line_size computes stay below 2^32 on a full row
(`bits_per_sample * width` for depths below 8, `width * samples_per_pixel *
(bits_per_sample / 8)` otherwise), every start column and every increment of at least 1.
new_line_size returns 0 exactly when `width ≤ start`; the number `n` of columns
`c < width` with `c ≥ start` and `c` congruent to `start` modulo `increment` is the
ceiling of `(width - start) / increment`; and when `start < width` the result is the
ceiling of `n * b / 8`, with `b = bits_per_sample` for depths below 8 and
`b = bits_per_sample * samples_per_pixel` for depths 8 and 16.  In particular the row
width of pass 1 is 0 exactly for widths below 5, and the pass advance of write_byte
stops at the first later pass whose row width is not 0, or at pass 6 with all later
passes of row width 0. -/
theorem new_line_size_formula (image : IMG_INFO) (start increment : Nat)
    (hinc : 1 ≤ increment)
    (hdepth : image.bits_per_sample = 1 ∨ image.bits_per_sample = 2 ∨
      image.bits_per_sample = 4 ∨ image.bits_per_sample = 8 ∨ image.bits_per_sample = 16)
    (hspp : 1 ≤ image.samples_per_pixel)
    (hno : (if image.bits_per_sample < 8 then image.bits_per_sample * image.width
      else image.width * image.samples_per_pixel * (image.bits_per_sample / 8)) < 2 ^ 32) :
    (new_line_size image start increment = 0 ↔ image.width ≤ start) ∧
    columns_of_pass image.width start increment
      = (image.width - start + increment - 1) / increment ∧
    (start < image.width →
      new_line_size image start increment
        = (columns_of_pass image.width start increment *
            (if image.bits_per_sample < 8 then image.bits_per_sample
              else image.bits_per_sample * image.samples_per_pixel) + 7) / 8) ∧
    (pass_line_size image 1 = 0 ↔ image.width < 5) ∧
    ∀ s : PngState, s.image = image → s.interlace_pass ≤ 6 →
      ((advance_pass 7 s).2 = false →
        s.interlace_pass < (advance_pass 7 s).1.interlace_pass ∧
        (advance_pass 7 s).1.interlace_pass ≤ 6 ∧
        pass_line_size image (advance_pass 7 s).1.interlace_pass ≠ 0 ∧
        (advance_pass 7 s).1.line_size
          = pass_line_size image (advance_pass 7 s).1.interlace_pass ∧
        ∀ q, s.interlace_pass < q → q < (advance_pass 7 s).1.interlace_pass →
          pass_line_size image q = 0) ∧
      ((advance_pass 7 s).2 = true →
        (advance_pass 7 s).1.interlace_pass = 6 ∧
        ∀ q, s.interlace_pass < q → q ≤ 6 → pass_line_size image q = 0) := by
  have hcols := columns_of_pass_eq start increment image.width
  have hzero : ∀ st inc, (new_line_size image st inc = 0 ↔ image.width ≤ st) := by
    intro st inc
    by_cases hw : image.width ≤ st
    · simp [new_line_size, hw]
    · have := (new_line_size_eq image st inc hdepth hspp hno (by omega)).2
      exact ⟨fun h => absurd h this, fun h => absurd h hw⟩
  refine ⟨hzero _ _, ?_, ?_, ?_, ?_⟩
  · rw [hcols]
    by_cases hw : image.width ≤ start
    · rw [if_pos hw]
      have : image.width - start + increment - 1 = increment - 1 := by omega
      rw [this]
      exact (Nat.div_eq_of_lt (by omega)).symm
    · rw [if_neg hw]
      have : image.width - start + increment - 1 = image.width - start - 1 + increment := by
        omega
      rw [this, Nat.add_div_right _ (by omega)]
  · intro hw
    have hnw : ¬ image.width ≤ start := by omega
    rw [hcols, if_neg hnw]
    exact (new_line_size_eq image start increment hdepth hspp hno hw).1
  · unfold pass_line_size
    rw [hzero]
    show image.width ≤ 4 ↔ image.width < 5
    omega
  · intro s hs hp
    subst hs
    obtain ⟨_, i2, i3⟩ := advance_pass_skips 7 s hp (by omega)
    refine ⟨fun h => ?_, i3⟩
    obtain ⟨j1, j2, j3, j4, _, j6⟩ := i2 h
    exact ⟨j1, j2, j3, j4, j6⟩

theorem new_line_size_formula_witness :
    (new_line_size narrow_image 0 2 = 0 ↔ narrow_image.width ≤ 0) ∧
    new_line_size narrow_image 0 2
      = (columns_of_pass narrow_image.width 0 2 *
          (if narrow_image.bits_per_sample < 8 then narrow_image.bits_per_sample
            else narrow_image.bits_per_sample * narrow_image.samples_per_pixel) + 7) / 8 ∧
    (pass_line_size narrow_image 1 = 0 ↔ narrow_image.width < 5) ∧
    (0 < (advance_pass 7 { image := narrow_image }).1.interlace_pass ∧
      (advance_pass 7 { image := narrow_image }).1.interlace_pass ≤ 6 ∧
      pass_line_size narrow_image (advance_pass 7 { image := narrow_image }).1.interlace_pass
        ≠ 0 ∧
      (advance_pass 7 { image := narrow_image }).1.line_size
        = pass_line_size narrow_image
            (advance_pass 7 { image := narrow_image }).1.interlace_pass ∧
      ∀ q, 0 < q → q < (advance_pass 7 { image := narrow_image }).1.interlace_pass →
        pass_line_size narrow_image q = 0) :=
  have h := new_line_size_formula narrow_image 0 2 (by decide) (by decide) (by decide)
    (by decide)
  ⟨h.1, h.2.2.1 (by decide), h.2.2.2.1,
    (h.2.2.2.2 { image := narrow_image } rfl (by decide)).1 (by decide)⟩

theorem write_byte_cur_filter (s : PngState) :
    (write_byte s).cur_filter = if s.line_x + 1 ≥ s.line_size then 255 else s.cur_filter := by
  unfold write_byte
  simp only []
  split_ifs <;> simp [(advance_pass_sums _ _).2.2]

theorem unfilter_none_iff (x : Nat) (s : PngState) :
    unfilter x s = none ↔ 4 < s.cur_filter := by
  constructor
  · intro h
    by_contra h4
    obtain ⟨s1, hs1, _⟩ := unfilter_known x s (by omega)
    rw [hs1] at h
    exact absurd h (by simp)
  · intro h
    have hp : unfilter_prediction s = none := by
      unfold unfilter_prediction
      simp only [PNG_PF_None, PNG_PF_Sub, PNG_PF_Up, PNG_PF_Average, PNG_PF_Paeth]
      rw [if_neg (by omega), if_neg (by omega), if_neg (by omega), if_neg (by omega),
        if_neg (by omega)]
    simp only [unfilter, hp, Option.map_none']

/-- C27: in the pixel branch of flush_window (the loop body flush_byte), from a state
whose filter tag is one of 0..4 or the mark 255 of an unset tag, as decode_IDAT sets it.
A byte `b` that arrives while the tag is unset makes the tag `b` when `b ≤ 4` and
otherwise 0, with the warning WARN_FILTER, and changes nothing else.  A byte that arrives
while the tag is set is given to unfilter with a tag in 0..4, which is exactly when
unfilter does not reach the default case of its switch, and the write_byte that follows
puts the tag back to 255 exactly when the row is complete (`line_x + 1 ≥ line_size`).
For every byte stream the loop therefore runs to its end without reaching the default
case, and ends with a tag in 0..4 or 255. -/
theorem flush_byte_filter_tag (bytes : List Nat) (b : Nat) (s : PngState)
    (hk : FilterKnown s) :
    (s.cur_filter = 255 →
      flush_byte s b = some { s with
        cur_filter := if b ≤ 4 then b else 0
        warnings := s.warnings ++ if b ≤ 4 then [] else [Warning.WARN_FILTER] }) ∧
    (s.cur_filter ≠ 255 →
      s.cur_filter ≤ 4 ∧
      ∃ s1, unfilter b s = some s1 ∧ flush_byte s b = some (write_byte s1) ∧
        ((write_byte s1).cur_filter = 255 ↔ s.line_x + 1 ≥ s.line_size) ∧
        (¬ s.line_x + 1 ≥ s.line_size → (write_byte s1).cur_filter = s.cur_filter)) ∧
    (∀ x (s0 : PngState), unfilter x s0 = none ↔ 4 < s0.cur_filter) ∧
    ∃ s2, bytes.foldlM flush_byte s = some s2 ∧ FilterKnown s2 := by
  refine ⟨?_, ?_, unfilter_none_iff, ?_⟩
  · intro h255
    unfold flush_byte
    rw [if_pos h255.symm]
    dsimp only
    by_cases hb : b ≤ 4
    · rw [if_neg (show ¬ b > 4 from by omega), if_pos hb, if_pos hb, List.append_nil]
    · rw [if_pos (show b > 4 from by omega), if_neg hb, if_neg hb]
  · intro hne
    have h4 : s.cur_filter ≤ 4 := by
      rcases hk with h | h
      · exact h
      · exact absurd h hne
    obtain ⟨s1, hs1, _⟩ := unfilter_known b s h4
    have hs : s1 = { s with this_line := s1.this_line } := by
      unfold unfilter at hs1
      cases hp : unfilter_prediction s with
      | none => rw [hp] at hs1; exact absurd hs1 (by simp)
      | some p =>
        rw [hp] at hs1
        simp only [Option.map_some', Option.some.injEq] at hs1
        rw [← hs1]
    have hx : s1.line_x = s.line_x := by rw [hs]
    have hl : s1.line_size = s.line_size := by rw [hs]
    have hf : s1.cur_filter = s.cur_filter := by rw [hs]
    refine ⟨h4, s1, hs1, ?_, ?_, ?_⟩
    · unfold flush_byte
      rw [if_neg (fun h => hne h.symm), hs1]
      rfl
    · rw [write_byte_cur_filter, hx, hl, hf]
      constructor
      · intro h
        by_contra hc
        rw [if_neg hc] at h
        exact hne h
      · intro h
        rw [if_pos h]
    · intro h
      rw [write_byte_cur_filter, hx, hl, hf, if_neg h]
  · obtain ⟨s2, h1, h2, _⟩ := flush_bytes_known bytes s hk
    exact ⟨s2, h1, h2⟩

theorem flush_byte_filter_tag_witness :
    flush_byte gray_row_state 7 = some { gray_row_state with
      cur_filter := 0, warnings := gray_row_state.warnings ++ [Warning.WARN_FILTER] } ∧
    ∃ s2, [7, 10, 20, 30, 1, 5, 5, 5].foldlM flush_byte gray_row_state = some s2 ∧
      FilterKnown s2 :=
  have h := flush_byte_filter_tag [7, 10, 20, 30, 1, 5, 5, 5] 7 gray_row_state
    (Or.inr rfl)
  ⟨h.1 rfl, h.2.2.2⟩

theorem write_tags_inline (calls : List (Nat × Nat × Nat × List Nat)) :
    ∀ s : TiffState, s.tag_count + calls.length ≤ s.ifd.length →
      (∀ c ∈ calls, (c.2.2.1 * data_sizes.getD c.2.1 0) % 2 ^ 32 ≤ 4) →
      directory (write_tags calls s)
        = calls.foldl (fun d c => dir_insert (inline_entry c) d) (directory s) ∧
      (write_tags calls s).outf = s.outf ∧
      (write_tags calls s).file_offset = s.file_offset := by
  induction calls with
  | nil => intro s _ _; exact ⟨rfl, rfl, rfl⟩
  | cons c calls ih =>
    intro s hroom hin
    simp only [List.length_cons] at hroom
    obtain ⟨w1, w2, w3, w4, w5, _⟩ := write_tag_inline c.1 c.2.1 c.2.2.1 c.2.2.2 s
      (by omega) (hin c (List.mem_cons_self _ _))
    obtain ⟨i1, i2, i3⟩ := ih (write_tag c.1 c.2.1 c.2.2.1 c.2.2.2 s)
      (by rw [w2, w3]; omega) (fun x hx => hin x (List.mem_cons_of_mem _ hx))
    refine ⟨?_, ?_, ?_⟩
    · show directory (write_tags calls (write_tag c.1 c.2.1 c.2.2.1 c.2.2.2 s)) = _
      rw [i1, w1]
      rfl
    · show (write_tags calls (write_tag c.1 c.2.1 c.2.2.1 c.2.2.2 s)).outf = _
      rw [i2, w4]
    · show (write_tags calls (write_tag c.1 c.2.1 c.2.2.1 c.2.2.2 s)).file_offset = _
      rw [i3, w5]

theorem foldl_dir_insert_perm (es : List TiffEntry) :
    ∀ d : List TiffEntry, (es.foldl (fun d e => dir_insert e d) d).Perm (es ++ d) := by
  induction es with
  | nil => intro d; exact List.Perm.refl _
  | cons e es ih =>
    intro d
    refine (ih (dir_insert e d)).trans ?_
    refine ((List.Perm.refl es).append (dir_insert_perm e d)).trans ?_
    exact List.perm_middle

theorem foldl_dir_insert_sorted (es : List TiffEntry) :
    ∀ d : List TiffEntry, d.Pairwise (fun a b => a.tag < b.tag) →
      ((es ++ d).map fun e => e.tag).Nodup →
      (es.foldl (fun d e => dir_insert e d) d).Pairwise (fun a b => a.tag < b.tag) := by
  induction es with
  | nil => intro d h _; exact h
  | cons e es ih =>
    intro d hd hn
    have hp : (es ++ dir_insert e d).Perm (e :: es ++ d) :=
      ((List.Perm.refl es).append (dir_insert_perm e d)).trans List.perm_middle
    have hn2 := (List.Perm.nodup_iff (hp.map fun e => e.tag)).mpr hn
    refine ih (dir_insert e d) (dir_insert_sorted_lt e d hd ?_) hn2
    intro x hx hxe
    rw [List.cons_append, List.map_cons, List.nodup_cons] at hn
    exact hn.1 (List.mem_map.mpr ⟨x, List.mem_append_right _ hx, hxe⟩)

theorem sorted_perm_eq_of_key {α : Type} (key : α → Nat) (l1 l2 : List α)
    (hp : l1.Perm l2) (h1 : l1.Pairwise (fun a b => key a < key b))
    (h2 : l2.Pairwise (fun a b => key a < key b)) : l1 = l2 := by
  haveI : IsAntisymm α (fun a b => key a < key b) :=
    ⟨fun a b hab hba => absurd hab (by omega)⟩
  exact List.eq_of_perm_of_sorted hp h1 h2

theorem write_tags_entries (calls : List (Nat × Nat × Nat × List Nat)) :
    ∀ s : TiffState, s.tag_count + calls.length ≤ s.ifd.length →
      (write_tags calls s).tag_count = s.tag_count + calls.length ∧
      ∃ es : List TiffEntry,
        es.map (fun e => (e.tag, e.dtype, e.count)) = calls.map (fun c => (c.1, c.2.1, c.2.2.1)) ∧
        directory (write_tags calls s) = es.foldl (fun d e => dir_insert e d) (directory s) := by
  induction calls with
  | nil => intro s _; exact ⟨rfl, [], rfl, rfl⟩
  | cons c calls ih =>
    intro s hroom
    simp only [List.length_cons] at hroom
    obtain ⟨⟨v, w1⟩, w2, w3⟩ := write_tag_directory c.1 c.2.1 c.2.2.1 c.2.2.2 s (by omega)
    obtain ⟨i1, es, i2, i3⟩ := ih (write_tag c.1 c.2.1 c.2.2.1 c.2.2.2 s)
      (by rw [w2, w3]; omega)
    refine ⟨?_, { tag := c.1, dtype := c.2.1, count := c.2.2.1, value := v } :: es, ?_, ?_⟩
    · show (write_tags calls (write_tag c.1 c.2.1 c.2.2.1 c.2.2.2 s)).tag_count = _
      rw [i1, w2, List.length_cons]
      omega
    · rw [List.map_cons, List.map_cons, i2]
    · show directory (write_tags calls (write_tag c.1 c.2.1 c.2.2.1 c.2.2.2 s)) = _
      rw [i3, w1]
      rfl

theorem write_tags_triples (calls : List (Nat × Nat × Nat × List Nat)) (s : TiffState)
    (hroom : s.tag_count + calls.length ≤ s.ifd.length)
    (hsorted : (directory s).Pairwise (fun a b => a.tag < b.tag))
    (hnodup : (calls.map (fun c => c.1) ++ directory_tags s).Nodup) :
    (directory (write_tags calls s)).Pairwise (fun a b => a.tag < b.tag) ∧
    (directory_triples (write_tags calls s)).Perm
      (calls.map (fun c => (c.1, c.2.1, c.2.2.1)) ++ directory_triples s) := by
  obtain ⟨_, es, e1, e2⟩ := write_tags_entries calls s hroom
  have htags : es.map (fun e => e.tag) = calls.map (fun c => c.1) := by
    have := congrArg (List.map fun t : Nat × Nat × Nat => t.1) e1
    simpa only [List.map_map, Function.comp_def] using this
  constructor
  · rw [e2]
    refine foldl_dir_insert_sorted es _ hsorted ?_
    rw [List.map_append, htags]
    exact hnodup
  · unfold directory_triples
    rw [e2, ← e1, ← List.map_append]
    exact (foldl_dir_insert_perm es _).map _

/-- C21: a set of calls of write_tag with pairwise distinct tag ids, none of them in the
directory yet, made in two different orders from the same state with a strictly sorted
directory and room for the new entries, one entry of `ts.ifd` staying unused so that no
copy of `get_tag_pos` leaves the array (`tag_count` stays below the length of `ts.ifd`).
Both orders end with the same tag_count and the same sequence of (tag id, type, count)
triples in the directory; when every value is stored inline (`data_size ≤ 4`) the entries
0..tag_count-1 are identical in all their fields, value bytes included, and the file and
its cursor are unchanged. -/
theorem write_tags_order_independent (calls1 calls2 : List (Nat × Nat × Nat × List Nat))
    (s : TiffState) (hperm : calls1.Perm calls2)
    (hroom : s.tag_count + calls1.length < s.ifd.length)
    (hsorted : (directory s).Pairwise (fun a b => a.tag < b.tag))
    (hnodup : (calls1.map (fun c => c.1) ++ directory_tags s).Nodup) :
    (write_tags calls1 s).tag_count = (write_tags calls2 s).tag_count ∧
    (write_tags calls1 s).tag_count < (write_tags calls1 s).ifd.length ∧
    directory_triples (write_tags calls1 s) = directory_triples (write_tags calls2 s) ∧
    ((∀ c ∈ calls1, (c.2.2.1 * data_sizes.getD c.2.1 0) % 2 ^ 32 ≤ 4) →
      directory (write_tags calls1 s) = directory (write_tags calls2 s) ∧
      (directory (write_tags calls1 s)).flatMap (entry_image s.little_endian)
        = (directory (write_tags calls2 s)).flatMap (entry_image s.little_endian) ∧
      (write_tags calls1 s).outf = s.outf ∧ (write_tags calls2 s).outf = s.outf) := by
  have hlen : calls2.length = calls1.length := hperm.length_eq.symm
  have hroom1 : s.tag_count + calls1.length ≤ s.ifd.length := Nat.le_of_lt hroom
  have hroom2 : s.tag_count + calls2.length ≤ s.ifd.length := by rw [hlen]; exact hroom1
  have hnodup2 : (calls2.map (fun c => c.1) ++ directory_tags s).Nodup :=
    (List.Perm.nodup_iff ((hperm.map _).append_right _)).mp hnodup
  obtain ⟨s1, p1⟩ := write_tags_triples calls1 s hroom1 hsorted hnodup
  obtain ⟨s2, p2⟩ := write_tags_triples calls2 s hroom2 hsorted hnodup2
  have hkey : ∀ c : List (Nat × Nat × Nat × List Nat),
      (directory (write_tags c s)).Pairwise (fun a b => a.tag < b.tag) →
      (directory_triples (write_tags c s)).Pairwise (fun a b => a.1 < b.1) := by
    intro c h
    unfold directory_triples
    rw [List.pairwise_map]
    exact h
  refine ⟨?_, ?_, ?_, ?_⟩
  · rw [(write_tags_entries calls1 s hroom1).1, (write_tags_entries calls2 s hroom2).1, hlen]
  · rw [(write_tags_sorted calls1 s hroom1).1, (write_tags_sorted calls1 s hroom1).2.1]
    exact hroom
  · refine sorted_perm_eq_of_key (fun t => t.1) _ _ ?_ (hkey _ s1) (hkey _ s2)
    exact p1.trans ((((hperm.map _).append_right _)).trans p2.symm)
  · intro hin
    have hin2 : ∀ c ∈ calls2, (c.2.2.1 * data_sizes.getD c.2.1 0) % 2 ^ 32 ≤ 4 :=
      fun c hc => hin c (hperm.mem_iff.mpr hc)
    obtain ⟨a1, a2, _⟩ := write_tags_inline calls1 s hroom1 hin
    obtain ⟨b1, b2, _⟩ := write_tags_inline calls2 s hroom2 hin2
    have hd : directory (write_tags calls1 s) = directory (write_tags calls2 s) := by
      refine sorted_perm_eq_of_key (fun e => e.tag) _ _ ?_ s1 s2
      have hm : ∀ c : List (Nat × Nat × Nat × List Nat),
          c.foldl (fun d c => dir_insert (inline_entry c) d) (directory s)
            = (c.map inline_entry).foldl (fun d e => dir_insert e d) (directory s) :=
        fun c => (List.foldl_map inline_entry (fun d e => dir_insert e d) c (directory s)).symm
      rw [a1, b1, hm, hm]
      refine (foldl_dir_insert_perm _ _).trans (List.Perm.trans ?_ (foldl_dir_insert_perm _ _).symm)
      exact (hperm.map _).append_right _
    exact ⟨hd, by rw [hd], a2, b2⟩

theorem write_tags_order_independent_witness :
    directory_triples (write_tags [(277, 3, 1, [3, 0]), (256, 4, 1, [1, 0, 0, 0]), (259, 3, 1, [1, 0])]
        (write_TIFF_start {} true (List.replicate 16 0)))
      = directory_triples (write_tags
          [(256, 4, 1, [1, 0, 0, 0]), (277, 3, 1, [3, 0]), (259, 3, 1, [1, 0])]
          (write_TIFF_start {} true (List.replicate 16 0))) ∧
    directory (write_tags [(277, 3, 1, [3, 0]), (256, 4, 1, [1, 0, 0, 0]), (259, 3, 1, [1, 0])]
        (write_TIFF_start {} true (List.replicate 16 0)))
      = directory (write_tags
          [(256, 4, 1, [1, 0, 0, 0]), (277, 3, 1, [3, 0]), (259, 3, 1, [1, 0])]
          (write_TIFF_start {} true (List.replicate 16 0))) :=
  have h := write_tags_order_independent
    [(277, 3, 1, [3, 0]), (256, 4, 1, [1, 0, 0, 0]), (259, 3, 1, [1, 0])]
    [(256, 4, 1, [1, 0, 0, 0]), (277, 3, 1, [3, 0]), (259, 3, 1, [1, 0])]
    (write_TIFF_start {} true (List.replicate 16 0))
    (List.Perm.swap _ _ _) (by decide) (by decide) (by decide)
  ⟨h.2.2.1, (h.2.2.2 (by decide)).1⟩

set_option maxRecDepth 100000 in
/-- C22: a pHYs chunk and an oFFs chunk whose unit code is 2, larger than the largest
unit code defined.  decode_pHYs and decode_oFFs succeed and add only the warning
WARN_BAD_VAL, storing the unit code 2 as it is.  With the descriptors they produce,
write_extended_tags reaches its assertions `PNG_MU_Meter == resolution_unit` and
`PNG_MU_Pixel == offset_unit`, and both conditions are false. -/
theorem out_of_range_unit_breaks_assertion :
    (decode_pHYs 8192 phys_state {}).map
        (fun r => (r.1.warnings, r.2.xres, r.2.resolution_unit,
          resolution_unit_assertion r.2))
      = .ok ([Warning.WARN_BAD_VAL], 2835, 2, some false) ∧
    (decode_oFFs 8192 offs_state {}).map
        (fun r => (r.1.warnings, r.2.xoffset, r.2.offset_unit, offset_unit_assertion r.2))
      = .ok ([Warning.WARN_BAD_VAL], 100, 2, some false) :=
  ⟨rfl, rfl⟩

set_option maxRecDepth 100000 in
/-- C23: the decompressor pulls a byte when the current chunk is exhausted.  In a zTXt
chunk fill_buf returns ERR_BAD_PNG, and in an IDAT chunk followed by a chunk of another
type it returns ERR_EARLY_EOI.  Whatever the values of the error codes, the caller
receives each of them as a `U8`, and for every error code there is a data byte that a
successful call delivers as the very same value: the caller cannot tell the failure from
data. -/
theorem fill_buf_error_arrives_as_data_byte (code : Err → Int) :
    fill_buf 0x7FFFFFFF 8192 ztxt_exhausted_state = .error Err.ERR_BAD_PNG ∧
    fill_buf 0x7FFFFFFF 8192 idat_exhausted_state = .error Err.ERR_EARLY_EOI ∧
    ∀ e : Err, ∃ byte s1, byte < 256 ∧
      fill_buf 0x7FFFFFFF 8192 (idat_data_state byte) = .ok (byte, s1) ∧
      fill_buf_result code (.ok (byte, s1)) = fill_buf_result code (.error e) := by
  refine ⟨rfl, rfl, ?_⟩
  intro e
  have hlt : (code e % 256).toNat < 256 := by
    have := Int.emod_lt_of_pos (code e) (show (0 : Int) < 256 by decide)
    have := Int.emod_nonneg (code e) (show (256 : Int) ≠ 0 by decide)
    omega
  refine ⟨(code e % 256).toNat, _, hlt, rfl, ?_⟩
  show (code e % 256).toNat % 256 = (code e % 256).toNat
  exact Nat.mod_eq_of_lt hlt

theorem write_PPM_loop_spec : ∀ (fuel : Nat) (inf out : List Nat), inf.length + 2 ≤ fuel →
    write_PPM_loop fuel inf false out = out ++ inf ++ [0xFF] := by
  intro fuel
  induction fuel with
  | zero => intro inf out h; omega
  | succ fuel ih =>
    intro inf out h
    cases inf with
    | nil =>
      cases fuel with
      | zero => simp at h
      | succ fuel => simp [write_PPM_loop]
    | cons c rest =>
      rw [write_PPM_loop]
      simp only [Bool.not_false, if_true]
      rw [ih rest (out ++ [c]) (by simp only [List.length_cons] at h; omega)]
      simp

set_option maxRecDepth 100000 in
/-- C24: write_PPM returns ERR_BAD_PNG and writes nothing for a palette image and for an
image that is not in colour.  For a truecolour image without palette whose pixel data
file holds the bytes `P` it returns 0 and writes the header P6, newline, width, blank,
height, newline, 255, newline, then the bytes of `P`, and then one byte 0xFF more: the
loop tests `feof` before a read has met the end of the file, so that its last iteration
writes the `EOF` that `getc` returns.  For the 1 x 1 image with the pixel 11, 22, 33 the
file is the header (P6, then 1 1, then 255, each followed by a newline) followed by
11, 22, 33, 255, not by 11, 22, 33 alone. -/
theorem write_PPM_writes_one_byte_too_many :
    (∀ (image : IMG_INFO) (P : List Nat),
      write_PPM { image with is_palette := true, pixel_data_file := some P }
        = (some Err.ERR_BAD_PNG, [])) ∧
    (∀ (image : IMG_INFO) (P : List Nat),
      write_PPM { image with is_palette := false, is_color := false,
                             pixel_data_file := some P }
        = (some Err.ERR_BAD_PNG, [])) ∧
    (∀ (image : IMG_INFO) (P : List Nat),
      write_PPM { image with is_palette := false, is_color := true,
                             pixel_data_file := some P }
        = (none, [80, 54, 10] ++ fprintf_d image.width ++ [32] ++ fprintf_d image.height
            ++ [10, 50, 53, 53, 10] ++ P ++ [0xFF])) ∧
    write_PPM one_pixel_rgb
      = (none, [80, 54, 10, 49, 32, 49, 10, 50, 53, 53, 10] ++ [11, 22, 33] ++ [255]) ∧
    write_PPM one_pixel_rgb
      ≠ (none, [80, 54, 10, 49, 32, 49, 10, 50, 53, 53, 10] ++ [11, 22, 33]) := by
  refine ⟨fun _ _ => rfl, fun _ _ => rfl, ?_, by decide, by decide⟩
  intro image P
  show (none, write_PPM_loop (P.length + 2) P false _) = _
  rw [write_PPM_loop_spec _ _ _ le_rfl]

set_option maxRecDepth 1000000 in
/-- C25: a palette image of bit depth 1, so with a colour map of 2 entries per plane,
receives a PLTE chunk of four entries (1,2,3), (4,5,6), (7,8,9), (10,11,12).  decode_PLTE
accepts it with palette_size 4.  write_basic_tags then writes a ColorMap of 6 shorts whose
red plane holds the red components 1 and 4 of the entries 0 and 1, but whose green plane
holds 7 and 10, the red components of the entries 2 and 3, and whose blue plane holds 8
and 11, their green components: the loop over the palette runs to palette_size and not to
the size of a plane, so that the planes overwrite one another.  Entry `i` of the green and
the blue plane is not the component of palette entry `i`, for `i` = 0 and 1, both below
min(palette_size, 2^d) = 2. -/
theorem colormap_planes_overwritten :
    (decode_PLTE 768 plte_four_state one_bit_palette_image).map
        (fun r => r.map fun p => p.2) = some (.ok one_bit_four_entries) ∧
    decoded_shorts (basic_tags_state 768 one_bit_four_entries true (List.replicate 768 0))
        TIFF_TAG_ColorMap
      = some [257 * 1, 257 * 4, 257 * 7, 257 * 10, 257 * 8, 257 * 11] ∧
    decoded_shorts (basic_tags_state 768 one_bit_four_entries true (List.replicate 768 0))
        TIFF_TAG_ColorMap
      ≠ some [257 * 1, 257 * 4, 257 * 2, 257 * 5, 257 * 3, 257 * 6] := by
  refine ⟨rfl, ?_, ?_⟩
  · decide
  · decide

set_option maxRecDepth 1000000 in
theorem unpack_bits_arith :
    ∀ d ∈ [1, 2, 4], ∀ o < 8, o % d = 0 → ∀ B < 256,
      ((B * 2 ^ o % 256) >>> (8 - d)) &&& ((1 <<< d) - 1) = (B >>> (8 - d - o)) % 2 ^ d ∧
      ((B * 2 ^ o % 256) <<< d) % 256 = B * 2 ^ (o + d) % 256 := by
  decide

theorem getD_lt_of_all_lt (row : List Nat) (h : ∀ x ∈ row, x < 256) (i : Nat) :
    row.getD i 0 < 256 := by
  rw [List.getD_eq_getElem?_getD]
  cases hi : row[i]? with
  | none => simp
  | some v => exact h v (List.mem_iff_getElem?.mpr ⟨i, hi⟩)

theorem headD_drop (row : List Nat) (q : Nat) : (row.drop q).headD 0 = row.getD q 0 := by
  rw [List.getD_eq_getElem?_getD, List.headD_eq_head?_getD, List.head?_drop]

theorem unpack_step (d : Nat) (hd : d = 1 ∨ d = 2 ∨ d = 4) (row : List Nat)
    (hrow : ∀ x ∈ row, x < 256) (k : Nat) (temp : List Nat) (byte got_bits : Nat)
    (hinv : UnpackInv d row k temp byte got_bits) :
    ((if got_bits = 0 then temp.headD 0 else byte) >>> (8 - d)) &&& ((1 <<< d) - 1)
      = row_sample d row k ∧
    UnpackInv d row (k + 1) (if got_bits = 0 then temp.tail else temp)
      (((if got_bits = 0 then temp.headD 0 else byte) <<< d) % 256)
      ((if got_bits = 0 then 8 else got_bits) - d) := by
  have hd' : d ∈ [1, 2, 4] := by
    rcases hd with h | h | h <;> simp [h]
  have ho8 : k * d % 8 < 8 := Nat.mod_lt _ (by decide)
  have hod : k * d % 8 % d = 0 := by
    rcases hd with h | h | h <;> subst h <;> omega
  have hB := getD_lt_of_all_lt row hrow (k * d / 8)
  obtain ⟨a1, a2⟩ := unpack_bits_arith d hd' (k * d % 8) ho8 hod _ hB
  have hsucc : (k + 1) * d = k * d + d := by ring
  unfold UnpackInv at hinv ⊢
  unfold row_sample
  rw [hsucc]
  by_cases ho : k * d % 8 = 0
  · rw [if_pos ho] at hinv
    obtain ⟨hg, ht⟩ := hinv
    rw [ho] at a1 a2
    simp only [pow_zero, Nat.mul_one, Nat.mod_eq_of_lt hB, Nat.sub_zero, Nat.zero_add] at a1 a2
    rw [if_pos hg, if_pos hg, if_pos hg, ht, headD_drop, ho, Nat.sub_zero]
    refine ⟨a1, ?_⟩
    have hne : ¬ (k * d + d) % 8 = 0 := by
      rcases hd with h | h | h <;> subst h <;> omega
    have hq : (k * d + d) / 8 = k * d / 8 := by
      rcases hd with h | h | h <;> subst h <;> omega
    have ho' : (k * d + d) % 8 = d := by
      rcases hd with h | h | h <;> subst h <;> omega
    rw [if_neg hne, hq, ho', List.tail_drop]
    exact ⟨rfl, rfl, a2⟩
  · rw [if_neg ho] at hinv
    obtain ⟨hg, ht, hb⟩ := hinv
    have hg0 : ¬ got_bits = 0 := by omega
    rw [if_neg hg0, if_neg hg0, if_neg hg0, hb]
    refine ⟨a1, ?_⟩
    by_cases hw : (k * d + d) % 8 = 0
    · rw [if_pos hw]
      have hq : (k * d + d) / 8 = k * d / 8 + 1 := by
        rcases hd with h | h | h <;> subst h <;> omega
      rw [hq]
      refine ⟨?_, ht⟩
      rcases hd with h | h | h <;> subst h <;> omega
    · rw [if_neg hw]
      have hq : (k * d + d) / 8 = k * d / 8 := by
        rcases hd with h | h | h <;> subst h <;> omega
      have ho' : (k * d + d) % 8 = k * d % 8 + d := by
        rcases hd with h | h | h <;> subst h <;> omega
      rw [hq, ho']
      refine ⟨?_, ht, a2⟩
      omega

theorem unpack_row_spec (d : Nat) (hd : d = 1 ∨ d = 2 ∨ d = 4) (row : List Nat)
    (hrow : ∀ x ∈ row, x < 256) (width inc : Nat) (hinc : 1 ≤ inc) :
    ∀ (fuel k col : Nat) (temp : List Nat) (byte got_bits : Nat) (out : List Nat),
      UnpackInv d row k temp byte got_bits →
      (if width ≤ col then 0 else (width - col - 1) / inc + 1) ≤ fuel →
      unpack_row d width inc fuel col temp byte got_bits out
        = (out ++ (List.range (if width ≤ col then 0 else (width - col - 1) / inc + 1)).map
              (fun j => row_sample d row (k + j) * 255 / (2 ^ d - 1)),
            col + (if width ≤ col then 0 else (width - col - 1) / inc + 1) * inc) := by
  intro fuel
  induction fuel with
  | zero =>
    intro k col temp byte got_bits out _ hm
    have hw : width ≤ col := by
      by_contra hc
      rw [if_neg hc] at hm
      exact absurd hm (Nat.not_succ_le_zero _)
    rw [if_pos hw]
    simp [unpack_row]
  | succ fuel ih =>
    intro k col temp byte got_bits out hinv hm
    rw [unpack_row]
    by_cases hw : width ≤ col
    · rw [if_pos hw, if_neg (by omega)]
      simp
    · rw [if_neg hw] at hm ⊢
      rw [if_pos (by omega)]
      dsimp only
      obtain ⟨e1, e2⟩ := unpack_step d hd row hrow k temp byte got_bits hinv
      have hstep : (width - col - 1) / inc + 1
          = (if width ≤ col + inc then 0 else (width - (col + inc) - 1) / inc + 1) + 1 := by
        by_cases hw2 : width ≤ col + inc
        · rw [if_pos hw2, Nat.div_eq_of_lt (by omega)]
        · rw [if_neg hw2]
          have : width - col - 1 = width - (col + inc) - 1 + inc := by omega
          rw [this, Nat.add_div_right _ (by omega)]
      rw [ih (k + 1) (col + inc) _ _ _ _ e2 (by omega), e1, hstep, Nat.one_shiftLeft]
      generalize (if width ≤ col + inc then 0 else (width - (col + inc) - 1) / inc + 1) = m
      have hlist : (List.range (m + 1)).map
            (fun j => row_sample d row (k + j) * 255 / (2 ^ d - 1))
          = (row_sample d row k * 255 / (2 ^ d - 1)) :: (List.range m).map
            (fun j => row_sample d row (k + 1 + j) * 255 / (2 ^ d - 1)) := by
        rw [List.range_succ_eq_map, List.map_cons, List.map_map]
        refine congrArg _ (List.map_congr_left ?_)
        intro j _
        show row_sample d row (k + (j + 1)) * 255 / (2 ^ d - 1) = _
        rw [show k + (j + 1) = k + 1 + j from by omega]
      rw [hlist, List.append_assoc, List.singleton_append, Nat.succ_mul]
      refine Prod.ext rfl ?_
      show col + inc + m * inc = col + (m * inc + inc)
      omega

theorem advance_pass_tf (fuel : Nat) (s : PngState) : (advance_pass fuel s).1.tf = s.tf := by
  induction fuel generalizing s with
  | zero => simp [advance_pass]
  | succ fuel ih =>
    unfold advance_pass
    simp only []
    split_ifs
    · simp
    · rw [ih]
    · simp

theorem write_byte_tf (s : PngState) (hrow : s.line_x + 1 ≥ s.line_size) :
    (write_byte s).tf = tf_append s.tf s.interlace_pass
      (if s.image.bits_per_sample < 8 then
        (unpack_row s.image.bits_per_sample s.image.width
          (if s.image.is_interlaced then col_increment.getD s.interlace_pass 0 else 1)
          s.image.width
          (if s.image.is_interlaced then starting_col.getD s.interlace_pass 0 else 0)
          s.this_line 0 0 []).1
      else s.this_line.take s.line_size) := by
  unfold write_byte
  simp only []
  rw [if_pos hrow]
  split_ifs <;> simp [advance_pass_tf]

theorem getD_tf_append (tf : List (List Nat)) (pass : Nat) (bytes : List Nat)
    (h : pass < tf.length) :
    (tf_append tf pass bytes).getD pass [] = tf.getD pass [] ++ bytes ∧
    ∀ q, q ≠ pass → (tf_append tf pass bytes).getD q [] = tf.getD q [] := by
  unfold tf_append
  constructor
  · rw [List.getD_eq_getElem?_getD, List.getElem?_set_self h]
    rfl
  · intro q hq
    rw [List.getD_eq_getElem?_getD, List.getElem?_set_ne (Ne.symm hq),
      List.getD_eq_getElem?_getD]

/-- C28: write_byte at the byte that completes a row (`line_x + 1 ≥ line_size`) of bytes
below 256, in a pass 0..6 whose scratch stream exists.  For bit depth `d` in 1, 2, 4 it
appends to the scratch stream of the pass exactly `n` bytes, where `n` is the number of
columns of the current pass, or the image width when the image is not interlaced; byte
`j` is the floor of `s_j * 255 / (2^d - 1)`, with `s_j` sample `j` of the row, the
samples of a byte taken from the most significant bits on.  For depths 8 and 16 it
appends the `line_size` bytes of the row unchanged.  The other scratch streams are left
as they are. -/
theorem write_byte_appends_row (s : PngState) (hrow : s.line_x + 1 ≥ s.line_size)
    (hpass : s.interlace_pass ≤ 6) (htf : s.interlace_pass < s.tf.length)
    (hbytes : ∀ x ∈ s.this_line, x < 256) :
    ((s.image.bits_per_sample = 1 ∨ s.image.bits_per_sample = 2 ∨
        s.image.bits_per_sample = 4) →
      (write_byte s).tf.getD s.interlace_pass []
        = s.tf.getD s.interlace_pass [] ++ scaled_samples s.image.bits_per_sample
            (if s.image.is_interlaced then
              columns_of_pass s.image.width (starting_col.getD s.interlace_pass 0)
                (col_increment.getD s.interlace_pass 0)
              else s.image.width) s.this_line ∧
      (scaled_samples s.image.bits_per_sample
          (if s.image.is_interlaced then
            columns_of_pass s.image.width (starting_col.getD s.interlace_pass 0)
              (col_increment.getD s.interlace_pass 0)
            else s.image.width) s.this_line).length
        = (if s.image.is_interlaced then
            columns_of_pass s.image.width (starting_col.getD s.interlace_pass 0)
              (col_increment.getD s.interlace_pass 0)
            else s.image.width)) ∧
    ((s.image.bits_per_sample = 8 ∨ s.image.bits_per_sample = 16) →
      (write_byte s).tf.getD s.interlace_pass []
        = s.tf.getD s.interlace_pass [] ++ s.this_line.take s.line_size) ∧
    ∀ q, q ≠ s.interlace_pass → (write_byte s).tf.getD q [] = s.tf.getD q [] := by
  have hinc : 1 ≤ (if s.image.is_interlaced then col_increment.getD s.interlace_pass 0
      else 1) := by
    have : ∀ p ≤ 6, 1 ≤ col_increment.getD p 0 := by decide
    split_ifs
    · exact this _ hpass
    · exact le_rfl
  rw [write_byte_tf s hrow]
  refine ⟨fun hd => ⟨?_, ?_⟩, fun hd => ?_, fun q hq => (getD_tf_append _ _ _ htf).2 q hq⟩
  · have hlt : s.image.bits_per_sample < 8 := by omega
    rw [(getD_tf_append _ _ _ htf).1, if_pos hlt]
    have hfuel : (if s.image.width ≤
          (if s.image.is_interlaced then starting_col.getD s.interlace_pass 0 else 0)
        then 0
        else (s.image.width -
          (if s.image.is_interlaced then starting_col.getD s.interlace_pass 0 else 0) - 1) /
          (if s.image.is_interlaced then col_increment.getD s.interlace_pass 0 else 1) + 1)
        ≤ s.image.width := by
      split_ifs
      · omega
      · have := Nat.div_le_self (s.image.width - starting_col.getD s.interlace_pass 0 - 1)
          (col_increment.getD s.interlace_pass 0)
        omega
      · omega
      · have := Nat.div_le_self (s.image.width - 0 - 1) 1
        omega
    rw [unpack_row_spec s.image.bits_per_sample hd s.this_line hbytes s.image.width _ hinc
      s.image.width 0 _ s.this_line 0 0 [] (by simp [UnpackInv]) hfuel]
    have hm : (if s.image.width ≤
          (if s.image.is_interlaced then starting_col.getD s.interlace_pass 0 else 0)
        then 0
        else (s.image.width -
          (if s.image.is_interlaced then starting_col.getD s.interlace_pass 0 else 0) - 1) /
          (if s.image.is_interlaced then col_increment.getD s.interlace_pass 0 else 1) + 1)
        = (if s.image.is_interlaced then
            columns_of_pass s.image.width (starting_col.getD s.interlace_pass 0)
              (col_increment.getD s.interlace_pass 0)
            else s.image.width) := by
      by_cases hi : s.image.is_interlaced = true
      · rw [if_pos hi, if_pos hi, if_pos hi, columns_of_pass_eq]
      · rw [if_neg hi, if_neg hi, if_neg hi, Nat.div_one]
        split_ifs <;> omega
    rw [hm]
    unfold scaled_samples
    simp only [List.nil_append, Nat.zero_add]
  · unfold scaled_samples
    rw [List.length_map, List.length_range]
  · have hge : ¬ s.image.bits_per_sample < 8 := by omega
    rw [(getD_tf_append _ _ _ htf).1, if_neg hge]

theorem write_byte_appends_row_witness :
    (write_byte two_bit_row_state).tf.getD two_bit_row_state.interlace_pass []
      = two_bit_row_state.tf.getD two_bit_row_state.interlace_pass [] ++
        scaled_samples two_bit_row_state.image.bits_per_sample
          (if two_bit_row_state.image.is_interlaced then
            columns_of_pass two_bit_row_state.image.width
              (starting_col.getD two_bit_row_state.interlace_pass 0)
              (col_increment.getD two_bit_row_state.interlace_pass 0)
            else two_bit_row_state.image.width) two_bit_row_state.this_line ∧
    ∀ q, q ≠ two_bit_row_state.interlace_pass →
      (write_byte two_bit_row_state).tf.getD q [] = two_bit_row_state.tf.getD q [] :=
  have h := write_byte_appends_row two_bit_row_state (by decide) (by decide) (by decide)
    (by decide)
  ⟨(h.1 (by decide)).1, h.2.2⟩


set_option maxRecDepth 100000 in
/-- C38: the header of a 4 by 4 image with bit depth 4 and colour type 5 (palette and
alpha bits set).  decode_IHDR accepts it, with the warning WARN_BAD_PNG: the depth is one
of 1, 2, 4, 8, 16 and the colour type is none of 2, 4, 6.  The descriptor it leaves has
bits_per_sample 4, below 8, and samples_per_pixel 2 (1, and 1 more for the alpha bit), so
that the condition `1 == samples_per_pixel` asserted by new_line_size for depths below 8
is false. -/
theorem sub_byte_depth_with_two_samples :
    (decode_IHDR 8192 ihdr_palette_alpha_state {}).map
        (fun r => (r.1.warnings, r.2.bits_per_sample, r.2.samples_per_pixel,
          decide (r.2.bits_per_sample < 8), decide (1 = r.2.samples_per_pixel)))
      = .ok ([Warning.WARN_BAD_PNG], 4, 2, true, false) :=
  rfl

set_option maxRecDepth 100000 in
/-- C39: a pHYs chunk with 2835 pixels per metre in both directions and an oFFs chunk
with the offsets 6000000 and 0 in pixels, both within the PNG format.  decode_pHYs and
decode_oFFs accept them without a warning.  In write_extended_tags the scaled branch is
taken (xoffset is not 0, the offset unit is Pixel, the resolution unit is Meter); the
loop halves 6000000 twelve times, `bias` ends as 4096, and both divisors `xres / bias` and
`yres / bias` are `2835 / 4096 = 0`: the divisions are divisions by zero, which the model
of write_extended_tags reports as `none`. -/
theorem scaled_offset_divides_by_zero :
    far_offset_image.map
        (fun im => (im.xres, im.yres, im.resolution_unit, im.xoffset, im.yoffset,
          im.offset_unit,
          offset_bias 32 (max im.xoffset im.yoffset) 1,
          im.xres / offset_bias 32 (max im.xoffset im.yoffset) 1,
          im.yres / offset_bias 32 (max im.xoffset im.yoffset) 1,
          scaled_offsets im,
          (write_extended_tags 768 (fun _ => 0)
            (write_TIFF_start im true (List.replicate 768 0))).isNone))
      = some (2835, 2835, PNG_MU_Meter, 6000000, 0, PNG_MU_Pixel, 4096, 0, 0, none, true) :=
  rfl

set_option maxRecDepth 100000 in
/-- C35: the 1 x 1 truecolour image of depth 8, whose row takes 3 bytes.  write_strips
computes `rows_per_strip = 8192 / 3 = 2730`, one strip, and records `2730 * 3 = 8190` as
its byte count in StripByteCounts.  The strip starts at the length 14 of the file and the
row loop leaves after the single row of the image, so that the file ends at length 17: 3
pixel bytes are written for strip 0, not 8190. -/
theorem strip_byte_count_exceeds_bytes_written :
    strip_sizing 768 one_pixel_rgb = some (2730, 1, 8190) ∧
    (write_strips 768 [0, 0, 0]
        (basic_tags_state 768 one_pixel_rgb true (List.replicate 768 0))).map
      (fun r => (decoded_longs r.2.ts TIFF_TAG_StripByteCounts, r.2.starts,
        r.2.ts.outf.length, r.2.ts.outf.drop 14))
      = some (some [8190], [14], 17, [11, 22, 33]) := by
  decide

theorem offset_bias_spec (m : Nat) (hm : m < 2 ^ 32) :
    ∀ (fuel longside bias : Nat), 1 ≤ bias → longside * bias ≤ m →
      m < (longside + 1) * bias → longside < 2 ^ fuel →
      ∃ l, l ≤ 2000 ∧ l * offset_bias fuel longside bias ≤ m ∧
        m < (l + 1) * offset_bias fuel longside bias ∧ 1 ≤ offset_bias fuel longside bias := by
  intro fuel
  induction fuel with
  | zero =>
    intro longside bias hb h1 h2 h3
    have : longside = 0 := by simpa using h3
    subst this
    exact ⟨0, by decide, h1, h2, hb⟩
  | succ fuel ih =>
    intro longside bias hb h1 h2 h3
    rw [offset_bias]
    by_cases hl : longside > 2000
    · rw [if_pos hl]
      have h2b : 2 * bias ≤ longside * bias := Nat.mul_le_mul_right bias (by omega)
      have hmod : (bias * 2) % 2 ^ 32 = 2 * bias := by
        rw [Nat.mod_eq_of_lt (by omega)]
        omega
      rw [hmod]
      refine ih (longside / 2) (2 * bias) (by omega) ?_ ?_ ?_
      · have : longside / 2 * (2 * bias) = (longside / 2 * 2) * bias := by ring
        rw [this]
        exact le_trans (Nat.mul_le_mul_right bias (Nat.div_mul_le_self longside 2)) h1
      · have : (longside / 2 + 1) * (2 * bias) = ((longside / 2 + 1) * 2) * bias := by ring
        rw [this]
        exact lt_of_lt_of_le h2 (Nat.mul_le_mul_right bias (by omega))
      · rw [pow_succ] at h3
        omega
    · rw [if_neg hl]
      exact ⟨longside, by omega, h1, h2, hb⟩

/-- C32: in the offset conversion of write_extended_tags, for all 32-bit values of
xoffset and yoffset, the loop that doubles `bias` and halves `longside`, started with the
larger of the two offsets, ends within 32 iterations with `bias ≥ 1` (without wrapping)
and the larger offset below `2001 * bias`; both products `xoffset * (1000000 / bias)` and
`yoffset * (1000000 / bias)` are then at most 2001000000, below 2^32, so the 32-bit
multiplications do not wrap. -/
theorem offset_products_do_not_wrap (xoffset yoffset : Nat) (hx : xoffset < 2 ^ 32)
    (hy : yoffset < 2 ^ 32) :
    1 ≤ offset_bias 32 (max xoffset yoffset) 1 ∧
    max xoffset yoffset < 2001 * offset_bias 32 (max xoffset yoffset) 1 ∧
    xoffset * (1000000 / offset_bias 32 (max xoffset yoffset) 1) < 2 ^ 32 ∧
    yoffset * (1000000 / offset_bias 32 (max xoffset yoffset) 1) < 2 ^ 32 ∧
    (xoffset * (1000000 / offset_bias 32 (max xoffset yoffset) 1)) % 2 ^ 32
      = xoffset * (1000000 / offset_bias 32 (max xoffset yoffset) 1) ∧
    (yoffset * (1000000 / offset_bias 32 (max xoffset yoffset) 1)) % 2 ^ 32
      = yoffset * (1000000 / offset_bias 32 (max xoffset yoffset) 1) := by
  have hm : max xoffset yoffset < 2 ^ 32 := by omega
  obtain ⟨l, hl, h1, h2, hb⟩ := offset_bias_spec (max xoffset yoffset) hm 32
    (max xoffset yoffset) 1 le_rfl (by omega) (by omega) hm
  generalize offset_bias 32 (max xoffset yoffset) 1 = b at *
  have hmb : max xoffset yoffset < 2001 * b :=
    lt_of_lt_of_le h2 (Nat.mul_le_mul_right b (by omega))
  have hq : b * (1000000 / b) ≤ 1000000 := Nat.mul_div_le 1000000 b
  have key : ∀ v, v ≤ max xoffset yoffset → v * (1000000 / b) < 2 ^ 32 := by
    intro v hv
    have h3 : v * (1000000 / b) ≤ (2001 * b) * (1000000 / b) :=
      Nat.mul_le_mul_right _ (by omega)
    have h4 : (2001 * b) * (1000000 / b) = 2001 * (b * (1000000 / b)) := by ring
    rw [h4] at h3
    omega
  have kx := key xoffset (le_max_left _ _)
  have ky := key yoffset (le_max_right _ _)
  exact ⟨hb, hmb, kx, ky, Nat.mod_eq_of_lt kx, Nat.mod_eq_of_lt ky⟩

theorem offset_products_do_not_wrap_witness :
    1 ≤ offset_bias 32 (max 4294967295 6000000) 1 ∧
    4294967295 * (1000000 / offset_bias 32 (max 4294967295 6000000) 1) < 2 ^ 32 ∧
    6000000 * (1000000 / offset_bias 32 (max 4294967295 6000000) 1) < 2 ^ 32 :=
  have h := offset_products_do_not_wrap 4294967295 6000000 (by decide) (by decide)
  ⟨h.1, h.2.2.1, h.2.2.2.1⟩

theorem crc_table_bits_eq_iterate (k : Nat) : ∀ x, crc_table_bits k x = crc_shift_step^[k] x := by
  induction k with
  | zero => intro x; rfl
  | succ k ih =>
    intro x
    rw [crc_table_bits, Function.iterate_succ_apply, ih]
    congr 1
    unfold crc_shift_step
    rw [Nat.and_one_is_mod, Nat.shiftRight_one]
    by_cases h : x % 2 = 1
    · rw [if_pos h, if_pos (by omega)]
    · rw [if_neg h, if_neg (by omega)]

theorem xor_cancel_right (a b c : Nat) : (a ^^^ c) ^^^ (b ^^^ c) = a ^^^ b := by
  rw [Nat.xor_assoc, Nat.xor_comm c, Nat.xor_assoc, Nat.xor_self, Nat.xor_zero]

theorem crc_shift_step_xor (x y : Nat) :
    crc_shift_step (x ^^^ y) = crc_shift_step x ^^^ crc_shift_step y := by
  unfold crc_shift_step
  have hm := @Nat.xor_mod_two_eq x y
  rw [Nat.xor_div_two]
  by_cases hx : x % 2 = 1 <;> by_cases hy : y % 2 = 1
  · rw [if_pos hx, if_pos hy, if_neg (by omega), xor_cancel_right]
  · rw [if_pos hx, if_neg hy, if_pos (by omega), Nat.xor_assoc, Nat.xor_assoc,
      Nat.xor_comm (y / 2)]
  · rw [if_neg hx, if_pos hy, if_pos (by omega), Nat.xor_assoc]
  · rw [if_neg hx, if_neg hy, if_neg (by omega)]

theorem crc_shift_iterate_xor (k : Nat) : ∀ x y,
    crc_shift_step^[k] (x ^^^ y) = crc_shift_step^[k] x ^^^ crc_shift_step^[k] y := by
  induction k with
  | zero => intro x y; rfl
  | succ k ih =>
    intro x y
    rw [Function.iterate_succ_apply, Function.iterate_succ_apply,
      Function.iterate_succ_apply, crc_shift_step_xor, ih]

theorem crc_shift_step_split (x : Nat) :
    crc_shift_step x = x / 2 ^^^ crc_shift_step (x % 2) := by
  unfold crc_shift_step
  have h2 : x % 2 % 2 = x % 2 := Nat.mod_mod _ _
  rw [h2]
  by_cases h : x % 2 = 1
  · rw [if_pos h, if_pos h, h]
    rfl
  · have h0 : x % 2 = 0 := by omega
    rw [if_neg h, if_neg h, h0, Nat.zero_div, Nat.xor_zero]

theorem crc_shift_iterate_split (k : Nat) : ∀ x,
    crc_shift_step^[k] x = x / 2 ^ k ^^^ crc_shift_step^[k] (x % 2 ^ k) := by
  induction k with
  | zero =>
    intro x
    simp [Nat.mod_one]
  | succ k ih =>
    intro x
    have e1 : x / 2 ^ (k + 1) = x / 2 / 2 ^ k := by
      rw [Nat.div_div_eq_div_mul, pow_succ, Nat.mul_comm]
    have e2 : x % 2 ^ (k + 1) / 2 = x / 2 % 2 ^ k := by
      rw [pow_succ, Nat.mul_comm, Nat.mod_mul_right_div_self]
    have e3 : x % 2 ^ (k + 1) % 2 = x % 2 := by
      rw [pow_succ, Nat.mul_comm]
      exact Nat.mod_mul_right_mod x 2 (2 ^ k)
    rw [Function.iterate_succ_apply, Function.iterate_succ_apply,
      crc_shift_step_split x, crc_shift_step_split (x % 2 ^ (k + 1)), e2, e3,
      crc_shift_iterate_xor, crc_shift_iterate_xor, ih (x / 2), e1, Nat.xor_assoc]

theorem xor_div_pow (k : Nat) : ∀ a b : Nat, (a ^^^ b) / 2 ^ k = a / 2 ^ k ^^^ b / 2 ^ k := by
  induction k with
  | zero => intro a b; simp
  | succ k ih =>
    intro a b
    have e : ∀ x : Nat, x / 2 ^ (k + 1) = x / 2 / 2 ^ k := by
      intro x
      rw [Nat.div_div_eq_div_mul, pow_succ, Nat.mul_comm]
    rw [e, e a, e b, Nat.xor_div_two, ih]

theorem crc_table_getD (n : Nat) (h : n < 256) :
    crc_table.getD n 0 = crc_shift_step^[8] n := by
  unfold crc_table build_crc_table
  rw [List.getD_eq_getElem?_getD, List.getElem?_map, List.getElem?_range h]
  exact crc_table_bits_eq_iterate 8 n

theorem crc_step_eq_serial (c b : Nat) (hc : c < 2 ^ 32) (hb : b < 256) :
    crc_step c b = crc_shift_step^[8] (c ^^^ b) := by
  unfold crc_step
  have hand : (c ^^^ b) &&& 0xFF = (c ^^^ b) % 2 ^ 8 :=
    Nat.and_pow_two_sub_one_eq_mod (c ^^^ b) 8
  have hmask : (c >>> 8) &&& 0xFFFFFF = (c >>> 8) % 2 ^ 24 :=
    Nat.and_pow_two_sub_one_eq_mod (c >>> 8) 24
  have hdiv : (c ^^^ b) / 2 ^ 8 = c / 2 ^ 8 := by
    rw [xor_div_pow, Nat.div_eq_of_lt (show b < 2 ^ 8 from hb), Nat.xor_zero]
  have hlt : c / 2 ^ 8 < 2 ^ 24 := by omega
  have hlo : (c ^^^ b) % 2 ^ 8 < 256 := Nat.mod_lt _ (by decide)
  rw [hand, hmask, crc_table_getD _ hlo,
    crc_shift_iterate_split 8 (c ^^^ b), hdiv, Nat.shiftRight_eq_div_pow,
    Nat.mod_eq_of_lt hlt]

theorem crc_shift_step_lt (c : Nat) (hc : c < 2 ^ 32) : crc_shift_step c < 2 ^ 32 := by
  unfold crc_shift_step
  split_ifs
  · exact Nat.xor_lt_two_pow (by omega) (by decide)
  · omega

theorem crc_shift_iterate_lt (k : Nat) : ∀ c, c < 2 ^ 32 → crc_shift_step^[k] c < 2 ^ 32 := by
  induction k with
  | zero => intro c h; exact h
  | succ k ih =>
    intro c h
    rw [Function.iterate_succ_apply]
    exact ih _ (crc_shift_step_lt c h)

theorem update_crc_serial (data : List Nat) (hd : ∀ b ∈ data, b < 256) :
    ∀ crc, crc < 2 ^ 32 →
      update_crc crc data = crc_bit_serial crc data ∧ update_crc crc data < 2 ^ 32 := by
  induction data with
  | nil => intro crc h; exact ⟨rfl, h⟩
  | cons b data ih =>
    intro crc h
    have hb : b < 256 := hd b (List.mem_cons_self _ _)
    have hstep := crc_step_eq_serial crc b h hb
    have hlt : crc_step crc b < 2 ^ 32 := by
      rw [hstep]
      exact crc_shift_iterate_lt 8 _ (Nat.xor_lt_two_pow h (by omega))
    obtain ⟨i1, i2⟩ := ih (fun x hx => hd x (List.mem_cons_of_mem _ hx)) (crc_step crc b) hlt
    refine ⟨?_, i2⟩
    show update_crc (crc_step crc b) data = crc_bit_serial (crc_shift_step^[8] (crc ^^^ b)) data
    rw [i1, hstep]

set_option maxRecDepth 100000 in
/-- C31: for every 32-bit input CRC and every sequence of bytes, the table-driven
update_crc equals the bit-serial reflected CRC: for each byte, XOR the byte into the low
8 bits, then 8 times shift right by one and XOR 0xEDB88320 when the bit shifted out was
1.  build_crc_table fills its 256 entries, entry `n` with 8 such steps applied to `n`;
entry 0 becomes 0, so that the mark 0xFFFFFFFF of a table still to be built is gone, and
entry 255 is 0x2D02EF8D, as update_crc and build_crc_table assert. -/
theorem update_crc_eq_bit_serial (crc : Nat) (data : List Nat) (hc : crc < 2 ^ 32)
    (hd : ∀ b ∈ data, b < 256) :
    update_crc crc data = crc_bit_serial crc data ∧
    update_crc crc data < 2 ^ 32 ∧
    build_crc_table.length = 256 ∧
    (∀ n, n < 256 → build_crc_table.getD n 0 = crc_shift_step^[8] n) ∧
    build_crc_table.getD 0 0 = 0 ∧
    build_crc_table.getD 0 0 ≠ 0xFFFFFFFF ∧
    crc_table.getD 255 0 = 0x2D02EF8D := by
  refine ⟨(update_crc_serial data hd crc hc).1, (update_crc_serial data hd crc hc).2,
    by simp [build_crc_table], fun n hn => crc_table_getD n hn, by decide, by decide,
    by decide⟩

set_option maxRecDepth 100000 in
theorem update_crc_eq_bit_serial_witness :
    update_crc 0xFFFFFFFF [49, 50, 51] = crc_bit_serial 0xFFFFFFFF [49, 50, 51] ∧
    crc_table.getD 255 0 = 0x2D02EF8D :=
  have h := update_crc_eq_bit_serial 0xFFFFFFFF [49, 50, 51] (by decide) (by decide)
  ⟨h.1, h.2.2.2.2.2.2⟩
/-! ## The cursor `file_offset` follows the output file (C37) -/

theorem align_file_offset_loop_tracked (modulus : Nat) :
    ∀ (fuel : Nat) (s : TiffState), Tracked s →
      Tracked (align_file_offset_loop modulus fuel s) := by
  intro fuel
  induction fuel with
  | zero => intro s h; exact h
  | succ fuel ih =>
    intro s h
    unfold align_file_offset_loop
    split_ifs with hm
    · apply ih
      unfold Tracked at h ⊢
      simp only [List.length_append, List.length_singleton]
      omega
    · exact h

theorem align_file_offset_tracked (modulus : Nat) (s : TiffState) (h : Tracked s) :
    Tracked (align_file_offset modulus s) :=
  align_file_offset_loop_tracked modulus modulus s h

theorem get_tag_pos_tracked (t : Nat) (s : TiffState) (h : Tracked s) :
    Tracked (get_tag_pos t s).2 := by
  obtain ⟨-, -, h3, h4, -⟩ := get_tag_pos_fields t s
  unfold Tracked at h ⊢
  rw [h3, h4]
  exact h

theorem write_tag_tracked (t ty c : Nat) (b : List Nat) (s : TiffState) (h : Tracked s) :
    Tracked (write_tag t ty c b s) := by
  have h1 := get_tag_pos_tracked t s h
  have h2 := align_file_offset_tracked 2 _ h1
  unfold write_tag
  simp only []
  split_ifs with hd
  · exact h1
  · unfold Tracked at h2 ⊢
    simp only [List.length_append, length_first_bytes]
    omega

theorem write_png_entry_tracked (T : Nat) (s : TiffState) (h : Tracked s) :
    Tracked (write_png_entry T s) := by
  have h1 := get_tag_pos_tracked T s h
  unfold write_png_entry
  simp only []
  exact align_file_offset_tracked 2 _ h1

theorem write_png_loop_tracked (IOBUF_SIZE : Nat) :
    ∀ (fuel : Nat) (inf : List Nat) (s s1 : TiffState),
      write_png_loop IOBUF_SIZE fuel inf s = some s1 → Tracked s → Tracked s1 := by
  intro fuel
  induction fuel with
  | zero =>
    intro inf s s1 h ht
    unfold write_png_loop at h
    split_ifs at h
    rw [Option.some.injEq] at h
    rw [← h]
    exact ht
  | succ fuel ih =>
    intro inf s s1 h ht
    unfold write_png_loop at h
    split_ifs at h
    · apply ih _ _ _ h
      unfold Tracked at ht ⊢
      simp only [List.length_append]
      omega
    · rw [Option.some.injEq] at h
      rw [← h]
      exact ht

theorem write_png_data_tracked (IOBUF_SIZE T : Nat) (s s1 : TiffState)
    (h : write_png_data IOBUF_SIZE T s = some s1) (ht : Tracked s) : Tracked s1 :=
  write_png_loop_tracked IOBUF_SIZE _ _ _ _ h (write_png_entry_tracked T s ht)

theorem Reach_tracked {k : Nat} {s s1 : TiffState} (h : Reach k s s1) :
    Tracked s → Tracked s1 := by
  induction h with
  | refl s => exact fun ht => ht
  | tag t ty c b _ _ ih => exact fun ht => write_tag_tracked t ty c b _ (ih ht)
  | buf b _ _ ih => exact fun ht => ih ht
  | align _ ih => exact fun ht => align_file_offset_tracked 2 _ (ih ht)
  | put bytes _ ih =>
    intro ht
    have := ih ht
    unfold Tracked at this ⊢
    simp only [List.length_append]
    omega
  | blob T _ ih => exact fun ht => write_png_entry_tracked T _ (ih ht)

theorem write_strip_rows_tracked (line_size rows scanline : Nat) (r : StripRun)
    (hl : r.line_buf.length = line_size) (ht : Tracked r.ts) :
    Tracked (write_strip_rows line_size rows scanline r).ts :=
  Reach_tracked (write_strip_rows_reach line_size rows scanline r hl).1 ht

/-- C37: throughout `write_TIFF` the cursor `ts.file_offset` is the number of bytes emitted
so far, as the 32-bit number that `write_ifd` compares it with: this holds for the state
that `write_TIFF` starts from, it is kept by `write_tag`, by `align_file_offset`, by
`write_png_data` and by the rows that `write_strips` writes, the two numbers are equal
outright as long as fewer than 2^32 bytes have been emitted, and it holds for the state
from which `write_ifd` writes the directory, so that the comparison in `write_ifd` finds
the cursor and the stream position equal (`err` is 0). -/
theorem file_offset_tracks_output (IOBUF_SIZE T : Nat) (gamma_curve : Nat → Nat)
    (le : Bool) (buf0 line_buf0 : List Nat) (image : IMG_INFO) (sf : TiffState)
    (starts : List Nat)
    (h : write_TIFF IOBUF_SIZE T gamma_curve le buf0 line_buf0 image = some (.ok (sf, starts)))
    (hbuf : IOBUF_SIZE ≤ buf0.length)
    (hlb : line_buf0.length = new_line_size image 0 1) :
    Tracked (write_TIFF_start image le buf0) ∧
    (∀ s, Tracked s → ∀ t ty c b, Tracked (write_tag t ty c b s)) ∧
    (∀ s, Tracked s → ∀ m, Tracked (align_file_offset m s)) ∧
    (∀ s s1, Tracked s → write_png_data IOBUF_SIZE T s = some s1 → Tracked s1) ∧
    (∀ (r : StripRun) (rows scanline : Nat), Tracked r.ts →
      r.line_buf.length = new_line_size image 0 1 →
      Tracked (write_strip_rows (new_line_size image 0 1) rows scanline r).ts) ∧
    (∀ s, Tracked s → s.outf.length < 2 ^ 32 → s.file_offset = s.outf.length) ∧
    ∃ s0, sf = write_ifd s0 ∧ Tracked s0 ∧ Tracked (align_file_offset 2 s0) ∧
      write_ifd_err s0 = none := by
  obtain ⟨s0, h1, -, -, -, -, h6, -⟩ :=
    write_TIFF_before_ifd IOBUF_SIZE T gamma_curve le buf0 line_buf0 image sf starts h hbuf hlb
  obtain ⟨-, -, -, -, a5, a6, -⟩ := write_TIFF_start_fields image le buf0
  have ha := align_file_offset_tracked 2 s0 h6
  refine ⟨?_, fun s ht t ty c b => write_tag_tracked t ty c b s ht,
    fun s ht m => align_file_offset_tracked m s ht,
    fun s s1 ht hw => write_png_data_tracked IOBUF_SIZE T s s1 hw ht,
    fun r rows scanline ht hl => write_strip_rows_tracked _ rows scanline r hl ht,
    ?_, s0, h1, h6, ha, ?_⟩
  · unfold Tracked; rw [a6, a5]; decide
  · intro s ht hlt
    unfold Tracked at ht
    rw [← ht]
    exact Nat.mod_eq_of_lt hlt
  · unfold write_ifd_err
    simp only []
    rw [if_pos ha.symm]

set_option maxRecDepth 100000 in
theorem file_offset_tracks_output_witness :
    write_TIFF 768 65000 (fun _ => 0) true (List.replicate 768 0) [0, 0, 0]
        one_pixel_with_chunks = some (.ok (one_pixel_tiff.1, one_pixel_tiff.2)) ∧
    Tracked (write_TIFF_start one_pixel_with_chunks true (List.replicate 768 0)) ∧
    Tracked (write_tag TIFF_TAG_ImageWidth TIFF_DT_LONG 2 [1, 0, 0, 0, 1, 0, 0, 0]
      (write_TIFF_start one_pixel_with_chunks true (List.replicate 768 0))) ∧
    (write_tag TIFF_TAG_ImageWidth TIFF_DT_LONG 2 [1, 0, 0, 0, 1, 0, 0, 0]
      (write_TIFF_start one_pixel_with_chunks true (List.replicate 768 0))).file_offset = 16 ∧
    ∃ s0, one_pixel_tiff.1 = write_ifd s0 ∧ Tracked s0 ∧ Tracked (align_file_offset 2 s0) ∧
      write_ifd_err s0 = none :=
  have h := file_offset_tracks_output 768 65000 (fun _ => 0) true (List.replicate 768 0)
    [0, 0, 0] one_pixel_with_chunks one_pixel_tiff.1 one_pixel_tiff.2 rfl
    (by simp only [List.length_replicate]; decide) rfl
  ⟨rfl, h.1, h.2.1 _ h.1 _ _ _ _, by decide, h.2.2.2.2.2.2⟩
/-! ## The row buffers of the decoder, byte by byte -/

theorem zlib_start_lines (b0 b1 : Nat) (m : Bool) (s s1 : PngState)
    (h : zlib_start b0 b1 m s = .ok s1) :
    s1.last_line = s.last_line ∧ s1.this_line = s.this_line ∧ s1.line_x = s.line_x ∧
    s1.cur_filter = s.cur_filter ∧ s1.interlace_pass = s.interlace_pass ∧
    s1.current_row = s.current_row ∧ s1.image = s.image := by
  unfold zlib_start at h
  simp only [] at h
  split_ifs at h
  rw [Except.ok.injEq] at h
  rw [← h]
  exact ⟨rfl, rfl, rfl, rfl, rfl, rfl, rfl⟩

theorem advance_pass_lines (fuel : Nat) (s : PngState) :
    (advance_pass fuel s).1.last_line = s.last_line ∧
    (advance_pass fuel s).1.this_line = s.this_line ∧
    (advance_pass fuel s).1.line_x = s.line_x := by
  induction fuel generalizing s with
  | zero => simp [advance_pass]
  | succ fuel ih =>
    unfold advance_pass
    simp only []
    split_ifs
    · simp
    · rw [(ih _).1, (ih _).2.1, (ih _).2.2]; simp
    · simp

theorem advance_pass_ended (fuel : Nat) : ∀ s : PngState, s.interlace_pass ≤ 6 →
    6 - s.interlace_pass < fuel → (advance_pass fuel s).2 = true →
    (s.interlace_pass < 6 → (advance_pass fuel s).1.line_size < 1) ∧
    (s.interlace_pass = 6 → (advance_pass fuel s).1.line_size = s.line_size) := by
  induction fuel with
  | zero => intro s _ h; omega
  | succ fuel ih =>
    intro s hp hfuel
    rw [advance_pass]
    dsimp only
    by_cases h6 : s.interlace_pass + 1 > 6
    · rw [if_pos h6]
      intro _
      exact ⟨fun h => by omega, fun _ => rfl⟩
    · rw [if_neg h6]
      by_cases hsz : new_line_size s.image (starting_col.getD (s.interlace_pass + 1) 0)
          (col_increment.getD (s.interlace_pass + 1) 0) < 1
      · rw [if_pos hsz]
        intro hflag
        obtain ⟨i1, i2⟩ := ih
          { s with
            interlace_pass := s.interlace_pass + 1
            current_row := starting_row.getD (s.interlace_pass + 1) 0
            line_size := new_line_size s.image (starting_col.getD (s.interlace_pass + 1) 0)
              (col_increment.getD (s.interlace_pass + 1) 0) }
          (by show s.interlace_pass + 1 ≤ 6; omega)
          (by show 6 - (s.interlace_pass + 1) < fuel; omega) hflag
        refine ⟨fun _ => ?_, fun h => by omega⟩
        by_cases h5 : s.interlace_pass + 1 < 6
        · exact i1 h5
        · rw [i2 (by show s.interlace_pass + 1 = 6; omega)]
          exact hsz
      · rw [if_neg hsz]
        intro h
        exact absurd h (by simp)

theorem getD_memset_zero (p : List Nat) (n i : Nat) (h : i < n) :
    (memset_zero p n).getD i 0 = 0 := by
  unfold memset_zero
  by_cases hi : i < p.length
  · rw [List.getD_append _ _ _ _ (by rw [List.length_replicate]; omega)]
    rw [List.getD_eq_getElem _ _ (by rw [List.length_replicate]; omega)]
    simp
  · rw [List.getD_eq_default]
    rw [List.length_append, List.length_replicate, List.length_drop]
    omega

theorem pass_end_basic (a : PngState) :
    (if (advance_pass 7 a).2 = true then (advance_pass 7 a).1
      else { (advance_pass 7 a).1 with
        last_line := memset_zero (advance_pass 7 a).1.last_line
          (advance_pass 7 a).1.line_size }).line_x = a.line_x ∧
    (if (advance_pass 7 a).2 = true then (advance_pass 7 a).1
      else { (advance_pass 7 a).1 with
        last_line := memset_zero (advance_pass 7 a).1.last_line
          (advance_pass 7 a).1.line_size }).cur_filter = a.cur_filter ∧
    (if (advance_pass 7 a).2 = true then (advance_pass 7 a).1
      else { (advance_pass 7 a).1 with
        last_line := memset_zero (advance_pass 7 a).1.last_line
          (advance_pass 7 a).1.line_size }).this_line = a.this_line ∧
    (if (advance_pass 7 a).2 = true then (advance_pass 7 a).1
      else { (advance_pass 7 a).1 with
        last_line := memset_zero (advance_pass 7 a).1.last_line
          (advance_pass 7 a).1.line_size }).last_line.length = a.last_line.length := by
  obtain ⟨l1, l2, l3⟩ := advance_pass_lines 7 a
  obtain ⟨-, -, l4⟩ := advance_pass_sums 7 a
  split_ifs
  · exact ⟨l3, l4, l2, by rw [l1]⟩
  · exact ⟨l3, l4, l2, by
      show (memset_zero _ _).length = _
      rw [length_memset_zero, l1]⟩

theorem pass_end_cleared (a : PngState) (p : Nat) (hpa : a.interlace_pass = p)
    (hp6 : p < 6) :
    p <
      (if (advance_pass 7 a).2 = true then (advance_pass 7 a).1
        else { (advance_pass 7 a).1 with
          last_line := memset_zero (advance_pass 7 a).1.last_line
            (advance_pass 7 a).1.line_size }).interlace_pass ∧
    ∀ i <
      (if (advance_pass 7 a).2 = true then (advance_pass 7 a).1
        else { (advance_pass 7 a).1 with
          last_line := memset_zero (advance_pass 7 a).1.last_line
            (advance_pass 7 a).1.line_size }).line_size,
      (if (advance_pass 7 a).2 = true then (advance_pass 7 a).1
        else { (advance_pass 7 a).1 with
          last_line := memset_zero (advance_pass 7 a).1.last_line
            (advance_pass 7 a).1.line_size }).last_line.getD i 0 = 0 := by
  subst hpa
  have hp : a.interlace_pass < 6 := hp6
  obtain ⟨-, s2, s3⟩ := advance_pass_skips 7 a (by omega) (by omega)
  by_cases hf : (advance_pass 7 a).2 = true
  · rw [if_pos hf]
    refine ⟨by rw [(s3 hf).1]; exact hp, fun i hi => ?_⟩
    have := (advance_pass_ended 7 a (by omega) (by omega) hf).1 hp
    omega
  · rw [if_neg hf]
    have hf2 : (advance_pass 7 a).2 = false := by simpa using hf
    exact ⟨(s2 hf2).1, fun i hi => getD_memset_zero _ _ i hi⟩

/-- The row buffers after a call of `write_byte`: within a row only the column moves on;
the call that completes a row swaps the buffers and resets the column, and on entry to a
new pass clears the previous-row buffer over the row width of that pass. -/
theorem write_byte_lines (s : PngState) :
    (s.line_x + 1 < s.line_size →
      (write_byte s).last_line = s.last_line ∧ (write_byte s).this_line = s.this_line ∧
      (write_byte s).line_x = s.line_x + 1 ∧ (write_byte s).cur_filter = s.cur_filter ∧
      (write_byte s).interlace_pass = s.interlace_pass ∧
      (write_byte s).line_size = s.line_size) ∧
    (s.line_size ≤ s.line_x + 1 →
      (write_byte s).line_x = 0 ∧ (write_byte s).cur_filter = 255 ∧
      (write_byte s).this_line = s.last_line ∧
      (write_byte s).last_line.length = s.this_line.length ∧
      ((s.image.is_interlaced = false ∨
          s.current_row + row_increment.getD s.interlace_pass 0 < s.image.height) →
        (write_byte s).last_line = s.this_line ∧
        (write_byte s).interlace_pass = s.interlace_pass ∧
        (write_byte s).line_size = s.line_size) ∧
      (s.image.is_interlaced = true →
        s.image.height ≤ s.current_row + row_increment.getD s.interlace_pass 0 →
        s.interlace_pass < 6 →
        s.interlace_pass < (write_byte s).interlace_pass ∧
        ∀ i < (write_byte s).line_size, (write_byte s).last_line.getD i 0 = 0)) := by
  constructor
  · intro h
    have hn : ¬ (s.line_x + 1 ≥ s.line_size) := by omega
    unfold write_byte
    simp only []
    rw [if_neg hn]
    exact ⟨rfl, rfl, rfl, rfl, rfl, rfl⟩
  · intro h
    have hp : s.line_x + 1 ≥ s.line_size := h
    unfold write_byte
    simp only []
    rw [if_pos hp]
    by_cases h1 : s.image.bits_per_sample < 8
    · rw [if_pos h1]
      dsimp only
      by_cases h2 : s.image.is_interlaced = true
      · rw [if_pos h2]
        by_cases h3 : s.current_row + row_increment.getD s.interlace_pass 0 ≥ s.image.height
        · rw [if_pos h3]
          refine ⟨(pass_end_basic _).1, (pass_end_basic _).2.1, (pass_end_basic _).2.2.1,
            (pass_end_basic _).2.2.2, fun hc => ?_, fun _ _ h6 => pass_end_cleared _ _ rfl h6⟩
          rcases hc with hc | hc
          · rw [h2] at hc; exact absurd hc (by simp)
          · omega
        · rw [if_neg h3]
          exact ⟨rfl, rfl, rfl, rfl, fun _ => ⟨rfl, rfl, rfl⟩, fun _ h5 _ => absurd h5 h3⟩
      · rw [if_neg h2]
        exact ⟨rfl, rfl, rfl, rfl, fun _ => ⟨rfl, rfl, rfl⟩, fun h4 => absurd h4 h2⟩
    · rw [if_neg h1]
      dsimp only
      by_cases h2 : s.image.is_interlaced = true
      · rw [if_pos h2]
        by_cases h3 : s.current_row + row_increment.getD s.interlace_pass 0 ≥ s.image.height
        · rw [if_pos h3]
          refine ⟨(pass_end_basic _).1, (pass_end_basic _).2.1, (pass_end_basic _).2.2.1,
            (pass_end_basic _).2.2.2, fun hc => ?_, fun _ _ h6 => pass_end_cleared _ _ rfl h6⟩
          rcases hc with hc | hc
          · rw [h2] at hc; exact absurd hc (by simp)
          · omega
        · rw [if_neg h3]
          exact ⟨rfl, rfl, rfl, rfl, fun _ => ⟨rfl, rfl, rfl⟩, fun _ h5 _ => absurd h5 h3⟩
      · rw [if_neg h2]
        exact ⟨rfl, rfl, rfl, rfl, fun _ => ⟨rfl, rfl, rfl⟩, fun h4 => absurd h4 h2⟩

theorem new_line_size_le (image : IMG_INFO) (start increment : Nat)
    (hdepth : image.bits_per_sample = 1 ∨ image.bits_per_sample = 2 ∨
      image.bits_per_sample = 4 ∨ image.bits_per_sample = 8 ∨ image.bits_per_sample = 16)
    (hspp : 1 ≤ image.samples_per_pixel)
    (hno : (if image.bits_per_sample < 8 then image.bits_per_sample * image.width
      else image.width * image.samples_per_pixel * (image.bits_per_sample / 8)) < 2 ^ 32) :
    new_line_size image start increment ≤ new_line_size image 0 1 := by
  by_cases hw : start < image.width
  · rw [(new_line_size_eq image start increment hdepth hspp hno hw).1,
      (new_line_size_eq image 0 1 hdepth hspp hno (by omega)).1]
    apply Nat.div_le_div_right
    apply Nat.add_le_add_right
    apply Nat.mul_le_mul_right
    have := Nat.div_le_self (image.width - start - 1) increment
    rw [Nat.div_one]
    omega
  · have : new_line_size image start increment = 0 := by
      unfold new_line_size
      rw [if_pos (Nat.le_of_not_lt hw)]
    omega

theorem unfilter_lines (byte : Nat) (s su : PngState) (h : unfilter byte s = some su) :
    su.last_line = s.last_line ∧ su.line_x = s.line_x ∧ su.line_size = s.line_size ∧
    su.cur_filter = s.cur_filter ∧ su.interlace_pass = s.interlace_pass ∧
    su.current_row = s.current_row ∧ su.image = s.image ∧
    su.this_line.length = s.this_line.length ∧
    ∀ i, i ≠ s.line_x → su.this_line.getD i 0 = s.this_line.getD i 0 := by
  unfold unfilter at h
  cases hp : unfilter_prediction s with
  | none => rw [hp] at h; exact absurd h (by simp)
  | some p =>
    rw [hp, Option.map_some', Option.some.injEq] at h
    rw [← h]
    refine ⟨rfl, rfl, rfl, rfl, rfl, rfl, rfl, by simp, fun i hi => ?_⟩
    show (s.this_line.set s.line_x _).getD i 0 = _
    simp only [List.getD_eq_getElem?_getD]
    rw [List.getElem?_set_ne (Ne.symm hi)]

/-- The previous-row buffer `last_line` and the column `line_x`, in terms of the pass and
row counters of the decoder (`ps.interlace_pass`, `ps.current_row`); these are the pass
and row of the image only as long as no pass with columns is without rows.
`decode_IDAT` hands to the inflater a state `s0` at the start of the first row (of pass 0
when the image is interlaced) in which `line_x` is 0, no filter tag is set and every byte
of `last_line` is 0; the buffer is as long as a full row, which for a valid depth and a
row size that fits 32 bits is at least the `line_size` of every pass.  For every state
`st` and byte of the inflated stream, `flush_byte` returns, and: a filter tag leaves both
buffers and `line_x = 0` as they are; a byte within a row leaves `last_line` as it is and
moves `line_x` on by one; a byte that completes a row sets `line_x` to 0 and clears the
filter tag, and then, when the pass counter stays (or the image is not interlaced),
`last_line` is the row just reconstructed, and when the pass counter moves on,
`last_line` is 0 at all indices below the `line_size` of the new pass. -/
theorem decoder_row_buffers (b0 b1 : Nat) (windows : List (List Nat)) (s : PngState)
    (r : Option PngState) (h : decode_IDAT b0 b1 windows s = .ok r) :
    ∃ s0, r = (windows.foldlM (fun st w => flush_window w st) s0).map repack_tempfiles ∧
      s0.line_x = 0 ∧ s0.cur_filter = 255 ∧ s0.interlace_pass = 0 ∧ s0.current_row = 0 ∧
      s0.last_line = List.replicate (new_line_size s0.image 0 1) 0 ∧
      s0.this_line.length = new_line_size s0.image 0 1 ∧
      (∀ i, s0.last_line.getD i 0 = 0) ∧
      s0.line_size = (if s0.image.is_interlaced then new_line_size s0.image 0 8
        else new_line_size s0.image 0 1) ∧
      ((s0.image.bits_per_sample = 1 ∨ s0.image.bits_per_sample = 2 ∨
          s0.image.bits_per_sample = 4 ∨ s0.image.bits_per_sample = 8 ∨
          s0.image.bits_per_sample = 16) →
        1 ≤ s0.image.samples_per_pixel →
        (if s0.image.bits_per_sample < 8 then s0.image.bits_per_sample * s0.image.width
          else s0.image.width * s0.image.samples_per_pixel *
            (s0.image.bits_per_sample / 8)) < 2 ^ 32 →
        ∀ start increment, new_line_size s0.image start increment ≤ s0.last_line.length) ∧
      (∀ (st : PngState) (byte : Nat), 255 = st.cur_filter →
        ∃ st1, flush_byte st byte = some st1 ∧ st1.cur_filter ≤ 4 ∧
          st1.last_line = st.last_line ∧ st1.this_line = st.this_line ∧
          st1.line_x = st.line_x ∧ st1.line_size = st.line_size ∧
          st1.interlace_pass = st.interlace_pass) ∧
      ∀ (st : PngState) (byte : Nat), st.cur_filter ≤ 4 →
        ∃ su, unfilter byte st = some su ∧ flush_byte st byte = some (write_byte su) ∧
          su.last_line = st.last_line ∧ su.line_x = st.line_x ∧
          (st.line_x + 1 < st.line_size →
            (write_byte su).last_line = st.last_line ∧
            (write_byte su).this_line = su.this_line ∧
            (write_byte su).line_x = st.line_x + 1 ∧
            (write_byte su).cur_filter = st.cur_filter ∧
            (write_byte su).interlace_pass = st.interlace_pass ∧
            (write_byte su).line_size = st.line_size) ∧
          (st.line_size ≤ st.line_x + 1 →
            (write_byte su).line_x = 0 ∧ (write_byte su).cur_filter = 255 ∧
            (write_byte su).this_line = st.last_line ∧
            (write_byte su).last_line.length = st.this_line.length ∧
            ((st.image.is_interlaced = false ∨
                st.current_row + row_increment.getD st.interlace_pass 0 < st.image.height) →
              (write_byte su).last_line = su.this_line ∧
              (write_byte su).interlace_pass = st.interlace_pass ∧
              (write_byte su).line_size = st.line_size) ∧
            (st.image.is_interlaced = true →
              st.image.height ≤ st.current_row + row_increment.getD st.interlace_pass 0 →
              st.interlace_pass < 6 →
              st.interlace_pass < (write_byte su).interlace_pass ∧
              ∀ i < (write_byte su).line_size, (write_byte su).last_line.getD i 0 = 0)) := by
  unfold decode_IDAT at h
  simp only [] at h
  split at h
  · exact absurd h (by simp)
  · rename_i s1 hz
    obtain ⟨z1, z2, z3, z4, z5, z6, z7⟩ := zlib_start_lines _ _ _ _ _ hz
    rw [Except.ok.injEq] at h
    have hlast : s1.last_line = List.replicate (new_line_size s1.image 0 1) 0 := by
      rw [z1, z7]
    refine ⟨_, h.symm, z3, z4, z5, z6, ?_, ?_, ?_, rfl, ?_, ?_, ?_⟩
    · show s1.last_line = List.replicate (new_line_size s1.image 0 1) 0
      rw [z1, z7]
    · show s1.this_line.length = new_line_size s1.image 0 1
      rw [z2, z7]
      exact List.length_replicate _ _
    · intro i
      show s1.last_line.getD i 0 = 0
      rw [z1]
      show (List.replicate _ 0).getD i 0 = 0
      simp only [List.getD_eq_getElem?_getD, List.getElem?_replicate]
      split_ifs <;> rfl
    · intro hd hs hn start increment
      show new_line_size s1.image start increment ≤ s1.last_line.length
      rw [hlast, List.length_replicate]
      exact new_line_size_le s1.image start increment hd hs hn
    · intro st byte h255
      unfold flush_byte
      rw [if_pos h255]
      simp only []
      split_ifs with h4
      · exact ⟨_, rfl, Nat.zero_le _, rfl, rfl, rfl, rfl, rfl⟩
      · exact ⟨_, rfl, Nat.le_of_not_lt h4, rfl, rfl, rfl, rfl, rfl⟩
    · intro st byte h4
      obtain ⟨su, hu, -⟩ := unfilter_known byte st h4
      obtain ⟨u1, u2, u3, u4, u5, u6, u7, u8, -⟩ := unfilter_lines byte st su hu
      obtain ⟨w1, w2⟩ := write_byte_lines su
      rw [u1, u2, u3, u4, u5] at w1
      rw [u1, u2, u3, u5, u6, u7, u8] at w2
      refine ⟨su, hu, ?_, u1, u2, w1, w2⟩
      unfold flush_byte
      rw [if_neg (by omega), hu]
      rfl

theorem decoder_row_buffers_witness :
    decode_IDAT 0x78 0x9C [[0, 1, 2, 3, 2, 1, 1, 1]] two_row_image_state = .ok two_row_result ∧
    two_row_result.map (fun s => (s.last_line, s.this_line, s.line_x, s.cur_filter,
      s.image.pixel_data_file)) = some ([2, 3, 4], [1, 2, 3], 0, 255, some [1, 2, 3, 2, 3, 4]) ∧
    (∃ s0, two_row_result =
        ([[0, 1, 2, 3, 2, 1, 1, 1]].foldlM (fun st w => flush_window w st) s0).map
          repack_tempfiles ∧
      s0.line_x = 0 ∧ s0.cur_filter = 255 ∧ ∀ i, s0.last_line.getD i 0 = 0) ∧
    (∃ st1, flush_byte gray_row_state 2 = some st1 ∧ st1.cur_filter ≤ 4 ∧
      st1.last_line = gray_row_state.last_line ∧ st1.line_x = gray_row_state.line_x) ∧
    ∃ su, unfilter 5 two_bit_row_state = some su ∧
      flush_byte two_bit_row_state 5 = some (write_byte su) ∧
      (write_byte su).line_x = 0 ∧ (write_byte su).last_line = su.this_line :=
  match decoder_row_buffers 0x78 0x9C [[0, 1, 2, 3, 2, 1, 1, 1]] two_row_image_state
    two_row_result rfl with
  | ⟨s0, e, h1, h2, _, _, _, _, h7, _, _, hA, hB⟩ =>
    ⟨rfl, rfl, ⟨s0, e, h1, h2, h7⟩,
      (match hA gray_row_state 2 rfl with
        | ⟨st1, a1, a2, a3, _, a5, _⟩ => ⟨st1, a1, a2, a3, a5⟩),
      (match hB two_bit_row_state 5 (by decide) with
        | ⟨su, b1, b2, _, _, _, b6⟩ =>
          ⟨su, b1, b2, (b6 (by decide)).1, ((b6 (by decide)).2.2.2.2.1 (Or.inl rfl)).1⟩)⟩

/-! ## The rows that the strip loop writes (C36) -/

theorem write_strips_eq (IOBUF_SIZE : Nat) (line_buf0 : List Nat) (s : TiffState) :
    write_strips IOBUF_SIZE line_buf0 s =
      (strip_sizing IOBUF_SIZE s.image).map fun sizes =>
        (none, (List.range sizes.2.1).foldl (fun (r : StripRun) _ =>
          let ts := align_file_offset 2 r.ts
          write_strip_rows (new_line_size s.image 0 1) sizes.1 0
            { r with ts := ts, starts := r.starts ++ [ts.outf.length] })
          { ts := strip_tags_state sizes s
            inf := ((strip_tags_state sizes s).image.pixel_data_file).getD []
            line_buf := line_buf0, starts := [] }) :=
  rfl

/-- One strip of `write_strips`: starting from scan line `scanline`, the row loop writes
`min rows (max 1 (height - scanline))` rows of `line_size` bytes. -/
theorem write_strip_rows_length (line_size : Nat) :
    ∀ (rows scanline : Nat) (r : StripRun), r.line_buf.length = line_size →
      (write_strip_rows line_size rows scanline r).ts.outf.length
        = r.ts.outf.length + min rows (max 1 (r.ts.image.height - scanline)) * line_size ∧
      (write_strip_rows line_size rows scanline r).ts.image = r.ts.image ∧
      (write_strip_rows line_size rows scanline r).starts = r.starts ∧
      (write_strip_rows line_size rows scanline r).line_buf.length = line_size := by
  intro rows
  induction rows with
  | zero =>
    intro scanline r h
    exact ⟨by simp [write_strip_rows], rfl, rfl, h⟩
  | succ rows ih =>
    intro scanline r hlen
    generalize hp : pack_row r.ts.little_endian r.ts.image.bits_per_sample
      r.ts.image.samples_per_pixel r.ts.image.width
      (if r.ts.image.bits_per_sample < 8 then 8 / r.ts.image.bits_per_sample else 1)
      r.ts.image.width 0 r.inf [] = p
    have hl : ((p.1 ++ r.line_buf.drop p.1.length).take line_size).length = line_size := by
      rw [List.length_take, List.length_append, List.length_drop]
      omega
    unfold write_strip_rows
    simp only [hp]
    by_cases hend : scanline + 1 ≥ r.ts.image.height
    · rw [if_pos hend]
      refine ⟨?_, rfl, rfl, hl⟩
      simp only [List.length_append, hl]
      have : min (rows + 1) (max 1 (r.ts.image.height - scanline)) = 1 := by omega
      rw [this, Nat.one_mul]
    · rw [if_neg hend]
      obtain ⟨i1, i2, i3, i4⟩ := ih (scanline + 1)
        { r with
          ts := { r.ts with
            outf := r.ts.outf ++ (p.1 ++ r.line_buf.drop p.1.length).take line_size
            file_offset := (r.ts.file_offset + line_size) % 2 ^ 32 }
          inf := p.2
          line_buf := (p.1 ++ r.line_buf.drop p.1.length).take line_size } hl
      refine ⟨?_, i2, i3, i4⟩
      rw [i1]
      simp only [List.length_append, hl]
      have : min (rows + 1) (max 1 (r.ts.image.height - scanline))
          = min rows (max 1 (r.ts.image.height - (scanline + 1))) + 1 := by omega
      rw [this, Nat.add_mul, Nat.one_mul]
      omega

/-- The strip loop of `write_strips` for rows of even size, from an even file length:
every strip starts its row count afresh, so each of the strips takes
`min rows_per_strip (max 1 height)` rows whatever has been written before. -/
theorem write_strip_loop_length (line_size rows_per_strip : Nat) (hls : line_size % 2 = 0) :
    ∀ (strips : List Nat) (r : StripRun), r.line_buf.length = line_size →
      Tracked r.ts → r.ts.outf.length % 2 = 0 →
      (strips.foldl (fun (r : StripRun) _ =>
        let ts := align_file_offset 2 r.ts
        write_strip_rows line_size rows_per_strip 0
          { r with ts := ts, starts := r.starts ++ [ts.outf.length] }) r).ts.outf.length
        = r.ts.outf.length +
          strips.length * (min rows_per_strip (max 1 r.ts.image.height) * line_size) ∧
      (strips.foldl (fun (r : StripRun) _ =>
        let ts := align_file_offset 2 r.ts
        write_strip_rows line_size rows_per_strip 0
          { r with ts := ts, starts := r.starts ++ [ts.outf.length] }) r).starts
        = r.starts ++ (List.range strips.length).map fun i =>
            r.ts.outf.length + i * (min rows_per_strip (max 1 r.ts.image.height) * line_size) := by
  intro strips
  induction strips with
  | nil => intro r _ _ _; simp
  | cons x strips ih =>
    intro r hlen ht hev
    rw [List.foldl_cons]
    have hfo : r.ts.file_offset % 2 = 0 := by
      unfold Tracked at ht
      omega
    have hal : align_file_offset 2 r.ts = r.ts := align_file_offset_even r.ts hfo
    simp only [hal]
    obtain ⟨j1, j2, j3, j4⟩ := write_strip_rows_length line_size rows_per_strip 0
      { r with starts := r.starts ++ [r.ts.outf.length] } hlen
    have jt := write_strip_rows_tracked line_size rows_per_strip 0
      { r with starts := r.starts ++ [r.ts.outf.length] } hlen ht
    simp only [Nat.sub_zero] at j1
    have hmul : (min rows_per_strip (max 1 r.ts.image.height) * line_size) % 2 = 0 := by
      rw [Nat.mul_mod, hls, Nat.mul_zero, Nat.zero_mod]
    obtain ⟨i1, i2⟩ := ih _ j4 jt (by rw [j1]; omega)
    rw [i1, i2, j1, j2, j3]
    constructor
    · simp only [List.length_cons]
      rw [Nat.succ_mul]
      omega
    · simp only [List.length_cons, List.append_assoc, List.singleton_append]
      rw [List.range_succ_eq_map, List.map_cons, List.map_map]
      simp only [Nat.zero_mul, Nat.add_zero]
      congr 2
      apply List.map_congr_left
      intro i _
      simp only [Function.comp, Nat.succ_mul]
      omega

set_option maxRecDepth 100000 in
/-- C36: the grey image of depth 8 with 4096 columns and 3 rows.  A row takes 4096 bytes,
so write_strips computes `rows_per_strip = 8192 / 4096 = 2` and two strips.  The row
count `scanline` starts at 0 again in each strip, so the test `++scanline >= height`
never ends the second strip early: both strips take two rows.  The strips start at the
file lengths 24 and 24 + 2 * 4096, and the file ends at 24 + 4 * 4096: four rows are
written for an image of three rows, whose pixel data file holds 3 * 4096 bytes. -/
theorem strips_write_more_rows_than_height :
    three_row_gray.height = 3 ∧ new_line_size three_row_gray 0 1 = 4096 ∧
    three_row_gray.pixel_data_file.map List.length = some (3 * 4096) ∧
    strip_sizing 768 three_row_gray = some (2, 2, 8192) ∧
    (write_strips 768 (List.replicate 4096 0)
        (basic_tags_state 768 three_row_gray true (List.replicate 768 0))).map
      (fun r => (r.2.starts, r.2.ts.outf.length))
      = some ([24, 24 + 2 * 4096], 24 + 4 * 4096) := by
  have hsz : strip_sizing 768 three_row_gray = some (2, 2, 8192) := by decide
  have hls : new_line_size three_row_gray 0 1 = 4096 := by decide
  have himg : (basic_tags_state 768 three_row_gray true (List.replicate 768 0)).image
      = three_row_gray := rfl
  refine ⟨rfl, hls, ?_, hsz, ?_⟩
  · show some (List.replicate 12288 7).length = some (3 * 4096)
    rw [List.length_replicate]
  rw [write_strips_eq, himg, hsz, hls]
  simp only [Option.map_some']
  have ht : Tracked (strip_tags_state (2, 2, 8192)
      (basic_tags_state 768 three_row_gray true (List.replicate 768 0))) := by
    unfold Tracked
    decide
  have hlen : (strip_tags_state (2, 2, 8192)
      (basic_tags_state 768 three_row_gray true (List.replicate 768 0))).outf.length = 24 := by
    decide
  have hh : (strip_tags_state (2, 2, 8192)
      (basic_tags_state 768 three_row_gray true (List.replicate 768 0))).image.height = 3 :=
    rfl
  obtain ⟨l1, l2⟩ := write_strip_loop_length 4096 2 rfl (List.range 2)
    { ts := strip_tags_state (2, 2, 8192)
        (basic_tags_state 768 three_row_gray true (List.replicate 768 0))
      inf := ((strip_tags_state (2, 2, 8192)
        (basic_tags_state 768 three_row_gray true
          (List.replicate 768 0))).image.pixel_data_file).getD []
      line_buf := List.replicate 4096 0, starts := [] }
    (List.length_replicate _ _) ht (by rw [hlen])
  rw [l1, l2]
  simp only [hlen, hh]
  rfl
/-! ## Unpacking a row of sub-byte samples and packing it again (C34) -/

set_option maxRecDepth 1000000 in
theorem pack_scaled_arith :
    ∀ d ∈ [1, 2, 4], ∀ m ∈ [1, 2, 3, 4, 5, 6, 7, 8], m ≤ 8 / d → ∀ B < 256,
      (pack_pixels true d 1 m 0 ((List.range m).map fun k =>
        (B >>> (8 - d - k * d)) % 2 ^ d * 255 / (2 ^ d - 1))).1
        = [B / 2 ^ (8 - m * d) * 2 ^ (8 - m * d)] := by
  decide

set_option maxRecDepth 1000000 in
theorem masked_sample_arith :
    ∀ d ∈ [1, 2, 4], ∀ m ∈ [1, 2, 3, 4, 5, 6, 7, 8], m ≤ 8 / d → ∀ k < 8, k < 8 / d →
      ∀ B < 256,
        ((B / 2 ^ (8 - m * d) * 2 ^ (8 - m * d)) >>> (8 - d - k * d)) % 2 ^ d
          = if k < m then (B >>> (8 - d - k * d)) % 2 ^ d else 0 := by
  decide
theorem pack_pixels_local (le : Bool) (d : Nat) (hd : d = 1 ∨ d = 2 ∨ d = 4)
    (spp width col : Nat) (hcol : col < width) (vs rest : List Nat)
    (hvs : vs.length = min (8 / d) (width - col)) :
    pack_pixels le d spp width col (vs ++ rest)
      = ((pack_pixels true d 1 vs.length 0 vs).1, rest) := by
  have hr : List.range' 1 7 = [1, 2, 3, 4, 5, 6, 7] := rfl
  rcases hd with rfl | rfl | rfl
  · have c1 : (col + 1 < width) ↔ (1 < vs.length) := by omega
    have c2 : (col + 2 < width) ↔ (2 < vs.length) := by omega
    have c3 : (col + 3 < width) ↔ (3 < vs.length) := by omega
    have c4 : (col + 4 < width) ↔ (4 < vs.length) := by omega
    have c5 : (col + 5 < width) ↔ (5 < vs.length) := by omega
    have c6 : (col + 6 < width) ↔ (6 < vs.length) := by omega
    have c7 : (col + 7 < width) ↔ (7 < vs.length) := by omega
    have hl : 1 ≤ vs.length ∧ vs.length ≤ 8 := by omega
    clear hvs
    unfold pack_pixels
    simp only [if_true, hr, List.foldl_cons, List.foldl_nil, c1, c2, c3, c4, c5, c6, c7,
      Nat.zero_add]
    rcases vs with _ | ⟨v0, _ | ⟨v1, _ | ⟨v2, _ | ⟨v3, _ | ⟨v4, _ | ⟨v5, _ | ⟨v6, _ |
      ⟨v7, _ | ⟨v8, vs⟩⟩⟩⟩⟩⟩⟩⟩⟩
    all_goals first
      | (exfalso; simp only [List.length_cons, List.length_nil] at hl; omega)
      | simp [getc]
  · have c1 : (col + 1 < width) ↔ (1 < vs.length) := by omega
    have c2 : (col + 2 < width) ↔ (2 < vs.length) := by omega
    have c3 : (col + 3 < width) ↔ (3 < vs.length) := by omega
    have hl : 1 ≤ vs.length ∧ vs.length ≤ 4 := by omega
    clear hvs
    unfold pack_pixels
    simp only [if_true, Nat.reduceEqDiff, if_false, List.foldl_cons, List.foldl_nil, c1, c2,
      c3, Nat.zero_add]
    rcases vs with _ | ⟨v0, _ | ⟨v1, _ | ⟨v2, _ | ⟨v3, _ | ⟨v4, vs⟩⟩⟩⟩⟩
    all_goals first
      | (exfalso; simp only [List.length_cons, List.length_nil] at hl; omega)
      | simp [getc]
  · have c1 : (col + 1 < width) ↔ (1 < vs.length) := by omega
    have hl : 1 ≤ vs.length ∧ vs.length ≤ 2 := by omega
    clear hvs
    unfold pack_pixels
    simp only [if_true, Nat.reduceEqDiff, if_false, c1, Nat.zero_add]
    rcases vs with _ | ⟨v0, _ | ⟨v1, _ | ⟨v2, vs⟩⟩⟩
    all_goals first
      | (exfalso; simp only [List.length_cons, List.length_nil] at hl; omega)
      | simp [getc]
theorem drop_take_map_range (f : Nat → Nat) (width c m : Nat) (h : c + m ≤ width) :
    ((((List.range width).map f).drop c).take m) = (List.range m).map fun k => f (c + k) := by
  apply List.ext_getElem?
  intro i
  by_cases hi : i < m
  · rw [List.getElem?_take_of_lt hi, List.getElem?_drop, List.getElem?_map, List.getElem?_map,
      List.getElem?_range (by omega), List.getElem?_range hi]
    rfl
  · rw [List.getElem?_eq_none (by simp; omega), List.getElem?_eq_none (by simp; omega)]

/-- The column loop of `write_strips` on the scaled samples of the packed row `R`, from
the group of samples `q` on: each further byte is the byte of `R` with the bits past the
last column cleared, and the samples are used up. -/
theorem pack_row_scaled (le : Bool) (d g : Nat)
    (hdg : (d = 1 ∧ g = 8) ∨ (d = 2 ∧ g = 4) ∨ (d = 4 ∧ g = 2)) (spp width : Nat)
    (R : List Nat) (hR : ∀ x ∈ R, x < 256) :
    ∀ (fuel q : Nat) (line : List Nat), (width + g - 1) / g - q ≤ fuel →
      pack_row le d spp width g fuel (q * g) ((scaled_samples d width R).drop (q * g)) line
        = (line ++ (List.range' q ((width + g - 1) / g - q)).map (fun q =>
            R.getD q 0 / 2 ^ (8 - min g (width - q * g) * d)
              * 2 ^ (8 - min g (width - q * g) * d)), []) := by
  have hUlen : (scaled_samples d width R).length = width := by
    simp [scaled_samples]
  intro fuel
  induction fuel with
  | zero =>
    intro q line hf
    have hq : width ≤ q * g := by
      rcases hdg with ⟨rfl, rfl⟩ | ⟨rfl, rfl⟩ | ⟨rfl, rfl⟩ <;> omega
    have h0 : (width + g - 1) / g - q = 0 := by omega
    rw [h0]
    unfold pack_row
    rw [List.drop_eq_nil_of_le (by rw [hUlen]; exact hq)]
    simp
  | succ fuel ih =>
    intro q line hf
    unfold pack_row
    by_cases hcol : q * g < width
    · rw [if_pos hcol]
      simp only []
      have hn : (width + g - 1) / g - q = ((width + g - 1) / g - (q + 1)) + 1 := by
        rcases hdg with ⟨rfl, rfl⟩ | ⟨rfl, rfl⟩ | ⟨rfl, rfl⟩ <;> omega
      have hg8 : g = 8 / d := by
        rcases hdg with ⟨rfl, rfl⟩ | ⟨rfl, rfl⟩ | ⟨rfl, rfl⟩ <;> rfl
      have hd : d = 1 ∨ d = 2 ∨ d = 4 := by
        rcases hdg with ⟨rfl, rfl⟩ | ⟨rfl, rfl⟩ | ⟨rfl, rfl⟩ <;> simp
      have hm1 : 1 ≤ min g (width - q * g) ∧ min g (width - q * g) ≤ g ∧ g ≤ 8 := by
        rcases hdg with ⟨rfl, rfl⟩ | ⟨rfl, rfl⟩ | ⟨rfl, rfl⟩ <;> omega
      have hsplit : (scaled_samples d width R).drop (q * g)
          = ((scaled_samples d width R).drop (q * g)).take (min g (width - q * g))
            ++ (scaled_samples d width R).drop (q * g + g) := by
        have h1 := (List.take_append_drop (min g (width - q * g))
          ((scaled_samples d width R).drop (q * g))).symm
        rw [List.drop_drop] at h1
        have h2 : (scaled_samples d width R).drop (q * g + min g (width - q * g))
            = (scaled_samples d width R).drop (q * g + g) := by
          by_cases hfull : g ≤ width - q * g
          · rw [Nat.min_eq_left hfull]
          · rw [List.drop_eq_nil_of_le (by rw [hUlen]; omega),
              List.drop_eq_nil_of_le (by rw [hUlen]; omega)]
        rw [h2] at h1
        exact h1
      have hvlen : (((scaled_samples d width R).drop (q * g)).take
          (min g (width - q * g))).length = min g (width - q * g) := by
        rw [List.length_take, List.length_drop, hUlen]
        omega
      have hvs : ((scaled_samples d width R).drop (q * g)).take (min g (width - q * g))
          = (List.range (min g (width - q * g))).map fun k =>
              (R.getD q 0 >>> (8 - d - k * d)) % 2 ^ d * 255 / (2 ^ d - 1) := by
        unfold scaled_samples
        rw [drop_take_map_range _ _ _ _ (by omega)]
        apply List.map_congr_left
        intro k hk
        rw [List.mem_range] at hk
        unfold row_sample
        have e1 : (q * g + k) * d / 8 = q := by
          rcases hdg with ⟨rfl, rfl⟩ | ⟨rfl, rfl⟩ | ⟨rfl, rfl⟩ <;> omega
        have e2 : (q * g + k) * d % 8 = k * d := by
          rcases hdg with ⟨rfl, rfl⟩ | ⟨rfl, rfl⟩ | ⟨rfl, rfl⟩ <;> omega
        rw [e1, e2]
      have hloc := pack_pixels_local le d hd spp width (q * g) hcol
        (((scaled_samples d width R).drop (q * g)).take (min g (width - q * g)))
        ((scaled_samples d width R).drop (q * g + g)) (by rw [hvlen, hg8])
      rw [← hsplit, hvlen, hvs] at hloc
      have hB := getD_lt_of_all_lt R hR q
      have hpk := pack_scaled_arith d (by rcases hd with h | h | h <;> simp [h])
        (min g (width - q * g)) (by simp only [List.mem_cons, List.mem_singleton]; omega)
        (by rw [← hg8]; exact hm1.2.1) _ hB
      rw [hpk] at hloc
      rw [hloc]
      simp only []
      have hstep : q * g + g = (q + 1) * g := by ring
      rw [hstep, ih (q + 1) _ (by omega), hn, List.range'_succ, List.map_cons,
        List.append_assoc]
      rfl
    · rw [if_neg hcol]
      have h0 : (width + g - 1) / g - q = 0 := by
        rcases hdg with ⟨rfl, rfl⟩ | ⟨rfl, rfl⟩ | ⟨rfl, rfl⟩ <;> omega
      rw [h0, List.drop_eq_nil_of_le (by rw [hUlen]; omega)]
      simp

theorem unpack_row_scaled (d : Nat) (hd : d = 1 ∨ d = 2 ∨ d = 4) (width : Nat)
    (R : List Nat) (hR : ∀ x ∈ R, x < 256) :
    (unpack_row d width 1 width 0 R 0 0 []).1 = scaled_samples d width R := by
  have hm : (if width ≤ 0 then 0 else (width - 0 - 1) / 1 + 1) = width := by
    split_ifs <;> omega
  rw [unpack_row_spec d hd R hR width 1 (Nat.le_refl 1) width 0 0 R 0 0 []
    (by simp [UnpackInv]) (by rw [hm]), hm]
  unfold scaled_samples
  simp only [List.nil_append, Nat.zero_add]

/-- C34: for the bit depths 1, 2 and 4, every width and every packed row `R` of
`ceil(width * d / 8)` bytes: the unpacking loop of `write_byte` turns `R` into the
`width` scaled samples of `R`, one byte per pixel; the column loop of `write_strips`, run
on these bytes, uses all of them and stores a row of the length of `R` in which sample
`j` is sample `j` of `R` for every column `j < width` and 0 for the positions past the
last column; every byte but the last is the byte of `R`. -/
theorem unpack_then_pack_row (d : Nat) (hd : d = 1 ∨ d = 2 ∨ d = 4) (width : Nat)
    (R : List Nat) (hR : ∀ x ∈ R, x < 256)
    (hlen : R.length = (width * d + 7) / 8) (le : Bool) (spp : Nat) :
    (unpack_row d width 1 width 0 R 0 0 []).1 = scaled_samples d width R ∧
    (unpack_row d width 1 width 0 R 0 0 []).1.length = width ∧
    (pack_row le d spp width (8 / d) width 0
      (unpack_row d width 1 width 0 R 0 0 []).1 []).2 = [] ∧
    (pack_row le d spp width (8 / d) width 0
      (unpack_row d width 1 width 0 R 0 0 []).1 []).1.length = R.length ∧
    (∀ j, row_sample d (pack_row le d spp width (8 / d) width 0
        (unpack_row d width 1 width 0 R 0 0 []).1 []).1 j
      = if j < width then row_sample d R j else 0) ∧
    ∀ i, i + 1 < R.length →
      (pack_row le d spp width (8 / d) width 0
        (unpack_row d width 1 width 0 R 0 0 []).1 []).1.getD i 0 = R.getD i 0 := by
  obtain ⟨g, hdg⟩ : ∃ g, (d = 1 ∧ g = 8) ∨ (d = 2 ∧ g = 4) ∨ (d = 4 ∧ g = 2) := by
    rcases hd with h | h | h
    · exact ⟨8, Or.inl ⟨h, rfl⟩⟩
    · exact ⟨4, Or.inr (Or.inl ⟨h, rfl⟩)⟩
    · exact ⟨2, Or.inr (Or.inr ⟨h, rfl⟩)⟩
  have hg8 : 8 / d = g := by
    rcases hdg with ⟨rfl, rfl⟩ | ⟨rfl, rfl⟩ | ⟨rfl, rfl⟩ <;> rfl
  have hn : (width + g - 1) / g = R.length := by
    rw [hlen]
    rcases hdg with ⟨rfl, rfl⟩ | ⟨rfl, rfl⟩ | ⟨rfl, rfl⟩ <;> omega
  have hfuel : (width + g - 1) / g - 0 ≤ width := by
    rcases hdg with ⟨rfl, rfl⟩ | ⟨rfl, rfl⟩ | ⟨rfl, rfl⟩ <;> omega
  have hU := unpack_row_scaled d hd width R hR
  have hP := pack_row_scaled le d g hdg spp width R hR width 0 [] hfuel
  rw [Nat.zero_mul, List.drop_zero, List.nil_append, Nat.sub_zero, hn,
    ← List.range_eq_range'] at hP
  rw [hU, hg8, hP]
  have hget : ∀ q, ((List.range R.length).map (fun q =>
      R.getD q 0 / 2 ^ (8 - min g (width - q * g) * d)
        * 2 ^ (8 - min g (width - q * g) * d))).getD q 0
      = if q < R.length then R.getD q 0 / 2 ^ (8 - min g (width - q * g) * d)
        * 2 ^ (8 - min g (width - q * g) * d) else 0 := by
    intro q
    rw [List.getD_eq_getElem?_getD, List.getElem?_map]
    by_cases hq : q < R.length
    · rw [List.getElem?_range hq, if_pos hq]
      rfl
    · rw [List.getElem?_eq_none (by simp; omega), if_neg hq]
      rfl
  refine ⟨rfl, by simp [scaled_samples], rfl, by simp, ?_, ?_⟩
  · intro j
    show row_sample d _ j = _
    unfold row_sample
    rw [hget]
    have e1 : j * d / 8 = j / g := by
      rcases hdg with ⟨rfl, rfl⟩ | ⟨rfl, rfl⟩ | ⟨rfl, rfl⟩ <;> omega
    have e2 : j * d % 8 = j % g * d := by
      rcases hdg with ⟨rfl, rfl⟩ | ⟨rfl, rfl⟩ | ⟨rfl, rfl⟩ <;> omega
    have hk : j % g < 8 ∧ j % g < 8 / d := by
      rcases hdg with ⟨rfl, rfl⟩ | ⟨rfl, rfl⟩ | ⟨rfl, rfl⟩ <;> omega
    rw [e1, e2]
    by_cases hq : j / g < R.length
    · rw [if_pos hq]
      have hqw : j / g * g < width := by
        rcases hdg with ⟨rfl, rfl⟩ | ⟨rfl, rfl⟩ | ⟨rfl, rfl⟩ <;> omega
      have hm1 : 1 ≤ min g (width - j / g * g) ∧ min g (width - j / g * g) ≤ 8 / d := by
        rcases hdg with ⟨rfl, rfl⟩ | ⟨rfl, rfl⟩ | ⟨rfl, rfl⟩ <;> omega
      have hm8 : min g (width - j / g * g) ≤ 8 := by
        rcases hdg with ⟨rfl, rfl⟩ | ⟨rfl, rfl⟩ | ⟨rfl, rfl⟩ <;> omega
      rw [masked_sample_arith d (by rcases hd with h | h | h <;> simp [h])
        (min g (width - j / g * g)) (by simp only [List.mem_cons, List.mem_singleton]; omega)
        hm1.2 (j % g) hk.1 hk.2 _ (getD_lt_of_all_lt R hR _)]
      have hiff : j % g < min g (width - j / g * g) ↔ j < width := by
        rcases hdg with ⟨rfl, rfl⟩ | ⟨rfl, rfl⟩ | ⟨rfl, rfl⟩ <;> omega
      simp only [hiff]
    · rw [if_neg hq]
      have hjw : ¬ j < width := by
        rcases hdg with ⟨rfl, rfl⟩ | ⟨rfl, rfl⟩ | ⟨rfl, rfl⟩ <;> omega
      rw [if_neg hjw, Nat.zero_shiftRight, Nat.zero_mod]
  · intro i hi
    show List.getD _ i 0 = _
    rw [hget, if_pos (by omega)]
    have hfull : min g (width - i * g) * d = 8 := by
      rcases hdg with ⟨rfl, rfl⟩ | ⟨rfl, rfl⟩ | ⟨rfl, rfl⟩ <;> omega
    rw [hfull]
    simp

theorem unpack_then_pack_row_witness :
    (∀ x ∈ [27, 255], x < 256) ∧ [27, 255].length = (5 * 2 + 7) / 8 ∧
    (unpack_row 2 5 1 5 0 [27, 255] 0 0 []).1 = [0, 85, 170, 255, 255] ∧
    pack_row true 2 1 5 (8 / 2) 5 0 (unpack_row 2 5 1 5 0 [27, 255] 0 0 []).1 []
      = ([27, 192], []) ∧
    (pack_row true 2 1 5 (8 / 2) 5 0
      (unpack_row 2 5 1 5 0 [27, 255] 0 0 []).1 []).1.length = [27, 255].length ∧
    ∀ j, row_sample 2 (pack_row true 2 1 5 (8 / 2) 5 0
        (unpack_row 2 5 1 5 0 [27, 255] 0 0 []).1 []).1 j
      = if j < 5 then row_sample 2 [27, 255] j else 0 :=
  have h := unpack_then_pack_row 2 (by decide) 5 [27, 255] (by decide) (by decide) true 1
  ⟨by decide, by decide, by decide, by decide, h.2.2.2.1, h.2.2.2.2.1⟩

/-! ## Theorems: insertions by `write_tag` and `write_png_data` -/

theorem directory_write_png_entry (T : Nat) (s : TiffState) (h : s.tag_count < s.ifd.length) :
    (∃ v, directory (write_png_entry T s) =
      dir_insert { tag := T, dtype := TIFF_DT_UNDEFINED, count := s.image.png_data_size,
                   value := v } (directory s)) ∧
    (write_png_entry T s).tag_count = s.tag_count + 1 ∧
    (write_png_entry T s).ifd.length = s.ifd.length := by
  obtain ⟨f1, f2, f3, f4, f5, f6, f7⟩ := get_tag_pos_fields T s
  have hdir := directory_get_tag_pos T s h
  have hfst := get_tag_pos_fst T s (by omega)
  have htag := get_tag_pos_tag T s h
  have hpos : (get_tag_pos T s).1 < (get_tag_pos T s).2.ifd.length := by
    rw [f2, hfst]
    have : ((directory s).takeWhile (fun x => decide (x.tag ≤ T))).length
        ≤ (directory s).length := ( List.takeWhile_prefix _).length_le
    have hd : (directory s).length ≤ s.tag_count := by
      simp only [directory, List.length_take]; omega
    omega
  have hget : ∀ (l : List TiffEntry) (p : Nat) (e : TiffEntry), p < l.length →
      (l.set p e).getD p zero_entry = e := by
    intro l p e hp
    rw [List.getD_eq_getElem _ _ (by simpa using hp)]
    simp
  unfold write_png_entry
  simp only [align_file_offset]
  generalize hX : align_file_offset_loop 2 2 _ = X
  obtain ⟨a1, a2, a3, a4, a5, _⟩ := align_file_offset_loop_fields 2 2
    { (get_tag_pos T s).2 with
      ifd := (get_tag_pos T s).2.ifd.set (get_tag_pos T s).1
        { ((get_tag_pos T s).2.ifd.getD (get_tag_pos T s).1 zero_entry) with
          dtype := TIFF_DT_UNDEFINED, count := (get_tag_pos T s).2.image.png_data_size } }
  rw [hX] at a1 a2
  simp only [] at a1 a2
  refine ⟨⟨bytes32 X.little_endian X.file_offset, ?_⟩, ?_, ?_⟩
  · simp only [directory, a1, a2, List.length_set, f1, hget _ _ _ hpos, List.set_set]
    rw [List.set_take, htag, f6]
    have : List.take (s.tag_count + 1) (get_tag_pos T s).2.ifd
        = directory (get_tag_pos T s).2 := by
      simp [directory, f1]
    rw [this, hdir, hfst]
    exact dir_insert_set _ _ _ rfl
  · simp only [a2, f1]
  · simp [a1, f2]

theorem write_png_loop_directory (IOBUF_SIZE : Nat) :
    ∀ (fuel : Nat) (inf : List Nat) (s s1 : TiffState),
      write_png_loop IOBUF_SIZE fuel inf s = some s1 →
      s1.ifd = s.ifd ∧ s1.tag_count = s.tag_count := by
  intro fuel
  induction fuel with
  | zero =>
    intro inf s s1 h
    unfold write_png_loop at h
    split_ifs at h
    rw [Option.some.injEq] at h
    rw [← h]
    exact ⟨rfl, rfl⟩
  | succ fuel ih =>
    intro inf s s1 h
    unfold write_png_loop at h
    split_ifs at h
    · obtain ⟨j1, j2⟩ := ih _ _ _ h
      exact ⟨j1, j2⟩
    · rw [Option.some.injEq] at h
      rw [← h]
      exact ⟨rfl, rfl⟩

/-- The insertion by `write_png_data` into a directory with room for it: the directory
afterwards is the ordered insertion of an entry with the tag id of the passed-on
chunks. -/
theorem directory_write_png_data (IOBUF_SIZE T : Nat) (s s1 : TiffState)
    (h : s.tag_count < s.ifd.length) (hrun : write_png_data IOBUF_SIZE T s = some s1) :
    (∃ e : TiffEntry, e.tag = T ∧ directory s1 = dir_insert e (directory s)) ∧
    s1.tag_count = s.tag_count + 1 ∧ s1.ifd.length = s.ifd.length := by
  obtain ⟨⟨v, hv⟩, h2, h3⟩ := directory_write_png_entry T s h
  unfold write_png_data at hrun
  obtain ⟨l1, l2⟩ := write_png_loop_directory IOBUF_SIZE _ _ _ _ hrun
  have htag : ∀ e : TiffEntry, e.tag = T → directory (write_png_entry T s)
      = dir_insert e (directory s) → ∃ e : TiffEntry, e.tag = T ∧
        directory s1 = dir_insert e (directory s) := by
    intro e he hd
    refine ⟨e, he, ?_⟩
    rw [← hd]
    unfold directory
    rw [l1, l2]
  exact ⟨htag _ rfl hv, by rw [l2, h2], by rw [l1, h3]⟩

theorem insert_all_sorted (IOBUF_SIZE PNGChunks : Nat) (ins : List Insertion) :
    ∀ s s1 : TiffState, s.tag_count + ins.length ≤ s.ifd.length →
      insert_all IOBUF_SIZE PNGChunks ins s = some s1 →
      s1.tag_count = s.tag_count + ins.length ∧
      s1.ifd.length = s.ifd.length ∧
      (directory_tags s1).Perm (ins.map (inserted_tag PNGChunks) ++ directory_tags s) ∧
      ((directory_tags s).Pairwise (· ≤ ·) → (directory_tags s1).Pairwise (· ≤ ·)) ∧
      ((directory_tags s).Pairwise (· < ·) →
        (ins.map (inserted_tag PNGChunks) ++ directory_tags s).Nodup →
        (directory_tags s1).Pairwise (· < ·)) := by
  induction ins with
  | nil =>
    intro s s1 _ h
    rw [insert_all, Option.some.injEq] at h
    subst h
    exact ⟨rfl, rfl, List.Perm.refl _, fun h => h, fun h _ => h⟩
  | cons i ins ih =>
    intro s s1 hs hrun
    simp only [List.length_cons] at hs
    have hstep : ∃ s2 : TiffState, insert_all IOBUF_SIZE PNGChunks ins s2 = some s1 ∧
        (∃ e : TiffEntry, e.tag = inserted_tag PNGChunks i ∧
          directory s2 = dir_insert e (directory s)) ∧
        s2.tag_count = s.tag_count + 1 ∧ s2.ifd.length = s.ifd.length := by
      cases i with
      | tag t ty c b =>
        obtain ⟨⟨v, hv⟩, hcnt, hlen⟩ := write_tag_directory t ty c b s (by omega)
        exact ⟨write_tag t ty c b s, hrun, ⟨_, rfl, hv⟩, hcnt, hlen⟩
      | png_data =>
        rw [insert_all] at hrun
        cases hw : write_png_data IOBUF_SIZE PNGChunks s with
        | none => rw [hw] at hrun; exact absurd hrun (by simp)
        | some s2 =>
          rw [hw, Option.some_bind] at hrun
          exact ⟨s2, hrun, directory_write_png_data IOBUF_SIZE PNGChunks s s2 (by omega) hw⟩
    obtain ⟨s2, hrun2, ⟨e, he, hdir⟩, hcnt, hlen⟩ := hstep
    obtain ⟨i1, i2, i3, i4, i5⟩ := ih s2 s1 (by rw [hcnt, hlen]; omega) hrun2
    have hdt : directory_tags s2 = (dir_insert e (directory s)).map fun e => e.tag := by
      simp only [directory_tags, hdir]
    have hperm1 : (directory_tags s2).Perm (inserted_tag PNGChunks i :: directory_tags s) := by
      rw [hdt, ← he]
      exact (dir_insert_perm _ _).map _
    refine ⟨by rw [i1, hcnt, List.length_cons]; omega, by rw [i2, hlen], ?_, ?_, ?_⟩
    · refine i3.trans ?_
      simp only [List.map_cons, List.cons_append]
      exact (List.Perm.append_left _ hperm1).trans List.perm_middle
    · intro hsorted
      apply i4
      rw [hdt, List.pairwise_map]
      apply dir_insert_sorted_le
      rw [← List.pairwise_map (f := fun e : TiffEntry => e.tag) (R := (· ≤ ·))]
      exact hsorted
    · intro hsorted hnodup
      apply i5
      · rw [hdt, List.pairwise_map]
        apply dir_insert_sorted_lt
        · rw [← List.pairwise_map (f := fun e : TiffEntry => e.tag) (R := (· < ·))]
          exact hsorted
        · intro x hx heq
          simp only [List.map_cons, List.cons_append, List.nodup_cons, List.mem_append] at hnodup
          apply hnodup.1
          right
          have heq1 : x.tag = inserted_tag PNGChunks i := by rw [← he]; exact heq
          rw [← heq1]
          exact List.mem_map_of_mem _ hx
      · have hp : (List.map (inserted_tag PNGChunks) ins ++ directory_tags s2).Perm
            (List.map (inserted_tag PNGChunks) (i :: ins) ++ directory_tags s) := by
          simp only [List.map_cons, List.cons_append]
          exact (List.Perm.append_left _ hperm1).trans List.perm_middle
        exact hp.nodup_iff.mpr hnodup

theorem mem_shift_targets (newpos : Nat) :
    ∀ tagpos i, i ∈ shift_targets newpos tagpos ↔ newpos < i ∧ i ≤ tagpos := by
  intro tagpos
  induction tagpos with
  | zero =>
    intro i
    simp only [shift_targets, List.not_mem_nil, false_iff]
    omega
  | succ n ih =>
    intro i
    unfold shift_targets
    split_ifs with h
    · rw [List.mem_cons, ih]
      omega
    · simp only [List.not_mem_nil, false_iff]
      omega

/-- The copies of the `for` loop of `get_tag_pos` stay inside `ts.ifd` exactly when
`tag_count + 1 < MAX_TAGS` on entry: position `tag_count + 1` is always copied to. -/
theorem get_tag_pos_targets_in_bounds (t : Nat) (s : TiffState)
    (h : s.tag_count ≤ s.ifd.length) :
    s.tag_count + 1 ∈ get_tag_pos_targets t s ∧
    ((∀ i ∈ get_tag_pos_targets t s, i < s.ifd.length) ↔ s.tag_count + 1 < s.ifd.length) := by
  have hfst : get_tag_pos_scan s.ifd s.tag_count t s.tag_count 0 ≤ s.tag_count := by
    have h1 := get_tag_pos_fst t s h
    have h2 : (get_tag_pos t s).1 = get_tag_pos_scan s.ifd s.tag_count t s.tag_count 0 := rfl
    rw [← h2, h1]
    have : ((directory s).takeWhile (fun x => decide (x.tag ≤ t))).length
        ≤ (directory s).length := ( List.takeWhile_prefix _).length_le
    have hd : (directory s).length ≤ s.tag_count := by
      simp only [directory, List.length_take]; omega
    omega
  have hmem : s.tag_count + 1 ∈ get_tag_pos_targets t s := by
    unfold get_tag_pos_targets
    rw [mem_shift_targets]
    omega
  refine ⟨hmem, fun hall => hall _ hmem, fun hlt i hi => ?_⟩
  unfold get_tag_pos_targets at hi
  rw [mem_shift_targets] at hi
  omega

set_option maxRecDepth 100000 in
/-- The 40th insertion: after 39 insertions `write_tag` may be called once more, its
assertion `ts.tag_count < MAX_TAGS` holding, and the copy loop of `get_tag_pos` then
starts at position 40, outside the 40 entries 0..39 of `ts.ifd`. -/
theorem fortieth_insertion_copies_past_ifd :
    thirty_nine_tags.tag_count = 39 ∧ thirty_nine_tags.ifd.length = MAX_TAGS ∧
    thirty_nine_tags.tag_count < MAX_TAGS ∧
    get_tag_pos_targets 400 thirty_nine_tags = [40] ∧
    get_tag_pos_targets 100 thirty_nine_tags = (List.range' 1 40).reverse ∧
    ¬ (40 < thirty_nine_tags.ifd.length) := by
  refine ⟨by decide, by decide, by decide, by decide, by decide, by decide⟩

/-- C4, as amended: after fewer than MAX_TAGS insertions through `write_tag` and
`write_png_data`, in any order, starting from an empty directory, the directory holds
exactly the inserted tag ids, in ascending order whatever the order of the insertions;
the order is strictly ascending when the inserted tag ids are pairwise distinct.  The
final `tag_count`, the highest position that a copy loop of `get_tag_pos` has written, is
inside `ts.ifd`. -/
theorem directory_sorted_after_insertions (IOBUF_SIZE PNGChunks : Nat)
    (ins : List Insertion) (s s1 : TiffState) (hempty : s.tag_count = 0)
    (hifd : s.ifd.length = MAX_TAGS) (hcalls : ins.length < MAX_TAGS)
    (hrun : insert_all IOBUF_SIZE PNGChunks ins s = some s1) :
    s1.tag_count = ins.length ∧ s1.tag_count < s1.ifd.length ∧
    (directory_tags s1).Perm (ins.map (inserted_tag PNGChunks)) ∧
    (directory_tags s1).Pairwise (· ≤ ·) ∧
    ((ins.map (inserted_tag PNGChunks)).Nodup → (directory_tags s1).Pairwise (· < ·)) := by
  have hnil : directory_tags s = [] := by simp [directory_tags, directory, hempty]
  obtain ⟨h1, h2, h3, h4, h5⟩ := insert_all_sorted IOBUF_SIZE PNGChunks ins s s1
    (by rw [hempty, hifd]; omega) hrun
  rw [hnil, List.append_nil] at h3 h5
  rw [hnil] at h4
  exact ⟨by rw [h1, hempty]; omega, by rw [h1, h2, hempty, hifd]; omega, h3,
    h4 List.Pairwise.nil, h5 List.Pairwise.nil⟩

theorem directory_sorted_after_insertions_witness :
    insert_all 16 65000 sample_insertions
        (write_TIFF_start one_pixel_with_chunks true (List.replicate 16 0))
      = some sample_insertions_state ∧
    sample_insertions_state.tag_count = 3 ∧
    directory_tags sample_insertions_state = [256, 277, 65000] ∧
    (directory_tags sample_insertions_state).Pairwise (· < ·) :=
  have h := directory_sorted_after_insertions 16 65000 sample_insertions
    (write_TIFF_start one_pixel_with_chunks true (List.replicate 16 0))
    sample_insertions_state rfl (by decide) (by decide) rfl
  ⟨rfl, h.1, by decide, h.2.2.2.2 (by decide)⟩

/-! ## Theorems: the previous-row buffer in an interlaced image of four rows -/

set_option maxRecDepth 100000 in
/-- C33 (the code departs from it): the 1 x 4 raster of one-byte pixels 10, 20, 30, 65.
Its Adam7 passes are pass 0 (row 0), pass 4 (row 2) and pass 6 (rows 1 and 3), the others
being empty, so the stream holds the rows 10, 30, 20 with the filter None and then row 3
with the filter Up against row 1, the row before it in pass 6: the byte 45.  `write_byte`
skips a pass only when its row width is 0, so the decoder counts the three rows as rows
of its passes 0, 2 and 4 and stands before the fourth row at the start of its pass 6,
with the first `line_size` bytes of `last_line` cleared: the previous-row buffer is 0,
not the row 20 completed immediately before in the same pass, and the fourth row is
decoded as 45, not 65.  The same raster fed non-interlaced, row 3 filtered Up against
row 2, is decoded correctly. -/
theorem previous_row_lost_in_short_interlaced_image :
    (List.range 7).map (adam7_pass raster_1x4) = [[[10]], [], [], [], [[30]], [], [[20], [65]]] ∧
    forward_filter 0 1 [10] [0] = [10] ∧ forward_filter 0 1 [30] [0] = [30] ∧
    forward_filter 0 1 [20] [0] = [20] ∧ forward_filter 2 1 [65] [20] = [45] ∧
    decoder_position image_1x4_interlaced [0, 10, 0, 30, 0, 20] = some (6, 1, 0, 255, 1, [0]) ∧
    decoded_pixels image_1x4_interlaced [0, 10, 0, 30, 0, 20, 2, 45] = some [10, 45, 20, 255] ∧
    forward_filter 2 1 [65] [30] = [35] ∧
    decoded_pixels image_1x4_plain [0, 10, 0, 20, 0, 30, 2, 35] = some [10, 20, 30, 65] := by
  refine ⟨by decide, by decide, by decide, by decide, by decide, by decide, by decide,
    by decide, by decide⟩

end Ptot
